import Mathlib

/-! CHERI stack-allocation bounding pass (`CheriBoundAllocas.cpp`).

A shallow embedding of `CheriBoundAllocas::runOnModule` / `runOnFunction`
(llvm/lib/CodeGen/CheriBoundAllocas.cpp) over a small model of the LLVM IR:
functions are lists of basic blocks, blocks are lists of instructions,
instructions are identified by a numeric id (the C++ object identity) and a
`Use` is an operand slot `(user, operand number)`.

The parts of LLVM that the pass only calls (the need-bounds analyser
`CheriNeedBoundsChecker`, the target hooks of `TargetLowering`, the
`DataLayout`) are parameters of the embedding.

The entry and exit instrumentation of `EntryExitInstrumenter.cpp` has a small
embedding of its own, in the namespace `EntryExitInstrumenter`.
-/

set_option autoImplicit false

namespace CheriBoundAllocas

/-! ## IR data model -/

/-- IR types, as far as the pass inspects or builds them.  `ptr` is a typed
pointer, `opaquePtr` an opaque one; `struct2` is the two-field literal struct
built by `StructType::get(AllocatedType, PaddingType)`. -/
inductive Ty where
  | int (bits : Nat)
  | ptr (pointee : Ty) (addrSpace : Nat)
  | opaquePtr (addrSpace : Nat)
  | array (elem : Ty) (n : Nat)
  | struct2 (fst snd : Ty)
  | named (tag : Nat)
  deriving DecidableEq, Repr

/-- The two bounds-setting intrinsics the pass can call. -/
inductive Intrinsic where
  | cheri_bounded_stack_cap
  | cheri_bounded_stack_cap_dynamic
  deriving DecidableEq, Repr

/-- Callee of a call instruction: one of the bounds intrinsics (overloaded on
the size type) or any other function. -/
inductive Callee where
  | intrinsic (i : Intrinsic) (sizeTy : Ty)
  | function (tag : Nat)
  deriving DecidableEq, Repr

/-- SSA values: the result of an instruction, a `ConstantInt`, a
`ConstantPointerNull`, or any other non-instruction, non-constant-int value
(argument, global, ...). -/
inductive Value where
  | inst (id : Nat)
  | constInt (bits : Nat) (val : Nat)
  | nullPtr (ty : Ty)
  | other (tag : Nat) (ty : Ty)
  deriving DecidableEq, Repr

/-- Instruction kinds the pass distinguishes. -/
inductive Opcode where
  | alloca
  | phi
  | bitcast
  | zext
  | trunc
  | mul
  | call (callee : Callee)
  | dbgInfo
  | terminator
  | other (tag : Nat)
  deriving DecidableEq, Repr

/-- An instruction.  `incoming` is the list of incoming blocks of a PHI,
parallel to `operands`.  `allocatedTy`, `align` and `usedWithInAlloca` are
meaningful for allocas only; operand 0 of an alloca is its array size. -/
structure Inst where
  id : Nat
  op : Opcode
  ty : Ty
  operands : List Value
  incoming : List Nat
  debugLoc : Option Nat
  allocatedTy : Ty
  align : Nat
  usedWithInAlloca : Bool
  deriving DecidableEq, Repr

/-- A basic block. -/
structure Block where
  id : Nat
  insts : List Inst
  deriving DecidableEq, Repr

/-- A function body; the first block is the entry block. -/
structure Function where
  optNone : Bool
  blocks : List Block
  deriving DecidableEq, Repr

/-- An operand slot: operand number `opNo` of the instruction `user`. -/
structure Use where
  user : Nat
  opNo : Nat
  deriving DecidableEq, Repr

/-! ## Queries on the IR -/

/-- All instructions of the function, in block order. -/
def Function.insts (f : Function) : List Inst :=
  f.blocks.flatMap (fun b => b.insts)

/-- Ids of all instructions of the function. -/
def Function.ids (f : Function) : List Nat :=
  f.insts.map (fun i => i.id)

/-- The instruction with the given id. -/
def Function.findInst (f : Function) (id : Nat) : Option Inst :=
  f.insts.find? (fun i => i.id == id)

/-- Embeds `Instruction::getParent`. -/
def Function.parentOf (f : Function) (id : Nat) : Option Block :=
  f.blocks.find? (fun b => b.insts.any (fun i => i.id == id))

/-- The instructions that follow `id` in a list. -/
def instsAfter : List Inst → Nat → Option (List Inst)
  | [], _ => none
  | i :: rest, t => if i.id = t then some rest else instsAfter rest t

/-- Embeds `Instruction::getNextNode`: the next instruction of the same block. -/
def Function.getNextNode (f : Function) (id : Nat) : Option Inst :=
  match f.parentOf id with
  | none => none
  | some b =>
    match instsAfter b.insts id with
    | none => none
    | some rest => rest.head?

/-- Embeds `Instruction::getNextNonDebugInstruction`. -/
def Function.getNextNonDebugInstruction (f : Function) (id : Nat) : Option Inst :=
  match f.parentOf id with
  | none => none
  | some b =>
    match instsAfter b.insts id with
    | none => none
    | some rest => rest.find? (fun i => decide (i.op ≠ Opcode.dbgInfo))

/-- Embeds `BasicBlock::getTerminator`: the last instruction if it is a terminator. -/
def Block.getTerminator (b : Block) : Option Inst :=
  match b.insts.getLast? with
  | none => none
  | some i => if i.op = Opcode.terminator then some i else none

/-- The block with the given id. -/
def Function.findBlock (f : Function) (bid : Nat) : Option Block :=
  f.blocks.find? (fun b => b.id == bid)

/-- Embeds `Value::getType`. -/
def Function.valueTy (f : Function) : Value → Ty
  | Value.inst id =>
    match f.findInst id with
    | some i => i.ty
    | none => Ty.named 0
  | Value.constInt bits _ => Ty.int bits
  | Value.nullPtr ty => ty
  | Value.other _ ty => ty

/-- Embeds `Type::getScalarSizeInBits` (0 for non-integer types). -/
def Ty.scalarSizeInBits : Ty → Nat
  | Ty.int bits => bits
  | _ => 0

/-- Embeds `Type::isOpaquePointerTy`. -/
def Ty.isOpaquePointerTy : Ty → Bool
  | Ty.opaquePtr _ => true
  | _ => false

/-- Embeds `PointerType::getAddressSpace` (0 for non-pointers). -/
def Ty.addressSpace : Ty → Nat
  | Ty.ptr _ a => a
  | Ty.opaquePtr a => a
  | _ => 0

/-- The value held by an operand slot (`Use::get`). -/
def Function.getOperand (f : Function) (u : Use) : Option Value :=
  match f.findInst u.user with
  | none => none
  | some i => i.operands[u.opNo]?

/-- Embeds `Value::getNumUses`: number of operand slots holding `v`. -/
def Function.getNumUses (f : Function) (v : Value) : Nat :=
  (f.insts.map (fun i => i.operands.count v)).sum

/-- Embeds `AllocaInst::isArrayAllocation`. -/
def Inst.isArrayAllocation (ai : Inst) : Bool :=
  match ai.operands.head? with
  | some (Value.constInt _ v) => decide (v ≠ 1)
  | _ => true

/-- Embeds `AllocaInst::isStaticAlloca`: constant array size, in the entry block,
and not used with `inalloca`. -/
def Function.isStaticAlloca (f : Function) (ai : Inst) : Bool :=
  match ai.operands.head? with
  | some (Value.constInt _ _) =>
    (match f.blocks.head? with
     | some entry => entry.insts.any (fun i => i.id == ai.id)
     | none => false) && !ai.usedWithInAlloca
  | _ => false

/-! ## Mutations of the IR -/

/-- Apply `g` to every instruction of a block. -/
def Block.mapInsts (b : Block) (g : Inst → Inst) : Block :=
  { b with insts := b.insts.map g }

/-- Apply `g` to every instruction, keeping the block structure. -/
def Function.mapInsts (f : Function) (g : Inst → Inst) : Function :=
  { f with blocks := f.blocks.map (fun b => b.mapInsts g) }

/-- Apply `g` to the instruction with the given id. -/
def Function.modifyInst (f : Function) (id : Nat) (g : Inst → Inst) : Function :=
  f.mapInsts (fun i => if i.id = id then g i else i)

/-- Embeds `Use::set`. -/
def Function.setOperand (f : Function) (u : Use) (v : Value) : Function :=
  f.modifyInst u.user (fun i => { i with operands := i.operands.set u.opNo v })

/-- Embeds `Value::replaceAllUsesWith`. -/
def Function.replaceAllUsesWith (f : Function) (old new : Value) : Function :=
  f.mapInsts (fun i =>
    { i with operands := i.operands.map (fun v => if v = old then new else v) })

/-- Insert `n` immediately before the instruction `t` of a list. -/
def insertBeforeL : List Inst → Nat → Inst → List Inst
  | [], _, _ => []
  | i :: rest, t, n =>
    if i.id = t then n :: i :: rest else i :: insertBeforeL rest t n

/-- Insert `n` immediately before the instruction `t` if it is in the block. -/
def Block.insertBefore (b : Block) (t : Nat) (n : Inst) : Block :=
  { b with insts := insertBeforeL b.insts t n }

/-- Insert `n` immediately before the instruction `t`, in `t`'s block. -/
def Function.insertBefore (f : Function) (t : Nat) (n : Inst) : Function :=
  { f with blocks := f.blocks.map (fun b => b.insertBefore t n) }

/-- An id no instruction of the function has (a newly allocated object). -/
def Function.freshId (f : Function) : Nat :=
  f.ids.foldr max 0 + 1

/-! ## IRBuilder -/

/-- The `IRBuilder<>` state: the instruction before which new instructions are
inserted and the current debug location. -/
structure IRBuilder where
  insertPt : Nat
  debugLoc : Option Nat
  deriving DecidableEq, Repr

/-- A new instruction as produced by the builder. -/
def IRBuilder.mkInst (B : IRBuilder) (id : Nat) (op : Opcode) (ty : Ty)
    (operands : List Value) : Inst :=
  { id := id, op := op, ty := ty, operands := operands, incoming := [],
    debugLoc := B.debugLoc, allocatedTy := Ty.named 0, align := 1,
    usedWithInAlloca := false }

/-- Embeds `IRBuilder::Insert` of a new instruction: returns the function and the
new value. -/
def IRBuilder.insert (B : IRBuilder) (f : Function) (op : Opcode) (ty : Ty)
    (operands : List Value) : Function × Value :=
  let id := f.freshId
  (f.insertBefore B.insertPt (B.mkInst id op ty operands), Value.inst id)

/-- Embeds `IRBuilder::CreateZExtOrTrunc`; casts of a `ConstantInt` are folded. -/
def IRBuilder.CreateZExtOrTrunc (B : IRBuilder) (f : Function) (v : Value)
    (destTy : Ty) : Function × Value :=
  let vBits := (f.valueTy v).scalarSizeInBits
  let dBits := destTy.scalarSizeInBits
  if vBits < dBits then
    match v with
    | Value.constInt _ c => (f, Value.constInt dBits c)
    | _ => B.insert f Opcode.zext destTy [v]
  else if vBits > dBits then
    match v with
    | Value.constInt _ c => (f, Value.constInt dBits (c % 2 ^ dBits))
    | _ => B.insert f Opcode.trunc destTy [v]
  else (f, v)

/-- Embeds `IRBuilder::CreateMul`; a product of two `ConstantInt`s is folded. -/
def IRBuilder.CreateMul (B : IRBuilder) (f : Function) (lhs rhs : Value) :
    Function × Value :=
  match lhs, rhs with
  | Value.constInt bits a, Value.constInt _ b =>
    (f, Value.constInt bits ((a * b) % 2 ^ bits))
  | _, _ => B.insert f Opcode.mul (f.valueTy lhs) [lhs, rhs]

/-- Embeds `IRBuilder::CreateBitCast`: the value itself when it already has the
destination type, else a new bitcast instruction. -/
def IRBuilder.CreateBitCast (B : IRBuilder) (f : Function) (v : Value)
    (destTy : Ty) : Function × Value :=
  if f.valueTy v = destTy then (f, v)
  else B.insert f Opcode.bitcast destTy [v]

/-- Embeds `IRBuilder::CreateCall` of a bounds intrinsic, whose result type is
`retTy`. -/
def IRBuilder.CreateCall (B : IRBuilder) (f : Function) (callee : Callee)
    (retTy : Ty) (args : List Value) : Function × Value :=
  B.insert f (Opcode.call callee) retTy args

/-! ## Options, target hooks and pass state -/

/-- Values of `-cheri-stack-bounds`. -/
inductive StackBoundsMethod where
  | Never
  | ForAllUsesIfOneNeedsBounds
  | IfNeeded
  deriving DecidableEq, Repr

/-- Values of `-cheri-stack-bounds-analysis`. -/
inductive StackBoundsAnalysis where
  | Default
  | None
  | Simple
  | Full
  deriving DecidableEq, Repr

/-- The three command-line options of the pass. -/
structure Options where
  SingleIntrinsicThreshold : Nat
  BoundsSettingMode : StackBoundsMethod
  BoundsSettingAnalysis : StackBoundsAnalysis
  deriving DecidableEq, Repr

/-- The `cl::init` values: threshold 5, `if-needed`, `default`. -/
def Options.default : Options :=
  { SingleIntrinsicThreshold := 5,
    BoundsSettingMode := StackBoundsMethod.IfNeeded,
    BoundsSettingAnalysis := StackBoundsAnalysis.Default }

/-- The `DataLayout` queries the pass makes. -/
structure DataLayout where
  getAllocaAddrSpace : Nat
  isFatPointer : Nat → Bool
  getIndexSizeInBits : Nat → Nat
  getTypeAllocSize : Ty → Nat

/-- The `TargetLowering` hooks the pass calls.  Alignments are byte counts
(`Align()` is 1); a tail padding of 0 is `TailPaddingAmount::None`. -/
structure TargetLowering where
  cheriCapabilityTypeHasPreciseBounds : Bool
  getAlignmentForPreciseBounds : Nat → Nat
  getTailPaddingForPreciseBounds : Nat → Nat

/-- Embeds `CheriNeedBoundsChecker(AI, DL).findUsesThatNeedBounds(&Uses, BoundAllUses,
Simple)`: the analyser, run on the current function for the alloca `ai`. -/
abbrev BoundsChecker := Function → Nat → Bool → Bool → List Use

/-- The `STATISTIC` counters of the pass (64-bit, wrapping). -/
structure Statistics where
  NumProcessed : Nat
  NumDynamicAllocas : Nat
  NumUsesProcessed : Nat
  NumCompletelyUnboundedAllocas : Nat
  NumUsesWithBounds : Nat
  NumUsesWithoutBounds : Nat
  NumSingleIntrin : Nat
  deriving DecidableEq, Repr

/-- Everything the pass reads but does not own: options, data layout, target
lowering of a function, the analyser, and whether the context uses opaque
pointers. -/
structure Env where
  opts : Options
  DL : DataLayout
  TLI : Function → TargetLowering
  findUsesThatNeedBounds : BoundsChecker
  opaquePointers : Bool

/-- The members `I8CapTy` and `SizeTy` of the pass object. -/
structure PassTypes where
  I8CapTy : Ty
  SizeTy : Ty
  deriving DecidableEq, Repr

/-- What the pass mutates while it runs on one function: the function body,
the intrinsic declarations of the module, and the statistics. -/
structure PassState where
  fn : Function
  decls : List Callee
  stats : Statistics
  deriving DecidableEq, Repr

/-- Embeds `Intrinsic::getDeclaration`: get or insert the declaration. -/
def getDeclaration (decls : List Callee) (i : Intrinsic) (ty : Ty) :
    List Callee × Callee :=
  let c := Callee.intrinsic i ty
  (if c ∈ decls then decls else decls ++ [c], c)

/-- Unsigned 64-bit wrap-around. -/
def wrap64 (n : Nat) : Nat := n % 2 ^ 64

/-- Embeds `APInt::getLimitedValue()`. -/
def getLimitedValue (v : Nat) : Nat := min v (2 ^ 64 - 1)

/-! ## The per-alloca body of `runOnFunction` -/

/-- Result of lines 180-207: the function after the array size was
converted and the alignment raised, with the values computed on the way. -/
structure Prologue where
  fn : Function
  AI : Inst
  B : IRBuilder
  TotalUses : Nat
  ArraySize : Value
  ForcedAlignment : Nat
  deriving DecidableEq, Repr

/-- Lines 195-205: the alignment needed for precise bounds, `Align()` (1)
when the target has precise bounds or the array size is not a constant. -/
def forcedAlignment (DL : DataLayout) (TLI : TargetLowering) (AllocationTy : Ty)
    (ArraySize : Value) : Nat :=
  if !TLI.cheriCapabilityTypeHasPreciseBounds then
    match ArraySize with
    | Value.constInt _ v =>
      TLI.getAlignmentForPreciseBounds
        (wrap64 (wrap64 (DL.getTypeAllocSize AllocationTy) * getLimitedValue v))
    | _ => 1
  else 1

/-- Lines 180-207 of `runOnFunction`. -/
def prologue (DL : DataLayout) (TLI : TargetLowering) (T : PassTypes)
    (f : Function) (ai : Nat) : Option Prologue :=
  match f.findInst ai with
  | none => none
  | some AI =>
    let TotalUses := f.getNumUses (Value.inst ai)
    match f.getNextNode ai with
    | none => none
    | some next =>
      let B : IRBuilder := { insertPt := next.id, debugLoc := AI.debugLoc }
      match AI.operands.head? with
      | none => none
      | some arraySizeOp =>
        let r := B.CreateZExtOrTrunc f arraySizeOp T.SizeTy
        let ForcedAlignment := forcedAlignment DL TLI AI.allocatedTy r.2
        let f2 :=
          if ForcedAlignment > AI.align then
            r.1.modifyInst ai (fun i => { i with align := ForcedAlignment })
          else r.1
        some { fn := f2, AI := AI, B := B, TotalUses := TotalUses,
               ArraySize := r.2, ForcedAlignment := ForcedAlignment }

/-- Lines 209-244: `(NeedBounds, UsesThatNeedBounds)`; the second component
also says whether the analyser was consulted. -/
def analyse (opts : Options) (check : BoundsChecker)
    (BoundsAnalysis : StackBoundsAnalysis) (f : Function) (ai : Nat) :
    Bool × List Use :=
  if opts.BoundsSettingMode = StackBoundsMethod.Never then (false, [])
  else
    let BoundAll := decide (BoundsAnalysis = StackBoundsAnalysis.None)
    let Simple := decide (BoundsAnalysis = StackBoundsAnalysis.Simple)
    let uses := check f ai BoundAll Simple
    let NeedBounds := !uses.isEmpty
    if NeedBounds &&
        decide (opts.BoundsSettingMode = StackBoundsMethod.ForAllUsesIfOneNeedsBounds) then
      (NeedBounds, check f ai true Simple)
    else (NeedBounds, uses)

/-- Lines 265-267. -/
def ReuseSingleIntrinsicCall (MustUseSingleIntrinsic IsOptNone : Bool)
    (numUses SingleIntrinsicThreshold : Nat) : Bool :=
  MustUseSingleIntrinsic || IsOptNone || decide (numUses ≥ SingleIntrinsicThreshold)

/-- Lines 271-275: the size operand before padding. -/
def computeSize (DL : DataLayout) (T : PassTypes) (p : Prologue) : Function × Value :=
  let ElementSize := wrap64 (DL.getTypeAllocSize p.AI.allocatedTy) % 2 ^ 32
  let bits := T.SizeTy.scalarSizeInBits
  let Size := Value.constInt bits (ElementSize % 2 ^ bits)
  if p.AI.isArrayAllocation then p.B.CreateMul p.fn Size p.ArraySize
  else (p.fn, Size)

/-- The `without-tail-padding` bitcast of line 303, with its temporary null
source. -/
def withoutTailPadding (id : Nat) (AllocaPtrTy : Ty) : Inst :=
  { id := id, op := Opcode.bitcast, ty := AllocaPtrTy,
    operands := [Value.nullPtr AllocaPtrTy], incoming := [], debugLoc := none,
    allocatedTy := Ty.named 0, align := 1, usedWithInAlloca := false }

/-- Lines 277-315: widen the alloca with tail padding when the target asks
for it; returns the function and the size to bound to. -/
def applyTailPadding (TLI : TargetLowering) (T : PassTypes) (p : Prologue)
    (f : Function) (Size : Value) : Option (Function × Value) :=
  if f.isStaticAlloca p.AI && decide (p.ForcedAlignment ≠ 1) then
    match Size with
    | Value.constInt _ sz =>
      let AllocaSize := getLimitedValue sz
      let TailPadding := TLI.getTailPaddingForPreciseBounds AllocaSize
      if TailPadding ≠ 0 then
        let AllocatedType :=
          if p.AI.isArrayAllocation then
            match p.ArraySize with
            | Value.constInt _ n => Ty.array p.AI.allocatedTy n
            | _ => p.AI.allocatedTy
          else p.AI.allocatedTy
        let PaddingType := Ty.array (Ty.int 8) TailPadding
        let TypeWithPadding := Ty.struct2 AllocatedType PaddingType
        let f1 := f.modifyInst p.AI.id (fun i => { i with allocatedTy := TypeWithPadding })
        let bits := T.SizeTy.scalarSizeInBits
        let Size2 := Value.constInt bits (wrap64 (AllocaSize + TailPadding) % 2 ^ bits)
        if !p.AI.ty.isOpaquePointerTy then
          match f1.getNextNonDebugInstruction p.AI.id with
          | none => none
          | some nnd =>
            let newId := f1.freshId
            let f2 := f1.insertBefore nnd.id (withoutTailPadding newId p.AI.ty)
            let f3 := f2.replaceAllUsesWith (Value.inst p.AI.id) (Value.inst newId)
            let f4 := f3.modifyInst p.AI.id (fun i =>
              { i with ty := Ty.ptr TypeWithPadding p.AI.ty.addressSpace })
            let f5 := f4.setOperand { user := newId, opNo := 0 } (Value.inst p.AI.id)
            some (f5, Size2)
        else some (f1, Size2)
      else some (f, Size)
    | _ => none
  else some (f, Size)

/-- Lines 335-338 and 388-390: cast the alloca to `i8*`, call the intrinsic,
cast the result back.  Returns the function and the bounded value. -/
def createBoundedAlloca (T : PassTypes) (B : IRBuilder) (SetBoundsIntrin : Callee)
    (AllocaPtrTy : Ty) (ai : Nat) (Size : Value) (f : Function) : Function × Value :=
  let c1 := B.CreateBitCast f (Value.inst ai) T.I8CapTy
  let c2 := B.CreateCall c1.1 SetBoundsIntrin T.I8CapTy [c1.2, Size]
  B.CreateBitCast c2.1 c2.2 AllocaPtrTy

/-- Lines 330-341, the single-intrinsic branch. -/
def injectShared (T : PassTypes) (p : Prologue) (SetBoundsIntrin : Callee)
    (Size : Value) (uses : List Use) (f : Function) : Function :=
  let r := createBoundedAlloca T p.B SetBoundsIntrin p.AI.ty p.AI.id Size f
  uses.foldl (fun g U => g.setOperand U r.2) r.1

/-- Key of the `ReplacedUses` map: the user and, for a PHI, the incoming
block of the use (`none` is `nullptr`). -/
abbrev UseKey := Nat × Option Nat

/-- Lines 358-365: the key of a use, `none` when the user does not exist
or a PHI has no incoming block for the operand. -/
def useKey (f : Function) (U : Use) : Option UseKey :=
  match f.findInst U.user with
  | none => none
  | some I =>
    if I.op = Opcode.phi then
      match I.incoming[U.opNo]? with
      | none => none
      | some bb => some (I.id, some bb)
    else some (I.id, none)

/-- Lines 371-380: the insertion point for a key, the terminator of the
incoming block for a PHI use and the user itself otherwise. -/
def perUseInsertPt (f : Function) (k : UseKey) : Option Nat :=
  match k.2 with
  | some bb =>
    match f.findBlock bb with
    | none => none
    | some blk =>
      match blk.getTerminator with
      | none => none
      | some t => some t.id
  | none => some k.1

/-- Lines 357-397, one iteration of the per-use loop. -/
def perUseStep (T : PassTypes) (p : Prologue) (SetBoundsIntrin : Callee)
    (Size : Value) (acc : Function × List (UseKey × Value)) (U : Use) :
    Option (Function × List (UseKey × Value)) :=
  match useKey acc.1 U with
  | none => none
  | some k =>
    match acc.2.lookup k with
    | none =>
      match perUseInsertPt acc.1 k with
      | none => none
      | some pt =>
        let B : IRBuilder := { insertPt := pt, debugLoc := p.AI.debugLoc }
        let r := createBoundedAlloca T B SetBoundsIntrin p.AI.ty p.AI.id Size acc.1
        some (r.1.setOperand U r.2, (k, r.2) :: acc.2)
    | some BoundedAlloca => some (acc.1.setOperand U BoundedAlloca, acc.2)

/-- Lines 356-397, the per-use branch, from a given map state. -/
def perUseLoop (T : PassTypes) (p : Prologue) (SetBoundsIntrin : Callee)
    (Size : Value) : List Use → Function × List (UseKey × Value) →
    Option (Function × List (UseKey × Value))
  | [], acc => some acc
  | U :: rest, acc =>
    match perUseStep T p SetBoundsIntrin Size acc U with
    | none => none
    | some acc2 => perUseLoop T p SetBoundsIntrin Size rest acc2

/-- Lines 356-397, the per-use branch. -/
def injectPerUse (T : PassTypes) (p : Prologue) (SetBoundsIntrin : Callee)
    (Size : Value) (uses : List Use) (f : Function) : Option Function :=
  match perUseLoop T p SetBoundsIntrin Size uses (f, []) with
  | none => none
  | some r => some r.1

/-- The body of the loop `for (AllocaInst *AI : Allocas)` of `runOnFunction`
(lines 180-398) for the alloca `ai`, with `BoundedStackFn` the declaration
obtained at line 174; `none` when the C++ would dereference a
null pointer (an alloca without a next instruction, a use whose user is not
in the function, an incoming block without a terminator). -/
def processAlloca (env : Env) (T : PassTypes) (TLI : TargetLowering)
    (IsOptNone : Bool) (BoundsAnalysis : StackBoundsAnalysis)
    (st : PassState) (ai : Nat) : Option PassState :=
  match prologue env.DL TLI T st.fn ai with
  | none => none
  | some p =>
    let BoundedStackFn := Callee.intrinsic Intrinsic.cheri_bounded_stack_cap T.SizeTy
    let stats1 := { st.stats with NumProcessed := wrap64 (st.stats.NumProcessed + 1) }
    let a := analyse env.opts env.findUsesThatNeedBounds BoundsAnalysis p.fn ai
    let stats2 :=
      if env.opts.BoundsSettingMode = StackBoundsMethod.Never then stats1
      else { stats1 with NumUsesProcessed := wrap64 (stats1.NumUsesProcessed + p.TotalUses) }
    if !a.1 then
      let unbounded := wrap64 (stats2.NumCompletelyUnboundedAllocas + 1)
      some { fn := p.fn, decls := st.decls,
             stats := { stats2 with NumCompletelyUnboundedAllocas := unbounded } }
    else
      let isStatic := p.fn.isStaticAlloca p.AI
      let MustUseSingleIntrinsic := !isStatic
      let d :=
        if isStatic then (st.decls, BoundedStackFn)
        else getDeclaration st.decls Intrinsic.cheri_bounded_stack_cap_dynamic T.SizeTy
      let stats3 :=
        if isStatic then stats2
        else { stats2 with NumDynamicAllocas := wrap64 (stats2.NumDynamicAllocas + 1) }
      let reuse := ReuseSingleIntrinsicCall MustUseSingleIntrinsic IsOptNone
        a.2.length env.opts.SingleIntrinsicThreshold
      let withBounds := wrap64 (stats3.NumUsesWithBounds + a.2.length)
      let withoutBounds := wrap64 (stats3.NumUsesWithoutBounds +
        wrap64 (p.TotalUses + 2 ^ 64 - wrap64 a.2.length))
      let stats4 :=
        { stats3 with NumUsesWithBounds := withBounds, NumUsesWithoutBounds := withoutBounds }
      let s := computeSize env.DL T p
      match applyTailPadding TLI T p s.1 s.2 with
      | none => none
      | some r =>
        if reuse then
          some { fn := injectShared T p d.2 r.2 a.2 r.1, decls := d.1,
                 stats := { stats4 with NumSingleIntrin := wrap64 (stats4.NumSingleIntrin + 1) } }
        else
          match injectPerUse T p d.2 r.2 a.2 r.1 with
          | none => none
          | some g => some { fn := g, decls := d.1, stats := stats4 }

/-- Embeds `InstVisitor::visit(F)` with `visitAllocaInst`: the allocas of the
function, in order. -/
def visit (f : Function) : List Nat :=
  (f.insts.filter (fun i => decide (i.op = Opcode.alloca))).map (fun i => i.id)

/-- The loop over `Allocas`. -/
def processAllocas (env : Env) (T : PassTypes) (TLI : TargetLowering)
    (IsOptNone : Bool) (BoundsAnalysis : StackBoundsAnalysis) :
    List Nat → PassState → Option PassState
  | [], st => some st
  | ai :: rest, st =>
    match processAlloca env T TLI IsOptNone BoundsAnalysis st ai with
    | none => none
    | some st2 => processAllocas env T TLI IsOptNone BoundsAnalysis rest st2

/-- Lines 152-154: `default` is `simple` for optnone functions and `full`
otherwise. -/
def resolveBoundsAnalysis (a : StackBoundsAnalysis) (IsOptNone : Bool) :
    StackBoundsAnalysis :=
  if a = StackBoundsAnalysis.Default then
    (if IsOptNone then StackBoundsAnalysis.Simple else StackBoundsAnalysis.Full)
  else a

/-- Embeds `CheriBoundAllocas::runOnFunction`: the new state and the returned
"modified" flag. -/
def runOnFunction (env : Env) (T : PassTypes) (decls : List Callee)
    (stats : Statistics) (F : Function) : Option (PassState × Bool) :=
  let IsOptNone := F.optNone
  let TLI := env.TLI F
  let Allocas := visit F
  if Allocas.isEmpty then some ({ fn := F, decls := decls, stats := stats }, false)
  else
    let BoundsAnalysis := resolveBoundsAnalysis env.opts.BoundsSettingAnalysis IsOptNone
    let d := getDeclaration decls Intrinsic.cheri_bounded_stack_cap T.SizeTy
    match processAllocas env T TLI IsOptNone BoundsAnalysis Allocas
        { fn := F, decls := d.1, stats := stats } with
    | none => none
    | some st => some (st, true)

/-- A module: its functions and the intrinsic declarations it holds. -/
structure Module where
  functions : List Function
  decls : List Callee
  deriving DecidableEq, Repr

/-- The loop `for (Function &F : Mod) Modified |= runOnFunction(F)`; the
functions already visited are accumulated in reverse. -/
def runOnFunctions (env : Env) (T : PassTypes) :
    List Function → List Function × List Callee × Statistics × Bool →
    Option (List Function × List Callee × Statistics × Bool)
  | [], acc => some acc
  | F :: rest, (done, decls, stats, Modified) =>
    match runOnFunction env T decls stats F with
    | none => none
    | some (st, m) =>
      runOnFunctions env T rest (st.fn :: done, st.decls, st.stats, Modified || m)

/-- Lines 121-123: the types `I8CapTy` and `SizeTy` set up by
`runOnModule`. -/
def passTypes (env : Env) : PassTypes :=
  let AllocaAS := env.DL.getAllocaAddrSpace
  { I8CapTy := if env.opaquePointers then Ty.opaquePtr AllocaAS
               else Ty.ptr (Ty.int 8) AllocaAS,
    SizeTy := Ty.int (env.DL.getIndexSizeInBits AllocaAS) }

/-- Embeds `CheriBoundAllocas::runOnModule`. -/
def runOnModule (env : Env) (M : Module) (stats : Statistics) :
    Option (Module × Statistics × Bool) :=
  if !env.DL.isFatPointer env.DL.getAllocaAddrSpace then some (M, stats, false)
  else
    match runOnFunctions env (passTypes env) M.functions ([], M.decls, stats, false) with
    | none => none
    | some (done, decls, stats2, Modified) =>
      some ({ functions := done.reverse, decls := decls }, stats2, Modified)

/-! ## Names for what `processAlloca` computes for an allocation -/

/-- The `NeedBounds` at line 245, for the function `f` reached at line 207. -/
def needBounds (env : Env) (BA : StackBoundsAnalysis) (f : Function) (ai : Nat) : Bool :=
  (analyse env.opts env.findUsesThatNeedBounds BA f ai).1

/-- The `UsesThatNeedBounds` at line 245: the final need-set. -/
def needSet (env : Env) (BA : StackBoundsAnalysis) (f : Function) (ai : Nat) : List Use :=
  (analyse env.opts env.findUsesThatNeedBounds BA f ai).2

/-- What the analyser returns for the call of line 224. -/
def analysedSet (env : Env) (BA : StackBoundsAnalysis) (f : Function) (ai : Nat) : List Use :=
  env.findUsesThatNeedBounds f ai (decide (BA = StackBoundsAnalysis.None))
    (decide (BA = StackBoundsAnalysis.Simple))

/-- The `SetBoundsIntrin` at line 262: the static intrinsic for a static alloca,
the dynamic one otherwise. -/
def SetBoundsIntrin (T : PassTypes) (isStatic : Bool) : Callee :=
  Callee.intrinsic
    (if isStatic then Intrinsic.cheri_bounded_stack_cap
     else Intrinsic.cheri_bounded_stack_cap_dynamic) T.SizeTy

/-- The function and `Size` at line 316, after the size was computed and the
tail padding applied. -/
def padded (DL : DataLayout) (TLI : TargetLowering) (T : PassTypes) (p : Prologue) :
    Option (Function × Value) :=
  applyTailPadding TLI T p (computeSize DL T p).1 (computeSize DL T p).2

/-- The value of `ReuseSingleIntrinsicCall` for the allocation. -/
def reuseSingle (env : Env) (IsOptNone : Bool) (BA : StackBoundsAnalysis) (p : Prologue)
    (ai : Nat) : Bool :=
  ReuseSingleIntrinsicCall (!p.fn.isStaticAlloca p.AI) IsOptNone
    (needSet env BA p.fn ai).length env.opts.SingleIntrinsicThreshold

/-! ## Predicates used to state the properties of the pass -/

/-- The ids of the instructions of a block, in order. -/
def Block.ids (b : Block) : List Nat :=
  b.insts.map (fun i => i.id)

/-- The instruction is a call of one of the two bounds-setting intrinsics. -/
def Inst.isBoundsCall (i : Inst) : Bool :=
  match i.op with
  | Opcode.call (Callee.intrinsic _ _) => true
  | _ => false

/-- The bounds-intrinsic calls of `g` that are not instructions of `f`: the
calls inserted on the way from `f` to `g`. -/
def insertedBoundsCalls (f g : Function) : List Inst :=
  g.insts.filter (fun i => i.isBoundsCall && !f.ids.contains i.id)

/-- In the block, `x` comes before `y` and exactly the instructions `mid`
stand between them. -/
def SegIn (b : Block) (x y : Nat) (mid : List Nat) : Prop :=
  ∃ pre post, b.ids = pre ++ x :: (mid ++ y :: post)

/-- The value `x` is `v` cast to `ty` as `IRBuilder::CreateBitCast` does it:
`v` itself when it has type `ty`, else the result of a bitcast of `v` to `ty`
that is not one of the instructions `old`. -/
def IsCastOf (f : Function) (old : List Nat) (x v : Value) (ty : Ty) : Prop :=
  (x = v ∧ f.valueTy v = ty) ∨
  ∃ c, x = Value.inst c.id ∧ f.findInst c.id = some c ∧ c.id ∉ old ∧
    c.op = Opcode.bitcast ∧ c.operands = [v] ∧ c.ty = ty

/-- The value `v` is the result, cast to `AllocaPtrTy`, of the call `c` of
the intrinsic `intr`, a call that is not one of the instructions `old`, whose
pointer argument is the alloca `ai` cast to `I8CapTy` and whose size argument
is `Size`. -/
def IsBoundedVia (f : Function) (old : List Nat) (T : PassTypes) (intr : Callee)
    (AllocaPtrTy : Ty) (ai : Nat) (Size : Value) (v : Value) (c : Nat) : Prop :=
  c ∉ old ∧
  ∃ call ptr, f.findInst c = some call ∧ call.op = Opcode.call intr ∧
    call.operands = [ptr, Size] ∧
    IsCastOf f old ptr (Value.inst ai) T.I8CapTy ∧
    IsCastOf f old v (Value.inst c) AllocaPtrTy

/-- The PHIs of an instruction list come first. -/
def phisFirst : List Inst → Bool
  | [] => true
  | i :: rest =>
    if i.op = Opcode.phi then phisFirst rest
    else rest.all (fun j => decide (j.op ≠ Opcode.phi))

/-- Well-formedness of a function body, as far as the pass relies on it:
instructions are distinct objects, every block ends in a terminator, an
alloca has its array-size operand and is not last in its block, and a PHI
has one incoming block per operand, each a block of the function. -/
def Function.wellFormed (f : Function) : Bool :=
  decide f.ids.Nodup &&
  f.blocks.all (fun b => b.getTerminator.isSome) &&
  f.insts.all (fun i =>
    (decide (i.op ≠ Opcode.alloca) || !i.operands.isEmpty) &&
    (decide (i.op ≠ Opcode.phi) ||
      (decide (i.incoming.length = i.operands.length) &&
       i.incoming.all (fun bb => (f.findBlock bb).isSome))))

/-- The data of an instruction that no step of the pass changes: identity,
opcode, incoming blocks and number of operands. -/
def SameStatic (i j : Inst) : Prop :=
  j.id = i.id ∧ j.op = i.op ∧ j.incoming = i.incoming ∧
  j.operands.length = i.operands.length ∧ j.usedWithInAlloca = i.usedWithInAlloca

/-- The block in which the bounded value for a key is created: the incoming
block for a PHI use, the block of the user otherwise. -/
def locate (f : Function) (k : UseKey) : Option Block :=
  match k.2 with
  | some bb => f.findBlock bb
  | none => f.parentOf k.1

/-- Every PHI has one incoming block per operand, and each incoming block is
a block of the function that ends in a terminator. -/
def PhiOK (g : Function) : Prop :=
  ∀ i ∈ g.insts, i.op = Opcode.phi →
    i.incoming.length = i.operands.length ∧
    ∀ bb ∈ i.incoming, ∃ blk t, g.findBlock bb = some blk ∧ blk.getTerminator = some t

/-- In every block the PHIs come first. -/
def PhisFirst (g : Function) : Prop :=
  ∀ blk ∈ g.blocks, phisFirst blk.insts = true

/-- What every step of the pass preserves on the way from `f` to `g`: the
instructions of `f` are still there with the same static data, instructions
stay distinct, and every block keeps its terminator and the relative order
of its instructions, with only instructions that are not in `f` added in
between. -/
def Frame (f g : Function) : Prop :=
  g.ids.Nodup ∧
  (∀ j i, f.findInst j = some i → ∃ i', g.findInst j = some i' ∧ SameStatic i i') ∧
  (∀ k blk, locate f k = some blk → ∃ blk', locate g k = some blk' ∧
    blk'.getTerminator.map (fun i => i.id) = blk.getTerminator.map (fun i => i.id) ∧
    (∀ z ∈ blk.ids, z ∈ blk'.ids) ∧
    ∀ x y mid, SegIn blk x y mid → ∃ mid', SegIn blk' x y mid' ∧
      (∀ z ∈ mid, z ∈ mid') ∧ (∀ z ∈ mid', z ∈ mid ∨ z ∉ f.ids))

/-- The instructions of `f` are in `g` with the same operands and type. -/
def KeepsOps (f g : Function) : Prop :=
  ∀ j i, f.findInst j = some i → ∃ i', g.findInst j = some i' ∧
    i'.operands = i.operands ∧ i'.ty = i.ty

/-- A step from `f` to `g` that inserts before `t` only instructions that are
neither bounds calls nor PHIs, and changes no operand or type. -/
def Ext (t : Nat) (f g : Function) : Prop :=
  Frame f g ∧ KeepsOps f g ∧
  (∀ f0, (insertedBoundsCalls f0 g).length = (insertedBoundsCalls f0 f).length) ∧
  (PhiOK f → PhiOK g) ∧
  ((∀ i, f.findInst t = some i → i.op ≠ Opcode.phi) → PhisFirst f → PhisFirst g)

/-- An entry `(key, value)` of the `ReplacedUses` map is in order in `g`: the
value is an instruction created by the pass, it is the result of one new
call `c` of the intrinsic on the alloca, and the call stands before the
insertion point of the key, in the block of the key, with only new
instructions in between. -/
def EntryOK (T : PassTypes) (intr : Callee) (AllocaPtrTy : Ty) (ai : Nat) (Size : Value)
    (old : List Nat) (g : Function) (e : UseKey × Value) : Prop :=
  ∃ c j, e.2 = Value.inst j ∧ j ∉ old ∧ j ∈ g.ids ∧
    IsBoundedVia g old T intr AllocaPtrTy ai Size e.2 c ∧
    ∃ blk mid pt, locate g e.1 = some blk ∧ SegIn blk c pt mid ∧ (∀ z ∈ mid, z ∉ old) ∧
      perUseInsertPt g e.1 = some pt

/-- Invariant of the per-use loop, started on the function `h0`. -/
def PerUseInv (T : PassTypes) (intr : Callee) (AllocaPtrTy : Ty) (ai : Nat) (Size : Value)
    (h0 : Function) (acc : Function × List (UseKey × Value)) : Prop :=
  Frame h0 acc.1 ∧
  (∀ e ∈ acc.2, EntryOK T intr AllocaPtrTy ai Size h0.ids acc.1 e) ∧
  (acc.2.map Prod.snd).Nodup ∧ (acc.2.map Prod.fst).Nodup ∧
  (∀ f0, (∀ j ∈ f0.ids, j ∈ h0.ids) →
    (insertedBoundsCalls f0 acc.1).length = (insertedBoundsCalls f0 h0).length + acc.2.length) ∧
  PhiOK acc.1 ∧
  acc.1.valueTy (Value.inst ai) = h0.valueTy (Value.inst ai) ∧
  (PhisFirst h0 → PhisFirst acc.1)

/-! ## Example inputs -/

/-- A data layout for the examples: capabilities in address space 200,
64-bit indices, byte sizes of integers and 16-byte pointers. -/
def exAllocSize : Ty → Nat
  | Ty.int bits => (bits + 7) / 8
  | Ty.ptr _ _ => 16
  | Ty.opaquePtr _ => 16
  | Ty.array e n => n * exAllocSize e
  | Ty.struct2 a b => exAllocSize a + exAllocSize b
  | Ty.named _ => 1

/-- Data layout of the examples. -/
def exDL : DataLayout :=
  { getAllocaAddrSpace := 200, isFatPointer := (fun a => a == 200),
    getIndexSizeInBits := (fun _ => 64), getTypeAllocSize := exAllocSize }

/-- A target with precise capability bounds. -/
def exTLI : TargetLowering :=
  { cheriCapabilityTypeHasPreciseBounds := true,
    getAlignmentForPreciseBounds := (fun _ => 1),
    getTailPaddingForPreciseBounds := (fun _ => 0) }

/-- A target with imprecise bounds: 16-byte alignment, sizes padded to a
multiple of 16. -/
def exTLIPad : TargetLowering :=
  { cheriCapabilityTypeHasPreciseBounds := false,
    getAlignmentForPreciseBounds := (fun _ => 16),
    getTailPaddingForPreciseBounds := (fun n => (16 - n % 16) % 16) }

/-- An analyser that answers with a fixed list of uses. -/
def exCheck (uses : List Use) : BoundsChecker := fun _ _ _ _ => uses

/-- Environment of the examples: typed pointers, the given options, target
and analyser answer. -/
def exEnv (opts : Options) (tli : TargetLowering) (uses : List Use) : Env :=
  { opts := opts, DL := exDL, TLI := (fun _ => tli),
    findUsesThatNeedBounds := exCheck uses, opaquePointers := false }

/-- The `I8CapTy` and `SizeTy` of the examples. -/
def exT : PassTypes :=
  { I8CapTy := Ty.ptr (Ty.int 8) 200, SizeTy := Ty.int 64 }

/-- All counters at zero. -/
def exStats : Statistics :=
  { NumProcessed := 0, NumDynamicAllocas := 0, NumUsesProcessed := 0,
    NumCompletelyUnboundedAllocas := 0, NumUsesWithBounds := 0,
    NumUsesWithoutBounds := 0, NumSingleIntrin := 0 }

/-- An instruction of the examples. -/
def exInst (id : Nat) (op : Opcode) (ty : Ty) (operands : List Value) : Inst :=
  { id := id, op := op, ty := ty, operands := operands, incoming := [],
    debugLoc := none, allocatedTy := Ty.named 0, align := 1, usedWithInAlloca := false }

/-- The alloca `%1 = alloca i32, i64 n, align 16, addrspace(200)`. -/
def exAlloca (arraySize : Value) : Inst :=
  { id := 1, op := Opcode.alloca, ty := Ty.ptr (Ty.int 32) 200, operands := [arraySize],
    incoming := [], debugLoc := some 7, allocatedTy := Ty.int 32, align := 16,
    usedWithInAlloca := false }

/-- Example A: an alloca, a store to it, a call taking it as argument, ret. -/
def exFnA : Function :=
  { optNone := false,
    blocks := [{ id := 0, insts :=
      [exAlloca (Value.constInt 64 1),
       exInst 2 (Opcode.other 0) (Ty.named 1) [Value.other 0 (Ty.int 32), Value.inst 1],
       exInst 3 (Opcode.call (Callee.function 9)) (Ty.named 1) [Value.inst 1],
       exInst 4 Opcode.terminator (Ty.named 1) []] }] }

/-- The state at line 207 for the alloca of example A. -/
def exPA (forced : Nat) : Prologue :=
  { fn := exFnA, AI := exAlloca (Value.constInt 64 1),
    B := { insertPt := 2, debugLoc := some 7 }, TotalUses := 2,
    ArraySize := Value.constInt 64 1, ForcedAlignment := forced }

/-- The consuming call of examples A and B: `call @9(%1)`. -/
def exCall : Inst :=
  exInst 3 (Opcode.call (Callee.function 9)) (Ty.named 1) [Value.inst 1]

/-- Example B: an alloca, an instruction that does not touch it, a call
taking the alloca as argument (its only use), ret. -/
def exFnB : Function :=
  { optNone := false,
    blocks := [{ id := 0, insts :=
      [exAlloca (Value.constInt 64 1),
       exInst 2 (Opcode.other 0) (Ty.named 1) [Value.other 0 (Ty.int 32)],
       exCall,
       exInst 4 Opcode.terminator (Ty.named 1) []] }] }

/-- The state at line 207 for the alloca of example B. -/
def exPB : Prologue :=
  { fn := exFnB, AI := exAlloca (Value.constInt 64 1),
    B := { insertPt := 2, debugLoc := some 7 }, TotalUses := 1,
    ArraySize := Value.constInt 64 1, ForcedAlignment := 1 }

/-- The PHI of example E: `%5 = phi [%1, block 1], [%1, block 2]`. -/
def exPhi : Inst :=
  { id := 5, op := Opcode.phi, ty := Ty.ptr (Ty.int 32) 200,
    operands := [Value.inst 1, Value.inst 1], incoming := [1, 2], debugLoc := none,
    allocatedTy := Ty.named 0, align := 1, usedWithInAlloca := false }

/-- Example E: an alloca in the entry block, two predecessors, and a PHI
merging the alloca from both. -/
def exFnE : Function :=
  { optNone := false,
    blocks :=
      [{ id := 0, insts := [exAlloca (Value.constInt 64 1),
                            exInst 2 Opcode.terminator (Ty.named 1) []] },
       { id := 1, insts := [exInst 3 Opcode.terminator (Ty.named 1) []] },
       { id := 2, insts := [exInst 4 Opcode.terminator (Ty.named 1) []] },
       { id := 3, insts := [exPhi, exInst 6 Opcode.terminator (Ty.named 1) []] }] }

/-- The state at line 207 for the alloca of example E. -/
def exPE : Prologue :=
  { fn := exFnE, AI := exAlloca (Value.constInt 64 1),
    B := { insertPt := 2, debugLoc := some 7 }, TotalUses := 2,
    ArraySize := Value.constInt 64 1, ForcedAlignment := 1 }

/-- Example D: a runtime-sized alloca passed to a call. -/
def exFnD : Function :=
  { optNone := false,
    blocks := [{ id := 0, insts :=
      [exAlloca (Value.other 5 (Ty.int 64)),
       exInst 2 (Opcode.call (Callee.function 9)) (Ty.named 1) [Value.inst 1],
       exInst 3 Opcode.terminator (Ty.named 1) []] }] }

/-- The state at line 207 for the alloca of example D. -/
def exPD : Prologue :=
  { fn := exFnD, AI := exAlloca (Value.other 5 (Ty.int 64)),
    B := { insertPt := 2, debugLoc := some 7 }, TotalUses := 1,
    ArraySize := Value.other 5 (Ty.int 64), ForcedAlignment := 1 }

/-- Example S: an alloca passed six times to one call. -/
def exFnS : Function :=
  { optNone := false,
    blocks := [{ id := 0, insts :=
      [exAlloca (Value.constInt 64 1),
       exInst 2 (Opcode.call (Callee.function 9)) (Ty.named 1)
         [Value.inst 1, Value.inst 1, Value.inst 1, Value.inst 1, Value.inst 1, Value.inst 1],
       exInst 3 Opcode.terminator (Ty.named 1) []] }] }

/-- The state at line 207 for the alloca of example S. -/
def exPS : Prologue :=
  { fn := exFnS, AI := exAlloca (Value.constInt 64 1),
    B := { insertPt := 2, debugLoc := some 7 }, TotalUses := 6,
    ArraySize := Value.constInt 64 1, ForcedAlignment := 1 }

/-- The six uses of example S. -/
def exUsesS : List Use :=
  [{ user := 2, opNo := 0 }, { user := 2, opNo := 1 }, { user := 2, opNo := 2 },
   { user := 2, opNo := 3 }, { user := 2, opNo := 4 }, { user := 2, opNo := 5 }]

/-- A pass state of the examples. -/
def exSt (f : Function) : PassState :=
  { fn := f, decls := [Callee.intrinsic Intrinsic.cheri_bounded_stack_cap (Ty.int 64)],
    stats := exStats }

/-- Example A, default options, precise bounds: the call argument needs
bounds. -/
def exEnvA : Env := exEnv Options.default exTLI [{ user := 3, opNo := 0 }]

/-- Example A on the target with imprecise bounds. -/
def exEnvAPad : Env := exEnv Options.default exTLIPad [{ user := 3, opNo := 0 }]

/-- Example A when the analyser finds no use needing bounds. -/
def exEnvNone : Env := exEnv Options.default exTLI []

/-- Example E: both operands of the PHI need bounds. -/
def exEnvE : Env :=
  exEnv Options.default exTLI [{ user := 5, opNo := 0 }, { user := 5, opNo := 1 }]

/-- Example D: the call argument needs bounds. -/
def exEnvD : Env := exEnv Options.default exTLI [{ user := 2, opNo := 0 }]

/-- Example S: all six call arguments need bounds. -/
def exEnvS : Env := exEnv Options.default exTLI exUsesS

/-! ## Further example inputs -/

/-- The alloca `%1 = alloca [4294967296 x i8], i64 1, align 16, addrspace(200)`:
one object of 4 GiB. -/
def exAllocaG : Inst :=
  { id := 1, op := Opcode.alloca, ty := Ty.ptr (Ty.array (Ty.int 8) 4294967296) 200,
    operands := [Value.constInt 64 1], incoming := [], debugLoc := some 7,
    allocatedTy := Ty.array (Ty.int 8) 4294967296, align := 16, usedWithInAlloca := false }

/-- Example G: the 4 GiB alloca passed to a call. -/
def exFnG : Function :=
  { optNone := false,
    blocks := [{ id := 0, insts :=
      [exAllocaG,
       exInst 2 (Opcode.call (Callee.function 9)) (Ty.named 1) [Value.inst 1],
       exInst 3 Opcode.terminator (Ty.named 1) []] }] }

/-- The state at line 207 for the alloca of example G. -/
def exPG : Prologue :=
  { fn := exFnG, AI := exAllocaG, B := { insertPt := 2, debugLoc := some 7 },
    TotalUses := 1, ArraySize := Value.constInt 64 1, ForcedAlignment := 1 }

/-! ## Further names and predicates -/

/-- The `AllocaSize` of line 279: the extent before padding, read off the size
computed at lines 271-275 (0 when that size is not a constant). -/
def allocaSize (DL : DataLayout) (T : PassTypes) (p : Prologue) : Nat :=
  match (computeSize DL T p).2 with
  | Value.constInt _ sz => getLimitedValue sz
  | _ => 0

/-- The `TailPadding` of line 281. -/
def tailPadding (DL : DataLayout) (TLI : TargetLowering) (T : PassTypes) (p : Prologue) : Nat :=
  TLI.getTailPaddingForPreciseBounds (allocaSize DL T p)

/-- The guards of lines 277 and 283 together: lines 284-313 run for the
allocation. -/
def paddingApplied (DL : DataLayout) (TLI : TargetLowering) (T : PassTypes) (p : Prologue) :
    Bool :=
  (computeSize DL T p).1.isStaticAlloca p.AI && decide (p.ForcedAlignment ≠ 1) &&
    decide (tailPadding DL TLI T p ≠ 0)

/-- The `TypeWithPadding` of line 294 for a padding of `TailPadding` bytes. -/
def TypeWithPadding (p : Prologue) (TailPadding : Nat) : Ty :=
  Ty.struct2
    (if p.AI.isArrayAllocation then
      match p.ArraySize with
      | Value.constInt _ n => Ty.array p.AI.allocatedTy n
      | _ => p.AI.allocatedTy
    else p.AI.allocatedTy)
    (Ty.array (Ty.int 8) TailPadding)

/-- The instruction `j` is `i` up to its operands, of which it has as many. -/
def SameAttrs (i j : Inst) : Prop :=
  j.id = i.id ∧ j.op = i.op ∧ j.ty = i.ty ∧ j.incoming = i.incoming ∧
  j.debugLoc = i.debugLoc ∧ j.allocatedTy = i.allocatedTy ∧ j.align = i.align ∧
  j.usedWithInAlloca = i.usedWithInAlloca ∧ j.operands.length = i.operands.length

/-- The instructions of `f` are in `g`, unchanged up to their operands. -/
def KeepsAttrs (f g : Function) : Prop :=
  ∀ j i, f.findInst j = some i → ∃ i', g.findInst j = some i' ∧ SameAttrs i i'

/-- The instructions of `f` are in `g` with the same static data. -/
def KeepsStatic (f g : Function) : Prop :=
  ∀ j i, f.findInst j = some i → ∃ i', g.findInst j = some i' ∧ SameStatic i i'

/-- A step of the pass from `f` to `g`: it keeps a well-formed body
well-formed and keeps the instructions of `f`. -/
def Grows (f g : Function) : Prop :=
  (f.wellFormed = true → g.wellFormed = true) ∧ KeepsStatic f g

/-- Every bounds call of `g` that is not one of the instructions `old` has
`Size` as its size argument. -/
def NewCallsSized (old : List Nat) (Size : Value) (g : Function) : Prop :=
  ∀ i ∈ g.insts, i.isBoundsCall = true → i.id ∉ old → i.operands[1]? = some Size

/-- A step of the injection of bounds (lines 330-397) from `f` to `g`: it
keeps well-formedness and all of every instruction but its operands, and
gives every bounds call it adds the size argument `Size`. -/
def Injects (old : List Nat) (Size : Value) (f g : Function) : Prop :=
  Grows f g ∧ KeepsAttrs f g ∧ (NewCallsSized old Size f → NewCallsSized old Size g)

/-- The instructions of `f` are in `g`, unchanged up to their alignment. -/
def KeepsButAlign (f g : Function) : Prop :=
  ∀ j i, f.findInst j = some i → ∃ i', g.findInst j = some i' ∧ i' = { i with align := i'.align }

/-- The analyser answers with operand slots of the function it is given. -/
def Env.analyserValid (env : Env) : Prop :=
  ∀ f ai b s, ∀ u ∈ env.findUsesThatNeedBounds f ai b s, (f.getOperand u).isSome = true

/-- The calls of `findUsesThatNeedBounds` made for one allocation at lines
217-243, in order, each as the pair `(BoundAllUses, Simple)` of the flags it
is given. -/
def analyserCalls (opts : Options) (check : BoundsChecker)
    (BoundsAnalysis : StackBoundsAnalysis) (f : Function) (ai : Nat) : List (Bool × Bool) :=
  if opts.BoundsSettingMode = StackBoundsMethod.Never then []
  else
    let BoundAll := decide (BoundsAnalysis = StackBoundsAnalysis.None)
    let Simple := decide (BoundsAnalysis = StackBoundsAnalysis.Simple)
    let uses := check f ai BoundAll Simple
    let NeedBounds := !uses.isEmpty
    if NeedBounds &&
        decide (opts.BoundsSettingMode = StackBoundsMethod.ForAllUsesIfOneNeedsBounds) then
      [(BoundAll, Simple), (true, Simple)]
    else [(BoundAll, Simple)]

/-- The environment with another analyser. -/
def Env.withAnalyser (env : Env) (check : BoundsChecker) : Env :=
  { env with findUsesThatNeedBounds := check }

/-- The options with the strategy `never`. -/
def exNever : Options :=
  { SingleIntrinsicThreshold := 5, BoundsSettingMode := StackBoundsMethod.Never,
    BoundsSettingAnalysis := StackBoundsAnalysis.Default }

/-- Example A with the strategy `never`; the analyser would flag the call
argument. -/
def exEnvNever : Env := exEnv exNever exTLI [{ user := 3, opNo := 0 }]

/-- The operand slots of `f` that hold the value `v`, in instruction order:
the use list of `v`. -/
def Function.usesOf (f : Function) (v : Value) : List Use :=
  f.insts.flatMap (fun i =>
    ((List.range i.operands.length).map (fun k => ({ user := i.id, opNo := k } : Use))).filter
      (fun u => decide (f.getOperand u = some v)))

/-- The user of the slot is a call instruction. -/
def Function.usedByCall (f : Function) (u : Use) : Bool :=
  match f.findInst u.user with
  | some i =>
    (match i.op with
     | Opcode.call _ => true
     | _ => false)
  | none => false

/-- An analyser for the examples: with `BoundAllUses` every use of the alloca
needs bounds, otherwise the uses by call instructions do. -/
def exEscapeCheck : BoundsChecker := fun f ai BoundAll _ =>
  if BoundAll then f.usesOf (Value.inst ai)
  else (f.usesOf (Value.inst ai)).filter (fun u => f.usedByCall u)

/-- The options with the given strategy and analysis, threshold 5. -/
def exOpts (m : StackBoundsMethod) (a : StackBoundsAnalysis) : Options :=
  { SingleIntrinsicThreshold := 5, BoundsSettingMode := m, BoundsSettingAnalysis := a }

/-- The environment of the examples with the analyser `exEscapeCheck`. -/
def exEnvEscape (opts : Options) : Env :=
  { opts := opts, DL := exDL, TLI := (fun _ => exTLI),
    findUsesThatNeedBounds := exEscapeCheck, opaquePointers := false }

/-- The strategy `all-or-none` with the analysis `full`. -/
def exEnvAllOrNone : Env :=
  exEnvEscape (exOpts StackBoundsMethod.ForAllUsesIfOneNeedsBounds StackBoundsAnalysis.Full)

/-- The environment with another strategy and analysis option. -/
def Env.withStrategy (env : Env) (m : StackBoundsMethod) (a : StackBoundsAnalysis) : Env :=
  { env with opts := { env.opts with BoundsSettingMode := m, BoundsSettingAnalysis := a } }

/-- The function has an alloca instruction. -/
def Function.hasAlloca (f : Function) : Bool :=
  f.insts.any (fun i => decide (i.op = Opcode.alloca))

/-- A data layout whose alloca address space 0 holds plain pointers. -/
def exDLNoCap : DataLayout :=
  { getAllocaAddrSpace := 0, isFatPointer := (fun a => a == 200),
    getIndexSizeInBits := (fun _ => 64), getTypeAllocSize := exAllocSize }

/-- The environment of a target without capabilities on the stack. -/
def exEnvNoCap : Env :=
  { opts := Options.default, DL := exDLNoCap, TLI := (fun _ => exTLI),
    findUsesThatNeedBounds := exEscapeCheck, opaquePointers := false }

/-- A function without an alloca: a call and a return. -/
def exFnNoAlloca : Function :=
  { optNone := false,
    blocks := [{ id := 0, insts :=
      [exInst 1 (Opcode.call (Callee.function 9)) (Ty.named 1) [Value.other 0 (Ty.int 32)],
       exInst 2 Opcode.terminator (Ty.named 1) []] }] }

/-! ## Example inputs for the threshold, the alignment and the array padding -/

/-- Example T: an alloca passed five times to one call. -/
def exFnT : Function :=
  { optNone := false,
    blocks := [{ id := 0, insts :=
      [exAlloca (Value.constInt 64 1),
       exInst 2 (Opcode.call (Callee.function 9)) (Ty.named 1)
         [Value.inst 1, Value.inst 1, Value.inst 1, Value.inst 1, Value.inst 1],
       exInst 3 Opcode.terminator (Ty.named 1) []] }] }

/-- The state at line 207 for the alloca of example T. -/
def exPT : Prologue :=
  { fn := exFnT, AI := exAlloca (Value.constInt 64 1),
    B := { insertPt := 2, debugLoc := some 7 }, TotalUses := 5,
    ArraySize := Value.constInt 64 1, ForcedAlignment := 1 }

/-- The five uses of example T. -/
def exUsesT : List Use :=
  [{ user := 2, opNo := 0 }, { user := 2, opNo := 1 }, { user := 2, opNo := 2 },
   { user := 2, opNo := 3 }, { user := 2, opNo := 4 }]

/-- Example T: all five call arguments need bounds; default options
(threshold 5). -/
def exEnvT : Env := exEnv Options.default exTLI exUsesT

/-- The instruction `j` is `i` up to its operands (of which it has as many),
its type and its allocated type. -/
def SameButType (i j : Inst) : Prop :=
  j.id = i.id ∧ j.op = i.op ∧ j.incoming = i.incoming ∧ j.debugLoc = i.debugLoc ∧
  j.align = i.align ∧ j.usedWithInAlloca = i.usedWithInAlloca ∧
  j.operands.length = i.operands.length

/-- The instructions of `f` are in `g`, unchanged up to their operands and
types. -/
def KeepsButType (f g : Function) : Prop :=
  ∀ j i, f.findInst j = some i → ∃ i', g.findInst j = some i' ∧ SameButType i i'

/-- The alloca `%1 = alloca i32, i64 3, align a, addrspace(200)`. -/
def exAllocaR (a : Nat) : Inst :=
  { id := 1, op := Opcode.alloca, ty := Ty.ptr (Ty.int 32) 200,
    operands := [Value.constInt 64 3], incoming := [], debugLoc := some 7,
    allocatedTy := Ty.int 32, align := a, usedWithInAlloca := false }

/-- Example R: an array alloca of three `i32` with the given alignment, passed
to a call. -/
def exFnR (a : Nat) : Function :=
  { optNone := false,
    blocks := [{ id := 0, insts :=
      [exAllocaR a,
       exInst 2 (Opcode.call (Callee.function 9)) (Ty.named 1) [Value.inst 1],
       exInst 3 Opcode.terminator (Ty.named 1) []] }] }

/-- The state at line 207 for the alloca of example R (alignment 4) on the
target with imprecise bounds: the alignment was raised to 16. -/
def exPR : Prologue :=
  { fn := exFnR 16, AI := exAllocaR 4, B := { insertPt := 2, debugLoc := some 7 },
    TotalUses := 1, ArraySize := Value.constInt 64 3, ForcedAlignment := 16 }

/-- Example R on the target with imprecise bounds: the call argument needs
bounds. -/
def exEnvR : Env := exEnv Options.default exTLIPad [{ user := 2, opNo := 0 }]

/-- Example R on the target with imprecise bounds, with the strategy
`never`. -/
def exEnvRNever : Env := exEnv exNever exTLIPad [{ user := 2, opNo := 0 }]

/-! ## Example inputs with an element of more than 4 GiB -/

/-- The alloca `%1 = alloca [4294967300 x i8], i64 n, align a, addrspace(200)`:
`n` objects of 4 GiB and 4 bytes each. -/
def exAllocaH (n a : Nat) : Inst :=
  { id := 1, op := Opcode.alloca, ty := Ty.ptr (Ty.array (Ty.int 8) 4294967300) 200,
    operands := [Value.constInt 64 n], incoming := [], debugLoc := some 7,
    allocatedTy := Ty.array (Ty.int 8) 4294967300, align := a, usedWithInAlloca := false }

/-- Example H: the alloca of `n` objects of 4 GiB and 4 bytes, passed to a
call. -/
def exFnH (n a : Nat) : Function :=
  { optNone := false,
    blocks := [{ id := 0, insts :=
      [exAllocaH n a,
       exInst 2 (Opcode.call (Callee.function 9)) (Ty.named 1) [Value.inst 1],
       exInst 3 Opcode.terminator (Ty.named 1) []] }] }

/-- The state at line 207 for the alloca of example H with the given length,
alignment before and after, and forced alignment. -/
def exPH (n a a2 forced : Nat) : Prologue :=
  { fn := exFnH n a2, AI := exAllocaH n a, B := { insertPt := 2, debugLoc := some 7 },
    TotalUses := 1, ArraySize := Value.constInt 64 n, ForcedAlignment := forced }

/-- A target with imprecise bounds for extents of 4096 bytes and more: those
are aligned to 4096 bytes and padded to a multiple of 4096; smaller extents
are exact. -/
def exTLIMag : TargetLowering :=
  { cheriCapabilityTypeHasPreciseBounds := false,
    getAlignmentForPreciseBounds := (fun n => if n < 4096 then 1 else 4096),
    getTailPaddingForPreciseBounds := (fun n => if n < 4096 then 0 else (4096 - n % 4096) % 4096) }

/-- Example H on the target `exTLIMag`: the call argument needs bounds. -/
def exEnvMag : Env := exEnv Options.default exTLIMag [{ user := 2, opNo := 0 }]

/-- Example H on the target with imprecise bounds `exTLIPad`: the call
argument needs bounds. -/
def exEnvH : Env := exEnv Options.default exTLIPad [{ user := 2, opNo := 0 }]

end CheriBoundAllocas

/-! # `EntryExitInstrumenter.cpp`: entry and exit instrumentation

A second, small embedding for `insertCall` and `runOnFunction` of
`llvm/lib/Transforms/Utils/EntryExitInstrumenter.cpp`.  A function carries
its string attributes, its subprogram and its blocks; the module carries the
declarations `getOrInsertFunction` and `Intrinsic::getDeclaration` add.  The
two `BasicBlock` queries the pass calls are parameters.  `none` stands for a
run that does not complete: `report_fatal_error`, or a null or end iterator
dereferenced. -/

namespace EntryExitInstrumenter

/-- A `DILocation`: line and column in the subprogram of the function. -/
structure DebugLoc where
  line : Nat
  col : Nat
  deriving DecidableEq, Repr

/-- Signatures of the declarations the pass asks for: `void()`,
`void(i8*, i8*)` with the pointers in the program address space, and the
intrinsic `llvm.returnaddress` overloaded on that pointer type. -/
inductive FnType where
  | voidNoArgs
  | voidTwoPtrs (progAS : Nat)
  | returnaddress (progAS : Nat)
  | other (tag : Nat)
  deriving DecidableEq, Repr

/-- Values used as call operands. -/
inductive Value where
  | constInt (bits : Nat) (val : Nat)
  | inst (id : Nat)
  | bitCastCurFn (progAS : Nat)
  | other (tag : Nat)
  deriving DecidableEq, Repr

/-- Instruction kinds the pass distinguishes: a `ret`, another terminator, a
call of a named function, any other instruction. -/
inductive Opcode where
  | ret
  | terminator
  | call (callee : String)
  | other (tag : Nat)
  deriving DecidableEq, Repr

/-- An instruction. -/
structure Inst where
  id : Nat
  op : Opcode
  operands : List Value
  debugLoc : Option DebugLoc
  deriving DecidableEq, Repr

/-- A basic block. -/
structure Block where
  insts : List Inst
  deriving DecidableEq, Repr

/-- A function: its string attributes as (kind, value) pairs, the scope line
of its `DISubprogram` if it has one, and its blocks, the entry block
first. -/
structure Function where
  attrs : List (String × String)
  subprogram : Option Nat
  blocks : List Block
  deriving DecidableEq, Repr

/-- The declarations of a module, by name. -/
structure Module where
  decls : List (String × FnType)
  programAddressSpace : Nat
  deriving DecidableEq, Repr

/-- The `BasicBlock` queries the pass calls: `getFirstInsertionPt` (`none`
for `end()`) and `getTerminatingMustTailCall` (`none` for `nullptr`), each
answering with the id of an instruction. -/
structure Queries where
  getFirstInsertionPt : Block → Option Nat
  getTerminatingMustTailCall : Block → Option Inst

/-- Embeds `F.getFnAttribute(Kind).getValueAsString()`: the empty string when the
function has no such attribute. -/
def Function.getFnAttribute (F : Function) (Kind : String) : String :=
  match F.attrs.lookup Kind with
  | some v => v
  | none => ""

/-- Embeds `F.removeFnAttr(Kind)`. -/
def Function.removeFnAttr (F : Function) (Kind : String) : Function :=
  { F with attrs := F.attrs.filter (fun a => a.1 != Kind) }

/-- Embeds `Module::getOrInsertFunction`. -/
def Module.getOrInsertFunction (M : Module) (Name : String) (ty : FnType) : Module :=
  if (M.decls.lookup Name).isSome then M else { M with decls := M.decls ++ [(Name, ty)] }

/-- All instructions of the function. -/
def Function.insts (F : Function) : List Inst :=
  F.blocks.flatMap (fun b => b.insts)

/-- An id no instruction of the function has (a newly allocated object). -/
def Function.freshId (F : Function) : Nat :=
  (F.insts.map (fun i => i.id)).foldr max 0 + 1

/-- Insert `n` immediately before the instruction `t` of a list. -/
def insertBeforeL : List Inst → Nat → Inst → List Inst
  | [], _, _ => []
  | i :: rest, t, n =>
    if i.id = t then n :: i :: rest else i :: insertBeforeL rest t n

/-- Embeds `CallInst::Create(Fn, Args, "", InsertionPt)` followed by
`setDebugLoc(DL)`: the function with the new call before `InsertionPt`, and
the id of the call. -/
def Function.createCall (F : Function) (callee : String) (args : List Value)
    (InsertionPt : Nat) (DL : Option DebugLoc) : Function × Nat :=
  let id := F.freshId
  let call : Inst := { id := id, op := Opcode.call callee, operands := args, debugLoc := DL }
  ({ F with blocks := F.blocks.map (fun b =>
      { b with insts := insertBeforeL b.insts InsertionPt call }) }, id)

/-- Embeds `BasicBlock::getTerminator`: the last instruction if it is a terminator. -/
def Block.getTerminator (b : Block) : Option Inst :=
  match b.insts.getLast? with
  | some i => if i.op = Opcode.ret ∨ i.op = Opcode.terminator then some i else none
  | none => none

/-- The name of the overloaded intrinsic `llvm.returnaddress`. -/
def returnaddressName : String := "llvm.returnaddress"

/-- Embeds `insertCall` (lines 24-68); `none` is `report_fatal_error`. -/
def insertCall (M : Module) (CurFn : Function) (Func : String) (InsertionPt : Nat)
    (DL : Option DebugLoc) : Option (Module × Function) :=
  if Func = "mcount" ∨ Func = ".mcount" ∨ Func = "llvm.arm.gnu.eabi.mcount" ∨
      Func = "\x01_mcount" ∨ Func = "\x01mcount" ∨ Func = "__mcount" ∨ Func = "_mcount" ∨
      Func = "__cyg_profile_func_enter_bare" then
    let M1 := M.getOrInsertFunction Func FnType.voidNoArgs
    some (M1, (CurFn.createCall Func [] InsertionPt DL).1)
  else if Func = "__cyg_profile_func_enter" ∨ Func = "__cyg_profile_func_exit" then
    let ProgAS := M.programAddressSpace
    let M1 := M.getOrInsertFunction Func (FnType.voidTwoPtrs ProgAS)
    let M2 := M1.getOrInsertFunction returnaddressName (FnType.returnaddress ProgAS)
    let RetAddr := CurFn.createCall returnaddressName [Value.constInt 32 0] InsertionPt DL
    let Call := RetAddr.1.createCall Func
      [Value.bitCastCurFn ProgAS, Value.inst RetAddr.2] InsertionPt DL
    some (M2, Call.1)
  else none

/-- The attribute read for the entry function (lines 71-72). -/
def EntryAttr (PostInlining : Bool) : String :=
  if PostInlining then "instrument-function-entry-inlined" else "instrument-function-entry"

/-- The attribute read for the exit function (lines 74-75). -/
def ExitAttr (PostInlining : Bool) : String :=
  if PostInlining then "instrument-function-exit-inlined" else "instrument-function-exit"

/-- Lines 86-94, run when the entry function name is not empty; `none` when the
function has no block, the entry block has no insertion point, or
`insertCall` fails. -/
def instrumentEntry (Q : Queries) (M : Module) (F : Function) (EntryFunc : String)
    (PostInlining : Bool) : Option (Module × Function) :=
  match F.blocks.head? with
  | none => none
  | some entry =>
    match Q.getFirstInsertionPt entry with
    | none => none
    | some pt =>
      let DL := F.subprogram.map (fun line => ({ line := line, col := 0 } : DebugLoc))
      match insertCall M F EntryFunc pt DL with
      | none => none
      | some r => some (r.1, r.2.removeFnAttr (EntryAttr PostInlining))

/-- Lines 98-113, the body of the loop over the blocks, for the block at
position `k`; `none` when the block has no terminator (`isa<ReturnInst>` of
a null pointer) or `insertCall` fails. -/
def instrumentExitBlock (Q : Queries) (ExitFunc : String) (k : Nat)
    (acc : Module × Function × Bool) : Option (Module × Function × Bool) :=
  match acc.2.1.blocks[k]? with
  | none => none
  | some BB =>
    match BB.getTerminator with
    | none => none
    | some T0 =>
      if T0.op ≠ Opcode.ret then some acc
      else
        let T :=
          match Q.getTerminatingMustTailCall BB with
          | some CI => CI
          | none => T0
        let DL :=
          match T.debugLoc with
          | some TerminatorDL => some TerminatorDL
          | none => acc.2.1.subprogram.map (fun _ => ({ line := 0, col := 0 } : DebugLoc))
        match insertCall acc.1 acc.2.1 ExitFunc T.id DL with
        | none => none
        | some r => some (r.1, r.2, true)

/-- Lines 97-114, the loop over the blocks. -/
def instrumentExits (Q : Queries) (ExitFunc : String) :
    List Nat → Module × Function × Bool → Option (Module × Function × Bool)
  | [], acc => some acc
  | k :: rest, acc =>
    match instrumentExitBlock Q ExitFunc k acc with
    | none => none
    | some acc2 => instrumentExits Q ExitFunc rest acc2

/-- Embeds `runOnFunction` (lines 70-119): the module and the function afterwards,
and the returned `Changed`. -/
def runOnFunction (Q : Queries) (M : Module) (F : Function) (PostInlining : Bool) :
    Option (Module × Function × Bool) :=
  let EntryFunc := F.getFnAttribute (EntryAttr PostInlining)
  let ExitFunc := F.getFnAttribute (ExitAttr PostInlining)
  let afterEntry : Option (Module × Function × Bool) :=
    if EntryFunc ≠ "" then
      match instrumentEntry Q M F EntryFunc PostInlining with
      | none => none
      | some r => some (r.1, r.2, true)
    else some (M, F, false)
  match afterEntry with
  | none => none
  | some a =>
    if ExitFunc ≠ "" then
      match instrumentExits Q ExitFunc (List.range a.2.1.blocks.length) a with
      | none => none
      | some r => some (r.1, r.2.1.removeFnAttr (ExitAttr PostInlining), r.2.2)
    else some a

/-! ## Example inputs -/

/-- Example queries: the first instruction of a block is its insertion point,
and no block ends in a `musttail` call. -/
def exQueries : Queries :=
  { getFirstInsertionPt := (fun b => b.insts.head?.map (fun i => i.id)),
    getTerminatingMustTailCall := (fun _ => none) }

/-- An empty module. -/
def exModule : Module := { decls := [], programAddressSpace := 0 }

/-- A function with the attributes `instrument-function-entry = mcount` and
`instrument-function-exit = __cyg_profile_func_exit`, whose entry block
branches to a block that returns. -/
def exFn : Function :=
  { attrs := [("instrument-function-entry", "mcount"),
              ("instrument-function-exit", "__cyg_profile_func_exit"),
              ("frame-pointer", "all")],
    subprogram := some 3,
    blocks :=
      [{ insts := [{ id := 1, op := Opcode.other 0, operands := [], debugLoc := none },
                   { id := 2, op := Opcode.terminator, operands := [], debugLoc := none }] },
       { insts := [{ id := 3, op := Opcode.ret, operands := [],
                     debugLoc := some { line := 9, col := 1 } }] }] }

/-- The module after the pass ran on the example: the declarations of
`mcount`, `__cyg_profile_func_exit` and `llvm.returnaddress` were added. -/
def exModuleAfter : Module :=
  { decls := [("mcount", FnType.voidNoArgs),
              ("__cyg_profile_func_exit", FnType.voidTwoPtrs 0),
              ("llvm.returnaddress", FnType.returnaddress 0)],
    programAddressSpace := 0 }

/-- The example function after the pass ran on it: `mcount` is called at the
entry, `__cyg_profile_func_exit` before the `ret`, and both attributes are
gone. -/
def exFnAfter : Function :=
  { attrs := [("frame-pointer", "all")],
    subprogram := some 3,
    blocks :=
      [{ insts :=
          [{ id := 4, op := Opcode.call "mcount", operands := [],
             debugLoc := some { line := 3, col := 0 } },
           { id := 1, op := Opcode.other 0, operands := [], debugLoc := none },
           { id := 2, op := Opcode.terminator, operands := [], debugLoc := none }] },
       { insts :=
          [{ id := 5, op := Opcode.call "llvm.returnaddress",
             operands := [Value.constInt 32 0], debugLoc := some { line := 9, col := 1 } },
           { id := 6, op := Opcode.call "__cyg_profile_func_exit",
             operands := [Value.bitCastCurFn 0, Value.inst 5],
             debugLoc := some { line := 9, col := 1 } },
           { id := 3, op := Opcode.ret, operands := [],
             debugLoc := some { line := 9, col := 1 } }] }] }

end EntryExitInstrumenter

namespace CheriBoundAllocas

/-! ## Basic facts about the IR queries and mutations -/

@[simp] theorem Block.insts_insertBefore (b : Block) (t : Nat) (n : Inst) :
    (b.insertBefore t n).insts = insertBeforeL b.insts t n := rfl

@[simp] theorem Block.id_insertBefore (b : Block) (t : Nat) (n : Inst) :
    (b.insertBefore t n).id = b.id := rfl

@[simp] theorem blockInsts_mapInsts (b : Block) (g : Inst → Inst) :
    (b.mapInsts g).insts = b.insts.map g := rfl

@[simp] theorem Block.id_mapInsts (b : Block) (g : Inst → Inst) :
    (b.mapInsts g).id = b.id := rfl

theorem findInst_id {f : Function} {id : Nat} {i : Inst}
    (h : f.findInst id = some i) : i.id = id := by
  have := List.find?_some h
  simpa using this

theorem findInst_mem {f : Function} {id : Nat} {i : Inst}
    (h : f.findInst id = some i) : i ∈ f.insts :=
  List.mem_of_find?_eq_some h

theorem findInst_isSome_iff (f : Function) (id : Nat) :
    (f.findInst id).isSome ↔ id ∈ f.ids := by
  unfold Function.findInst Function.ids
  rw [List.find?_isSome]
  simp

theorem findInst_eq_none_iff (f : Function) (id : Nat) :
    f.findInst id = none ↔ id ∉ f.ids := by
  rw [← findInst_isSome_iff]
  cases f.findInst id <;> simp

theorem mem_ids_of_findInst {f : Function} {id : Nat} {i : Inst}
    (h : f.findInst id = some i) : id ∈ f.ids := by
  rw [← findInst_isSome_iff, h]; rfl

theorem exists_findInst_of_mem_ids {f : Function} {id : Nat}
    (h : id ∈ f.ids) : ∃ i, f.findInst id = some i := by
  rw [← findInst_isSome_iff] at h
  exact Option.isSome_iff_exists.mp h

theorem lt_freshId {f : Function} {id : Nat} (h : id ∈ f.ids) : id < f.freshId := by
  unfold Function.freshId
  have : ∀ (l : List Nat), id ∈ l → id ≤ l.foldr max 0 := by
    intro l
    induction l with
    | nil => intro h; cases h
    | cons a l ih =>
      intro h
      simp only [List.foldr_cons]
      rcases List.mem_cons.mp h with h | h
      · subst h; exact le_max_left _ _
      · exact le_trans (ih h) (le_max_right _ _)
  exact Nat.lt_succ_of_le (this _ h)

theorem freshId_not_mem (f : Function) : f.freshId ∉ f.ids :=
  fun h => Nat.lt_irrefl _ (lt_freshId h)

theorem insts_mapInsts (f : Function) (g : Inst → Inst) :
    (f.mapInsts g).insts = f.insts.map g := by
  unfold Function.mapInsts Function.insts
  simp only
  induction f.blocks with
  | nil => rfl
  | cons b bs ih => simp only [List.map_cons, List.flatMap_cons, ih, blockInsts_mapInsts, List.map_append]

theorem ids_mapInsts (f : Function) (g : Inst → Inst) (hg : ∀ i, (g i).id = i.id) :
    (f.mapInsts g).ids = f.ids := by
  unfold Function.ids
  rw [insts_mapInsts, List.map_map]
  congr 1
  funext i
  exact hg i

theorem findInst_mapInsts (f : Function) (g : Inst → Inst) (hg : ∀ i, (g i).id = i.id)
    (id : Nat) : (f.mapInsts g).findInst id = (f.findInst id).map g := by
  unfold Function.findInst
  rw [insts_mapInsts, List.find?_map]
  congr 1
  congr 1
  funext i
  simp [hg i]

theorem mem_insertBeforeL {l : List Inst} {t : Nat} {n x : Inst} :
    x ∈ insertBeforeL l t n ↔ x ∈ l ∨ (x = n ∧ t ∈ l.map (fun i => i.id)) := by
  induction l with
  | nil => simp [insertBeforeL]
  | cons a l ih =>
    simp only [insertBeforeL]
    by_cases h : a.id = t
    · simp [h]; tauto
    · simp only [h, if_false, List.mem_cons, ih, List.map_cons]
      constructor
      · rintro (h1 | h1 | ⟨h1, h2⟩)
        · exact Or.inl (Or.inl h1)
        · exact Or.inl (Or.inr h1)
        · exact Or.inr ⟨h1, Or.inr h2⟩
      · rintro ((h1 | h1) | ⟨h1, h2 | h2⟩)
        · exact Or.inl h1
        · exact Or.inr (Or.inl h1)
        · exact absurd h2.symm h
        · exact Or.inr (Or.inr ⟨h1, h2⟩)

theorem insertBeforeL_of_not_mem {l : List Inst} {t : Nat} {n : Inst}
    (h : t ∉ l.map (fun i => i.id)) : insertBeforeL l t n = l := by
  induction l with
  | nil => rfl
  | cons a l ih =>
    simp only [List.map_cons, List.mem_cons, not_or] at h
    simp [insertBeforeL, Ne.symm h.1, ih h.2]

theorem insertBeforeL_perm {l : List Inst} {t : Nat} {n : Inst}
    (h : t ∈ l.map (fun i => i.id)) : (insertBeforeL l t n).Perm (n :: l) := by
  induction l with
  | nil => simp at h
  | cons a l ih =>
    simp only [insertBeforeL]
    by_cases h1 : a.id = t
    · simp [h1]
    · simp only [h1, if_false]
      have h2 : t ∈ l.map (fun i => i.id) := by
        simp only [List.map_cons, List.mem_cons] at h
        rcases h with h | h
        · exact absurd h.symm h1
        · exact h
      exact ((ih h2).cons a).trans (List.Perm.swap n a l)

theorem find_insertBeforeL_ne {l : List Inst} {t j : Nat} {n : Inst} (h : n.id ≠ j) :
    (insertBeforeL l t n).find? (fun i => i.id == j) = l.find? (fun i => i.id == j) := by
  induction l with
  | nil => rfl
  | cons a l ih =>
    simp only [insertBeforeL]
    by_cases h1 : a.id = t
    · simp only [h1, if_true]
      rw [List.find?_cons_of_neg]
      simpa using h
    · simp only [h1, if_false, List.find?_cons, ih]

theorem findInst_insertBefore_ne (f : Function) {t j : Nat} {n : Inst} (h : n.id ≠ j) :
    (f.insertBefore t n).findInst j = f.findInst j := by
  unfold Function.findInst Function.insertBefore Function.insts
  simp only
  induction f.blocks with
  | nil => rfl
  | cons b bs ih =>
    simp only [List.map_cons, List.flatMap_cons, List.find?_append, ih,
      Block.insts_insertBefore, find_insertBeforeL_ne h]

theorem mem_insts_insertBefore {f : Function} {t : Nat} {n x : Inst} :
    x ∈ (f.insertBefore t n).insts ↔ x ∈ f.insts ∨ (x = n ∧ t ∈ f.ids) := by
  unfold Function.insertBefore Function.insts Function.ids Function.insts
  simp only [List.mem_flatMap, List.mem_map, mem_insertBeforeL]
  constructor
  · rintro ⟨b, ⟨b0, hb0, rfl⟩, h⟩
    rw [Block.insts_insertBefore, mem_insertBeforeL] at h
    rcases h with h | ⟨h1, h2⟩
    · exact Or.inl ⟨b0, hb0, h⟩
    · right
      refine ⟨h1, ?_⟩
      obtain ⟨i, hi, hit⟩ := List.mem_map.mp h2
      exact ⟨i, ⟨b0, hb0, hi⟩, hit⟩
  · rintro (⟨b, hb, hx⟩ | ⟨h1, i, ⟨b, hb, hi⟩, hit⟩)
    · exact ⟨_, ⟨b, hb, rfl⟩, by simp [mem_insertBeforeL, hx]⟩
    · refine ⟨_, ⟨b, hb, rfl⟩, ?_⟩
      rw [Block.insts_insertBefore, mem_insertBeforeL]
      right
      exact ⟨h1, List.mem_map.mpr ⟨i, hi, hit⟩⟩

theorem findInst_insertBefore_new (f : Function) {t : Nat} {n : Inst}
    (hfresh : n.id ∉ f.ids) (ht : t ∈ f.ids) :
    (f.insertBefore t n).findInst n.id = some n := by
  have hmem : n ∈ (f.insertBefore t n).insts := mem_insts_insertBefore.mpr (Or.inr ⟨rfl, ht⟩)
  have hsome : ((f.insertBefore t n).findInst n.id).isSome := by
    rw [findInst_isSome_iff]
    exact List.mem_map.mpr ⟨n, hmem, rfl⟩
  obtain ⟨x, hx⟩ := Option.isSome_iff_exists.mp hsome
  have hxid := findInst_id hx
  rcases mem_insts_insertBefore.mp (findInst_mem hx) with h | ⟨h, _⟩
  · exact absurd (List.mem_map.mpr ⟨x, h, hxid⟩) hfresh
  · rw [hx, h]

theorem flatMap_insertBeforeL_perm (bs : List Block) {t : Nat} {n : Inst}
    (hnd : ((bs.flatMap (fun b => b.insts)).map (fun i => i.id)).Nodup)
    (ht : t ∈ (bs.flatMap (fun b => b.insts)).map (fun i => i.id)) :
    ((bs.map (fun b => b.insertBefore t n)).flatMap
      (fun b => b.insts)).Perm (n :: bs.flatMap (fun b => b.insts)) := by
  induction bs with
  | nil => simp at ht
  | cons b bs ih =>
    simp only [List.map_cons, List.flatMap_cons, Block.insts_insertBefore]
    simp only [List.flatMap_cons, List.map_append, List.mem_append] at ht hnd
    by_cases hb : t ∈ b.insts.map (fun i => i.id)
    · have hrest : ∀ b2 ∈ bs, t ∉ b2.insts.map (fun i => i.id) := by
        intro b2 hb2 hmem
        have hdis := (List.nodup_append.mp hnd).2.2
        refine hdis hb ?_
        obtain ⟨i, hi, hit⟩ := List.mem_map.mp hmem
        exact List.mem_map.mpr ⟨i, List.mem_flatMap.mpr ⟨b2, hb2, hi⟩, hit⟩
      have heq : List.flatMap (List.map (fun b => b.insertBefore t n) bs)
          (fun b => b.insts) = List.flatMap bs (fun b => b.insts) := by
        clear ih hnd ht
        induction bs with
        | nil => rfl
        | cons c cs ihc =>
          simp only [List.map_cons, List.flatMap_cons, Block.insts_insertBefore]
          rw [insertBeforeL_of_not_mem (hrest c (List.mem_cons_self _ _)),
            ihc (fun b2 hb2 => hrest b2 (List.mem_cons_of_mem _ hb2))]
      rw [heq]
      exact (insertBeforeL_perm hb).append_right _
    · rw [insertBeforeL_of_not_mem hb]
      have ht2 := ht.resolve_left hb
      have := ih (List.nodup_append.mp hnd).2.1 ht2
      exact (this.append_left _).trans List.perm_middle

theorem insts_insertBefore_perm (f : Function) {t : Nat} {n : Inst}
    (hnd : f.ids.Nodup) (ht : t ∈ f.ids) :
    (f.insertBefore t n).insts.Perm (n :: f.insts) :=
  flatMap_insertBeforeL_perm f.blocks hnd ht

theorem ids_insertBefore_perm (f : Function) {t : Nat} {n : Inst}
    (hnd : f.ids.Nodup) (ht : t ∈ f.ids) :
    (f.insertBefore t n).ids.Perm (n.id :: f.ids) := by
  unfold Function.ids
  exact (insts_insertBefore_perm f hnd ht).map _

end CheriBoundAllocas

namespace CheriBoundAllocas

/-! ## Blocks: lookup, terminators and segments -/

theorem blocks_mapInsts (f : Function) (g : Inst → Inst) :
    (f.mapInsts g).blocks = f.blocks.map (fun b => b.mapInsts g) := rfl

theorem blocks_insertBefore (f : Function) (t : Nat) (n : Inst) :
    (f.insertBefore t n).blocks = f.blocks.map (fun b => b.insertBefore t n) := rfl

theorem findBlock_mapInsts (f : Function) (g : Inst → Inst) (bid : Nat) :
    (f.mapInsts g).findBlock bid = (f.findBlock bid).map (fun b => b.mapInsts g) := by
  unfold Function.findBlock
  rw [blocks_mapInsts, List.find?_map]
  rfl

theorem findBlock_insertBefore (f : Function) (t : Nat) (n : Inst) (bid : Nat) :
    (f.insertBefore t n).findBlock bid = (f.findBlock bid).map (fun b => b.insertBefore t n) := by
  unfold Function.findBlock
  rw [blocks_insertBefore, List.find?_map]
  rfl

theorem any_id_map (l : List Inst) (g : Inst → Inst) (hg : ∀ i, (g i).id = i.id) (j : Nat) :
    (l.map g).any (fun i => i.id == j) = l.any (fun i => i.id == j) := by
  induction l with
  | nil => rfl
  | cons a l ih => simp [List.any_cons, hg a, ih]

theorem any_id_insertBeforeL (l : List Inst) {t j : Nat} {n : Inst} (h : n.id ≠ j) :
    (insertBeforeL l t n).any (fun i => i.id == j) = l.any (fun i => i.id == j) := by
  induction l with
  | nil => rfl
  | cons a l ih =>
    simp only [insertBeforeL]
    by_cases h1 : a.id = t
    · simp [h1, List.any_cons, h]
    · simp only [h1, if_false, List.any_cons, ih]

theorem parentOf_mapInsts (f : Function) (g : Inst → Inst) (hg : ∀ i, (g i).id = i.id)
    (j : Nat) : (f.mapInsts g).parentOf j = (f.parentOf j).map (fun b => b.mapInsts g) := by
  unfold Function.parentOf
  rw [blocks_mapInsts, List.find?_map]
  congr 1
  congr 1
  funext b
  simp only [Function.comp, blockInsts_mapInsts, any_id_map _ g hg]

theorem parentOf_insertBefore (f : Function) {t j : Nat} {n : Inst} (h : n.id ≠ j) :
    (f.insertBefore t n).parentOf j = (f.parentOf j).map (fun b => b.insertBefore t n) := by
  unfold Function.parentOf
  rw [blocks_insertBefore, List.find?_map]
  congr 1
  congr 1
  funext b
  simp only [Function.comp, Block.insts_insertBefore, any_id_insertBeforeL _ h]

theorem parentOf_mem_ids {f : Function} {j : Nat} {b : Block} (h : f.parentOf j = some b) :
    j ∈ b.ids ∧ b ∈ f.blocks := by
  unfold Function.parentOf at h
  have h1 := List.find?_some h
  have h2 := List.mem_of_find?_eq_some h
  refine ⟨?_, h2⟩
  rw [List.any_eq_true] at h1
  obtain ⟨i, hi, hij⟩ := h1
  exact List.mem_map.mpr ⟨i, hi, by simpa using hij⟩

theorem mem_ids_of_mem_block {f : Function} {b : Block} {j : Nat} (hb : b ∈ f.blocks)
    (hj : j ∈ b.ids) : j ∈ f.ids := by
  obtain ⟨i, hi, hij⟩ := List.mem_map.mp hj
  exact List.mem_map.mpr ⟨i, List.mem_flatMap.mpr ⟨b, hb, hi⟩, hij⟩

theorem findBlock_mem {f : Function} {bid : Nat} {b : Block} (h : f.findBlock bid = some b) :
    b ∈ f.blocks ∧ b.id = bid := by
  unfold Function.findBlock at h
  exact ⟨List.mem_of_find?_eq_some h, by simpa using List.find?_some h⟩

theorem locate_mem {f : Function} {k : UseKey} {b : Block} (h : locate f k = some b) :
    b ∈ f.blocks := by
  unfold locate at h
  split at h
  · exact (findBlock_mem h).1
  · exact (parentOf_mem_ids h).2

theorem locate_mapInsts (f : Function) (g : Inst → Inst) (hg : ∀ i, (g i).id = i.id)
    (k : UseKey) : locate (f.mapInsts g) k = (locate f k).map (fun b => b.mapInsts g) := by
  unfold locate
  split
  · exact findBlock_mapInsts f g _
  · exact parentOf_mapInsts f g hg _

theorem locate_insertBefore (f : Function) {t : Nat} {n : Inst} (k : UseKey)
    (h : n.id ≠ k.1) :
    locate (f.insertBefore t n) k = (locate f k).map (fun b => b.insertBefore t n) := by
  unfold locate
  split
  · exact findBlock_insertBefore f t n _
  · exact parentOf_insertBefore f h

theorem blockIds_mapInsts (b : Block) (g : Inst → Inst) (hg : ∀ i, (g i).id = i.id) :
    (b.mapInsts g).ids = b.ids := by
  unfold Block.ids
  rw [blockInsts_mapInsts, List.map_map]
  congr 1
  funext i
  exact hg i

theorem SegIn_mapInsts {b : Block} {x y : Nat} {mid : List Nat} (g : Inst → Inst)
    (hg : ∀ i, (g i).id = i.id) (h : SegIn b x y mid) : SegIn (b.mapInsts g) x y mid := by
  unfold SegIn at *
  rw [blockIds_mapInsts b g hg]
  exact h

theorem getTerminator_mapInsts (b : Block) (g : Inst → Inst)
    (hg : ∀ i, (g i).op = i.op) :
    (b.mapInsts g).getTerminator = b.getTerminator.map g := by
  unfold Block.getTerminator
  rw [blockInsts_mapInsts, List.getLast?_map]
  cases b.insts.getLast? with
  | none => rfl
  | some i =>
    simp only [Option.map_some', hg i]
    split <;> rfl

theorem getLast?_insertBeforeL (l : List Inst) (t : Nat) (n : Inst) :
    (insertBeforeL l t n).getLast? = l.getLast? := by
  induction l with
  | nil => rfl
  | cons a l ih =>
    simp only [insertBeforeL]
    by_cases h1 : a.id = t
    · simp only [h1, if_true, List.getLast?_cons_cons]
    · simp only [h1, if_false]
      cases l with
      | nil => rfl
      | cons c l =>
        have hne : insertBeforeL (c :: l) t n ≠ [] := by
          simp only [insertBeforeL]; split <;> simp
        obtain ⟨d, l', hd⟩ := List.exists_cons_of_ne_nil hne
        rw [hd, List.getLast?_cons_cons, ← hd, ih, List.getLast?_cons_cons]

theorem getTerminator_insertBefore (b : Block) (t : Nat) (n : Inst) :
    (b.insertBefore t n).getTerminator = b.getTerminator := by
  unfold Block.getTerminator
  rw [Block.insts_insertBefore, getLast?_insertBeforeL]

theorem insertBeforeL_append (l1 l2 : List Inst) (t : Nat) (n : Inst) :
    insertBeforeL (l1 ++ l2) t n =
      if t ∈ l1.map (fun i => i.id) then insertBeforeL l1 t n ++ l2
      else l1 ++ insertBeforeL l2 t n := by
  induction l1 with
  | nil => simp
  | cons a l ih =>
    simp only [List.cons_append, insertBeforeL, List.map_cons, List.mem_cons]
    by_cases h1 : a.id = t
    · simp [h1]
    · have h2 : ¬ t = a.id := fun h => h1 h.symm
      simp only [h1, h2, if_false, false_or]
      show a :: insertBeforeL (l ++ l2) t n = _
      rw [ih]
      split <;> simp

theorem segIn_iff_insts {b : Block} {x y : Nat} {mid : List Nat} :
    SegIn b x y mid ↔ ∃ pre post ix iy lmid,
      b.insts = pre ++ ix :: (lmid ++ iy :: post) ∧ ix.id = x ∧ iy.id = y ∧
      lmid.map (fun i => i.id) = mid := by
  unfold SegIn Block.ids
  constructor
  · rintro ⟨pre, post, h⟩
    obtain ⟨l1, l2, h1, h2, h3⟩ := List.map_eq_append_iff.mp h
    obtain ⟨ix, l3, h4, h5, h6⟩ := List.map_eq_cons_iff.mp h3
    obtain ⟨l4, l5, h7, h8, h9⟩ := List.map_eq_append_iff.mp h6
    obtain ⟨iy, l6, h10, h11, h12⟩ := List.map_eq_cons_iff.mp h9
    refine ⟨l1, l6, ix, iy, l4, ?_, h5, h11, h8⟩
    rw [h1, h4, h7, h10]
  · rintro ⟨pre, post, ix, iy, lmid, h, hx, hy, hm⟩
    refine ⟨pre.map (fun i => i.id), post.map (fun i => i.id), ?_⟩
    rw [h]
    simp [hx, hy, hm]

theorem SegIn_insertBefore {b : Block} {x y : Nat} {mid : List Nat} (t : Nat) (n : Inst)
    (hnd : b.ids.Nodup) (h : SegIn b x y mid) :
    ∃ mid', SegIn (b.insertBefore t n) x y mid' ∧ (∀ z ∈ mid, z ∈ mid') ∧
      (∀ z ∈ mid', z ∈ mid ∨ z = n.id) ∧ (t = y → n.id ∈ mid') := by
  obtain ⟨pre, post, ix, iy, lmid, hb, hx, hy, hm⟩ := segIn_iff_insts.mp h
  have hnd' : (pre.map (fun i => i.id) ++ x :: (mid ++ y :: post.map (fun i => i.id))).Nodup := by
    have : b.ids = pre.map (fun i => i.id) ++ x :: (mid ++ y :: post.map (fun i => i.id)) := by
      unfold Block.ids; rw [hb]; simp [hx, hy, hm]
    rw [← this]; exact hnd
  have hy_pre : y ∉ pre.map (fun i => i.id) := by
    intro hmem
    have := (List.nodup_append.mp hnd').2.2 hmem (by simp)
    exact this
  have hnd2 := (List.nodup_append.mp hnd').2.1
  have hxy : x ≠ y := by
    intro hxy
    have := (List.nodup_cons.mp hnd2).1
    apply this; rw [hxy]; simp
  have hnd3 := (List.nodup_cons.mp hnd2).2
  have hy_mid : y ∉ mid := by
    intro hmem
    exact (List.nodup_append.mp hnd3).2.2 hmem (List.mem_cons_self _ _)
  simp only [segIn_iff_insts, Block.insts_insertBefore, hb]
  rw [insertBeforeL_append]
  by_cases h1 : t ∈ pre.map (fun i => i.id)
  · simp only [h1, if_true]
    refine ⟨mid, ⟨_, post, ix, iy, lmid, rfl, hx, hy, hm⟩, fun z hz => hz,
      fun z hz => Or.inl hz, ?_⟩
    intro hty; rw [hty] at h1; exact absurd h1 hy_pre
  · simp only [h1, if_false, insertBeforeL]
    by_cases h2 : ix.id = t
    · simp only [h2, if_true]
      refine ⟨mid, ⟨pre ++ [n], post, ix, iy, lmid, by simp, hx, hy, hm⟩, fun z hz => hz,
        fun z hz => Or.inl hz, ?_⟩
      intro hty; exact absurd (hx.symm.trans (h2.trans hty)) hxy
    · simp only [h2, if_false]
      rw [insertBeforeL_append]
      by_cases h3 : t ∈ lmid.map (fun i => i.id)
      · simp only [h3, if_true]
        refine ⟨(insertBeforeL lmid t n).map (fun i => i.id),
          ⟨pre, post, ix, iy, insertBeforeL lmid t n, rfl, hx, hy, rfl⟩, ?_, ?_, ?_⟩
        · intro z hz
          rw [← hm] at hz
          obtain ⟨i, hi, rfl⟩ := List.mem_map.mp hz
          exact List.mem_map.mpr ⟨i, mem_insertBeforeL.mpr (Or.inl hi), rfl⟩
        · intro z hz
          obtain ⟨i, hi, rfl⟩ := List.mem_map.mp hz
          rcases mem_insertBeforeL.mp hi with hi | ⟨hi, _⟩
          · left; rw [← hm]; exact List.mem_map.mpr ⟨i, hi, rfl⟩
          · right; rw [hi]
        · intro hty; rw [hty, hm] at h3; exact absurd h3 hy_mid
      · simp only [h3, if_false, insertBeforeL]
        by_cases h4 : iy.id = t
        · simp only [h4, if_true]
          refine ⟨mid ++ [n.id], ⟨pre, post, ix, iy, lmid ++ [n], by simp, hx, hy, by simp [hm]⟩,
            fun z hz => List.mem_append_left _ hz, ?_, fun _ => by simp⟩
          intro z hz
          rcases List.mem_append.mp hz with hz | hz
          · exact Or.inl hz
          · right; simpa using hz
        · simp only [h4, if_false]
          refine ⟨mid, ⟨pre, insertBeforeL post t n, ix, iy, lmid, rfl, hx, hy, hm⟩,
            fun z hz => hz, fun z hz => Or.inl hz, ?_⟩
          intro hty; exact absurd (hy.trans hty.symm) h4

theorem SegIn_insertBefore_new {b : Block} {t : Nat} (n : Inst) (ht : t ∈ b.ids) :
    SegIn (b.insertBefore t n) n.id t [] := by
  unfold SegIn Block.ids
  unfold Block.ids at ht
  rw [Block.insts_insertBefore]
  generalize b.insts = l at ht
  induction l with
  | nil => simp at ht
  | cons a l ih =>
    simp only [insertBeforeL]
    by_cases h1 : a.id = t
    · simp only [h1, if_true, List.map_cons]
      exact ⟨[], l.map (fun i => i.id), by simp [h1]⟩
    · simp only [h1, if_false, List.map_cons]
      have : t ∈ l.map (fun i => i.id) := by
        simp only [List.map_cons, List.mem_cons] at ht
        rcases ht with h | h
        · exact absurd h.symm h1
        · exact h
      obtain ⟨pre, post, hp⟩ := ih this
      exact ⟨a.id :: pre, post, by simp [hp]⟩

theorem instsAfter_eq_some {l rest : List Inst} {t : Nat} (h : instsAfter l t = some rest) :
    ∃ pre i, l = pre ++ i :: rest ∧ i.id = t := by
  induction l with
  | nil => simp [instsAfter] at h
  | cons a l ih =>
    simp only [instsAfter] at h
    by_cases h1 : a.id = t
    · simp only [h1, if_true, Option.some.injEq] at h
      exact ⟨[], a, by simp [h], h1⟩
    · simp only [h1, if_false] at h
      obtain ⟨pre, i, hl, hi⟩ := ih h
      exact ⟨a :: pre, i, by simp [hl], hi⟩

theorem getNextNode_seg {f : Function} {ai : Nat} {next : Inst}
    (h : f.getNextNode ai = some next) :
    ∃ blk, f.parentOf ai = some blk ∧ SegIn blk ai next.id [] := by
  unfold Function.getNextNode at h
  cases hp : f.parentOf ai with
  | none => simp [hp] at h
  | some blk =>
    simp only [hp] at h
    cases ha : instsAfter blk.insts ai with
    | none => simp [ha] at h
    | some rest =>
      simp only [ha] at h
      obtain ⟨pre, i, hl, hi⟩ := instsAfter_eq_some ha
      cases rest with
      | nil => simp at h
      | cons r rest =>
        simp only [List.head?_cons, Option.some.injEq] at h
        refine ⟨blk, rfl, segIn_iff_insts.mpr ⟨pre, rest, i, r, [], ?_, hi, by rw [h], rfl⟩⟩
        simpa using hl

theorem getNextNonDebug_mem {f : Function} {ai : Nat} {nnd : Inst}
    (h : f.getNextNonDebugInstruction ai = some nnd) : nnd.id ∈ f.ids := by
  unfold Function.getNextNonDebugInstruction at h
  cases hp : f.parentOf ai with
  | none => simp [hp] at h
  | some blk =>
    simp only [hp] at h
    cases ha : instsAfter blk.insts ai with
    | none => simp [ha] at h
    | some rest =>
      simp only [ha] at h
      obtain ⟨pre, i, hl, hi⟩ := instsAfter_eq_some ha
      have hmem : nnd ∈ blk.insts := by
        rw [hl]
        exact List.mem_append_right _ (List.mem_cons_of_mem _ (List.mem_of_find?_eq_some h))
      exact mem_ids_of_mem_block (parentOf_mem_ids hp).2 (List.mem_map.mpr ⟨nnd, hmem, rfl⟩)

end CheriBoundAllocas

namespace CheriBoundAllocas

/-! ## The frame relation and counting inserted calls -/

theorem SameStatic.static_refl (i : Inst) : SameStatic i i := ⟨rfl, rfl, rfl, rfl, rfl⟩

theorem SameStatic.static_trans {i j k : Inst} (h1 : SameStatic i j) (h2 : SameStatic j k) :
    SameStatic i k :=
  ⟨h2.1.trans h1.1, h2.2.1.trans h1.2.1, h2.2.2.1.trans h1.2.2.1,
    h2.2.2.2.1.trans h1.2.2.2.1, h2.2.2.2.2.trans h1.2.2.2.2⟩

theorem block_ids_nodup {f : Function} (hnd : f.ids.Nodup) {b : Block} (hb : b ∈ f.blocks) :
    b.ids.Nodup := by
  unfold Function.ids Function.insts at hnd
  rw [List.map_flatMap] at hnd
  exact (List.nodup_flatMap.mp hnd).1 b hb

theorem Frame.frame_refl {f : Function} (hnd : f.ids.Nodup) : Frame f f := by
  refine ⟨hnd, fun j i h => ⟨i, h, SameStatic.static_refl i⟩,
    fun k blk h => ⟨blk, h, rfl, fun z hz => hz, ?_⟩⟩
  intro x y mid hs
  exact ⟨mid, hs, fun z hz => hz, fun z hz => Or.inl hz⟩

theorem Frame.ids_sub {f g : Function} (h : Frame f g) {j : Nat} (hj : j ∈ f.ids) :
    j ∈ g.ids := by
  obtain ⟨i, hi⟩ := exists_findInst_of_mem_ids hj
  obtain ⟨i', hi', _⟩ := h.2.1 j i hi
  exact mem_ids_of_findInst hi'

theorem Frame.frame_trans {f g h : Function} (h1 : Frame f g) (h2 : Frame g h) : Frame f h := by
  refine ⟨h2.1, ?_, ?_⟩
  · intro j i hi
    obtain ⟨i', hi', hs⟩ := h1.2.1 j i hi
    obtain ⟨i'', hi'', hs'⟩ := h2.2.1 j i' hi'
    exact ⟨i'', hi'', hs.static_trans hs'⟩
  · intro k blk hk
    obtain ⟨blk', hk', ht, hm, hseg⟩ := h1.2.2 k blk hk
    obtain ⟨blk'', hk'', ht', hm', hseg'⟩ := h2.2.2 k blk' hk'
    refine ⟨blk'', hk'', ht'.trans ht, fun z hz => hm' z (hm z hz), ?_⟩
    intro x y mid hs
    obtain ⟨mid', hs', hsub, hnew⟩ := hseg x y mid hs
    obtain ⟨mid'', hs'', hsub', hnew'⟩ := hseg' x y mid' hs'
    refine ⟨mid'', hs'', fun z hz => hsub' z (hsub z hz), ?_⟩
    intro z hz
    rcases hnew' z hz with h | h
    · exact hnew z h
    · exact Or.inr (fun hzf => h (h1.ids_sub hzf))

theorem Frame_insertBefore {f : Function} (hnd : f.ids.Nodup) {t : Nat} {n : Inst}
    (hfresh : n.id ∉ f.ids) (ht : t ∈ f.ids) : Frame f (f.insertBefore t n) := by
  refine ⟨?_, ?_, ?_⟩
  · rw [(ids_insertBefore_perm f hnd ht).nodup_iff]
    exact List.nodup_cons.mpr ⟨hfresh, hnd⟩
  · intro j i hi
    refine ⟨i, ?_, SameStatic.static_refl i⟩
    rw [findInst_insertBefore_ne f (fun h => hfresh (h ▸ mem_ids_of_findInst hi))]
    exact hi
  · intro k blk hk
    have hne : n.id ≠ k.1 ∨ k.2 ≠ none := by
      by_cases h : k.2 = none
      · left
        intro hk1
        unfold locate at hk
        rw [h] at hk
        simp only at hk
        have := mem_ids_of_mem_block (parentOf_mem_ids hk).2 (parentOf_mem_ids hk).1
        exact hfresh (hk1 ▸ this)
      · exact Or.inr h
    have hloc : locate (f.insertBefore t n) k = some (blk.insertBefore t n) := by
      unfold locate at hk ⊢
      cases hk2 : k.2 with
      | some bb =>
        simp only [hk2] at hk ⊢
        rw [findBlock_insertBefore, hk]; rfl
      | none =>
        simp only [hk2] at hk ⊢
        rw [parentOf_insertBefore f (hne.resolve_right (fun h => h hk2)), hk]; rfl
    refine ⟨_, hloc, by rw [getTerminator_insertBefore], ?_, ?_⟩
    · intro z hz
      obtain ⟨i, hi, hiz⟩ := List.mem_map.mp hz
      exact List.mem_map.mpr ⟨i, mem_insertBeforeL.mpr (Or.inl hi), hiz⟩
    intro x y mid hs
    obtain ⟨mid', h1, h2, h3, _⟩ :=
      SegIn_insertBefore t n (block_ids_nodup hnd (locate_mem hk)) hs
    refine ⟨mid', h1, h2, fun z hz => ?_⟩
    rcases h3 z hz with h | h
    · exact Or.inl h
    · exact Or.inr (h ▸ hfresh)

theorem Frame_mapInsts {f : Function} (hnd : f.ids.Nodup) (g : Inst → Inst)
    (hg : ∀ i, SameStatic i (g i)) : Frame f (f.mapInsts g) := by
  have hid : ∀ i, (g i).id = i.id := fun i => (hg i).1
  refine ⟨by rw [ids_mapInsts f g hid]; exact hnd, ?_, ?_⟩
  · intro j i hi
    exact ⟨g i, by rw [findInst_mapInsts f g hid, hi]; rfl, hg i⟩
  · intro k blk hk
    refine ⟨blk.mapInsts g, by rw [locate_mapInsts f g hid, hk]; rfl, ?_, ?_, ?_⟩
    · rw [getTerminator_mapInsts blk g (fun i => (hg i).2.1), Option.map_map]
      congr 1
      funext i
      exact hid i
    · intro z hz
      rw [blockIds_mapInsts blk g hid]; exact hz
    · intro x y mid hs
      exact ⟨mid, SegIn_mapInsts g hid hs, fun z hz => hz, fun z hz => Or.inl hz⟩

theorem insertedBoundsCalls_length_mapInsts (f0 f : Function) (g : Inst → Inst)
    (hg : ∀ i, SameStatic i (g i)) :
    (insertedBoundsCalls f0 (f.mapInsts g)).length = (insertedBoundsCalls f0 f).length := by
  unfold insertedBoundsCalls
  rw [insts_mapInsts, ← List.countP_eq_length_filter, ← List.countP_eq_length_filter,
    List.countP_map]
  congr 1
  funext i
  simp only [Function.comp, Inst.isBoundsCall, (hg i).1, (hg i).2.1]

theorem insertedBoundsCalls_length_insertBefore (f0 f : Function) (hnd : f.ids.Nodup)
    {t : Nat} {n : Inst} (ht : t ∈ f.ids) :
    (insertedBoundsCalls f0 (f.insertBefore t n)).length =
      (insertedBoundsCalls f0 f).length +
        (if n.isBoundsCall && !f0.ids.contains n.id then 1 else 0) := by
  unfold insertedBoundsCalls
  rw [← List.countP_eq_length_filter, ← List.countP_eq_length_filter,
    (insts_insertBefore_perm f hnd ht).countP_eq, List.countP_cons]

theorem insertedBoundsCalls_self (f : Function) : insertedBoundsCalls f f = [] := by
  unfold insertedBoundsCalls
  rw [List.filter_eq_nil_iff]
  intro i hi
  have : i.id ∈ f.ids := List.mem_map.mpr ⟨i, hi, rfl⟩
  simp [this]

end CheriBoundAllocas

namespace CheriBoundAllocas

/-! ## Operands, and the instructions the builder creates -/

theorem findInst_modifyInst (f : Function) (id : Nat) (g : Inst → Inst)
    (hg : ∀ i, (g i).id = i.id) (j : Nat) :
    (f.modifyInst id g).findInst j =
      (f.findInst j).map (fun i => if i.id = id then g i else i) := by
  unfold Function.modifyInst
  apply findInst_mapInsts
  intro i
  split
  · exact hg i
  · rfl

theorem findInst_modifyInst_ne (f : Function) (id : Nat) (g : Inst → Inst)
    (hg : ∀ i, (g i).id = i.id) {j : Nat} (h : j ≠ id) :
    (f.modifyInst id g).findInst j = f.findInst j := by
  rw [findInst_modifyInst f id g hg]
  cases hj : f.findInst j with
  | none => rfl
  | some i =>
    have := findInst_id hj
    simp [this, h]

theorem Frame_modifyInst {f : Function} (hnd : f.ids.Nodup) (id : Nat) (g : Inst → Inst)
    (hg : ∀ i, SameStatic i (g i)) : Frame f (f.modifyInst id g) := by
  unfold Function.modifyInst
  apply Frame_mapInsts hnd
  intro i
  split
  · exact hg i
  · exact SameStatic.static_refl i

theorem insertedBoundsCalls_length_modifyInst (f0 f : Function) (id : Nat) (g : Inst → Inst)
    (hg : ∀ i, SameStatic i (g i)) :
    (insertedBoundsCalls f0 (f.modifyInst id g)).length = (insertedBoundsCalls f0 f).length := by
  unfold Function.modifyInst
  apply insertedBoundsCalls_length_mapInsts
  intro i
  split
  · exact hg i
  · exact SameStatic.static_refl i

theorem sameStatic_setOp (n : Nat) (v : Value) (i : Inst) :
    SameStatic i { i with operands := i.operands.set n v } :=
  ⟨rfl, rfl, rfl, by simp, rfl⟩

theorem Frame_setOperand {f : Function} (hnd : f.ids.Nodup) (u : Use) (v : Value) :
    Frame f (f.setOperand u v) :=
  Frame_modifyInst hnd _ _ (sameStatic_setOp _ _)

theorem findInst_setOperand (f : Function) (u : Use) (v : Value) (j : Nat) :
    (f.setOperand u v).findInst j =
      (f.findInst j).map (fun i =>
        if i.id = u.user then { i with operands := i.operands.set u.opNo v } else i) :=
  findInst_modifyInst f u.user (fun i => { i with operands := i.operands.set u.opNo v })
    (fun _ => rfl) j

theorem findInst_setOperand_ne (f : Function) (u : Use) (v : Value) {j : Nat}
    (h : j ≠ u.user) : (f.setOperand u v).findInst j = f.findInst j :=
  findInst_modifyInst_ne f u.user (fun i => { i with operands := i.operands.set u.opNo v })
    (fun _ => rfl) h

theorem findInst_setOperand_ty (f : Function) (u : Use) (v : Value) (j : Nat) :
    ((f.setOperand u v).findInst j).map (fun i => i.ty) = (f.findInst j).map (fun i => i.ty) := by
  rw [findInst_setOperand]
  cases f.findInst j with
  | none => rfl
  | some i => simp only [Option.map_some']; split <;> rfl

theorem valueTy_setOperand (f : Function) (u : Use) (v w : Value) :
    (f.setOperand u v).valueTy w = f.valueTy w := by
  cases w with
  | inst id =>
    have := findInst_setOperand_ty f u v id
    unfold Function.valueTy
    cases h1 : (f.setOperand u v).findInst id <;> cases h2 : f.findInst id <;>
      simp_all
  | constInt _ _ => rfl
  | nullPtr _ => rfl
  | other _ _ => rfl

theorem getOperand_setOperand_self (f : Function) (u : Use) (v : Value)
    (h : (f.getOperand u).isSome) : (f.setOperand u v).getOperand u = some v := by
  unfold Function.getOperand at h ⊢
  rw [findInst_setOperand]
  cases hi : f.findInst u.user with
  | none => simp [hi] at h
  | some i =>
    simp only [hi] at h
    have hid := findInst_id hi
    simp only [Option.map_some', hid, if_true]
    have hlt : u.opNo < i.operands.length := by
      by_contra hcon
      rw [List.getElem?_eq_none (Nat.le_of_not_lt hcon)] at h
      simp at h
    rw [List.getElem?_set_self hlt]

theorem getOperand_setOperand_ne (f : Function) (u u' : Use) (v : Value) (h : u' ≠ u) :
    (f.setOperand u v).getOperand u' = f.getOperand u' := by
  unfold Function.getOperand
  rw [findInst_setOperand]
  cases hi : f.findInst u'.user with
  | none => rfl
  | some i =>
    have hid := findInst_id hi
    simp only [Option.map_some']
    by_cases hu : u'.user = u.user
    · have hop : u.opNo ≠ u'.opNo := by
        intro hop
        apply h
        cases u; cases u'; simp_all
      simp only [hid, hu, if_true, List.getElem?_set_ne hop]
    · simp only [hid, hu, if_false]

theorem getOperand_isSome_setOperand (f : Function) (u u' : Use) (v : Value) :
    ((f.setOperand u v).getOperand u').isSome = (f.getOperand u').isSome := by
  by_cases h : u' = u
  · subst h
    cases hs : (f.getOperand u').isSome
    · unfold Function.getOperand at hs ⊢
      rw [findInst_setOperand]
      cases hi : f.findInst u'.user with
      | none => rfl
      | some i =>
        simp only [hi] at hs
        have hid := findInst_id hi
        simp only [Option.map_some', hid, if_true]
        have : ¬ u'.opNo < i.operands.length := by
          intro hlt
          rw [List.getElem?_eq_getElem hlt] at hs
          simp at hs
        rw [List.getElem?_eq_none (by simpa using this)]
        rfl
    · rw [getOperand_setOperand_self f u' v hs]; rfl
  · rw [getOperand_setOperand_ne f u u' v h]

theorem getOperand_of_findInst_eq {f g : Function} {u : Use}
    (h : g.findInst u.user = f.findInst u.user) : g.getOperand u = f.getOperand u := by
  unfold Function.getOperand
  rw [h]

theorem valueTy_of_findInst_eq {f g : Function} {j : Nat}
    (h : g.findInst j = f.findInst j) : g.valueTy (Value.inst j) = f.valueTy (Value.inst j) := by
  simp only [Function.valueTy, h]

/-- What one `IRBuilder::Insert` does. -/
theorem insert_spec (B : IRBuilder) (f : Function) (op : Opcode) (ty : Ty)
    (ops : List Value) (hnd : f.ids.Nodup) (ht : B.insertPt ∈ f.ids) :
    (B.insert f op ty ops).2 = Value.inst f.freshId ∧
    Frame f (B.insert f op ty ops).1 ∧
    (B.insert f op ty ops).1.findInst f.freshId = some (B.mkInst f.freshId op ty ops) ∧
    (∀ j, j ≠ f.freshId → (B.insert f op ty ops).1.findInst j = f.findInst j) ∧
    (∀ f0, (insertedBoundsCalls f0 (B.insert f op ty ops).1).length =
      (insertedBoundsCalls f0 f).length +
        (if (B.mkInst f.freshId op ty ops).isBoundsCall && !f0.ids.contains f.freshId
          then 1 else 0)) ∧
    (∀ k blk, locate f k = some blk → B.insertPt ∈ blk.ids →
      ∃ blk', locate (B.insert f op ty ops).1 k = some blk' ∧
        SegIn blk' f.freshId B.insertPt []) ∧
    (∀ k blk x mid, locate f k = some blk → SegIn blk x B.insertPt mid →
      ∃ blk' mid', locate (B.insert f op ty ops).1 k = some blk' ∧
        SegIn blk' x B.insertPt mid' ∧ f.freshId ∈ mid' ∧
        ∀ z ∈ mid', z ∈ mid ∨ z ∉ f.ids) := by
  have hfresh : (B.mkInst f.freshId op ty ops).id ∉ f.ids := freshId_not_mem f
  have hlocate : ∀ k blk, locate f k = some blk →
      locate (f.insertBefore B.insertPt (B.mkInst f.freshId op ty ops)) k =
        some (blk.insertBefore B.insertPt (B.mkInst f.freshId op ty ops)) := by
    intro k blk hk
    have hne : (B.mkInst f.freshId op ty ops).id ≠ k.1 ∨ k.2 ≠ none := by
      by_cases h : k.2 = none
      · left
        intro hk1
        unfold locate at hk
        rw [h] at hk
        simp only at hk
        have := mem_ids_of_mem_block (parentOf_mem_ids hk).2 (parentOf_mem_ids hk).1
        exact hfresh (hk1 ▸ this)
      · exact Or.inr h
    unfold locate at hk ⊢
    cases hk2 : k.2 with
    | some bb =>
      simp only [hk2] at hk ⊢
      rw [findBlock_insertBefore, hk]; rfl
    | none =>
      simp only [hk2] at hk ⊢
      rw [parentOf_insertBefore f (hne.resolve_right (fun h => h hk2)), hk]; rfl
  refine ⟨rfl, Frame_insertBefore hnd hfresh ht, findInst_insertBefore_new f hfresh ht, ?_, ?_, ?_,
    ?_⟩
  rotate_left 3
  · intro k blk x mid hk hs
    obtain ⟨mid', h1, _, h3, h4⟩ := SegIn_insertBefore B.insertPt
      (B.mkInst f.freshId op ty ops) (block_ids_nodup hnd (locate_mem hk)) hs
    refine ⟨_, mid', hlocate k blk hk, h1, h4 rfl, fun z hz => ?_⟩
    rcases h3 z hz with h | h
    · exact Or.inl h
    · right; rw [h]; exact hfresh
  · intro j hj
    exact findInst_insertBefore_ne f (fun h => hj h.symm)
  · intro f0
    exact insertedBoundsCalls_length_insertBefore f0 f hnd ht
  · intro k blk hk hmem
    have hne : (B.mkInst f.freshId op ty ops).id ≠ k.1 ∨ k.2 ≠ none := by
      by_cases h : k.2 = none
      · left
        intro hk1
        unfold locate at hk
        rw [h] at hk
        simp only at hk
        have := mem_ids_of_mem_block (parentOf_mem_ids hk).2 (parentOf_mem_ids hk).1
        exact hfresh (hk1 ▸ this)
      · exact Or.inr h
    refine ⟨blk.insertBefore B.insertPt (B.mkInst f.freshId op ty ops), ?_,
      SegIn_insertBefore_new _ hmem⟩
    show locate (f.insertBefore B.insertPt _) k = _
    unfold locate at hk ⊢
    cases hk2 : k.2 with
    | some bb =>
      simp only [hk2] at hk ⊢
      rw [findBlock_insertBefore, hk]; rfl
    | none =>
      simp only [hk2] at hk ⊢
      rw [parentOf_insertBefore f (hne.resolve_right (fun h => h hk2)), hk]; rfl

end CheriBoundAllocas

namespace CheriBoundAllocas

/-! ## Preservation of the PHI invariants -/

theorem findInst_eq_some_of_mem {f : Function} (hnd : f.ids.Nodup) {i : Inst}
    (hi : i ∈ f.insts) : f.findInst i.id = some i := by
  obtain ⟨x, hx⟩ := exists_findInst_of_mem_ids (List.mem_map.mpr ⟨i, hi, rfl⟩ : i.id ∈ f.ids)
  have hxid := findInst_id hx
  have hxm := findInst_mem hx
  have : x = i := by
    unfold Function.ids at hnd
    exact List.inj_on_of_nodup_map hnd hxm hi hxid
  rw [hx, this]

theorem PhiOK_insertBefore {f : Function} {t : Nat} {n : Inst} (hn : n.op ≠ Opcode.phi)
    (h : PhiOK f) : PhiOK (f.insertBefore t n) := by
  intro i hi hop
  rcases mem_insts_insertBefore.mp hi with hi | ⟨hi, _⟩
  · obtain ⟨h1, h2⟩ := h i hi hop
    refine ⟨h1, fun bb hbb => ?_⟩
    obtain ⟨blk, tm, hb, htm⟩ := h2 bb hbb
    exact ⟨blk.insertBefore t n, tm, by rw [findBlock_insertBefore, hb]; rfl,
      by rw [getTerminator_insertBefore]; exact htm⟩
  · exact absurd (hi ▸ hop) hn

theorem PhiOK_mapInsts {f : Function} (g : Inst → Inst) (hg : ∀ i, SameStatic i (g i))
    (h : PhiOK f) : PhiOK (f.mapInsts g) := by
  intro i hi hop
  rw [insts_mapInsts] at hi
  obtain ⟨i0, hi0, rfl⟩ := List.mem_map.mp hi
  obtain ⟨_, h2, h3, h4, _⟩ := hg i0
  obtain ⟨h5, h6⟩ := h i0 hi0 (h2 ▸ hop)
  refine ⟨by rw [h3, h4, h5], fun bb hbb => ?_⟩
  obtain ⟨blk, tm, hb, htm⟩ := h6 bb (h3 ▸ hbb)
  exact ⟨blk.mapInsts g, g tm, by rw [findBlock_mapInsts, hb]; rfl,
    by rw [getTerminator_mapInsts blk g (fun i => (hg i).2.1), htm]; rfl⟩

theorem PhiOK_modifyInst {f : Function} (id : Nat) (g : Inst → Inst)
    (hg : ∀ i, SameStatic i (g i)) (h : PhiOK f) : PhiOK (f.modifyInst id g) := by
  unfold Function.modifyInst
  apply PhiOK_mapInsts _ _ h
  intro i
  split
  · exact hg i
  · exact SameStatic.static_refl i

theorem phisFirst_insertBeforeL {l : List Inst} {t : Nat} {n : Inst}
    (hn : n.op ≠ Opcode.phi) (ht : ∀ i ∈ l, i.id = t → i.op ≠ Opcode.phi)
    (h : phisFirst l = true) : phisFirst (insertBeforeL l t n) = true := by
  induction l with
  | nil => rfl
  | cons a l ih =>
    simp only [insertBeforeL]
    by_cases h1 : a.id = t
    · have ha : a.op ≠ Opcode.phi := ht a (List.mem_cons_self _ _) h1
      simp only [h1, if_true, phisFirst, hn, if_false]
      simp only [phisFirst, ha, if_false] at h
      simp only [List.all_cons, h, Bool.and_true]
      simpa using ha
    · simp only [h1, if_false, phisFirst]
      simp only [phisFirst] at h
      by_cases h2 : a.op = Opcode.phi
      · simp only [h2, if_true] at h ⊢
        exact ih (fun i hi => ht i (List.mem_cons_of_mem _ hi)) h
      · simp only [h2, if_false] at h ⊢
        rw [List.all_eq_true] at h ⊢
        intro x hx
        rcases mem_insertBeforeL.mp hx with hx | ⟨hx, _⟩
        · exact h x hx
        · rw [hx]; simpa using hn

theorem PhisFirst_insertBefore {f : Function} (hnd : f.ids.Nodup) {t : Nat} {n : Inst}
    (hn : n.op ≠ Opcode.phi) (ht : ∀ i, f.findInst t = some i → i.op ≠ Opcode.phi)
    (h : PhisFirst f) : PhisFirst (f.insertBefore t n) := by
  intro blk hblk
  rw [blocks_insertBefore] at hblk
  obtain ⟨b0, hb0, rfl⟩ := List.mem_map.mp hblk
  rw [Block.insts_insertBefore]
  refine phisFirst_insertBeforeL hn ?_ (h b0 hb0)
  intro i hi hit
  have him : i ∈ f.insts := List.mem_flatMap.mpr ⟨b0, hb0, hi⟩
  exact ht i (hit ▸ findInst_eq_some_of_mem hnd him)

theorem phisFirst_map (l : List Inst) (g : Inst → Inst) (hg : ∀ i, (g i).op = i.op) :
    phisFirst (l.map g) = phisFirst l := by
  induction l with
  | nil => rfl
  | cons a l ih =>
    simp only [List.map_cons, phisFirst, hg a, ih]
    congr 1
    rw [List.all_map]
    congr 1
    funext j
    simp [Function.comp, hg j]

theorem PhisFirst_mapInsts {f : Function} (g : Inst → Inst) (hg : ∀ i, (g i).op = i.op)
    (h : PhisFirst f) : PhisFirst (f.mapInsts g) := by
  intro blk hblk
  rw [blocks_mapInsts] at hblk
  obtain ⟨b0, hb0, rfl⟩ := List.mem_map.mp hblk
  rw [blockInsts_mapInsts, phisFirst_map _ _ hg]
  exact h b0 hb0

theorem PhisFirst_modifyInst {f : Function} (id : Nat) (g : Inst → Inst)
    (hg : ∀ i, (g i).op = i.op) (h : PhisFirst f) : PhisFirst (f.modifyInst id g) := by
  unfold Function.modifyInst
  apply PhisFirst_mapInsts _ _ h
  intro i
  split
  · exact hg i
  · rfl

end CheriBoundAllocas

namespace CheriBoundAllocas

/-! ## The bounded value created for a use -/

theorem IsCastOf.cast_mono {f g : Function} {old : List Nat} {x v : Value} {ty : Ty}
    (h : IsCastOf f old x v ty)
    (hnew : ∀ j i, j ∉ old → f.findInst j = some i → g.findInst j = some i)
    (hty : g.valueTy v = f.valueTy v) : IsCastOf g old x v ty := by
  rcases h with ⟨h1, h2⟩ | ⟨c, h1, h2, h3, h4⟩
  · exact Or.inl ⟨h1, hty.trans h2⟩
  · exact Or.inr ⟨c, h1, hnew _ _ h3 h2, h3, h4⟩

theorem IsCastOf.cast_weaken {f : Function} {old old' : List Nat} {x v : Value} {ty : Ty}
    (h : IsCastOf f old x v ty) (hsub : ∀ j ∈ old', j ∈ old) : IsCastOf f old' x v ty := by
  rcases h with h | ⟨c, h1, h2, h3, h4⟩
  · exact Or.inl h
  · exact Or.inr ⟨c, h1, h2, fun hc => h3 (hsub _ hc), h4⟩

theorem IsBoundedVia.bounded_mono {f g : Function} {old : List Nat} {T : PassTypes} {intr : Callee}
    {APT : Ty} {ai : Nat} {Size v : Value} {c : Nat}
    (h : IsBoundedVia f old T intr APT ai Size v c)
    (hnew : ∀ j i, j ∉ old → f.findInst j = some i → g.findInst j = some i)
    (hty : g.valueTy (Value.inst ai) = f.valueTy (Value.inst ai)) :
    IsBoundedVia g old T intr APT ai Size v c := by
  obtain ⟨hc, call, ptr, h1, h2, h3, h4, h5⟩ := h
  refine ⟨hc, call, ptr, hnew _ _ hc h1, h2, h3, h4.cast_mono hnew hty, h5.cast_mono hnew ?_⟩
  simp only [Function.valueTy, h1, hnew _ _ hc h1]

theorem IsBoundedVia.bounded_weaken {f : Function} {old old' : List Nat} {T : PassTypes}
    {intr : Callee} {APT : Ty} {ai : Nat} {Size v : Value} {c : Nat}
    (h : IsBoundedVia f old T intr APT ai Size v c) (hsub : ∀ j ∈ old', j ∈ old) :
    IsBoundedVia f old' T intr APT ai Size v c := by
  obtain ⟨hc, call, ptr, h1, h2, h3, h4, h5⟩ := h
  exact ⟨fun h => hc (hsub _ h), call, ptr, h1, h2, h3, h4.cast_weaken hsub, h5.cast_weaken hsub⟩

theorem mkInst_not_boundsCall_bitcast (B : IRBuilder) (id : Nat) (ty : Ty) (ops : List Value) :
    (B.mkInst id Opcode.bitcast ty ops).isBoundsCall = false := rfl

/-- What `IRBuilder::CreateBitCast` does. -/
theorem createBitCast_spec (B : IRBuilder) (f : Function) (v : Value) (destTy : Ty)
    (hnd : f.ids.Nodup) (ht : B.insertPt ∈ f.ids) :
    Frame f (B.CreateBitCast f v destTy).1 ∧
    (∀ j ∈ f.ids, (B.CreateBitCast f v destTy).1.findInst j = f.findInst j) ∧
    IsCastOf (B.CreateBitCast f v destTy).1 f.ids (B.CreateBitCast f v destTy).2 v destTy ∧
    (∀ f0, (insertedBoundsCalls f0 (B.CreateBitCast f v destTy).1).length =
      (insertedBoundsCalls f0 f).length) ∧
    ((B.CreateBitCast f v destTy).2 = v ∨
      (B.CreateBitCast f v destTy).2 = Value.inst f.freshId) := by
  unfold IRBuilder.CreateBitCast
  by_cases hty : f.valueTy v = destTy
  · rw [if_pos hty]
    exact ⟨Frame.frame_refl hnd, fun _ _ => rfl, Or.inl ⟨rfl, hty⟩, fun _ => rfl, Or.inl rfl⟩
  · rw [if_neg hty]
    obtain ⟨h1, h2, h3, h4, h5, _⟩ := insert_spec B f Opcode.bitcast destTy [v] hnd ht
    refine ⟨h2, ?_, ?_, ?_, Or.inr h1⟩
    · intro j hj
      exact h4 j (fun h => freshId_not_mem f (h ▸ hj))
    · right
      refine ⟨B.mkInst f.freshId Opcode.bitcast destTy [v], h1, h3, freshId_not_mem f,
        rfl, rfl, rfl⟩
    · intro f0
      rw [h5 f0, mkInst_not_boundsCall_bitcast]
      rfl

theorem createBoundedAlloca_eq (T : PassTypes) (B : IRBuilder) (intr : Callee)
    (APT : Ty) (ai : Nat) (Size : Value) (f : Function) :
    createBoundedAlloca T B intr APT ai Size f =
      B.CreateBitCast
        (B.insert (B.CreateBitCast f (Value.inst ai) T.I8CapTy).1 (Opcode.call intr)
          T.I8CapTy [(B.CreateBitCast f (Value.inst ai) T.I8CapTy).2, Size]).1
        (B.insert (B.CreateBitCast f (Value.inst ai) T.I8CapTy).1 (Opcode.call intr)
          T.I8CapTy [(B.CreateBitCast f (Value.inst ai) T.I8CapTy).2, Size]).2 APT := rfl

/-- What lines 335-338 / 388-390 do: the function is extended by a call of
the intrinsic (and up to two bitcasts) before the insertion point. -/
theorem createBoundedAlloca_spec (T : PassTypes) (B : IRBuilder) (i : Intrinsic) (sty : Ty)
    (APT : Ty) (ai : Nat) (Size : Value) (f : Function)
    (hnd : f.ids.Nodup) (ht : B.insertPt ∈ f.ids) (hai : ai ∈ f.ids) :
    Frame f (createBoundedAlloca T B (Callee.intrinsic i sty) APT ai Size f).1 ∧
    (∀ j ∈ f.ids,
      (createBoundedAlloca T B (Callee.intrinsic i sty) APT ai Size f).1.findInst j =
        f.findInst j) ∧
    (∃ c v, (createBoundedAlloca T B (Callee.intrinsic i sty) APT ai Size f).2 = Value.inst v ∧
      v ∉ f.ids ∧
      IsBoundedVia (createBoundedAlloca T B (Callee.intrinsic i sty) APT ai Size f).1 f.ids T
        (Callee.intrinsic i sty) APT ai Size
        (createBoundedAlloca T B (Callee.intrinsic i sty) APT ai Size f).2 c ∧
      (∀ k blk, locate f k = some blk → B.insertPt ∈ blk.ids →
        ∃ blk' mid,
          locate (createBoundedAlloca T B (Callee.intrinsic i sty) APT ai Size f).1 k = some blk' ∧
          SegIn blk' c B.insertPt mid ∧ ∀ z ∈ mid, z ∉ f.ids) ∧
      (∀ k blk x mid, locate f k = some blk → SegIn blk x B.insertPt mid →
        ∃ blk' mid',
          locate (createBoundedAlloca T B (Callee.intrinsic i sty) APT ai Size f).1 k = some blk' ∧
          SegIn blk' x B.insertPt mid' ∧ c ∈ mid' ∧ ∀ z ∈ mid', z ∈ mid ∨ z ∉ f.ids)) ∧
    (∀ f0, (∀ j ∈ f0.ids, j ∈ f.ids) →
      (insertedBoundsCalls f0
        (createBoundedAlloca T B (Callee.intrinsic i sty) APT ai Size f).1).length =
        (insertedBoundsCalls f0 f).length + 1) := by
  rw [createBoundedAlloca_eq]
  -- first cast
  obtain ⟨a1, a2, a3, a4, a5⟩ := createBitCast_spec B f (Value.inst ai) T.I8CapTy hnd ht
  generalize B.CreateBitCast f (Value.inst ai) T.I8CapTy = c1 at a1 a2 a3 a4 a5 ⊢
  have hnd1 : c1.1.ids.Nodup := a1.1
  have ht1 : B.insertPt ∈ c1.1.ids := a1.ids_sub ht
  -- the call
  obtain ⟨b1, b2, b3, b4, b5, b6, b7⟩ :=
    insert_spec B c1.1 (Opcode.call (Callee.intrinsic i sty)) T.I8CapTy [c1.2, Size] hnd1 ht1
  have hc2 : c1.1.freshId ∉ c1.1.ids := freshId_not_mem _
  have hc2f : c1.1.freshId ∉ f.ids := fun h => hc2 (a1.ids_sub h)
  generalize B.insert c1.1 (Opcode.call (Callee.intrinsic i sty)) T.I8CapTy [c1.2, Size] = c2
    at b1 b2 b3 b4 b5 b6 b7 ⊢
  have hnd2 : c2.1.ids.Nodup := b2.1
  have ht2 : B.insertPt ∈ c2.1.ids := b2.ids_sub ht1
  have hc2mem : c1.1.freshId ∈ c2.1.ids := mem_ids_of_findInst b3
  -- second cast
  obtain ⟨d1, d2, d3, d4, d5⟩ := createBitCast_spec B c2.1 c2.2 APT hnd2 ht2
  have hc3 : c2.1.freshId ∉ c2.1.ids := freshId_not_mem _
  generalize B.CreateBitCast c2.1 c2.2 APT = c3 at d1 d2 d3 d4 d5 ⊢
  have hsub2 : ∀ j ∈ f.ids, j ∈ c2.1.ids := fun j hj => b2.ids_sub (a1.ids_sub hj)
  have hfind : ∀ j ∈ f.ids, c3.1.findInst j = f.findInst j := by
    intro j hj
    rw [d2 j (hsub2 j hj), b4 j (fun h => hc2f (h ▸ hj)), a2 j hj]
  have hfind1 : ∀ j ∈ c1.1.ids, c3.1.findInst j = c1.1.findInst j := by
    intro j hj
    rw [d2 j (b2.ids_sub hj), b4 j (fun h => hc2 (h ▸ hj))]
  refine ⟨a1.frame_trans (b2.frame_trans d1), hfind, ?_, ?_⟩
  · refine ⟨c1.1.freshId, ?_⟩
    have hv : ∃ v, c3.2 = Value.inst v ∧ v ∉ f.ids := by
      rcases d5 with h | h
      · exact ⟨_, h.trans b1, hc2f⟩
      · exact ⟨_, h, fun hh => hc3 (hsub2 _ hh)⟩
    obtain ⟨v, hv1, hv2⟩ := hv
    refine ⟨v, hv1, hv2, ⟨hc2f, B.mkInst c1.1.freshId (Opcode.call (Callee.intrinsic i sty))
      T.I8CapTy [c1.2, Size], c1.2, ?_, rfl, rfl, ?_, ?_⟩, ?_, ?_⟩
    · rw [d2 _ hc2mem]; exact b3
    · refine a3.cast_mono ?_ ?_
      · intro j x _ hx
        rw [hfind1 j (mem_ids_of_findInst hx)]; exact hx
      · exact valueTy_of_findInst_eq (hfind1 ai (a1.ids_sub hai))
    · rw [b1] at d3
      exact d3.cast_weaken hsub2
    · intro k blk hk hmem
      obtain ⟨blk1, hk1, _, hm1, _⟩ := a1.2.2 k blk hk
      obtain ⟨blk2, hk2, hseg2⟩ := b6 k blk1 hk1 (hm1 _ hmem)
      obtain ⟨blk3, hk3, _, _, hseg3⟩ := d1.2.2 k blk2 hk2
      obtain ⟨mid, hs, _, hnew⟩ := hseg3 _ _ _ hseg2
      refine ⟨blk3, mid, hk3, hs, ?_⟩
      intro z hz
      rcases hnew z hz with h | h
      · cases h
      · exact fun hh => h (hsub2 _ hh)
    · intro k blk x mid hk hs
      obtain ⟨blk1, hk1, _, _, hseg1⟩ := a1.2.2 k blk hk
      obtain ⟨mid1, hs1, _, hn1⟩ := hseg1 _ _ _ hs
      obtain ⟨blk2, mid2, hk2, hs2, hc2in, hn2⟩ := b7 k blk1 x mid1 hk1 hs1
      obtain ⟨blk3, hk3, _, _, hseg3⟩ := d1.2.2 k blk2 hk2
      obtain ⟨mid3, hs3, hsub3, hn3⟩ := hseg3 _ _ _ hs2
      refine ⟨blk3, mid3, hk3, hs3, hsub3 _ hc2in, fun z hz => ?_⟩
      rcases hn3 z hz with h | h
      · rcases hn2 z h with h' | h'
        · exact hn1 z h'
        · exact Or.inr (fun hh => h' (a1.ids_sub hh))
      · exact Or.inr (fun hh => h (hsub2 _ hh))
  · intro f0 hf0
    rw [d4 f0, b5 f0, a4 f0]
    have hnot : c1.1.freshId ∉ f0.ids := fun h => hc2f (hf0 _ h)
    simp [Inst.isBoundsCall, IRBuilder.mkInst, hnot]

end CheriBoundAllocas

namespace CheriBoundAllocas

theorem insert_phi (B : IRBuilder) (f : Function) (op : Opcode) (ty : Ty)
    (ops : List Value) (hop : op ≠ Opcode.phi) :
    (PhiOK f → PhiOK (B.insert f op ty ops).1) ∧
    (f.ids.Nodup → (∀ i, f.findInst B.insertPt = some i → i.op ≠ Opcode.phi) →
      PhisFirst f → PhisFirst (B.insert f op ty ops).1) :=
  ⟨fun h => PhiOK_insertBefore hop h, fun hnd ht h => PhisFirst_insertBefore hnd hop ht h⟩

theorem createBitCast_phi (B : IRBuilder) (f : Function) (v : Value) (destTy : Ty) :
    (PhiOK f → PhiOK (B.CreateBitCast f v destTy).1) ∧
    (f.ids.Nodup → (∀ i, f.findInst B.insertPt = some i → i.op ≠ Opcode.phi) →
      PhisFirst f → PhisFirst (B.CreateBitCast f v destTy).1) := by
  unfold IRBuilder.CreateBitCast
  by_cases hty : f.valueTy v = destTy
  · rw [if_pos hty]
    exact ⟨fun h => h, fun _ _ h => h⟩
  · rw [if_neg hty]
    exact insert_phi B f Opcode.bitcast destTy [v] (by decide)

theorem createBoundedAlloca_phi (T : PassTypes) (B : IRBuilder) (intr : Callee)
    (APT : Ty) (ai : Nat) (Size : Value) (f : Function)
    (hnd : f.ids.Nodup) (ht : B.insertPt ∈ f.ids) :
    (PhiOK f → PhiOK (createBoundedAlloca T B intr APT ai Size f).1) ∧
    ((∀ i, f.findInst B.insertPt = some i → i.op ≠ Opcode.phi) →
      PhisFirst f → PhisFirst (createBoundedAlloca T B intr APT ai Size f).1) := by
  rw [createBoundedAlloca_eq]
  obtain ⟨a1, a2, -, -, -⟩ := createBitCast_spec B f (Value.inst ai) T.I8CapTy hnd ht
  obtain ⟨p1, q1⟩ := createBitCast_phi B f (Value.inst ai) T.I8CapTy
  generalize B.CreateBitCast f (Value.inst ai) T.I8CapTy = c1 at a1 a2 p1 q1 ⊢
  have ht1 : B.insertPt ∈ c1.1.ids := a1.ids_sub ht
  obtain ⟨-, b2, -, b4, -, -⟩ :=
    insert_spec B c1.1 (Opcode.call intr) T.I8CapTy [c1.2, Size] a1.1 ht1
  obtain ⟨p2, q2⟩ := insert_phi B c1.1 (Opcode.call intr) T.I8CapTy [c1.2, Size] (by simp)
  generalize B.insert c1.1 (Opcode.call intr) T.I8CapTy [c1.2, Size] = c2
    at b2 b4 p2 q2 ⊢
  obtain ⟨p3, q3⟩ := createBitCast_phi B c2.1 c2.2 APT
  refine ⟨fun h => p3 (p2 (p1 h)), fun htgt h => ?_⟩
  have htgt1 : ∀ i, c1.1.findInst B.insertPt = some i → i.op ≠ Opcode.phi := by
    intro i hi; rw [a2 _ ht] at hi; exact htgt i hi
  have htgt2 : ∀ i, c2.1.findInst B.insertPt = some i → i.op ≠ Opcode.phi := by
    intro i hi
    rw [b4 _ (fun h => freshId_not_mem c1.1 (h ▸ ht1))] at hi
    exact htgt1 i hi
  exact q3 b2.1 htgt2 (q2 a1.1 htgt1 (q1 hnd htgt h))

end CheriBoundAllocas

namespace CheriBoundAllocas

/-! ## The steps before the bounds are injected -/

theorem KeepsOps.ops_refl (f : Function) : KeepsOps f f :=
  fun _ i h => ⟨i, h, rfl, rfl⟩

theorem KeepsOps.ops_trans {f g h : Function} (h1 : KeepsOps f g) (h2 : KeepsOps g h) :
    KeepsOps f h := by
  intro j i hi
  obtain ⟨i', hi', e1, e2⟩ := h1 j i hi
  obtain ⟨i'', hi'', e3, e4⟩ := h2 j i' hi'
  exact ⟨i'', hi'', e3.trans e1, e4.trans e2⟩

theorem KeepsOps.getOperand {f g : Function} (h : KeepsOps f g) {u : Use} {v : Value}
    (hu : f.getOperand u = some v) : g.getOperand u = some v := by
  unfold Function.getOperand at hu ⊢
  cases hi : f.findInst u.user with
  | none => simp [hi] at hu
  | some i =>
    obtain ⟨i', hi', e1, _⟩ := h _ i hi
    simp only [hi] at hu
    simp only [hi', e1, hu]

theorem KeepsOps.valueTy {f g : Function} (h : KeepsOps f g) {j : Nat} (hj : j ∈ f.ids) :
    g.valueTy (Value.inst j) = f.valueTy (Value.inst j) := by
  obtain ⟨i, hi⟩ := exists_findInst_of_mem_ids hj
  obtain ⟨i', hi', _, e2⟩ := h j i hi
  simp only [Function.valueTy, hi, hi', e2]

theorem KeepsOps_of_findInst_eq {f g : Function}
    (h : ∀ j ∈ f.ids, g.findInst j = f.findInst j) : KeepsOps f g := by
  intro j i hi
  exact ⟨i, by rw [h j (mem_ids_of_findInst hi)]; exact hi, rfl, rfl⟩

theorem KeepsOps_modifyInst (f : Function) (id : Nat) (g : Inst → Inst)
    (hid : ∀ i, (g i).id = i.id) (hg : ∀ i, (g i).operands = i.operands ∧ (g i).ty = i.ty) :
    KeepsOps f (f.modifyInst id g) := by
  intro j i hi
  rw [findInst_modifyInst f id g hid, hi]
  simp only [Option.map_some']
  split
  · exact ⟨_, rfl, (hg i).1, (hg i).2⟩
  · exact ⟨_, rfl, rfl, rfl⟩

theorem Frame.findInst_op {f g : Function} (h : Frame f g) {t : Nat}
    (ht : t ∈ f.ids) (hop : ∀ i, f.findInst t = some i → i.op ≠ Opcode.phi) :
    ∀ i, g.findInst t = some i → i.op ≠ Opcode.phi := by
  intro i hi
  obtain ⟨i0, hi0⟩ := exists_findInst_of_mem_ids ht
  obtain ⟨i', hi', hs⟩ := h.2.1 t i0 hi0
  rw [hi] at hi'
  cases hi'
  rw [hs.2.1]
  exact hop i0 hi0

theorem Ext.ext_refl (t : Nat) {f : Function} (hnd : f.ids.Nodup) : Ext t f f :=
  ⟨Frame.frame_refl hnd, KeepsOps.ops_refl f, fun _ => rfl, fun h => h, fun _ h => h⟩

theorem Ext.ext_trans {t : Nat} {f g h : Function} (ht : t ∈ f.ids) (h1 : Ext t f g)
    (h2 : Ext t g h) : Ext t f h := by
  obtain ⟨a1, a2, a3, a4, a5⟩ := h1
  obtain ⟨b1, b2, b3, b4, b5⟩ := h2
  refine ⟨a1.frame_trans b1, a2.ops_trans b2, fun f0 => (b3 f0).trans (a3 f0), fun x => b4 (a4 x), ?_⟩
  intro hop hpf
  exact b5 (a1.findInst_op ht hop) (a5 hop hpf)

theorem Ext_insert (B : IRBuilder) (f : Function) (op : Opcode) (ty : Ty)
    (ops : List Value) (hnd : f.ids.Nodup) (ht : B.insertPt ∈ f.ids)
    (hop : op ≠ Opcode.phi) (hcall : ∀ c, op ≠ Opcode.call c) :
    Ext B.insertPt f (B.insert f op ty ops).1 := by
  obtain ⟨-, h2, -, h4, h5, -⟩ := insert_spec B f op ty ops hnd ht
  obtain ⟨p1, p2⟩ := insert_phi B f op ty ops hop
  refine ⟨h2, KeepsOps_of_findInst_eq (fun j hj => h4 j (fun h => freshId_not_mem f (h ▸ hj))),
    ?_, p1, p2 hnd⟩
  intro f0
  rw [h5 f0]
  have : (B.mkInst f.freshId op ty ops).isBoundsCall = false := by
    unfold Inst.isBoundsCall IRBuilder.mkInst
    simp only
    split
    · exact absurd rfl (hcall _)
    · rfl
  simp [this]

theorem Ext_modifyInst (t : Nat) (f : Function) (hnd : f.ids.Nodup) (id : Nat)
    (g : Inst → Inst) (hs : ∀ i, SameStatic i (g i))
    (hg : ∀ i, (g i).operands = i.operands ∧ (g i).ty = i.ty) :
    Ext t f (f.modifyInst id g) :=
  ⟨Frame_modifyInst hnd id g hs, KeepsOps_modifyInst f id g (fun i => (hs i).1) hg,
    fun f0 => insertedBoundsCalls_length_modifyInst f0 f id g hs,
    PhiOK_modifyInst id g hs, fun _ h => PhisFirst_modifyInst id g (fun i => (hs i).2.1) h⟩

/-- Embeds `CreateZExtOrTrunc` keeps a constant array size constant and otherwise
inserts at most a cast. -/
theorem createZExtOrTrunc_spec (B : IRBuilder) (f : Function) (v : Value) (destTy : Ty)
    (hnd : f.ids.Nodup) (ht : B.insertPt ∈ f.ids) :
    Ext B.insertPt f (B.CreateZExtOrTrunc f v destTy).1 ∧
    ((∃ b c, v = Value.constInt b c) →
      ∃ b c, (B.CreateZExtOrTrunc f v destTy).2 = Value.constInt b c) := by
  unfold IRBuilder.CreateZExtOrTrunc
  simp only
  split
  · cases v with
    | constInt b c => exact ⟨Ext.ext_refl _ hnd, fun _ => ⟨_, _, rfl⟩⟩
    | inst id =>
      exact ⟨Ext_insert B f _ _ _ hnd ht (by decide) (by intro c; simp), by rintro ⟨b, c, h⟩; cases h⟩
    | nullPtr ty =>
      exact ⟨Ext_insert B f _ _ _ hnd ht (by decide) (by intro c; simp), by rintro ⟨b, c, h⟩; cases h⟩
    | other tag ty =>
      exact ⟨Ext_insert B f _ _ _ hnd ht (by decide) (by intro c; simp), by rintro ⟨b, c, h⟩; cases h⟩
  · split
    · cases v with
      | constInt b c => exact ⟨Ext.ext_refl _ hnd, fun _ => ⟨_, _, rfl⟩⟩
      | inst id =>
        exact ⟨Ext_insert B f _ _ _ hnd ht (by decide) (by intro c; simp), by rintro ⟨b, c, h⟩; cases h⟩
      | nullPtr ty =>
        exact ⟨Ext_insert B f _ _ _ hnd ht (by decide) (by intro c; simp), by rintro ⟨b, c, h⟩; cases h⟩
      | other tag ty =>
        exact ⟨Ext_insert B f _ _ _ hnd ht (by decide) (by intro c; simp), by rintro ⟨b, c, h⟩; cases h⟩
    · exact ⟨Ext.ext_refl _ hnd, fun h => h⟩

theorem createMul_spec (B : IRBuilder) (f : Function) (lhs rhs : Value)
    (hnd : f.ids.Nodup) (ht : B.insertPt ∈ f.ids) :
    Ext B.insertPt f (B.CreateMul f lhs rhs).1 ∧
    ((∃ b c, lhs = Value.constInt b c) → (∃ b c, rhs = Value.constInt b c) →
      ∃ b c, (B.CreateMul f lhs rhs).2 = Value.constInt b c) := by
  unfold IRBuilder.CreateMul
  split
  · exact ⟨Ext.ext_refl _ hnd, fun _ _ => ⟨_, _, rfl⟩⟩
  · rename_i hne
    refine ⟨Ext_insert B f _ _ _ hnd ht (by decide) (by intro c; simp), ?_⟩
    rintro ⟨b, c, rfl⟩ ⟨b', c', rfl⟩
    exact (hne b c b' c' rfl rfl).elim

end CheriBoundAllocas

namespace CheriBoundAllocas

theorem instsAfter_append {pre R : List Inst} {ix : Inst} {t : Nat} (hix : ix.id = t)
    (hpre : t ∉ pre.map (fun i => i.id)) : instsAfter (pre ++ ix :: R) t = some R := by
  induction pre with
  | nil => simp [instsAfter, hix]
  | cons a l ih =>
    simp only [List.map_cons, List.mem_cons, not_or] at hpre
    simp only [List.cons_append, instsAfter, Ne.symm hpre.1, if_false]
    exact ih hpre.2

theorem instsAfter_of_seg {blk : Block} {ai y : Nat} {mid : List Nat} (hnd : blk.ids.Nodup)
    (hseg : SegIn blk ai y mid) :
    ∃ pre ix R, blk.insts = pre ++ ix :: R ∧ ix.id = ai ∧ R ≠ [] ∧
      instsAfter blk.insts ai = some R := by
  obtain ⟨pre, post, ix, iy, lmid, hb, hx, _, _⟩ := segIn_iff_insts.mp hseg
  refine ⟨pre, ix, lmid ++ iy :: post, hb, hx, by simp, ?_⟩
  rw [hb]
  apply instsAfter_append hx
  intro hmem
  unfold Block.ids at hnd
  rw [hb, List.map_append, List.map_cons] at hnd
  exact (List.nodup_append.mp hnd).2.2 hmem (by rw [hx]; exact List.mem_cons_self _ _)

theorem nnd_exists {g : Function} {ai y : Nat} {blk : Block} {mid : List Nat} {t : Inst}
    (hnd : g.ids.Nodup) (hp : g.parentOf ai = some blk) (hseg : SegIn blk ai y mid)
    (hterm : blk.getTerminator = some t) :
    ∃ nnd, g.getNextNonDebugInstruction ai = some nnd ∧ nnd.id ∈ g.ids ∧ nnd ∈ g.insts ∧
      ((∀ i, g.findInst ai = some i → i.op ≠ Opcode.phi) → phisFirst blk.insts = true →
        nnd.op ≠ Opcode.phi) := by
  have hb := (parentOf_mem_ids hp).2
  obtain ⟨pre, ix, R, hins, hix, hR, hafter⟩ := instsAfter_of_seg (block_ids_nodup hnd hb) hseg
  have ht : t ∈ R ∧ t.op = Opcode.terminator := by
    unfold Block.getTerminator at hterm
    rw [hins] at hterm
    have hl : (pre ++ ix :: R).getLast? = R.getLast? := by
      rw [List.getLast?_append]
      obtain ⟨r, R', hR'⟩ := List.exists_cons_of_ne_nil hR
      rw [hR', List.getLast?_cons_cons]
      cases h : (r :: R').getLast? with
      | none => simp at h
      | some x => rfl
    rw [hl] at hterm
    cases hlast : R.getLast? with
    | none => simp [hlast] at hterm
    | some x =>
      simp only [hlast] at hterm
      split at hterm
      · cases hterm
        exact ⟨List.mem_of_getLast?_eq_some hlast, by assumption⟩
      · cases hterm
  have hsome : (R.find? (fun i => decide (i.op ≠ Opcode.dbgInfo))).isSome := by
    rw [List.find?_isSome]
    exact ⟨t, ht.1, by simp [ht.2]⟩
  obtain ⟨nnd, hnnd⟩ := Option.isSome_iff_exists.mp hsome
  have hmemR : nnd ∈ R := List.mem_of_find?_eq_some hnnd
  have hmem : nnd ∈ blk.insts := by
    rw [hins]; exact List.mem_append_right _ (List.mem_cons_of_mem _ hmemR)
  refine ⟨nnd, ?_, mem_ids_of_mem_block hb (List.mem_map.mpr ⟨nnd, hmem, rfl⟩),
    List.mem_flatMap.mpr ⟨blk, hb, hmem⟩, ?_⟩
  · unfold Function.getNextNonDebugInstruction
    simp only [hp, hafter, hnnd]
  · intro hop hpf
    have hixm : ix ∈ g.insts :=
      List.mem_flatMap.mpr ⟨blk, hb, by rw [hins]; simp⟩
    have hixop : ix.op ≠ Opcode.phi := hop ix (hix ▸ findInst_eq_some_of_mem hnd hixm)
    rw [hins] at hpf
    clear hins hafter hseg hterm hp
    induction pre with
    | nil =>
      simp only [List.nil_append, phisFirst, hixop, if_false, List.all_eq_true] at hpf
      simpa using hpf nnd hmemR
    | cons a l ih =>
      simp only [List.cons_append, phisFirst] at hpf
      split at hpf
      · exact ih hpf
      · rw [List.all_eq_true] at hpf
        simpa using hpf nnd (List.mem_append_right _ (List.mem_cons_of_mem _ hmemR))

theorem next_not_phi {f : Function} {ai : Nat} {next : Inst} (hnd : f.ids.Nodup)
    (h : f.getNextNode ai = some next) (hop : ∀ i, f.findInst ai = some i → i.op ≠ Opcode.phi)
    (hpf : PhisFirst f) : ∀ i, f.findInst next.id = some i → i.op ≠ Opcode.phi := by
  unfold Function.getNextNode at h
  cases hp : f.parentOf ai with
  | none => simp [hp] at h
  | some blk =>
    simp only [hp] at h
    cases ha : instsAfter blk.insts ai with
    | none => simp [ha] at h
    | some rest =>
      simp only [ha] at h
      obtain ⟨pre, ix, hl, hix⟩ := instsAfter_eq_some ha
      have hb := (parentOf_mem_ids hp).2
      have hnm : next ∈ rest := List.mem_of_mem_head? h
      have hixm : ix ∈ f.insts := List.mem_flatMap.mpr ⟨blk, hb, by rw [hl]; simp⟩
      have hixop : ix.op ≠ Opcode.phi := hop ix (hix ▸ findInst_eq_some_of_mem hnd hixm)
      have hnf : next ∈ f.insts :=
        List.mem_flatMap.mpr ⟨blk, hb, by rw [hl]; simp [hnm]⟩
      have hpfb := hpf blk hb
      rw [hl] at hpfb
      have hnop : next.op ≠ Opcode.phi := by
        clear hl ha hp
        induction pre with
        | nil =>
          simp only [List.nil_append, phisFirst, hixop, if_false, List.all_eq_true] at hpfb
          simpa using hpfb next hnm
        | cons a l ih =>
          simp only [List.cons_append, phisFirst] at hpfb
          split at hpfb
          · exact ih hpfb
          · rw [List.all_eq_true] at hpfb
            simpa using hpfb next (List.mem_append_right _ (List.mem_cons_of_mem _ hnm))
      intro i hi
      rw [findInst_eq_some_of_mem hnd hnf] at hi
      cases hi
      exact hnop

/-- What lines 180-207 do. -/
theorem prologue_spec {DL : DataLayout} {TLI : TargetLowering} {T : PassTypes}
    {f : Function} {ai : Nat} {p : Prologue} (hnd : f.ids.Nodup)
    (hp : prologue DL TLI T f ai = some p) :
    ∃ next arraySizeOp, f.findInst ai = some p.AI ∧ f.getNextNode ai = some next ∧
      p.B = { insertPt := next.id, debugLoc := p.AI.debugLoc } ∧
      p.AI.operands.head? = some arraySizeOp ∧
      next.id ∈ f.ids ∧ Ext next.id f p.fn ∧
      ((∃ b c, arraySizeOp = Value.constInt b c) → ∃ b c, p.ArraySize = Value.constInt b c) := by
  unfold prologue at hp
  cases hAI : f.findInst ai with
  | none => simp [hAI] at hp
  | some AI =>
    simp only [hAI] at hp
    cases hnext : f.getNextNode ai with
    | none => simp [hnext] at hp
    | some next =>
      simp only [hnext] at hp
      cases hop : AI.operands.head? with
      | none => simp [hop] at hp
      | some arraySizeOp =>
        simp only [hop, Option.some.injEq] at hp
        have hmem : next.id ∈ f.ids := by
          obtain ⟨blk, hblk, hseg⟩ := getNextNode_seg hnext
          obtain ⟨pre, post, hids⟩ := hseg
          exact mem_ids_of_mem_block (parentOf_mem_ids hblk).2 (by rw [hids]; simp)
        obtain ⟨e1, e2⟩ := createZExtOrTrunc_spec
          { insertPt := next.id, debugLoc := AI.debugLoc } f arraySizeOp T.SizeTy hnd hmem
        subst hp
        refine ⟨next, arraySizeOp, rfl, rfl, rfl, hop, hmem, ?_, e2⟩
        simp only
        split
        · exact Ext.ext_trans hmem e1 (Ext_modifyInst _ _ e1.1.1 _ _
            (fun i => ⟨rfl, rfl, rfl, rfl, rfl⟩) (fun i => ⟨rfl, rfl⟩))
        · exact e1

/-- What lines 271-275 do. -/
theorem computeSize_spec (DL : DataLayout) (T : PassTypes) (p : Prologue)
    (hnd : p.fn.ids.Nodup) (ht : p.B.insertPt ∈ p.fn.ids) :
    Ext p.B.insertPt p.fn (computeSize DL T p).1 ∧
    ((∃ b c, p.ArraySize = Value.constInt b c) →
      ∃ b c, (computeSize DL T p).2 = Value.constInt b c) := by
  unfold computeSize
  simp only
  split
  · obtain ⟨h1, h2⟩ := createMul_spec p.B p.fn
      (Value.constInt T.SizeTy.scalarSizeInBits
        (wrap64 (DL.getTypeAllocSize p.AI.allocatedTy) % 2 ^ 32 % 2 ^ T.SizeTy.scalarSizeInBits))
      p.ArraySize hnd ht
    exact ⟨h1, fun h => h2 ⟨_, _, rfl⟩ h⟩
  · exact ⟨Ext.ext_refl _ hnd, fun _ => ⟨_, _, rfl⟩⟩

end CheriBoundAllocas

namespace CheriBoundAllocas

theorem getOperand_insertBefore_ne (f : Function) {t : Nat} {n : Inst} {u : Use}
    (h : n.id ≠ u.user) : (f.insertBefore t n).getOperand u = f.getOperand u :=
  getOperand_of_findInst_eq (findInst_insertBefore_ne f h)

theorem getOperand_modifyInst_ops (f : Function) (id : Nat) (g : Inst → Inst)
    (hid : ∀ i, (g i).id = i.id) (hg : ∀ i, (g i).operands = i.operands) (u : Use) :
    (f.modifyInst id g).getOperand u = f.getOperand u := by
  unfold Function.getOperand
  rw [findInst_modifyInst f id g hid]
  cases f.findInst u.user with
  | none => rfl
  | some i =>
    simp only [Option.map_some']
    split
    · rw [hg i]
    · rfl

theorem sameStatic_rauw (old new : Value) (i : Inst) :
    SameStatic i { i with operands := i.operands.map (fun v => if v = old then new else v) } :=
  ⟨rfl, rfl, rfl, by simp, rfl⟩

theorem findInst_rauw (f : Function) (old new : Value) (j : Nat) :
    (f.replaceAllUsesWith old new).findInst j =
      (f.findInst j).map (fun i =>
        { i with operands := i.operands.map (fun v => if v = old then new else v) }) :=
  findInst_mapInsts f
    (fun i => { i with operands := i.operands.map (fun v => if v = old then new else v) })
    (fun _ => rfl) j

theorem getOperand_rauw (f : Function) (old new : Value) (u : Use) :
    (f.replaceAllUsesWith old new).getOperand u =
      (f.getOperand u).map (fun v => if v = old then new else v) := by
  unfold Function.getOperand
  rw [findInst_rauw]
  cases f.findInst u.user with
  | none => rfl
  | some i => simp only [Option.map_some', List.getElem?_map]

theorem Frame_rauw {f : Function} (hnd : f.ids.Nodup) (old new : Value) :
    Frame f (f.replaceAllUsesWith old new) :=
  Frame_mapInsts hnd _ (sameStatic_rauw old new)

theorem count_rauw (f0 f : Function) (old new : Value) :
    (insertedBoundsCalls f0 (f.replaceAllUsesWith old new)).length =
      (insertedBoundsCalls f0 f).length :=
  insertedBoundsCalls_length_mapInsts f0 f _ (sameStatic_rauw old new)

theorem PhiOK_rauw {f : Function} (old new : Value) (h : PhiOK f) :
    PhiOK (f.replaceAllUsesWith old new) :=
  PhiOK_mapInsts _ (sameStatic_rauw old new) h

theorem PhisFirst_rauw {f : Function} (old new : Value) (h : PhisFirst f) :
    PhisFirst (f.replaceAllUsesWith old new) :=
  PhisFirst_mapInsts
    (fun i => { i with operands := i.operands.map (fun v => if v = old then new else v) })
    (fun _ => rfl) h

theorem count_setOperand (f0 f : Function) (u : Use) (v : Value) :
    (insertedBoundsCalls f0 (f.setOperand u v)).length = (insertedBoundsCalls f0 f).length :=
  insertedBoundsCalls_length_modifyInst f0 f u.user _ (sameStatic_setOp u.opNo v)

theorem PhiOK_setOperand {f : Function} (u : Use) (v : Value) (h : PhiOK f) :
    PhiOK (f.setOperand u v) :=
  PhiOK_modifyInst u.user _ (sameStatic_setOp u.opNo v) h

theorem PhisFirst_setOperand {f : Function} (u : Use) (v : Value) (h : PhisFirst f) :
    PhisFirst (f.setOperand u v) :=
  PhisFirst_modifyInst u.user (fun i => { i with operands := i.operands.set u.opNo v })
    (fun _ => rfl) h

theorem withoutTailPadding_not_boundsCall (id : Nat) (ty : Ty) :
    (withoutTailPadding id ty).isBoundsCall = false := rfl

/-- What lines 277-315 do: either no operand changes, or (typed pointers,
padding applied) every use of the alloca is redirected to the new
`without-tail-padding` bitcast of the alloca. -/
theorem applyTailPadding_spec (TLI : TargetLowering) (T : PassTypes) (p : Prologue)
    (g : Function) (Size : Value) (hnd : g.ids.Nodup) {blk : Block} {y : Nat}
    {mid : List Nat} {t : Inst}
    (hloc : g.parentOf p.AI.id = some blk) (hseg : SegIn blk p.AI.id y mid)
    (hterm : blk.getTerminator = some t)
    (hconst : g.isStaticAlloca p.AI = true → ∃ b c, Size = Value.constInt b c) :
    ∃ h Size2, applyTailPadding TLI T p g Size = some (h, Size2) ∧ Frame g h ∧
      (∀ f0, (insertedBoundsCalls f0 h).length = (insertedBoundsCalls f0 g).length) ∧
      (PhiOK g → PhiOK h) ∧
      ((∀ i, g.findInst p.AI.id = some i → i.op ≠ Opcode.phi) → PhisFirst g → PhisFirst h) ∧
      (KeepsOps g h ∨
        (p.AI.ty.isOpaquePointerTy = false ∧
          ∃ c, c.id ∉ g.ids ∧ h.findInst c.id = some c ∧ c.op = Opcode.bitcast ∧
            c.operands = [Value.inst p.AI.id] ∧ c.ty = p.AI.ty ∧
            ∀ u v, u.user ∈ g.ids → g.getOperand u = some v →
              h.getOperand u = some (if v = Value.inst p.AI.id then Value.inst c.id else v))) := by
  have trivial_case : ∃ h Size2, some (g, Size) = some (h, Size2) ∧ Frame g h ∧
      (∀ f0, (insertedBoundsCalls f0 h).length = (insertedBoundsCalls f0 g).length) ∧
      (PhiOK g → PhiOK h) ∧
      ((∀ i, g.findInst p.AI.id = some i → i.op ≠ Opcode.phi) → PhisFirst g → PhisFirst h) ∧
      (KeepsOps g h ∨
        (p.AI.ty.isOpaquePointerTy = false ∧
          ∃ c, c.id ∉ g.ids ∧ h.findInst c.id = some c ∧ c.op = Opcode.bitcast ∧
            c.operands = [Value.inst p.AI.id] ∧ c.ty = p.AI.ty ∧
            ∀ u v, u.user ∈ g.ids → g.getOperand u = some v →
              h.getOperand u = some (if v = Value.inst p.AI.id then Value.inst c.id else v))) :=
    ⟨g, Size, rfl, Frame.frame_refl hnd, fun _ => rfl, fun h => h, fun _ h => h,
      Or.inl (KeepsOps.ops_refl g)⟩
  unfold applyTailPadding
  split
  · rename_i hcond
    simp only [Bool.and_eq_true, decide_eq_true_eq] at hcond
    obtain ⟨b, sz, rfl⟩ := hconst hcond.1
    simp only
    split
    · rename_i hpad
      -- padding is applied
      generalize hTWP : Ty.struct2
        (if p.AI.isArrayAllocation = true then
          match p.ArraySize with
          | Value.constInt _ n => Ty.array p.AI.allocatedTy n
          | _ => p.AI.allocatedTy
        else p.AI.allocatedTy)
        (Ty.array (Ty.int 8) (TLI.getTailPaddingForPreciseBounds (getLimitedValue sz))) = TWP
      have hs1 : ∀ i : Inst, SameStatic i { i with allocatedTy := TWP } :=
        fun i => ⟨rfl, rfl, rfl, rfl, rfl⟩
      have e1 : Ext p.AI.id g (g.modifyInst p.AI.id (fun i => { i with allocatedTy := TWP })) :=
        Ext_modifyInst _ g hnd _ _ hs1 (fun i => ⟨rfl, rfl⟩)
      generalize hf1 : g.modifyInst p.AI.id (fun i => { i with allocatedTy := TWP }) = f1 at e1 ⊢
      split
      · rename_i hopq
        simp only [Bool.not_eq_true'] at hopq
        have hnd1 : f1.ids.Nodup := e1.1.1
        have hloc' : locate g (p.AI.id, none) = some blk := hloc
        obtain ⟨blk1, hloc1, hterm1, _, hseg1⟩ := e1.1.2.2 _ _ hloc'
        obtain ⟨mid1, hs1', _, _⟩ := hseg1 _ _ _ hseg
        have hterm1' : ∃ t1, blk1.getTerminator = some t1 := by
          rw [hterm] at hterm1
          cases h : blk1.getTerminator with
          | none => simp [h] at hterm1
          | some t1 => exact ⟨t1, rfl⟩
        obtain ⟨t1, ht1⟩ := hterm1'
        have hloc1' : f1.parentOf p.AI.id = some blk1 := hloc1
        obtain ⟨nnd, hnnd, hnndmem, hnndin, hnndphi⟩ := nnd_exists hnd1 hloc1' hs1' ht1
        simp only [hnnd]
        have hfresh : (withoutTailPadding f1.freshId p.AI.ty).id ∉ f1.ids := freshId_not_mem f1
        have hai1 : p.AI.id ∈ f1.ids :=
          mem_ids_of_mem_block (parentOf_mem_ids hloc1').2 (parentOf_mem_ids hloc1').1
        have hnp_ai : f1.freshId ≠ p.AI.id := fun h => freshId_not_mem f1 (h ▸ hai1)
        have F2 := Frame_insertBefore hnd1 hfresh hnndmem
        generalize hf2 : f1.insertBefore nnd.id (withoutTailPadding f1.freshId p.AI.ty) = f2 at F2 ⊢
        have F3 : Frame f2 (f2.replaceAllUsesWith (Value.inst p.AI.id) (Value.inst f1.freshId)) :=
          Frame_rauw F2.1 _ _
        generalize hf3 : f2.replaceAllUsesWith (Value.inst p.AI.id) (Value.inst f1.freshId) = f3
          at F3 ⊢
        have hs4 : ∀ i : Inst, SameStatic i
            { i with ty := Ty.ptr TWP p.AI.ty.addressSpace } := fun i => ⟨rfl, rfl, rfl, rfl, rfl⟩
        have F4 : Frame f3 (f3.modifyInst p.AI.id
            (fun i => { i with ty := Ty.ptr TWP p.AI.ty.addressSpace })) :=
          Frame_modifyInst F3.1 _ _ hs4
        generalize hf4 : f3.modifyInst p.AI.id
            (fun i => { i with ty := Ty.ptr TWP p.AI.ty.addressSpace }) = f4 at F4 ⊢
        have F5 : Frame f4 (f4.setOperand { user := f1.freshId, opNo := 0 } (Value.inst p.AI.id)) :=
          Frame_setOperand F4.1 _ _
        refine ⟨_, _, rfl, e1.1.frame_trans (F2.frame_trans (F3.frame_trans (F4.frame_trans F5))), ?_, ?_, ?_, Or.inr ⟨hopq, ?_⟩⟩
        · intro f0
          rw [count_setOperand, ← hf4,
            insertedBoundsCalls_length_modifyInst f0 f3 _ _ hs4, ← hf3, count_rauw, ← hf2,
            insertedBoundsCalls_length_insertBefore f0 f1 hnd1 hnndmem,
            withoutTailPadding_not_boundsCall, e1.2.2.1 f0]
          simp
        · intro hphi
          apply PhiOK_setOperand
          rw [← hf4]
          apply PhiOK_modifyInst _ _ hs4
          rw [← hf3]
          apply PhiOK_rauw
          rw [← hf2]
          exact PhiOK_insertBefore (by simp [withoutTailPadding]) (e1.2.2.2.1 hphi)
        · intro hop hpf
          apply PhisFirst_setOperand
          rw [← hf4]
          apply PhisFirst_modifyInst p.AI.id
            (fun i => { i with ty := Ty.ptr TWP p.AI.ty.addressSpace }) (fun _ => rfl)
          rw [← hf3]
          apply PhisFirst_rauw
          rw [← hf2]
          have hpf1 : PhisFirst f1 := e1.2.2.2.2 hop hpf
          have hop1 := e1.1.findInst_op (mem_ids_of_mem_block (parentOf_mem_ids hloc).2
            (parentOf_mem_ids hloc).1) hop
          have hnndop := hnndphi hop1 (hpf1 blk1 (parentOf_mem_ids hloc1').2)
          refine PhisFirst_insertBefore hnd1 (by simp [withoutTailPadding]) ?_ hpf1
          intro i hi
          rw [findInst_eq_some_of_mem hnd1 hnndin] at hi
          cases hi
          exact hnndop
        · -- the new bitcast and the redirected operands
          have h2np : f2.findInst f1.freshId = some (withoutTailPadding f1.freshId p.AI.ty) := by
            rw [← hf2]; exact findInst_insertBefore_new f1 hfresh hnndmem
          have h3np : f3.findInst f1.freshId = some (withoutTailPadding f1.freshId p.AI.ty) := by
            rw [← hf3, findInst_rauw, h2np]
            simp [withoutTailPadding]
          have h4np : f4.findInst f1.freshId = some (withoutTailPadding f1.freshId p.AI.ty) := by
            rw [← hf4, findInst_modifyInst_ne f3 p.AI.id
              (fun i => { i with ty := Ty.ptr TWP p.AI.ty.addressSpace }) (fun _ => rfl) hnp_ai,
              h3np]
          refine ⟨{ withoutTailPadding f1.freshId p.AI.ty with operands := [Value.inst p.AI.id] },
            ?_, ?_, rfl, rfl, rfl, ?_⟩
          · intro hmem
            exact freshId_not_mem f1 (e1.1.ids_sub hmem)
          · show (f4.setOperand _ _).findInst f1.freshId = _
            rw [findInst_setOperand, h4np]
            simp [withoutTailPadding]
          · intro u v hu huv
            have hune : f1.freshId ≠ u.user := fun h => freshId_not_mem f1 (h ▸ e1.1.ids_sub hu)
            show (f4.setOperand _ _).getOperand u = _
            rw [getOperand_setOperand_ne f4 _ u _ (by
                intro h; apply hune; rw [h]),
              ← hf4, getOperand_modifyInst_ops f3 p.AI.id
                (fun i => { i with ty := Ty.ptr TWP p.AI.ty.addressSpace })
                (fun _ => rfl) (fun _ => rfl),
              ← hf3, getOperand_rauw, ← hf2,
              getOperand_insertBefore_ne f1 (show (withoutTailPadding f1.freshId p.AI.ty).id ≠ u.user from hune),
              e1.2.1.getOperand huv]
            rfl
      · exact ⟨_, _, rfl, e1.1, e1.2.2.1, e1.2.2.2.1, e1.2.2.2.2, Or.inl e1.2.1⟩
    · exact trivial_case
  · exact trivial_case

end CheriBoundAllocas

namespace CheriBoundAllocas

/-! ## The single-intrinsic branch -/

theorem setAll_frame (v : Value) (uses : List Use) (g : Function) (hnd : g.ids.Nodup) :
    Frame g (uses.foldl (fun g U => g.setOperand U v) g) := by
  induction uses generalizing g with
  | nil => exact Frame.frame_refl hnd
  | cons U rest ih =>
    simp only [List.foldl_cons]
    have h1 := Frame_setOperand hnd U v
    exact h1.frame_trans (ih _ h1.1)

theorem setAll_getOperand_not_mem (v : Value) (uses : List Use) (g : Function) (u : Use)
    (hu : u ∉ uses) : (uses.foldl (fun g U => g.setOperand U v) g).getOperand u = g.getOperand u := by
  induction uses generalizing g with
  | nil => rfl
  | cons U rest ih =>
    simp only [List.mem_cons, not_or] at hu
    simp only [List.foldl_cons]
    rw [ih _ hu.2, getOperand_setOperand_ne g U u v hu.1]

theorem setAll_getOperand_mem (v : Value) (uses : List Use) (g : Function) (u : Use)
    (hu : u ∈ uses) (hs : (g.getOperand u).isSome) :
    (uses.foldl (fun g U => g.setOperand U v) g).getOperand u = some v := by
  induction uses generalizing g with
  | nil => cases hu
  | cons U rest ih =>
    simp only [List.foldl_cons]
    by_cases hr : u ∈ rest
    · exact ih _ hr (by rw [getOperand_isSome_setOperand]; exact hs)
    · have hU : u = U := by
        rcases List.mem_cons.mp hu with h | h
        · exact h
        · exact absurd h hr
      rw [setAll_getOperand_not_mem v rest _ u hr, hU]
      exact getOperand_setOperand_self g U v (hU ▸ hs)

theorem setAll_findInst (v : Value) (uses : List Use) (g : Function) (j : Nat)
    (hj : ∀ u ∈ uses, u.user ≠ j) :
    (uses.foldl (fun g U => g.setOperand U v) g).findInst j = g.findInst j := by
  induction uses generalizing g with
  | nil => rfl
  | cons U rest ih =>
    simp only [List.foldl_cons]
    rw [ih _ (fun u hu => hj u (List.mem_cons_of_mem _ hu)),
      findInst_setOperand_ne g U v (Ne.symm (hj U (List.mem_cons_self _ _)))]

theorem setAll_valueTy (v : Value) (uses : List Use) (g : Function) (w : Value) :
    (uses.foldl (fun g U => g.setOperand U v) g).valueTy w = g.valueTy w := by
  induction uses generalizing g with
  | nil => rfl
  | cons U rest ih =>
    simp only [List.foldl_cons]
    rw [ih, valueTy_setOperand]

theorem setAll_count (f0 : Function) (v : Value) (uses : List Use) (g : Function) :
    (insertedBoundsCalls f0 (uses.foldl (fun g U => g.setOperand U v) g)).length =
      (insertedBoundsCalls f0 g).length := by
  induction uses generalizing g with
  | nil => rfl
  | cons U rest ih =>
    simp only [List.foldl_cons]
    rw [ih, count_setOperand]

theorem setAll_PhiOK (v : Value) (uses : List Use) (g : Function) (h : PhiOK g) :
    PhiOK (uses.foldl (fun g U => g.setOperand U v) g) := by
  induction uses generalizing g with
  | nil => exact h
  | cons U rest ih =>
    simp only [List.foldl_cons]
    exact ih _ (PhiOK_setOperand U v h)

theorem setAll_PhisFirst (v : Value) (uses : List Use) (g : Function) (h : PhisFirst g) :
    PhisFirst (uses.foldl (fun g U => g.setOperand U v) g) := by
  induction uses generalizing g with
  | nil => exact h
  | cons U rest ih =>
    simp only [List.foldl_cons]
    exact ih _ (PhisFirst_setOperand U v h)

theorem mem_ids_of_getOperand_isSome {g : Function} {u : Use} (h : (g.getOperand u).isSome) :
    u.user ∈ g.ids := by
  unfold Function.getOperand at h
  cases hi : g.findInst u.user with
  | none => simp [hi] at h
  | some i => exact mem_ids_of_findInst hi

/-- What lines 330-341 do. -/
theorem injectShared_spec (T : PassTypes) (p : Prologue) (i : Intrinsic) (sty : Ty)
    (Size : Value) (uses : List Use) (h : Function)
    (hnd : h.ids.Nodup) (ht : p.B.insertPt ∈ h.ids) (hai : p.AI.id ∈ h.ids)
    (hvalid : ∀ u ∈ uses, (h.getOperand u).isSome) :
    Frame h (injectShared T p (Callee.intrinsic i sty) Size uses h) ∧
    (∃ v c, IsBoundedVia (injectShared T p (Callee.intrinsic i sty) Size uses h) h.ids T
        (Callee.intrinsic i sty) p.AI.ty p.AI.id Size v c ∧
      (∀ u ∈ uses, (injectShared T p (Callee.intrinsic i sty) Size uses h).getOperand u = some v) ∧
      (∀ k blk, locate h k = some blk → p.B.insertPt ∈ blk.ids →
        ∃ blk' mid, locate (injectShared T p (Callee.intrinsic i sty) Size uses h) k = some blk' ∧
          SegIn blk' c p.B.insertPt mid ∧ ∀ z ∈ mid, z ∉ h.ids) ∧
      (∀ k blk x mid, locate h k = some blk → SegIn blk x p.B.insertPt mid →
        ∃ blk' mid', locate (injectShared T p (Callee.intrinsic i sty) Size uses h) k = some blk' ∧
          SegIn blk' x p.B.insertPt mid' ∧ c ∈ mid' ∧ ∀ z ∈ mid', z ∈ mid ∨ z ∉ h.ids)) ∧
    (∀ u, u ∉ uses → u.user ∈ h.ids →
      (injectShared T p (Callee.intrinsic i sty) Size uses h).getOperand u = h.getOperand u) ∧
    (∀ j ∈ h.ids, (∀ u ∈ uses, u.user ≠ j) →
      (injectShared T p (Callee.intrinsic i sty) Size uses h).findInst j = h.findInst j) ∧
    (∀ f0, (∀ j ∈ f0.ids, j ∈ h.ids) →
      (insertedBoundsCalls f0 (injectShared T p (Callee.intrinsic i sty) Size uses h)).length =
        (insertedBoundsCalls f0 h).length + 1) ∧
    (PhiOK h → PhiOK (injectShared T p (Callee.intrinsic i sty) Size uses h)) ∧
    ((∀ x, h.findInst p.B.insertPt = some x → x.op ≠ Opcode.phi) → PhisFirst h →
      PhisFirst (injectShared T p (Callee.intrinsic i sty) Size uses h)) := by
  unfold injectShared
  obtain ⟨a1, a2, ⟨c, v, a3, a4, a5, a6, a8⟩, a7⟩ :=
    createBoundedAlloca_spec T p.B i sty p.AI.ty p.AI.id Size h hnd ht hai
  obtain ⟨b1, b2⟩ := createBoundedAlloca_phi T p.B (Callee.intrinsic i sty) p.AI.ty p.AI.id
    Size h hnd ht
  simp only
  generalize createBoundedAlloca T p.B (Callee.intrinsic i sty) p.AI.ty p.AI.id Size h = r
    at a1 a2 a3 a5 a6 a7 a8 b1 b2 ⊢
  have F := setAll_frame r.2 uses r.1 a1.1
  have husers : ∀ u ∈ uses, u.user ∈ h.ids := fun u hu => mem_ids_of_getOperand_isSome (hvalid u hu)
  refine ⟨a1.frame_trans F, ⟨r.2, c, ?_, ?_, ?_, ?_⟩, ?_, ?_, ?_, ?_, ?_⟩
  · refine a5.bounded_mono ?_ (setAll_valueTy _ _ _ _)
    intro j x hj hx
    rw [setAll_findInst r.2 uses r.1 j (fun u hu hcon => hj (hcon ▸ husers u hu))]
    exact hx
  · intro u hu
    apply setAll_getOperand_mem r.2 uses r.1 u hu
    rw [getOperand_of_findInst_eq (a2 _ (husers u hu))]
    exact hvalid u hu
  · intro k blk hk hmem
    obtain ⟨blk1, mid1, hk1, hs1, hn1⟩ := a6 k blk hk hmem
    obtain ⟨blk2, hk2, _, _, hseg2⟩ := F.2.2 k blk1 hk1
    obtain ⟨mid2, hs2, _, hn2⟩ := hseg2 _ _ _ hs1
    refine ⟨blk2, mid2, hk2, hs2, fun z hz => ?_⟩
    rcases hn2 z hz with hz' | hz'
    · exact hn1 z hz'
    · exact fun hh => hz' (a1.ids_sub hh)
  · intro k blk x mid hk hs
    obtain ⟨blk1, mid1, hk1, hs1, hc1, hn1⟩ := a8 k blk x mid hk hs
    obtain ⟨blk2, hk2, _, _, hseg2⟩ := F.2.2 k blk1 hk1
    obtain ⟨mid2, hs2, hsub2, hn2⟩ := hseg2 _ _ _ hs1
    refine ⟨blk2, mid2, hk2, hs2, hsub2 _ hc1, fun z hz => ?_⟩
    rcases hn2 z hz with hz' | hz'
    · exact hn1 z hz'
    · exact Or.inr (fun hh => hz' (a1.ids_sub hh))
  · intro u hu huser
    rw [setAll_getOperand_not_mem r.2 uses r.1 u hu, getOperand_of_findInst_eq (a2 _ huser)]
  · intro j hj hne
    rw [setAll_findInst r.2 uses r.1 j hne, a2 j hj]
  · intro f0 hf0
    rw [setAll_count, a7 f0 hf0]
  · intro hphi
    exact setAll_PhiOK _ _ _ (b1 hphi)
  · intro hop hpf
    exact setAll_PhisFirst _ _ _ (b2 hop hpf)

end CheriBoundAllocas

namespace CheriBoundAllocas

/-! ## The per-use branch -/

theorem useKey_frame {g g' : Function} (h : Frame g g') {U : Use} {k : UseKey}
    (hk : useKey g U = some k) : useKey g' U = some k := by
  unfold useKey at hk ⊢
  cases hi : g.findInst U.user with
  | none => simp [hi] at hk
  | some I =>
    obtain ⟨I', hI', h1, h2, h3, _⟩ := h.2.1 _ I hi
    simp only [hi] at hk
    simp only [hI', h1, h2, h3]
    exact hk

theorem perUseInsertPt_frame {g g' : Function} (h : Frame g g') {k : UseKey} {pt : Nat}
    (hk : perUseInsertPt g k = some pt) : perUseInsertPt g' k = some pt := by
  unfold perUseInsertPt at hk ⊢
  cases hk2 : k.2 with
  | none => simp only [hk2] at hk ⊢; exact hk
  | some bb =>
    simp only [hk2] at hk ⊢
    cases hb : g.findBlock bb with
    | none => simp [hb] at hk
    | some blk =>
      simp only [hb] at hk
      cases ht : blk.getTerminator with
      | none => simp [ht] at hk
      | some t =>
        simp only [ht, Option.some.injEq] at hk
        have hloc : locate g k = some blk := by unfold locate; simp only [hk2]; exact hb
        obtain ⟨blk', hloc', hterm, _, _⟩ := h.2.2 k blk hloc
        have hb' : g'.findBlock bb = some blk' := by
          unfold locate at hloc'; simp only [hk2] at hloc'; exact hloc'
        rw [ht] at hterm
        cases ht' : blk'.getTerminator with
        | none => simp [ht'] at hterm
        | some t' =>
          simp only [ht', Option.map_some', Option.some.injEq] at hterm
          simp only [hb', ht', hterm, hk]

theorem EntryOK.entry_mono {T : PassTypes} {intr : Callee} {APT : Ty} {ai : Nat} {Size : Value}
    {old : List Nat} {g g' : Function} {e : UseKey × Value}
    (h : EntryOK T intr APT ai Size old g e) (hF : Frame g g')
    (hold : ∀ j ∈ old, j ∈ g.ids)
    (hnew : ∀ j i, j ∉ old → g.findInst j = some i → g'.findInst j = some i)
    (hty : g'.valueTy (Value.inst ai) = g.valueTy (Value.inst ai)) :
    EntryOK T intr APT ai Size old g' e := by
  obtain ⟨c, j, h1, h2, h3, h4, blk, mid, pt, h5, h6, h7, h8⟩ := h
  obtain ⟨blk', hloc', _, _, hseg⟩ := hF.2.2 _ blk h5
  obtain ⟨mid', hs', _, hn'⟩ := hseg _ _ _ h6
  refine ⟨c, j, h1, h2, hF.ids_sub h3, h4.bounded_mono hnew hty, blk', mid', pt, hloc', hs', ?_,
    perUseInsertPt_frame hF h8⟩
  intro z hz
  rcases hn' z hz with hz' | hz'
  · exact h7 z hz'
  · exact fun hh => hz' (hold z hh)

theorem parentOf_isSome_of_mem {g : Function} {j : Nat} (hj : j ∈ g.ids) :
    ∃ blk, g.parentOf j = some blk := by
  unfold Function.parentOf
  apply Option.isSome_iff_exists.mp
  rw [List.find?_isSome]
  obtain ⟨i, hi, hij⟩ := List.mem_map.mp hj
  obtain ⟨b, hb, hib⟩ := List.mem_flatMap.mp hi
  exact ⟨b, hb, List.any_eq_true.mpr ⟨i, hib, by simp [hij]⟩⟩

theorem getTerminator_mem {blk : Block} {t : Inst} (h : blk.getTerminator = some t) :
    t.id ∈ blk.ids ∧ t.op = Opcode.terminator := by
  unfold Block.getTerminator at h
  cases hl : blk.insts.getLast? with
  | none => simp [hl] at h
  | some x =>
    simp only [hl] at h
    split at h
    · cases h
      exact ⟨List.mem_map.mpr ⟨_, List.mem_of_getLast?_eq_some hl, rfl⟩, by assumption⟩
    · cases h

/-- The key of a valid use exists, and its insertion point is an existing,
non-PHI instruction of the block of the key. -/
theorem perUse_target {g : Function} (hnd : g.ids.Nodup) (hphi : PhiOK g) {U : Use}
    (hU : (g.getOperand U).isSome) :
    ∃ k pt blk, useKey g U = some k ∧ k.1 = U.user ∧ perUseInsertPt g k = some pt ∧
      locate g k = some blk ∧ pt ∈ blk.ids ∧ pt ∈ g.ids ∧
      (∀ x, g.findInst pt = some x → x.op ≠ Opcode.phi) := by
  unfold Function.getOperand at hU
  cases hI : g.findInst U.user with
  | none => simp [hI] at hU
  | some I =>
    simp only [hI] at hU
    have hIid := findInst_id hI
    have hIm := findInst_mem hI
    have hlt : U.opNo < I.operands.length := by
      by_contra hcon
      rw [List.getElem?_eq_none (Nat.le_of_not_lt hcon)] at hU
      simp at hU
    by_cases hop : I.op = Opcode.phi
    · obtain ⟨hlen, hinc⟩ := hphi I hIm hop
      have hlt' : U.opNo < I.incoming.length := hlen ▸ hlt
      obtain ⟨blk, t, hb, htm⟩ := hinc _ (List.getElem_mem hlt')
      obtain ⟨htmem, htop⟩ := getTerminator_mem htm
      have htg : t.id ∈ g.ids := mem_ids_of_mem_block (findBlock_mem hb).1 htmem
      refine ⟨(I.id, some (I.incoming[U.opNo])), t.id, blk, ?_, hIid, ?_, ?_, htmem, htg, ?_⟩
      · unfold useKey
        simp only [hI, hop, if_true, List.getElem?_eq_getElem hlt']
      · unfold perUseInsertPt
        simp only [hb, htm]
      · unfold locate
        simp only [hb]
      · intro x hx
        obtain ⟨i, hi, hit⟩ := List.mem_map.mp htmem
        have him : i ∈ g.insts := List.mem_flatMap.mpr ⟨blk, (findBlock_mem hb).1, hi⟩
        have hlast : blk.insts.getLast? = some t := by
          unfold Block.getTerminator at htm
          cases hl : blk.insts.getLast? with
          | none => simp [hl] at htm
          | some y =>
            simp only [hl] at htm
            split at htm
            · cases htm; rfl
            · cases htm
        have htin : t ∈ g.insts :=
          List.mem_flatMap.mpr ⟨blk, (findBlock_mem hb).1, List.mem_of_getLast?_eq_some hlast⟩
        rw [findInst_eq_some_of_mem hnd htin] at hx
        cases hx
        rw [htop]
        decide
    · obtain ⟨blk, hblk⟩ := parentOf_isSome_of_mem (mem_ids_of_findInst hI)
      refine ⟨(I.id, none), I.id, blk, ?_, hIid, rfl, ?_, ?_, ?_, ?_⟩
      · unfold useKey
        simp only [hI, hop, if_false]
      · unfold locate
        simp only [hIid]
        exact hblk
      · rw [hIid]; exact (parentOf_mem_ids hblk).1
      · rw [hIid]; exact mem_ids_of_findInst hI
      · intro x hx
        rw [hIid, hI] at hx
        cases hx
        exact hop

end CheriBoundAllocas

namespace CheriBoundAllocas

theorem lookup_some_mem {l : List (UseKey × Value)} {k : UseKey} {v : Value}
    (h : l.lookup k = some v) : (k, v) ∈ l := by
  induction l with
  | nil => simp at h
  | cons a l ih =>
    obtain ⟨a1, a2⟩ := a
    rw [List.lookup_cons] at h
    by_cases hk : k = a1
    · subst hk
      simp at h
      subst h
      exact List.mem_cons_self _ _
    · have : (k == a1) = false := by simpa using hk
      rw [this] at h
      exact List.mem_cons_of_mem _ (ih h)

theorem lookup_none_not_mem {l : List (UseKey × Value)} {k : UseKey}
    (h : l.lookup k = none) : k ∉ l.map Prod.fst := by
  intro hmem
  obtain ⟨e, he, hek⟩ := List.mem_map.mp hmem
  have := List.lookup_eq_none_iff.mp h e he
  simp [hek] at this

theorem lookup_of_mem_nodup {l : List (UseKey × Value)} {k : UseKey} {v : Value}
    (hnd : (l.map Prod.fst).Nodup) (h : (k, v) ∈ l) : l.lookup k = some v := by
  induction l with
  | nil => cases h
  | cons a l ih =>
    obtain ⟨a1, a2⟩ := a
    rw [List.lookup_cons]
    simp only [List.map_cons, List.nodup_cons] at hnd
    rcases List.mem_cons.mp h with h | h
    · cases h
      simp
    · have hne : k ≠ a1 := by
        intro hk
        exact hnd.1 (hk ▸ List.mem_map.mpr ⟨(k, v), h, rfl⟩)
      have : (k == a1) = false := by simpa using hne
      rw [this]
      exact ih hnd.2 h

theorem IsBoundedVia.value_mem {g : Function} {old : List Nat} {T : PassTypes} {intr : Callee}
    {APT : Ty} {ai : Nat} {Size : Value} {v c : Nat}
    (h : IsBoundedVia g old T intr APT ai Size (Value.inst v) c) : v ∈ g.ids := by
  obtain ⟨_, call, ptr, h1, _, _, _, h5⟩ := h
  rcases h5 with ⟨h5, _⟩ | ⟨x, h5, h6, _⟩
  · cases h5; exact mem_ids_of_findInst h1
  · cases h5; exact mem_ids_of_findInst h6

theorem EntryOK_setOperand {T : PassTypes} {intr : Callee} {APT : Ty} {ai : Nat}
    {Size : Value} {old : List Nat} {g : Function} {e : UseKey × Value}
    (h : EntryOK T intr APT ai Size old g e) (hnd : g.ids.Nodup)
    (hold : ∀ j ∈ old, j ∈ g.ids) (U : Use) (v : Value) (hU : U.user ∈ old) :
    EntryOK T intr APT ai Size old (g.setOperand U v) e := by
  refine h.entry_mono (Frame_setOperand hnd U v) hold ?_ (valueTy_setOperand g U v _)
  intro j i hj hi
  rw [findInst_setOperand_ne g U v (fun hcon => hj (by rw [hcon]; exact hU))]
  exact hi

/-- One iteration of the per-use loop keeps the invariant, redirects the
use to the value of its key, and touches no other use. -/
theorem perUseStep_spec (T : PassTypes) (p : Prologue) (i : Intrinsic) (sty : Ty)
    (Size : Value) (h0 : Function) (acc : Function × List (UseKey × Value)) (U : Use)
    (hinv : PerUseInv T (Callee.intrinsic i sty) p.AI.ty p.AI.id Size h0 acc)
    (hai : p.AI.id ∈ h0.ids) (hU : (acc.1.getOperand U).isSome) (hUold : U.user ∈ h0.ids) :
    ∃ acc' k v, perUseStep T p (Callee.intrinsic i sty) Size acc U = some acc' ∧
      PerUseInv T (Callee.intrinsic i sty) p.AI.ty p.AI.id Size h0 acc' ∧
      useKey acc.1 U = some k ∧ acc'.2.lookup k = some v ∧ acc'.1.getOperand U = some v ∧
      (∀ k' v', acc.2.lookup k' = some v' → acc'.2.lookup k' = some v') ∧
      (∀ u, u ≠ U → u.user ∈ h0.ids → acc'.1.getOperand u = acc.1.getOperand u) ∧
      (∀ k', k' ∈ acc'.2.map Prod.fst ↔ k' ∈ acc.2.map Prod.fst ∨ k' = k) ∧
      (∀ j ∈ acc.1.ids, j ≠ U.user → acc'.1.findInst j = acc.1.findInst j) := by
  obtain ⟨g, m⟩ := acc
  obtain ⟨hF, hE, hS, hK, hC, hphi, hty, hpf⟩ := hinv
  simp only at hF hE hS hK hC hphi hty hpf hU
  have hnd : g.ids.Nodup := hF.1
  have hold : ∀ j ∈ h0.ids, j ∈ g.ids := fun j hj => hF.ids_sub hj
  obtain ⟨k, pt, blk, hk, _, hpt, hloc, hptblk, hptg, hptphi⟩ := perUse_target hnd hphi hU
  unfold perUseStep
  simp only [hk]
  cases hlook : m.lookup k with
  | some v =>
    simp only
    refine ⟨_, k, v, rfl, ⟨hF.frame_trans (Frame_setOperand hnd U v), ?_, hS, hK, ?_,
      PhiOK_setOperand U v hphi, ?_, fun h => PhisFirst_setOperand U v (hpf h)⟩,
      rfl, hlook, getOperand_setOperand_self g U v hU, fun _ _ h => h, ?_, ?_,
      fun j _ hj => findInst_setOperand_ne g U v hj⟩
    · intro e he
      exact EntryOK_setOperand (hE e he) hnd hold U v hUold
    · intro f0 hf0
      show (insertedBoundsCalls f0 (g.setOperand U v)).length = _
      rw [count_setOperand, hC f0 hf0]
    · show (g.setOperand U v).valueTy _ = _
      rw [valueTy_setOperand, hty]
    · intro u hu _
      exact getOperand_setOperand_ne g U u v hu
    · intro k'
      constructor
      · exact fun h => Or.inl h
      · rintro (h | h)
        · exact h
        · rw [h]; exact List.mem_map.mpr ⟨(k, v), lookup_some_mem hlook, rfl⟩
  | none =>
    simp only [hpt]
    have haig : p.AI.id ∈ g.ids := hold _ hai
    obtain ⟨a1, a2, ⟨c, v, a3, a4, a5, a6, -⟩, a7⟩ := createBoundedAlloca_spec T
      { insertPt := pt, debugLoc := p.AI.debugLoc } i sty p.AI.ty p.AI.id Size g hnd hptg haig
    obtain ⟨b1, b2⟩ := createBoundedAlloca_phi T { insertPt := pt, debugLoc := p.AI.debugLoc }
      (Callee.intrinsic i sty) p.AI.ty p.AI.id Size g hnd hptg
    generalize createBoundedAlloca T { insertPt := pt, debugLoc := p.AI.debugLoc }
      (Callee.intrinsic i sty) p.AI.ty p.AI.id Size g = r at a1 a2 a3 a5 a6 a7 b1 b2 ⊢
    have hnd1 : r.1.ids.Nodup := a1.1
    have hold1 : ∀ j ∈ h0.ids, j ∈ r.1.ids := fun j hj => a1.ids_sub (hold j hj)
    have hty1 : r.1.valueTy (Value.inst p.AI.id) = g.valueTy (Value.inst p.AI.id) :=
      valueTy_of_findInst_eq (a2 _ haig)
    have hU1 : (r.1.getOperand U).isSome := by
      rw [getOperand_of_findInst_eq (a2 _ (hold _ hUold))]; exact hU
    have hvnew : v ∉ h0.ids := fun h => a4 (hold _ h)
    -- the new entry, in r.1
    have hEnew : EntryOK T (Callee.intrinsic i sty) p.AI.ty p.AI.id Size h0.ids r.1 (k, r.2) := by
      obtain ⟨blk1, mid1, hk1, hs1, hn1⟩ := a6 k blk hloc hptblk
      have a5' := a5.bounded_weaken hold
      refine ⟨c, v, a3, hvnew, ?_, a5', blk1, mid1, pt, hk1, hs1,
        fun z hz hh => hn1 z hz (hold _ hh), perUseInsertPt_frame a1 hpt⟩
      rw [a3] at a5'
      exact a5'.value_mem
    have hEold : ∀ e ∈ m, EntryOK T (Callee.intrinsic i sty) p.AI.ty p.AI.id Size h0.ids r.1 e := by
      intro e he
      refine (hE e he).entry_mono a1 hold ?_ hty1
      intro j x _ hx
      rw [a2 j (mem_ids_of_findInst hx)]; exact hx
    refine ⟨_, k, r.2, rfl, ⟨(hF.frame_trans a1).frame_trans (Frame_setOperand hnd1 U r.2), ?_, ?_, ?_, ?_,
      PhiOK_setOperand U r.2 (b1 hphi), ?_, ?_⟩, rfl, ?_,
      getOperand_setOperand_self r.1 U r.2 hU1, ?_, ?_, ?_, ?_⟩
    · intro e he
      rcases List.mem_cons.mp he with he | he
      · rw [he]; exact EntryOK_setOperand hEnew hnd1 hold1 U r.2 hUold
      · exact EntryOK_setOperand (hEold e he) hnd1 hold1 U r.2 hUold
    · simp only [List.map_cons, List.nodup_cons]
      refine ⟨?_, hS⟩
      intro hmem
      obtain ⟨e, he, hev⟩ := List.mem_map.mp hmem
      obtain ⟨_, j, hj1, _, hj3, _⟩ := hE e he
      rw [hj1, a3] at hev
      cases hev
      exact a4 hj3
    · simp only [List.map_cons, List.nodup_cons]
      exact ⟨lookup_none_not_mem hlook, hK⟩
    · intro f0 hf0
      show (insertedBoundsCalls f0 (r.1.setOperand U r.2)).length = _
      rw [count_setOperand, a7 f0 (fun j hj => hold _ (hf0 j hj)), hC f0 hf0]
      simp only [List.length_cons]
      omega
    · show (r.1.setOperand U r.2).valueTy _ = _
      rw [valueTy_setOperand, hty1, hty]
    · intro h
      exact PhisFirst_setOperand U r.2 (b2 hptphi (hpf h))
    · simp [List.lookup_cons]
    · intro k' v' hk'
      rw [List.lookup_cons]
      have hne : k' ≠ k := by
        intro hcon
        rw [hcon, hlook] at hk'
        cases hk'
      have : (k' == k) = false := by simpa using hne
      rw [this]
      exact hk'
    · intro u hu huold
      show (r.1.setOperand U r.2).getOperand u = _
      rw [getOperand_setOperand_ne r.1 U u r.2 hu, getOperand_of_findInst_eq (a2 _ (hold _ huold))]
    · intro k'
      simp only [List.map_cons, List.mem_cons]
      tauto
    · intro j hj hne
      show (r.1.setOperand U r.2).findInst j = _
      rw [findInst_setOperand_ne r.1 U r.2 hne, a2 j hj]

end CheriBoundAllocas

namespace CheriBoundAllocas

theorem useKey_frame_eq {g g' : Function} (h : Frame g g') {U : Use} (hU : U.user ∈ g.ids) :
    useKey g' U = useKey g U := by
  obtain ⟨I, hI⟩ := exists_findInst_of_mem_ids hU
  obtain ⟨I', hI', h1, h2, h3, _⟩ := h.2.1 _ I hI
  unfold useKey
  simp only [hI, hI', h1, h2, h3]

/-- The per-use loop runs to completion, keeps the invariant, gives every
listed use the value of its key, and leaves every other use alone. -/
theorem perUseLoop_spec (T : PassTypes) (p : Prologue) (i : Intrinsic) (sty : Ty)
    (Size : Value) (h0 : Function) (hai : p.AI.id ∈ h0.ids) (uses : List Use) :
    ∀ acc, PerUseInv T (Callee.intrinsic i sty) p.AI.ty p.AI.id Size h0 acc →
      (∀ u ∈ uses, u.user ∈ h0.ids ∧ (acc.1.getOperand u).isSome) →
      ∃ acc', perUseLoop T p (Callee.intrinsic i sty) Size uses acc = some acc' ∧
        PerUseInv T (Callee.intrinsic i sty) p.AI.ty p.AI.id Size h0 acc' ∧
        (∀ k v, acc.2.lookup k = some v → acc'.2.lookup k = some v) ∧
        (∀ u ∈ uses, ∃ k v, useKey h0 u = some k ∧ acc'.2.lookup k = some v ∧
          acc'.1.getOperand u = some v) ∧
        (∀ u, u ∉ uses → u.user ∈ h0.ids → acc'.1.getOperand u = acc.1.getOperand u) ∧
        (∀ k', k' ∈ acc'.2.map Prod.fst ↔
          k' ∈ acc.2.map Prod.fst ∨ ∃ u ∈ uses, useKey h0 u = some k') ∧
        (∀ j ∈ acc.1.ids, (∀ u ∈ uses, u.user ≠ j) → acc'.1.findInst j = acc.1.findInst j) := by
  induction uses with
  | nil =>
    intro acc hinv _
    refine ⟨acc, rfl, hinv, fun _ _ h => h, fun u hu => absurd hu (List.not_mem_nil _),
      fun _ _ _ => rfl, fun k' => ?_, fun _ _ _ => rfl⟩
    constructor
    · exact fun h => Or.inl h
    · rintro (h | ⟨u, hu, _⟩)
      · exact h
      · cases hu
  | cons U rest ih =>
    intro acc hinv hvalid
    obtain ⟨hUold, hU⟩ := hvalid U (List.mem_cons_self _ _)
    obtain ⟨acc1, k, v, hstep, hinv1, hk, hlook1, hop1, hstab1, hother1, hkeys1, hfind1⟩ :=
      perUseStep_spec T p i sty Size h0 acc U hinv hai hU hUold
    have hk0 : useKey h0 U = some k := by
      rw [← useKey_frame_eq hinv.1 hUold]; exact hk
    have hvalid1 : ∀ u ∈ rest, u.user ∈ h0.ids ∧ (acc1.1.getOperand u).isSome := by
      intro u hu
      obtain ⟨h1, h2⟩ := hvalid u (List.mem_cons_of_mem _ hu)
      refine ⟨h1, ?_⟩
      by_cases huU : u = U
      · rw [huU, hop1]; rfl
      · rw [hother1 u huU h1]; exact h2
    obtain ⟨acc2, hloop, hinv2, hstab2, huses2, hother2, hkeys2, hfind2⟩ := ih acc1 hinv1 hvalid1
    refine ⟨acc2, ?_, hinv2, fun k' v' h => hstab2 _ _ (hstab1 _ _ h), ?_, ?_, ?_, ?_⟩
    · simp only [perUseLoop, hstep]
      exact hloop
    · intro u hu
      by_cases hur : u ∈ rest
      · exact huses2 u hur
      · have huU : u = U := by
          rcases List.mem_cons.mp hu with h | h
          · exact h
          · exact absurd h hur
        subst huU
        exact ⟨k, v, hk0, hstab2 _ _ hlook1, by rw [hother2 u hur hUold]; exact hop1⟩
    · intro u hu huold
      simp only [List.mem_cons, not_or] at hu
      rw [hother2 u hu.2 huold, hother1 u hu.1 huold]
    · intro k'
      rw [hkeys2 k', hkeys1 k']
      constructor
      · rintro ((h | h) | ⟨u, hu, huk⟩)
        · exact Or.inl h
        · exact Or.inr ⟨U, List.mem_cons_self _ _, h ▸ hk0⟩
        · exact Or.inr ⟨u, List.mem_cons_of_mem _ hu, huk⟩
      · rintro (h | ⟨u, hu, huk⟩)
        · exact Or.inl (Or.inl h)
        · rcases List.mem_cons.mp hu with h | h
          · left; right
            rw [h, hk0] at huk
            cases huk; rfl
          · exact Or.inr ⟨u, h, huk⟩
    · intro j hj hne
      have h1 := hfind1 j hj (Ne.symm (hne U (List.mem_cons_self _ _)))
      have hj1 : j ∈ acc1.1.ids := by
        obtain ⟨x, hx⟩ := exists_findInst_of_mem_ids hj
        exact mem_ids_of_findInst (h1.trans hx)
      rw [hfind2 j hj1 (fun u hu => hne u (List.mem_cons_of_mem _ hu)), h1]

theorem PerUseInv_init (T : PassTypes) (intr : Callee) (APT : Ty) (ai : Nat) (Size : Value)
    (h0 : Function) (hnd : h0.ids.Nodup) (hphi : PhiOK h0) :
    PerUseInv T intr APT ai Size h0 (h0, []) :=
  ⟨Frame.frame_refl hnd, fun _ he => absurd he (List.not_mem_nil _), List.nodup_nil, List.nodup_nil,
    fun _ _ => rfl, hphi, rfl, fun h => h⟩

end CheriBoundAllocas

namespace CheriBoundAllocas

/-! ## From well-formedness to the injection point -/

theorem wellFormed_nodup {f : Function} (h : f.wellFormed = true) : f.ids.Nodup := by
  unfold Function.wellFormed at h
  simp only [Bool.and_eq_true, decide_eq_true_eq] at h
  exact h.1.1

theorem wellFormed_terminator {f : Function} (h : f.wellFormed = true) {b : Block}
    (hb : b ∈ f.blocks) : ∃ t, b.getTerminator = some t := by
  unfold Function.wellFormed at h
  simp only [Bool.and_eq_true, List.all_eq_true] at h
  exact Option.isSome_iff_exists.mp (h.1.2 b hb)

theorem wellFormed_PhiOK {f : Function} (h : f.wellFormed = true) : PhiOK f := by
  intro i hi hop
  have hterm := fun b hb => wellFormed_terminator h (b := b) hb
  unfold Function.wellFormed at h
  simp only [Bool.and_eq_true, List.all_eq_true, Bool.or_eq_true, decide_eq_true_eq] at h
  have := (h.2 i hi).2
  rcases this with h1 | h1
  · exact absurd hop h1
  · refine ⟨h1.1, fun bb hbb => ?_⟩
    obtain ⟨blk, hblk⟩ := Option.isSome_iff_exists.mp (h1.2 bb hbb)
    obtain ⟨t, ht⟩ := hterm blk (findBlock_mem hblk).1
    exact ⟨blk, t, hblk, ht⟩

theorem isStaticAlloca_const {f : Function} {AI : Inst} (h : f.isStaticAlloca AI = true) :
    ∃ b c, AI.operands.head? = some (Value.constInt b c) := by
  unfold Function.isStaticAlloca at h
  split at h
  · rename_i b c heq
    exact ⟨b, c, heq⟩
  · cases h

/-- Everything that happens to the function of an allocation that gets bounds
before the bounds are injected (lines 180-315): the function `h` reached and
the size `Size` to bound to. -/
theorem preInject_spec (DL : DataLayout) (TLI : TargetLowering) (T : PassTypes)
    (f : Function) (ai : Nat) (p : Prologue) (hwf : f.wellFormed = true)
    (hp : prologue DL TLI T f ai = some p) :
    ∃ h Size next blk,
      applyTailPadding TLI T p (computeSize DL T p).1 (computeSize DL T p).2 = some (h, Size) ∧
      f.findInst ai = some p.AI ∧ p.AI.id = ai ∧
      f.getNextNode ai = some next ∧ p.B.insertPt = next.id ∧ next.id ∈ f.ids ∧
      f.parentOf ai = some blk ∧ SegIn blk ai next.id [] ∧
      Frame f p.fn ∧ KeepsOps f p.fn ∧ Frame p.fn h ∧
      (∀ f0, (insertedBoundsCalls f0 h).length = (insertedBoundsCalls f0 f).length) ∧
      PhiOK h ∧
      (p.AI.op ≠ Opcode.phi → PhisFirst f →
        PhisFirst h ∧ ∀ x, h.findInst next.id = some x → x.op ≠ Opcode.phi) ∧
      (KeepsOps p.fn h ∨
        (p.AI.ty.isOpaquePointerTy = false ∧
          ∃ c, c.id ∉ p.fn.ids ∧ h.findInst c.id = some c ∧ c.op = Opcode.bitcast ∧
            c.operands = [Value.inst ai] ∧ c.ty = p.AI.ty ∧
            ∀ u v, u.user ∈ p.fn.ids → p.fn.getOperand u = some v →
              h.getOperand u = some (if v = Value.inst ai then Value.inst c.id else v))) := by
  have hnd := wellFormed_nodup hwf
  obtain ⟨next, arraySizeOp, hAI, hnext, hB, hhead, hnmem, e1, hc1⟩ := prologue_spec hnd hp
  have hid : p.AI.id = ai := findInst_id hAI
  have hBpt : p.B.insertPt = next.id := by rw [hB]
  have hnd1 : p.fn.ids.Nodup := e1.1.1
  have hnmem1 : p.B.insertPt ∈ p.fn.ids := hBpt ▸ e1.1.ids_sub hnmem
  obtain ⟨e2, hc2⟩ := computeSize_spec DL T p hnd1 hnmem1
  rw [hBpt] at e2
  generalize computeSize DL T p = cs at e2 hc2 ⊢
  have e12 := Ext.ext_trans hnmem e1 e2
  obtain ⟨blk, hblk, hseg⟩ := getNextNode_seg hnext
  obtain ⟨t0, ht0⟩ := wellFormed_terminator hwf (parentOf_mem_ids hblk).2
  have hloc0 : locate f (ai, none) = some blk := hblk
  obtain ⟨blk2, hloc2, hterm2, _, hseg2⟩ := e12.1.2.2 _ _ hloc0
  obtain ⟨mid2, hs2, _, _⟩ := hseg2 _ _ _ hseg
  have hloc2' : cs.1.parentOf p.AI.id = some blk2 := by rw [hid]; exact hloc2
  obtain ⟨t2, ht2⟩ : ∃ t2, blk2.getTerminator = some t2 := by
    rw [ht0] at hterm2
    cases h : blk2.getTerminator with
    | none => simp [h] at hterm2
    | some t => exact ⟨t, rfl⟩
  have hconst : cs.1.isStaticAlloca p.AI = true → ∃ b c, cs.2 = Value.constInt b c := by
    intro hs
    obtain ⟨b, c, hbc⟩ := isStaticAlloca_const hs
    rw [hhead] at hbc
    cases hbc
    exact hc2 (hc1 ⟨b, c, rfl⟩)
  obtain ⟨h, Size, happ, F3, C3, P3, PF3, O3⟩ :=
    applyTailPadding_spec TLI T p cs.1 cs.2 e12.1.1 hloc2' (hid ▸ hs2) ht2 hconst
  refine ⟨h, Size, next, blk, happ, hAI, hid, hnext, hBpt, hnmem, hblk, hseg, e1.1, e1.2.1,
    e2.1.frame_trans F3, fun f0 => (C3 f0).trans (e12.2.2.1 f0),
    P3 (e12.2.2.2.1 (wellFormed_PhiOK hwf)), ?_, ?_⟩
  · intro hop hpf
    have hAIop : ∀ i, f.findInst ai = some i → i.op ≠ Opcode.phi := by
      intro i hi; rw [hAI] at hi; cases hi; exact hop
    have hnop := next_not_phi hnd hnext hAIop hpf
    have haimem : ai ∈ f.ids := mem_ids_of_findInst hAI
    refine ⟨PF3 (hid ▸ e12.1.findInst_op haimem hAIop) (e12.2.2.2.2 hnop hpf), ?_⟩
    exact (e12.1.frame_trans F3).findInst_op hnmem hnop
  · rcases O3 with O3 | ⟨O31, c, O32, O33, O34, O35, O36, O37⟩
    · exact Or.inl (e2.2.1.ops_trans O3)
    · refine Or.inr ⟨O31, c, fun hc => O32 (e2.1.ids_sub hc), O33, O34, hid ▸ O35, O36, ?_⟩
      intro u v hu huv
      rw [← hid]
      exact O37 u v (e2.1.ids_sub hu) (e2.2.1.getOperand huv)

end CheriBoundAllocas

namespace CheriBoundAllocas

/-! ## `processAlloca`, branch by branch -/

theorem analyse_false {opts : Options} {check : BoundsChecker} {BA : StackBoundsAnalysis}
    {f : Function} {ai : Nat} (h : (analyse opts check BA f ai).1 = false) :
    (analyse opts check BA f ai).2 = [] := by
  unfold analyse at h ⊢
  split
  · rfl
  · rename_i hmode
    simp only [hmode, if_false] at h
    split at h
    · rename_i hc
      simp only [Bool.and_eq_true] at hc
      simp only at h
      rw [h] at hc
      exact absurd hc.1 (by simp)
    · rename_i hc
      simp only [hc]
      simp only [Bool.not_eq_false', List.isEmpty_iff] at h
      simpa using h

theorem processAlloca_exempt {env : Env} {T : PassTypes} {TLI : TargetLowering}
    (IsOptNone : Bool) {BA : StackBoundsAnalysis} {st : PassState} {ai : Nat} {p : Prologue}
    (hp : prologue env.DL TLI T st.fn ai = some p)
    (hneed : needBounds env BA p.fn ai = false) :
    ∃ st', processAlloca env T TLI IsOptNone BA st ai = some st' ∧ st'.fn = p.fn ∧
      st'.decls = st.decls ∧ st'.stats.NumSingleIntrin = st.stats.NumSingleIntrin := by
  unfold needBounds at hneed
  unfold processAlloca
  simp only [hp, hneed]
  exact ⟨_, rfl, rfl, rfl, by split <;> rfl⟩

theorem setBoundsIntrin_eq (T : PassTypes) (decls : List Callee) (isStatic : Bool) :
    (if isStatic = true then
        (decls, Callee.intrinsic Intrinsic.cheri_bounded_stack_cap T.SizeTy)
      else getDeclaration decls Intrinsic.cheri_bounded_stack_cap_dynamic T.SizeTy).2 =
      SetBoundsIntrin T isStatic := by
  cases isStatic <;> rfl

theorem processAlloca_shared {env : Env} {T : PassTypes} {TLI : TargetLowering}
    {IsOptNone : Bool} {BA : StackBoundsAnalysis} {st : PassState} {ai : Nat} {p : Prologue}
    {r : Function × Value}
    (hp : prologue env.DL TLI T st.fn ai = some p)
    (hneed : needBounds env BA p.fn ai = true)
    (hpad : padded env.DL TLI T p = some r)
    (hreuse : reuseSingle env IsOptNone BA p ai = true) :
    ∃ st', processAlloca env T TLI IsOptNone BA st ai = some st' ∧
      st'.fn = injectShared T p (SetBoundsIntrin T (p.fn.isStaticAlloca p.AI)) r.2
        (needSet env BA p.fn ai) r.1 ∧
      st'.stats.NumSingleIntrin = wrap64 (st.stats.NumSingleIntrin + 1) := by
  unfold needBounds at hneed
  unfold padded at hpad
  unfold reuseSingle needSet at hreuse
  unfold processAlloca
  simp only [hp, hneed, hpad, hreuse, setBoundsIntrin_eq]
  refine ⟨_, rfl, rfl, ?_⟩
  simp only [Bool.not_true, Bool.false_eq_true, if_false]
  split <;> split <;> rfl

theorem processAlloca_perUse {env : Env} {T : PassTypes} {TLI : TargetLowering}
    {IsOptNone : Bool} {BA : StackBoundsAnalysis} {st : PassState} {ai : Nat} {p : Prologue}
    {r : Function × Value} {g : Function}
    (hp : prologue env.DL TLI T st.fn ai = some p)
    (hneed : needBounds env BA p.fn ai = true)
    (hpad : padded env.DL TLI T p = some r)
    (hreuse : reuseSingle env IsOptNone BA p ai = false)
    (hinj : injectPerUse T p (SetBoundsIntrin T (p.fn.isStaticAlloca p.AI)) r.2
      (needSet env BA p.fn ai) r.1 = some g) :
    ∃ st', processAlloca env T TLI IsOptNone BA st ai = some st' ∧ st'.fn = g ∧
      st'.stats.NumSingleIntrin = st.stats.NumSingleIntrin := by
  unfold needBounds at hneed
  unfold padded at hpad
  unfold reuseSingle at hreuse
  unfold needSet at hreuse hinj
  unfold processAlloca
  simp only [hp, hneed, hpad, hreuse, setBoundsIntrin_eq, hinj]
  refine ⟨_, rfl, rfl, ?_⟩
  simp only [Bool.not_true, Bool.false_eq_true, if_false]
  split <;> split <;> rfl

end CheriBoundAllocas

namespace CheriBoundAllocas

/-- What lines 356-397 do, from the empty map. -/
theorem injectPerUse_spec (T : PassTypes) (p : Prologue) (i : Intrinsic) (sty : Ty)
    (Size : Value) (h0 : Function) (uses : List Use) (hnd : h0.ids.Nodup) (hphi : PhiOK h0)
    (hai : p.AI.id ∈ h0.ids) (hvalid : ∀ u ∈ uses, (h0.getOperand u).isSome) :
    ∃ g m, injectPerUse T p (Callee.intrinsic i sty) Size uses h0 = some g ∧
      PerUseInv T (Callee.intrinsic i sty) p.AI.ty p.AI.id Size h0 (g, m) ∧
      (∀ u ∈ uses, ∃ k v, useKey h0 u = some k ∧ m.lookup k = some v ∧
        g.getOperand u = some v) ∧
      (∀ u, u ∉ uses → u.user ∈ h0.ids → g.getOperand u = h0.getOperand u) ∧
      (∀ k', k' ∈ m.map Prod.fst ↔ ∃ u ∈ uses, useKey h0 u = some k') ∧
      (∀ j ∈ h0.ids, (∀ u ∈ uses, u.user ≠ j) → g.findInst j = h0.findInst j) := by
  obtain ⟨acc', hloop, hinv, _, huses, hother, hkeys, hfind⟩ :=
    perUseLoop_spec T p i sty Size h0 hai uses (h0, [])
      (PerUseInv_init T _ _ _ _ h0 hnd hphi)
      (fun u hu => ⟨mem_ids_of_getOperand_isSome (hvalid u hu), hvalid u hu⟩)
  refine ⟨acc'.1, acc'.2, ?_, hinv, huses, hother, ?_, hfind⟩
  · unfold injectPerUse
    simp only [hloop]
  · intro k'
    rw [hkeys k']
    simp

theorem valid_after_pre {ai : Nat} {p : Prologue} {h : Function}
    (hO : KeepsOps p.fn h ∨
      (p.AI.ty.isOpaquePointerTy = false ∧
        ∃ c, c.id ∉ p.fn.ids ∧ h.findInst c.id = some c ∧ c.op = Opcode.bitcast ∧
          c.operands = [Value.inst ai] ∧ c.ty = p.AI.ty ∧
          ∀ u v, u.user ∈ p.fn.ids → p.fn.getOperand u = some v →
            h.getOperand u = some (if v = Value.inst ai then Value.inst c.id else v)))
    {u : Use} (hu : (p.fn.getOperand u).isSome) : (h.getOperand u).isSome := by
  obtain ⟨v, hv⟩ := Option.isSome_iff_exists.mp hu
  rcases hO with hO | ⟨_, c, _, _, _, _, _, hO⟩
  · rw [hO.getOperand hv]; rfl
  · rw [hO u v (mem_ids_of_getOperand_isSome hu) hv]; rfl

theorem setBoundsIntrin_intrinsic (T : PassTypes) (b : Bool) :
    ∃ i, SetBoundsIntrin T b = Callee.intrinsic i T.SizeTy := ⟨_, rfl⟩

/-- C1: every use of the final need-set of an allocation is, after the
allocation was processed, the result (cast back to the alloca's original
pointer type) of one call of the bounds-setting intrinsic that the pass
inserted, whose pointer argument is the alloca cast to `i8*` and whose
size argument is the size computed for the allocation; in the
single-intrinsic branch and in the per-use branch alike. -/
theorem C1_need_set_uses_are_bounded (env : Env) (T : PassTypes) (TLI : TargetLowering)
    (IsOptNone : Bool) (BA : StackBoundsAnalysis) (st : PassState) (ai : Nat) (p : Prologue)
    (hwf : st.fn.wellFormed = true)
    (hp : prologue env.DL TLI T st.fn ai = some p)
    (hvalid : ∀ u ∈ needSet env BA p.fn ai, (p.fn.getOperand u).isSome) :
    ∃ st' r, processAlloca env T TLI IsOptNone BA st ai = some st' ∧
      padded env.DL TLI T p = some r ∧
      ∀ u ∈ needSet env BA p.fn ai, ∃ v c, st'.fn.getOperand u = some v ∧
        IsBoundedVia st'.fn st.fn.ids T (SetBoundsIntrin T (p.fn.isStaticAlloca p.AI))
          p.AI.ty ai r.2 v c := by
  obtain ⟨h, Size, next, blk, hpad, hAI, hid, hnext, hBpt, hnmem, hblk, hseg, F1, K1, F2, C, hphi,
    hpf, hO⟩ := preInject_spec env.DL TLI T st.fn ai p hwf hp
  subst hid
  have hvalid' : ∀ u ∈ needSet env BA p.fn p.AI.id, (h.getOperand u).isSome :=
    fun u hu => valid_after_pre hO (hvalid u hu)
  have hF : Frame st.fn h := F1.frame_trans F2
  have hold : ∀ j ∈ st.fn.ids, j ∈ h.ids := fun j hj => hF.ids_sub hj
  have hai : p.AI.id ∈ h.ids := hold _ (mem_ids_of_findInst hAI)
  obtain ⟨i, hi⟩ := setBoundsIntrin_intrinsic T (p.fn.isStaticAlloca p.AI)
  cases hneed : needBounds env BA p.fn p.AI.id with
  | false =>
    obtain ⟨st', hst', -, -, -⟩ := processAlloca_exempt IsOptNone hp hneed
    refine ⟨st', (h, Size), hst', hpad, fun u hu => ?_⟩
    unfold needSet at hu
    rw [analyse_false hneed] at hu
    cases hu
  | true =>
    cases hreuse : reuseSingle env IsOptNone BA p p.AI.id with
    | true =>
      obtain ⟨st', hst', hfn, -⟩ := processAlloca_shared hp hneed hpad hreuse
      obtain ⟨-, ⟨v, c, hb, hops, -, -⟩, -⟩ := injectShared_spec T p i T.SizeTy Size
        (needSet env BA p.fn p.AI.id) h hF.1 (hBpt ▸ hold _ hnmem) hai hvalid'
      refine ⟨st', (h, Size), hst', hpad, fun u hu => ⟨v, c, ?_, ?_⟩⟩
      · rw [hfn, hi]; exact hops u hu
      · rw [hfn, hi]; exact hb.bounded_weaken hold
    | false =>
      obtain ⟨g, m, hinj, hinv, huses, -, -, -⟩ := injectPerUse_spec T p i T.SizeTy Size h
        (needSet env BA p.fn p.AI.id) hF.1 hphi hai hvalid'
      rw [← hi] at hinj
      obtain ⟨st', hst', hfn, -⟩ := processAlloca_perUse hp hneed hpad hreuse hinj
      refine ⟨st', (h, Size), hst', hpad, fun u hu => ?_⟩
      obtain ⟨k, v, -, hlook, hop⟩ := huses u hu
      obtain ⟨c, j, -, -, -, hb, -⟩ := hinv.2.1 _ (lookup_some_mem hlook)
      refine ⟨v, c, by rw [hfn]; exact hop, ?_⟩
      rw [hfn, hi]
      exact hb.bounded_weaken hold

end CheriBoundAllocas

namespace CheriBoundAllocas

/-! ## The two branches, end to end -/

theorem length_insertedBoundsCalls_self (f : Function) :
    (insertedBoundsCalls f f).length = 0 := by
  rw [insertedBoundsCalls_self]; rfl

/-- The single-intrinsic branch of `processAlloca`, end to end. -/
theorem shared_master (env : Env) (T : PassTypes) (TLI : TargetLowering)
    (IsOptNone : Bool) (BA : StackBoundsAnalysis) (st : PassState) (ai : Nat) (p : Prologue)
    (hwf : st.fn.wellFormed = true)
    (hp : prologue env.DL TLI T st.fn ai = some p)
    (hvalid : ∀ u ∈ needSet env BA p.fn ai, (p.fn.getOperand u).isSome)
    (hneed : needBounds env BA p.fn ai = true)
    (hreuse : reuseSingle env IsOptNone BA p ai = true) :
    ∃ st' r next v c blk' mid,
      processAlloca env T TLI IsOptNone BA st ai = some st' ∧
      padded env.DL TLI T p = some r ∧
      st'.stats.NumSingleIntrin = wrap64 (st.stats.NumSingleIntrin + 1) ∧
      st'.fn = injectShared T p (SetBoundsIntrin T (p.fn.isStaticAlloca p.AI)) r.2
        (needSet env BA p.fn ai) r.1 ∧
      (insertedBoundsCalls st.fn st'.fn).length = 1 ∧
      IsBoundedVia st'.fn st.fn.ids T (SetBoundsIntrin T (p.fn.isStaticAlloca p.AI))
        p.AI.ty ai r.2 v c ∧
      (∀ u ∈ needSet env BA p.fn ai, st'.fn.getOperand u = some v) ∧
      st.fn.getNextNode ai = some next ∧ st'.fn.parentOf ai = some blk' ∧
      SegIn blk' ai next.id mid ∧ c ∈ mid ∧ (∀ z ∈ mid, z ∉ st.fn.ids) := by
  obtain ⟨h, Size, next, blk, hpad, hAI, hid, hnext, hBpt, hnmem, hblk, hseg, F1, K1, F2, C, hphi,
    hpf, hO⟩ := preInject_spec env.DL TLI T st.fn ai p hwf hp
  subst hid
  have hvalid' : ∀ u ∈ needSet env BA p.fn p.AI.id, (h.getOperand u).isSome :=
    fun u hu => valid_after_pre hO (hvalid u hu)
  have hF : Frame st.fn h := F1.frame_trans F2
  have hold : ∀ j ∈ st.fn.ids, j ∈ h.ids := fun j hj => hF.ids_sub hj
  have hai : p.AI.id ∈ h.ids := hold _ (mem_ids_of_findInst hAI)
  obtain ⟨i, hi⟩ := setBoundsIntrin_intrinsic T (p.fn.isStaticAlloca p.AI)
  obtain ⟨st', hst', hfn, hstat⟩ := processAlloca_shared hp hneed hpad hreuse
  obtain ⟨-, ⟨v, c, hb, hops, -, hsegx⟩, -, -, hcount, -⟩ := injectShared_spec T p i T.SizeTy Size
    (needSet env BA p.fn p.AI.id) h hF.1 (hBpt ▸ hold _ hnmem) hai hvalid'
  have hloc0 : locate st.fn (p.AI.id, none) = some blk := hblk
  obtain ⟨blkh, hloch, -, -, hsegh⟩ := hF.2.2 _ _ hloc0
  obtain ⟨midh, hsh, -, hnh⟩ := hsegh _ _ _ hseg
  rw [hBpt] at hsegx
  obtain ⟨blk', mid', hloc', hs', hc', hn'⟩ := hsegx _ _ _ _ hloch hsh
  rw [← hi] at hb hops hcount hloc'
  rw [← hfn] at hb hops hcount hloc'
  refine ⟨st', (h, Size), next, v, c, blk', mid', hst', hpad, hstat, hfn, ?_, hb.bounded_weaken hold, hops,
    hnext, hloc', hs', hc', ?_⟩
  · rw [hcount st.fn hold, C st.fn, length_insertedBoundsCalls_self]
  · intro z hz
    rcases hn' z hz with h1 | h1
    · rcases hnh z h1 with h2 | h2
      · cases h2
      · exact h2
    · exact fun hh => h1 (hold _ hh)

/-- The per-use branch of `processAlloca`, end to end. -/
theorem perUse_master (env : Env) (T : PassTypes) (TLI : TargetLowering)
    (IsOptNone : Bool) (BA : StackBoundsAnalysis) (st : PassState) (ai : Nat) (p : Prologue)
    (hwf : st.fn.wellFormed = true)
    (hp : prologue env.DL TLI T st.fn ai = some p)
    (hvalid : ∀ u ∈ needSet env BA p.fn ai, (p.fn.getOperand u).isSome)
    (hneed : needBounds env BA p.fn ai = true)
    (hreuse : reuseSingle env IsOptNone BA p ai = false) :
    ∃ (st' : PassState) (r : Function × Value) (m : List (UseKey × Value)),
      processAlloca env T TLI IsOptNone BA st ai = some st' ∧
      padded env.DL TLI T p = some r ∧
      st'.stats.NumSingleIntrin = st.stats.NumSingleIntrin ∧
      injectPerUse T p (SetBoundsIntrin T (p.fn.isStaticAlloca p.AI)) r.2
        (needSet env BA p.fn ai) r.1 = some st'.fn ∧
      (insertedBoundsCalls st.fn st'.fn).length = m.length ∧
      (m.map Prod.fst).Nodup ∧ (m.map Prod.snd).Nodup ∧
      (∀ e ∈ m, EntryOK T (SetBoundsIntrin T (p.fn.isStaticAlloca p.AI)) p.AI.ty ai r.2
        st.fn.ids st'.fn e) ∧
      (∀ u ∈ needSet env BA p.fn ai, ∃ k v, useKey p.fn u = some k ∧ m.lookup k = some v ∧
        st'.fn.getOperand u = some v) ∧
      (∀ k', k' ∈ m.map Prod.fst ↔ ∃ u ∈ needSet env BA p.fn ai, useKey p.fn u = some k') ∧
      (p.AI.op ≠ Opcode.phi → PhisFirst st.fn → PhisFirst st'.fn) := by
  obtain ⟨h, Size, next, blk, hpad, hAI, hid, hnext, hBpt, hnmem, hblk, hseg, F1, K1, F2, C, hphi,
    hpf, hO⟩ := preInject_spec env.DL TLI T st.fn ai p hwf hp
  subst hid
  have hvalid' : ∀ u ∈ needSet env BA p.fn p.AI.id, (h.getOperand u).isSome :=
    fun u hu => valid_after_pre hO (hvalid u hu)
  have hF : Frame st.fn h := F1.frame_trans F2
  have hold : ∀ j ∈ st.fn.ids, j ∈ h.ids := fun j hj => hF.ids_sub hj
  have hai : p.AI.id ∈ h.ids := hold _ (mem_ids_of_findInst hAI)
  obtain ⟨i, hi⟩ := setBoundsIntrin_intrinsic T (p.fn.isStaticAlloca p.AI)
  obtain ⟨g, m, hinj, hinv, huses, -, hkeys, -⟩ := injectPerUse_spec T p i T.SizeTy Size h
    (needSet env BA p.fn p.AI.id) hF.1 hphi hai hvalid'
  rw [← hi] at hinj hinv
  obtain ⟨st', hst', hfn, hstat⟩ := processAlloca_perUse hp hneed hpad hreuse hinj
  obtain ⟨hFg, hE, hS, hK, hC, -, -, hPF⟩ := hinv
  simp only at hFg hE hS hK hC hPF
  have hkey : ∀ u ∈ needSet env BA p.fn p.AI.id, useKey h u = useKey p.fn u :=
    fun u hu => useKey_frame_eq F2 (mem_ids_of_getOperand_isSome (hvalid u hu))
  subst hfn
  refine ⟨st', (h, Size), m, hst', hpad, hstat, hinj, ?_, hK, hS, ?_, ?_, ?_, ?_⟩
  · rw [hC st.fn hold, C st.fn, length_insertedBoundsCalls_self, Nat.zero_add]
  · intro e he
    obtain ⟨c, j, h1, h2, h3, h4, blk1, mid1, pt, h5, h6, h7, h8⟩ := hE e he
    exact ⟨c, j, h1, fun hh => h2 (hold _ hh), h3, h4.bounded_weaken hold, blk1, mid1, pt, h5, h6,
      fun z hz hh => h7 z hz (hold _ hh), h8⟩
  · intro u hu
    obtain ⟨k, v, h1, h2, h3⟩ := huses u hu
    exact ⟨k, v, by rw [← hkey u hu]; exact h1, h2, h3⟩
  · intro k'
    rw [hkeys k']
    constructor
    · rintro ⟨u, hu, huk⟩
      exact ⟨u, hu, by rw [← hkey u hu]; exact huk⟩
    · rintro ⟨u, hu, huk⟩
      exact ⟨u, hu, by rw [hkey u hu]; exact huk⟩
  · intro hop hpf0
    exact hPF (hpf hop hpf0).1

end CheriBoundAllocas

namespace CheriBoundAllocas

/-! ## The claims -/

theorem needBounds_of_analysedSet_nil {env : Env} {BA : StackBoundsAnalysis} {f : Function}
    {ai : Nat} (h : analysedSet env BA f ai = []) : needBounds env BA f ai = false := by
  unfold analysedSet at h
  unfold needBounds analyse
  split
  · rfl
  · simp [h]

theorem needSet_ifNeeded {env : Env} {BA : StackBoundsAnalysis} {f : Function} {ai : Nat}
    (h : env.opts.BoundsSettingMode = StackBoundsMethod.IfNeeded) :
    needSet env BA f ai = analysedSet env BA f ai := by
  unfold needSet analysedSet analyse
  simp [h]

/-- C2: when the analyser returns an empty need-set for an allocation, no call
of a bounds-setting intrinsic is inserted for it and every operand of every
instruction of the function is what it was (so every use of the allocation
still refers to the allocation). -/
theorem C2_empty_need_set_changes_no_use (env : Env) (T : PassTypes) (TLI : TargetLowering)
    (IsOptNone : Bool) (BA : StackBoundsAnalysis) (st : PassState) (ai : Nat) (p : Prologue)
    (hnd : st.fn.ids.Nodup)
    (hp : prologue env.DL TLI T st.fn ai = some p)
    (hempty : analysedSet env BA p.fn ai = []) :
    ∃ st', processAlloca env T TLI IsOptNone BA st ai = some st' ∧
      insertedBoundsCalls st.fn st'.fn = [] ∧
      ∀ u v, st.fn.getOperand u = some v → st'.fn.getOperand u = some v := by
  obtain ⟨st', hst', hfn, -, -⟩ :=
    processAlloca_exempt IsOptNone hp (needBounds_of_analysedSet_nil hempty)
  obtain ⟨next, -, -, -, -, -, -, e1, -⟩ := prologue_spec hnd hp
  refine ⟨st', hst', ?_, ?_⟩
  · apply List.eq_nil_of_length_eq_zero
    rw [hfn, e1.2.2.1 st.fn, length_insertedBoundsCalls_self]
  · intro u v huv
    rw [hfn]
    exact e1.2.1.getOperand huv

/-- C3: under `if-needed`, a use of the allocation that the analyser did not
put in the need-set is never redirected to a bounded value: after the
allocation was processed it still holds the alloca itself or, when tail
padding was applied with typed pointers, the new bitcast of the widened
alloca back to its original pointer type. -/
theorem C3_uses_outside_need_set_stay_unbounded (env : Env) (T : PassTypes)
    (TLI : TargetLowering) (IsOptNone : Bool) (BA : StackBoundsAnalysis) (st : PassState)
    (ai : Nat) (p : Prologue)
    (hwf : st.fn.wellFormed = true)
    (hp : prologue env.DL TLI T st.fn ai = some p)
    (hmode : env.opts.BoundsSettingMode = StackBoundsMethod.IfNeeded)
    (hvalid : ∀ u ∈ analysedSet env BA p.fn ai, (p.fn.getOperand u).isSome) :
    ∃ st', processAlloca env T TLI IsOptNone BA st ai = some st' ∧
      ∀ u, st.fn.getOperand u = some (Value.inst ai) → u ∉ analysedSet env BA p.fn ai →
        st'.fn.getOperand u = some (Value.inst ai) ∨
        (p.AI.ty.isOpaquePointerTy = false ∧
          ∃ c, c.id ∉ st.fn.ids ∧ st'.fn.getOperand u = some (Value.inst c.id) ∧
            st'.fn.findInst c.id = some c ∧ c.op = Opcode.bitcast ∧
            c.operands = [Value.inst ai] ∧ c.ty = p.AI.ty) := by
  rw [← needSet_ifNeeded hmode] at hvalid ⊢
  obtain ⟨h, Size, next, blk, hpad, hAI, hid, hnext, hBpt, hnmem, hblk, hseg, F1, K1, F2, C, hphi,
    hpf, hO⟩ := preInject_spec env.DL TLI T st.fn ai p hwf hp
  subst hid
  have hvalid' : ∀ u ∈ needSet env BA p.fn p.AI.id, (h.getOperand u).isSome :=
    fun u hu => valid_after_pre hO (hvalid u hu)
  have hF : Frame st.fn h := F1.frame_trans F2
  have hold : ∀ j ∈ st.fn.ids, j ∈ h.ids := fun j hj => hF.ids_sub hj
  have hai : p.AI.id ∈ h.ids := hold _ (mem_ids_of_findInst hAI)
  obtain ⟨i, hi⟩ := setBoundsIntrin_intrinsic T (p.fn.isStaticAlloca p.AI)
  -- what holds of a use outside the need-set once the bounds are injected
  have key : ∀ g : Function,
      (∀ u, u ∉ needSet env BA p.fn p.AI.id → u.user ∈ h.ids → g.getOperand u = h.getOperand u) →
      (∀ j ∈ h.ids, (∀ u ∈ needSet env BA p.fn p.AI.id, u.user ≠ j) →
        g.findInst j = h.findInst j) →
      ∀ u, st.fn.getOperand u = some (Value.inst p.AI.id) → u ∉ needSet env BA p.fn p.AI.id →
        g.getOperand u = some (Value.inst p.AI.id) ∨
        (p.AI.ty.isOpaquePointerTy = false ∧
          ∃ c, c.id ∉ st.fn.ids ∧ g.getOperand u = some (Value.inst c.id) ∧
            g.findInst c.id = some c ∧ c.op = Opcode.bitcast ∧
            c.operands = [Value.inst p.AI.id] ∧ c.ty = p.AI.ty) := by
    intro g hother hfind u hu hnot
    have hu1 : p.fn.getOperand u = some (Value.inst p.AI.id) := K1.getOperand hu
    have huser : u.user ∈ p.fn.ids := mem_ids_of_getOperand_isSome (by rw [hu1]; rfl)
    rw [hother u hnot (F2.ids_sub huser)]
    rcases hO with hO | ⟨hopq, c, hc1, hc2, hc3, hc4, hc5, hc6⟩
    · exact Or.inl (hO.getOperand hu1)
    · right
      refine ⟨hopq, c, fun hh => hc1 (F1.ids_sub hh), ?_, ?_, hc3, hc4, hc5⟩
      · rw [hc6 u _ huser hu1]; simp
      · rw [hfind c.id (mem_ids_of_findInst hc2) ?_]
        · exact hc2
        · intro u' hu' hcon
          exact hc1 (hcon ▸ mem_ids_of_getOperand_isSome (hvalid u' hu'))
  cases hneed : needBounds env BA p.fn p.AI.id with
  | false =>
    obtain ⟨st', hst', hfn, -, -⟩ := processAlloca_exempt IsOptNone hp hneed
    refine ⟨st', hst', fun u hu _ => Or.inl ?_⟩
    rw [hfn]
    exact K1.getOperand hu
  | true =>
    cases hreuse : reuseSingle env IsOptNone BA p p.AI.id with
    | true =>
      obtain ⟨st', hst', hfn, -⟩ := processAlloca_shared hp hneed hpad hreuse
      obtain ⟨-, -, hother, hfind, -⟩ := injectShared_spec T p i T.SizeTy Size
        (needSet env BA p.fn p.AI.id) h hF.1 (hBpt ▸ hold _ hnmem) hai hvalid'
      rw [← hi] at hother hfind
      rw [← hfn] at hother hfind
      exact ⟨st', hst', key st'.fn hother hfind⟩
    | false =>
      obtain ⟨g, m, hinj, -, -, hother, -, hfind⟩ := injectPerUse_spec T p i T.SizeTy Size h
        (needSet env BA p.fn p.AI.id) hF.1 hphi hai hvalid'
      rw [← hi] at hinj
      obtain ⟨st', hst', hfn, -⟩ := processAlloca_perUse hp hneed hpad hreuse hinj
      rw [← hfn] at hother hfind
      exact ⟨st', hst', key st'.fn hother hfind⟩

theorem needBounds_of_needSet_ne_nil {env : Env} {BA : StackBoundsAnalysis} {f : Function}
    {ai : Nat} (h : needSet env BA f ai ≠ []) : needBounds env BA f ai = true := by
  cases hn : needBounds env BA f ai with
  | true => rfl
  | false => exact absurd (analyse_false hn) h

theorem reuseSingle_iff (env : Env) (IsOptNone : Bool) (BA : StackBoundsAnalysis)
    (p : Prologue) (ai : Nat) :
    reuseSingle env IsOptNone BA p ai = true ↔
      (p.fn.isStaticAlloca p.AI = false ∨ IsOptNone = true ∨
        env.opts.SingleIntrinsicThreshold ≤ (needSet env BA p.fn ai).length) := by
  unfold reuseSingle ReuseSingleIntrinsicCall
  simp only [Bool.or_eq_true, Bool.not_eq_true', decide_eq_true_eq, ge_iff_le, or_assoc]

/-- C4: for a static allocation with a non-empty need-set the
single-intrinsic (Shared) branch is taken exactly when the function is
optnone or the number of uses needing bounds is at least the threshold, and
the per-use branch otherwise; so a threshold of 0 always gives Shared, and
with the threshold 5 in a function that is not optnone 5 needing uses give
Shared and 4 give PerUse. -/
theorem C4_shared_iff_optnone_or_threshold (env : Env) (T : PassTypes) (TLI : TargetLowering)
    (IsOptNone : Bool) (BA : StackBoundsAnalysis) (st : PassState) (ai : Nat) (p : Prologue)
    (hwf : st.fn.wellFormed = true)
    (hp : prologue env.DL TLI T st.fn ai = some p)
    (hvalid : ∀ u ∈ needSet env BA p.fn ai, (p.fn.getOperand u).isSome)
    (hstatic : p.fn.isStaticAlloca p.AI = true)
    (hne : needSet env BA p.fn ai ≠ []) :
    ∃ st' r, processAlloca env T TLI IsOptNone BA st ai = some st' ∧
      padded env.DL TLI T p = some r ∧
      ((IsOptNone = true ∨
          env.opts.SingleIntrinsicThreshold ≤ (needSet env BA p.fn ai).length) →
        st'.fn = injectShared T p (SetBoundsIntrin T true) r.2 (needSet env BA p.fn ai) r.1 ∧
        st'.stats.NumSingleIntrin = wrap64 (st.stats.NumSingleIntrin + 1)) ∧
      (¬ (IsOptNone = true ∨
          env.opts.SingleIntrinsicThreshold ≤ (needSet env BA p.fn ai).length) →
        injectPerUse T p (SetBoundsIntrin T true) r.2 (needSet env BA p.fn ai) r.1 =
          some st'.fn ∧
        st'.stats.NumSingleIntrin = st.stats.NumSingleIntrin) ∧
      (reuseSingle env IsOptNone BA p ai = true ↔
        (IsOptNone = true ∨
          env.opts.SingleIntrinsicThreshold ≤ (needSet env BA p.fn ai).length)) ∧
      (env.opts.SingleIntrinsicThreshold = 0 → reuseSingle env IsOptNone BA p ai = true) ∧
      (env.opts.SingleIntrinsicThreshold = 5 → IsOptNone = false →
        ((needSet env BA p.fn ai).length = 5 → reuseSingle env IsOptNone BA p ai = true) ∧
        ((needSet env BA p.fn ai).length = 4 → reuseSingle env IsOptNone BA p ai = false)) := by
  have hneed := needBounds_of_needSet_ne_nil hne
  have hiff : reuseSingle env IsOptNone BA p ai = true ↔
      (IsOptNone = true ∨
        env.opts.SingleIntrinsicThreshold ≤ (needSet env BA p.fn ai).length) := by
    rw [reuseSingle_iff, hstatic]
    simp
  have hrest : (env.opts.SingleIntrinsicThreshold = 0 → reuseSingle env IsOptNone BA p ai = true) ∧
      (env.opts.SingleIntrinsicThreshold = 5 → IsOptNone = false →
        ((needSet env BA p.fn ai).length = 5 → reuseSingle env IsOptNone BA p ai = true) ∧
        ((needSet env BA p.fn ai).length = 4 → reuseSingle env IsOptNone BA p ai = false)) := by
    refine ⟨fun h0 => hiff.mpr (Or.inr (by omega)), fun h5 hopt => ⟨fun hn => ?_, fun hn => ?_⟩⟩
    · exact hiff.mpr (Or.inr (by omega))
    · cases hr : reuseSingle env IsOptNone BA p ai with
      | false => rfl
      | true =>
        rcases hiff.mp hr with h | h
        · rw [hopt] at h; cases h
        · omega
  cases hreuse : reuseSingle env IsOptNone BA p ai with
  | true =>
    obtain ⟨st', r, -, -, -, -, -, hst', hpad, hstat, hfn, -⟩ :=
      shared_master env T TLI IsOptNone BA st ai p hwf hp hvalid hneed hreuse
    rw [hstatic] at hfn
    rw [hreuse] at hiff hrest
    exact ⟨st', r, hst', hpad, fun _ => ⟨hfn, hstat⟩, fun hn => absurd (hiff.mp rfl) hn, hiff,
      hrest⟩
  | false =>
    obtain ⟨st', r, m, hst', hpad, hstat, hinj, -⟩ :=
      perUse_master env T TLI IsOptNone BA st ai p hwf hp hvalid hneed hreuse
    rw [hstatic] at hinj
    rw [hreuse] at hiff hrest
    refine ⟨st', r, hst', hpad, fun hy => ?_, fun _ => ⟨hinj, hstat⟩, hiff, hrest⟩
    have := hiff.mpr hy
    cases this

end CheriBoundAllocas

namespace CheriBoundAllocas

theorem mem_insertedBoundsCalls {f g : Function} {c : Nat} {call : Inst} {intr : Callee}
    (hi : ∃ i ty, intr = Callee.intrinsic i ty)
    (hfind : g.findInst c = some call) (hop : call.op = Opcode.call intr) (hc : c ∉ f.ids) :
    call ∈ insertedBoundsCalls f g := by
  unfold insertedBoundsCalls
  rw [List.mem_filter]
  refine ⟨findInst_mem hfind, ?_⟩
  obtain ⟨i, ty, rfl⟩ := hi
  have hid := findInst_id hfind
  simp only [Inst.isBoundsCall, hop, Bool.true_and, Bool.not_eq_true', hid]
  simpa using hc

theorem eq_of_mem_length_one {α : Type} {l : List α} {a : α} (hl : l.length = 1)
    (ha : a ∈ l) : ∀ x ∈ l, x = a := by
  match l, hl with
  | [b], _ =>
    intro x hx
    simp only [List.mem_singleton] at ha hx
    rw [hx, ha]

/-- C5: an allocation that is not a static alloca and has a use needing bounds
is bounded by the single-intrinsic branch whatever the threshold and the
optnone flag: exactly one bounds call is inserted, it calls
`cheri_bounded_stack_cap_dynamic`, and every use of the need-set is
redirected to the one value derived from it. -/
theorem C5_dynamic_alloca_uses_one_dynamic_call (env : Env) (T : PassTypes)
    (TLI : TargetLowering) (IsOptNone : Bool) (BA : StackBoundsAnalysis) (st : PassState)
    (ai : Nat) (p : Prologue)
    (hwf : st.fn.wellFormed = true)
    (hp : prologue env.DL TLI T st.fn ai = some p)
    (hvalid : ∀ u ∈ needSet env BA p.fn ai, (p.fn.getOperand u).isSome)
    (hdyn : p.fn.isStaticAlloca p.AI = false)
    (hneed : needBounds env BA p.fn ai = true) :
    ∃ st' r v c, processAlloca env T TLI IsOptNone BA st ai = some st' ∧
      padded env.DL TLI T p = some r ∧
      st'.stats.NumSingleIntrin = wrap64 (st.stats.NumSingleIntrin + 1) ∧
      (insertedBoundsCalls st.fn st'.fn).length = 1 ∧
      (∀ x ∈ insertedBoundsCalls st.fn st'.fn, x.id = c ∧
        x.op = Opcode.call
          (Callee.intrinsic Intrinsic.cheri_bounded_stack_cap_dynamic T.SizeTy)) ∧
      IsBoundedVia st'.fn st.fn.ids T
        (Callee.intrinsic Intrinsic.cheri_bounded_stack_cap_dynamic T.SizeTy) p.AI.ty ai r.2 v c ∧
      (∀ u ∈ needSet env BA p.fn ai, st'.fn.getOperand u = some v) := by
  have hreuse : reuseSingle env IsOptNone BA p ai = true :=
    (reuseSingle_iff env IsOptNone BA p ai).mpr (Or.inl hdyn)
  obtain ⟨st', r, next, v, c, blk', mid, hst', hpad, hstat, -, hcount, hb, hops, -⟩ :=
    shared_master env T TLI IsOptNone BA st ai p hwf hp hvalid hneed hreuse
  rw [hdyn] at hb
  have hb' : IsBoundedVia st'.fn st.fn.ids T
      (Callee.intrinsic Intrinsic.cheri_bounded_stack_cap_dynamic T.SizeTy) p.AI.ty ai r.2 v c := hb
  refine ⟨st', r, v, c, hst', hpad, hstat, hcount, ?_, hb', hops⟩
  obtain ⟨hc, call, ptr, hfind, hop, -⟩ := hb'
  have hmem := mem_insertedBoundsCalls ⟨_, _, rfl⟩ hfind hop hc
  intro x hx
  rw [eq_of_mem_length_one hcount hmem x hx]
  exact ⟨findInst_id hfind, hop⟩

/-- C6: when the single-intrinsic (Shared) branch is taken for an allocation
with uses needing bounds, exactly one bounds call is inserted; it stands
after the alloca and before the instruction that followed the alloca, with
nothing but instructions inserted by the pass between the alloca and that
instruction; and every use of the need-set is redirected to one and the same
value derived from that call. -/
theorem C6_shared_one_call_after_the_alloca (env : Env) (T : PassTypes)
    (TLI : TargetLowering) (IsOptNone : Bool) (BA : StackBoundsAnalysis) (st : PassState)
    (ai : Nat) (p : Prologue)
    (hwf : st.fn.wellFormed = true)
    (hp : prologue env.DL TLI T st.fn ai = some p)
    (hvalid : ∀ u ∈ needSet env BA p.fn ai, (p.fn.getOperand u).isSome)
    (hneed : needBounds env BA p.fn ai = true)
    (hreuse : reuseSingle env IsOptNone BA p ai = true) :
    ∃ st' r next v c blk' mid, processAlloca env T TLI IsOptNone BA st ai = some st' ∧
      padded env.DL TLI T p = some r ∧
      (insertedBoundsCalls st.fn st'.fn).length = 1 ∧
      IsBoundedVia st'.fn st.fn.ids T (SetBoundsIntrin T (p.fn.isStaticAlloca p.AI))
        p.AI.ty ai r.2 v c ∧
      (∀ u ∈ needSet env BA p.fn ai, st'.fn.getOperand u = some v) ∧
      st.fn.getNextNode ai = some next ∧ st'.fn.parentOf ai = some blk' ∧
      SegIn blk' ai next.id mid ∧ c ∈ mid ∧ (∀ z ∈ mid, z ∉ st.fn.ids) := by
  obtain ⟨st', r, next, v, c, blk', mid, hst', hpad, -, -, hcount, hb, hops, hrest⟩ :=
    shared_master env T TLI IsOptNone BA st ai p hwf hp hvalid hneed hreuse
  exact ⟨st', r, next, v, c, blk', mid, hst', hpad, hcount, hb, hops, hrest⟩

theorem useKey_isSome_of_lookup {p : Prologue} {m : List (UseKey × Value)} {g : Function}
    {uses : List Use}
    (huses : ∀ u ∈ uses, ∃ k v, useKey p.fn u = some k ∧ m.lookup k = some v ∧
      g.getOperand u = some v) :
    ∀ x ∈ uses.map (useKey p.fn), ∃ k, x = some k := by
  intro x hx
  obtain ⟨u, hu, rfl⟩ := List.mem_map.mp hx
  obtain ⟨k, _, hk, _⟩ := huses u hu
  exact ⟨k, hk⟩

/-- C7: in the per-use branch two uses of the need-set are redirected to the
same value exactly when they have the same key (user, incoming block of the
use for a PHI and none otherwise); the number of bounds calls inserted is
the number of distinct keys, at most the number of uses; and two uses of
one PHI with the same incoming block get the same value. -/
theorem C7_per_use_one_value_per_key (env : Env) (T : PassTypes) (TLI : TargetLowering)
    (IsOptNone : Bool) (BA : StackBoundsAnalysis) (st : PassState) (ai : Nat) (p : Prologue)
    (hwf : st.fn.wellFormed = true)
    (hp : prologue env.DL TLI T st.fn ai = some p)
    (hvalid : ∀ u ∈ needSet env BA p.fn ai, (p.fn.getOperand u).isSome)
    (hneed : needBounds env BA p.fn ai = true)
    (hreuse : reuseSingle env IsOptNone BA p ai = false) :
    ∃ st', processAlloca env T TLI IsOptNone BA st ai = some st' ∧
      (∀ u1 ∈ needSet env BA p.fn ai, ∀ u2 ∈ needSet env BA p.fn ai,
        (st'.fn.getOperand u1 = st'.fn.getOperand u2 ↔ useKey p.fn u1 = useKey p.fn u2)) ∧
      (insertedBoundsCalls st.fn st'.fn).length =
        ((needSet env BA p.fn ai).map (useKey p.fn)).dedup.length ∧
      (insertedBoundsCalls st.fn st'.fn).length ≤ (needSet env BA p.fn ai).length ∧
      (∀ u1 ∈ needSet env BA p.fn ai, ∀ u2 ∈ needSet env BA p.fn ai, ∀ I,
        p.fn.findInst u1.user = some I → I.op = Opcode.phi → u2.user = u1.user →
        I.incoming[u2.opNo]? = I.incoming[u1.opNo]? →
        st'.fn.getOperand u1 = st'.fn.getOperand u2) := by
  obtain ⟨st', r, m, hst', hpad, -, -, hcount, hK, hS, hE, huses, hkeys, -⟩ :=
    perUse_master env T TLI IsOptNone BA st ai p hwf hp hvalid hneed hreuse
  have hiff : ∀ u1 ∈ needSet env BA p.fn ai, ∀ u2 ∈ needSet env BA p.fn ai,
      (st'.fn.getOperand u1 = st'.fn.getOperand u2 ↔ useKey p.fn u1 = useKey p.fn u2) := by
    intro u1 hu1 u2 hu2
    obtain ⟨k1, v1, hk1, hl1, ho1⟩ := huses u1 hu1
    obtain ⟨k2, v2, hk2, hl2, ho2⟩ := huses u2 hu2
    rw [ho1, ho2, hk1, hk2]
    constructor
    · intro hv
      simp only [Option.some.injEq] at hv
      subst hv
      have h1 := lookup_some_mem hl1
      have h2 := lookup_some_mem hl2
      have := List.inj_on_of_nodup_map hS h1 h2 rfl
      simp only [Prod.mk.injEq, and_true] at this
      rw [this]
    · intro hk
      simp only [Option.some.injEq] at hk
      subst hk
      rw [hl1] at hl2
      exact hl2
  have hlen : m.length = ((needSet env BA p.fn ai).map (useKey p.fn)).dedup.length := by
    have hsome := useKey_isSome_of_lookup huses
    have hperm : ((m.map Prod.fst).map some).Perm
        ((needSet env BA p.fn ai).map (useKey p.fn)).dedup := by
      rw [List.perm_ext_iff_of_nodup (hK.map (Option.some_injective _)) (List.nodup_dedup _)]
      intro x
      rw [List.mem_dedup]
      constructor
      · intro hx
        obtain ⟨k, hk, rfl⟩ := List.mem_map.mp hx
        obtain ⟨u, hu, huk⟩ := (hkeys k).mp hk
        exact List.mem_map.mpr ⟨u, hu, huk⟩
      · intro hx
        obtain ⟨k, rfl⟩ := hsome x hx
        obtain ⟨u, hu, huk⟩ := List.mem_map.mp hx
        exact List.mem_map.mpr ⟨k, (hkeys k).mpr ⟨u, hu, huk⟩, rfl⟩
    have := hperm.length_eq
    simpa using this
  refine ⟨st', hst', hiff, hcount.trans hlen, ?_, ?_⟩
  · rw [hcount, hlen]
    calc ((needSet env BA p.fn ai).map (useKey p.fn)).dedup.length
        ≤ ((needSet env BA p.fn ai).map (useKey p.fn)).length :=
          (List.dedup_sublist _).length_le
      _ = (needSet env BA p.fn ai).length := List.length_map _ _
  · intro u1 hu1 u2 hu2 I hI hop huser hinc
    rw [hiff u1 hu1 u2 hu2]
    unfold useKey
    rw [huser, hI]
    simp only [hop, if_true, hinc]

end CheriBoundAllocas

namespace CheriBoundAllocas

/-- Where the entry of a key was created: before the terminator of the
incoming block for a PHI use, before the user otherwise. -/
theorem entry_position {T : PassTypes} {intr : Callee} {APT : Ty} {ai : Nat} {Size : Value}
    {old : List Nat} {g f : Function} {k : UseKey} {v : Value} {u : Use} {I : Inst}
    (hE : EntryOK T intr APT ai Size old g (k, v))
    (hI : f.findInst u.user = some I) (hk : useKey f u = some k) :
    ∃ c, IsBoundedVia g old T intr APT ai Size v c ∧
      (I.op = Opcode.phi → ∃ bb blk t mid, I.incoming[u.opNo]? = some bb ∧
        g.findBlock bb = some blk ∧ blk.getTerminator = some t ∧ SegIn blk c t.id mid ∧
        ∀ z ∈ mid, z ∉ old) ∧
      (I.op ≠ Opcode.phi → ∃ blk mid, g.parentOf u.user = some blk ∧
        SegIn blk c u.user mid ∧ ∀ z ∈ mid, z ∉ old) := by
  obtain ⟨c, j, -, -, -, hb, blk, mid, pt, hloc, hseg, hnew, hpt⟩ := hE
  have hIid := findInst_id hI
  refine ⟨c, hb, ?_, ?_⟩
  · intro hop
    unfold useKey at hk
    simp only [hI, hop, if_true] at hk
    cases hinc : I.incoming[u.opNo]? with
    | none => simp [hinc] at hk
    | some bb =>
      simp only [hinc, Option.some.injEq] at hk
      subst hk
      unfold locate at hloc
      simp only at hloc
      unfold perUseInsertPt at hpt
      simp only [hloc] at hpt
      cases ht : blk.getTerminator with
      | none => simp [ht] at hpt
      | some t =>
        simp only [ht, Option.some.injEq] at hpt
        subst hpt
        exact ⟨bb, blk, t, mid, rfl, hloc, ht, hseg, hnew⟩
  · intro hop
    unfold useKey at hk
    simp only [hI, hop, if_false, Option.some.injEq] at hk
    subst hk
    unfold locate at hloc
    simp only [hIid] at hloc
    unfold perUseInsertPt at hpt
    simp only [Option.some.injEq, hIid] at hpt
    subst hpt
    exact ⟨blk, mid, hloc, hseg, hnew⟩

/-- C8: in the per-use branch the bounds call made for a use of the need-set
stands, for a PHI user, in the incoming block of the use before that block's
terminator, and for any other user in the user's block before the user,
with nothing but instructions inserted by the pass in between; nothing is
inserted before a PHI, so blocks whose PHIs come first keep them first. -/
theorem C8_per_use_insertion_points (env : Env) (T : PassTypes) (TLI : TargetLowering)
    (IsOptNone : Bool) (BA : StackBoundsAnalysis) (st : PassState) (ai : Nat) (p : Prologue)
    (hwf : st.fn.wellFormed = true)
    (hp : prologue env.DL TLI T st.fn ai = some p)
    (hvalid : ∀ u ∈ needSet env BA p.fn ai, (p.fn.getOperand u).isSome)
    (hneed : needBounds env BA p.fn ai = true)
    (hreuse : reuseSingle env IsOptNone BA p ai = false) :
    ∃ st' r, processAlloca env T TLI IsOptNone BA st ai = some st' ∧
      padded env.DL TLI T p = some r ∧
      (∀ u ∈ needSet env BA p.fn ai, ∃ I v c, p.fn.findInst u.user = some I ∧
        st'.fn.getOperand u = some v ∧
        IsBoundedVia st'.fn st.fn.ids T (SetBoundsIntrin T (p.fn.isStaticAlloca p.AI))
          p.AI.ty ai r.2 v c ∧
        (I.op = Opcode.phi → ∃ bb blk t mid, I.incoming[u.opNo]? = some bb ∧
          st'.fn.findBlock bb = some blk ∧ blk.getTerminator = some t ∧
          SegIn blk c t.id mid ∧ ∀ z ∈ mid, z ∉ st.fn.ids) ∧
        (I.op ≠ Opcode.phi → ∃ blk mid, st'.fn.parentOf u.user = some blk ∧
          SegIn blk c u.user mid ∧ ∀ z ∈ mid, z ∉ st.fn.ids)) ∧
      (p.AI.op ≠ Opcode.phi → PhisFirst st.fn → PhisFirst st'.fn) := by
  obtain ⟨st', r, m, hst', hpad, -, -, -, -, -, hE, huses, -, hpf⟩ :=
    perUse_master env T TLI IsOptNone BA st ai p hwf hp hvalid hneed hreuse
  refine ⟨st', r, hst', hpad, fun u hu => ?_, hpf⟩
  obtain ⟨k, v, hk, hlook, hop⟩ := huses u hu
  obtain ⟨I, hI⟩ := exists_findInst_of_mem_ids (mem_ids_of_getOperand_isSome (hvalid u hu))
  obtain ⟨c, hb, h1, h2⟩ := entry_position (hE _ (lookup_some_mem hlook)) hI hk
  exact ⟨I, v, c, hI, hop, hb, h1, h2⟩

/-- C9 (amended): a PHI user in the need-set does not force the
single-intrinsic branch.  Also when a use of the need-set is consumed by a
PHI, the single-intrinsic branch is taken exactly when the allocation is
not a static alloca, or the function is optnone, or the number of uses
needing bounds is at least the threshold; otherwise the per-use branch is
taken, and the bounded value of that PHI use is created in its incoming
block, before the terminator. -/
theorem C9_phi_user_does_not_force_shared (env : Env) (T : PassTypes) (TLI : TargetLowering)
    (IsOptNone : Bool) (BA : StackBoundsAnalysis) (st : PassState) (ai : Nat) (p : Prologue)
    (u : Use) (I : Inst)
    (hwf : st.fn.wellFormed = true)
    (hp : prologue env.DL TLI T st.fn ai = some p)
    (hvalid : ∀ u ∈ needSet env BA p.fn ai, (p.fn.getOperand u).isSome)
    (hu : u ∈ needSet env BA p.fn ai)
    (hI : p.fn.findInst u.user = some I) (hphi : I.op = Opcode.phi) :
    ∃ st' r, processAlloca env T TLI IsOptNone BA st ai = some st' ∧
      padded env.DL TLI T p = some r ∧
      (reuseSingle env IsOptNone BA p ai = true ↔
        (p.fn.isStaticAlloca p.AI = false ∨ IsOptNone = true ∨
          env.opts.SingleIntrinsicThreshold ≤ (needSet env BA p.fn ai).length)) ∧
      (reuseSingle env IsOptNone BA p ai = true →
        st'.fn = injectShared T p (SetBoundsIntrin T (p.fn.isStaticAlloca p.AI)) r.2
          (needSet env BA p.fn ai) r.1 ∧
        st'.stats.NumSingleIntrin = wrap64 (st.stats.NumSingleIntrin + 1)) ∧
      (reuseSingle env IsOptNone BA p ai = false →
        injectPerUse T p (SetBoundsIntrin T (p.fn.isStaticAlloca p.AI)) r.2
          (needSet env BA p.fn ai) r.1 = some st'.fn ∧
        st'.stats.NumSingleIntrin = st.stats.NumSingleIntrin ∧
        ∃ v c bb blk t mid, st'.fn.getOperand u = some v ∧
          IsBoundedVia st'.fn st.fn.ids T (SetBoundsIntrin T (p.fn.isStaticAlloca p.AI))
            p.AI.ty ai r.2 v c ∧
          I.incoming[u.opNo]? = some bb ∧ st'.fn.findBlock bb = some blk ∧
          blk.getTerminator = some t ∧ SegIn blk c t.id mid ∧ ∀ z ∈ mid, z ∉ st.fn.ids) := by
  have hneed : needBounds env BA p.fn ai = true :=
    needBounds_of_needSet_ne_nil (List.ne_nil_of_mem hu)
  have hiff := reuseSingle_iff env IsOptNone BA p ai
  cases hreuse : reuseSingle env IsOptNone BA p ai with
  | true =>
    obtain ⟨st', r, -, -, -, -, -, hst', hpad, hstat, hfn, -⟩ :=
      shared_master env T TLI IsOptNone BA st ai p hwf hp hvalid hneed hreuse
    rw [hreuse] at hiff
    exact ⟨st', r, hst', hpad, hiff, fun _ => ⟨hfn, hstat⟩, (fun hcon => by cases hcon)⟩
  | false =>
    obtain ⟨st', r, m, hst', hpad, hstat, hinj, -, -, -, hE, huses, -, -⟩ :=
      perUse_master env T TLI IsOptNone BA st ai p hwf hp hvalid hneed hreuse
    rw [hreuse] at hiff
    refine ⟨st', r, hst', hpad, hiff, (fun hcon => by cases hcon), fun _ => ⟨hinj, hstat, ?_⟩⟩
    · obtain ⟨k, v, hk, hlook, hop⟩ := huses u hu
      obtain ⟨c, hb, h1, -⟩ := entry_position (hE _ (lookup_some_mem hlook)) hI hk
      obtain ⟨bb, blk, t, mid, h2, h3, h4, h5, h6⟩ := h1 hphi
      exact ⟨v, c, bb, blk, t, mid, hop, hb, h2, h3, h4, h5, h6⟩

/-- C10 (amended): for a static allocation whose need-set is one use that is
an argument of a call instruction, under the default options (`if-needed`,
threshold 5), exactly one bounds call is inserted and the call's argument is
redirected to the value derived from it; in a function that is not optnone
it stands before the consuming call instruction (per-use branch), in the
consuming call's block, and in an optnone function it stands between the
alloca and the instruction that followed it (single-intrinsic branch). -/
theorem C10_single_call_argument (env : Env) (T : PassTypes) (TLI : TargetLowering)
    (IsOptNone : Bool) (BA : StackBoundsAnalysis) (st : PassState) (ai : Nat) (p : Prologue)
    (u : Use) (I : Inst) (callee : Nat)
    (hwf : st.fn.wellFormed = true)
    (hp : prologue env.DL TLI T st.fn ai = some p)
    (hopts : env.opts = Options.default)
    (hstatic : p.fn.isStaticAlloca p.AI = true)
    (hset : needSet env BA p.fn ai = [u])
    (hu : p.fn.getOperand u = some (Value.inst ai))
    (hI : p.fn.findInst u.user = some I)
    (hcall : I.op = Opcode.call (Callee.function callee)) :
    ∃ st' r v c, processAlloca env T TLI IsOptNone BA st ai = some st' ∧
      padded env.DL TLI T p = some r ∧
      (insertedBoundsCalls st.fn st'.fn).length = 1 ∧
      st'.fn.getOperand u = some v ∧
      IsBoundedVia st'.fn st.fn.ids T
        (Callee.intrinsic Intrinsic.cheri_bounded_stack_cap T.SizeTy) p.AI.ty ai r.2 v c ∧
      (IsOptNone = false → ∃ blk mid, st'.fn.parentOf u.user = some blk ∧
        SegIn blk c u.user mid ∧ ∀ z ∈ mid, z ∉ st.fn.ids) ∧
      (IsOptNone = true → ∃ next blk mid, st.fn.getNextNode ai = some next ∧
        st'.fn.parentOf ai = some blk ∧ SegIn blk ai next.id mid ∧ c ∈ mid ∧
        ∀ z ∈ mid, z ∉ st.fn.ids) := by
  have hvalid : ∀ u' ∈ needSet env BA p.fn ai, (p.fn.getOperand u').isSome := by
    intro u' hu'
    rw [hset] at hu'
    simp only [List.mem_singleton] at hu'
    rw [hu', hu]; rfl
  have humem : u ∈ needSet env BA p.fn ai := by rw [hset]; exact List.mem_singleton_self u
  have hneed : needBounds env BA p.fn ai = true :=
    needBounds_of_needSet_ne_nil (List.ne_nil_of_mem humem)
  have hiff := reuseSingle_iff env IsOptNone BA p ai
  rw [hstatic, hset, hopts] at hiff
  simp only [Options.default, List.length_singleton, Bool.true_eq_false, false_or] at hiff
  cases hopt : IsOptNone with
  | true =>
    have hreuse : reuseSingle env true BA p ai = true := by
      rw [hopt] at hiff; exact hiff.mpr (Or.inl rfl)
    obtain ⟨st', r, next, v, c, blk', mid, hst', hpad, -, -, hcount, hb, hops, h1, h2, h3, h4, h5⟩ :=
      shared_master env T TLI true BA st ai p hwf hp hvalid hneed hreuse
    rw [hstatic] at hb
    exact ⟨st', r, v, c, hst', hpad, hcount, hops u humem, hb, (fun hcon => by cases hcon),
      fun _ => ⟨next, blk', mid, h1, h2, h3, h4, h5⟩⟩
  | false =>
    have hreuse : reuseSingle env false BA p ai = false := by
      rw [hopt] at hiff
      cases hr : reuseSingle env false BA p ai with
      | false => rfl
      | true =>
        rcases hiff.mp hr with h | h
        · cases h
        · omega
    obtain ⟨st', r, m, hst', hpad, -, -, hcount, hK, -, hE, huses, hkeys, -⟩ :=
      perUse_master env T TLI false BA st ai p hwf hp hvalid hneed hreuse
    obtain ⟨k, v, hk, hlook, hop⟩ := huses u humem
    obtain ⟨c, hb, -, h2⟩ := entry_position (hE _ (lookup_some_mem hlook)) hI hk
    rw [hstatic] at hb
    have hnophi : I.op ≠ Opcode.phi := by rw [hcall]; simp
    have hmlen : m.length = 1 := by
      have hsub : ∀ k' ∈ m.map Prod.fst, k' = k := by
        intro k' hk'
        obtain ⟨u', hu', huk'⟩ := (hkeys k').mp hk'
        rw [hset] at hu'
        simp only [List.mem_singleton] at hu'
        rw [hu', hk] at huk'
        cases huk'; rfl
      have hkm : k ∈ m.map Prod.fst := List.mem_map.mpr ⟨_, lookup_some_mem hlook, rfl⟩
      have hperm : (m.map Prod.fst).Perm [k] := by
        rw [List.perm_ext_iff_of_nodup hK (List.nodup_singleton k)]
        intro a
        simp only [List.mem_singleton]
        exact ⟨hsub a, fun h => h ▸ hkm⟩
      simpa using hperm.length_eq
    exact ⟨st', r, v, c, hst', hpad, hcount.trans hmlen, hop, hb, fun _ => h2 hnophi,
      (fun hcon => by cases hcon)⟩

end CheriBoundAllocas

namespace CheriBoundAllocas

/-! ## The claims at concrete inputs -/

/-- C1 at example A on a target with imprecise bounds (tail padding, typed
pointers, per-use branch). -/
theorem C1_need_set_uses_are_bounded_witness :
    (exSt exFnA).fn.wellFormed = true ∧
    prologue exEnvAPad.DL exTLIPad exT (exSt exFnA).fn 1 = some (exPA 16) ∧
    (∀ u ∈ needSet exEnvAPad StackBoundsAnalysis.Full (exPA 16).fn 1,
      ((exPA 16).fn.getOperand u).isSome) ∧
    ∃ st' r, processAlloca exEnvAPad exT exTLIPad false StackBoundsAnalysis.Full
        (exSt exFnA) 1 = some st' ∧
      padded exEnvAPad.DL exTLIPad exT (exPA 16) = some r ∧
      ∀ u ∈ needSet exEnvAPad StackBoundsAnalysis.Full (exPA 16).fn 1,
        ∃ v c, st'.fn.getOperand u = some v ∧
          IsBoundedVia st'.fn (exSt exFnA).fn.ids exT
            (SetBoundsIntrin exT ((exPA 16).fn.isStaticAlloca (exPA 16).AI))
            (exPA 16).AI.ty 1 r.2 v c :=
  ⟨by decide, by rfl, by decide,
    C1_need_set_uses_are_bounded exEnvAPad exT exTLIPad false StackBoundsAnalysis.Full
      (exSt exFnA) 1 (exPA 16) (by decide) (by rfl) (by decide)⟩

end CheriBoundAllocas

namespace CheriBoundAllocas

/-- C2 at example A when the analyser returns no use. -/
theorem C2_empty_need_set_changes_no_use_witness :
    (exSt exFnA).fn.ids.Nodup ∧
    prologue exEnvNone.DL exTLI exT (exSt exFnA).fn 1 = some (exPA 1) ∧
    analysedSet exEnvNone StackBoundsAnalysis.Full (exPA 1).fn 1 = [] ∧
    ∃ st', processAlloca exEnvNone exT exTLI false StackBoundsAnalysis.Full
        (exSt exFnA) 1 = some st' ∧
      insertedBoundsCalls (exSt exFnA).fn st'.fn = [] ∧
      ∀ u v, (exSt exFnA).fn.getOperand u = some v → st'.fn.getOperand u = some v :=
  ⟨by decide, by rfl, by rfl,
    C2_empty_need_set_changes_no_use exEnvNone exT exTLI false StackBoundsAnalysis.Full
      (exSt exFnA) 1 (exPA 1) (by decide) (by rfl) (by rfl)⟩

/-- C3 at example A on a target with imprecise bounds: the store, which is
not in the need-set, ends up on the `without-tail-padding` bitcast. -/
theorem C3_uses_outside_need_set_stay_unbounded_witness :
    (exSt exFnA).fn.wellFormed = true ∧
    prologue exEnvAPad.DL exTLIPad exT (exSt exFnA).fn 1 = some (exPA 16) ∧
    exEnvAPad.opts.BoundsSettingMode = StackBoundsMethod.IfNeeded ∧
    (∀ u ∈ analysedSet exEnvAPad StackBoundsAnalysis.Full (exPA 16).fn 1,
      ((exPA 16).fn.getOperand u).isSome) ∧
    ∃ st', processAlloca exEnvAPad exT exTLIPad false StackBoundsAnalysis.Full
        (exSt exFnA) 1 = some st' ∧
      ∀ u, (exSt exFnA).fn.getOperand u = some (Value.inst 1) →
        u ∉ analysedSet exEnvAPad StackBoundsAnalysis.Full (exPA 16).fn 1 →
        st'.fn.getOperand u = some (Value.inst 1) ∨
        ((exPA 16).AI.ty.isOpaquePointerTy = false ∧
          ∃ c, c.id ∉ (exSt exFnA).fn.ids ∧ st'.fn.getOperand u = some (Value.inst c.id) ∧
            st'.fn.findInst c.id = some c ∧ c.op = Opcode.bitcast ∧
            c.operands = [Value.inst 1] ∧ c.ty = (exPA 16).AI.ty) :=
  ⟨by decide, by rfl, by rfl, by decide,
    C3_uses_outside_need_set_stay_unbounded exEnvAPad exT exTLIPad false
      StackBoundsAnalysis.Full (exSt exFnA) 1 (exPA 16) (by decide) (by rfl) (by rfl)
      (by decide)⟩

/-- C4 at example S: six uses, threshold 5. -/
theorem C4_shared_iff_optnone_or_threshold_witness :
    (exSt exFnS).fn.wellFormed = true ∧
    prologue exEnvS.DL exTLI exT (exSt exFnS).fn 1 = some exPS ∧
    (∀ u ∈ needSet exEnvS StackBoundsAnalysis.Full exPS.fn 1, (exPS.fn.getOperand u).isSome) ∧
    exPS.fn.isStaticAlloca exPS.AI = true ∧
    needSet exEnvS StackBoundsAnalysis.Full exPS.fn 1 ≠ [] ∧
    ∃ st' r, processAlloca exEnvS exT exTLI false StackBoundsAnalysis.Full
        (exSt exFnS) 1 = some st' ∧
      padded exEnvS.DL exTLI exT exPS = some r ∧
      ((false = true ∨ exEnvS.opts.SingleIntrinsicThreshold ≤
          (needSet exEnvS StackBoundsAnalysis.Full exPS.fn 1).length) →
        st'.fn = injectShared exT exPS (SetBoundsIntrin exT true) r.2
          (needSet exEnvS StackBoundsAnalysis.Full exPS.fn 1) r.1 ∧
        st'.stats.NumSingleIntrin = wrap64 ((exSt exFnS).stats.NumSingleIntrin + 1)) ∧
      (¬ (false = true ∨ exEnvS.opts.SingleIntrinsicThreshold ≤
          (needSet exEnvS StackBoundsAnalysis.Full exPS.fn 1).length) →
        injectPerUse exT exPS (SetBoundsIntrin exT true) r.2
          (needSet exEnvS StackBoundsAnalysis.Full exPS.fn 1) r.1 = some st'.fn ∧
        st'.stats.NumSingleIntrin = (exSt exFnS).stats.NumSingleIntrin) ∧
      (reuseSingle exEnvS false StackBoundsAnalysis.Full exPS 1 = true ↔
        (false = true ∨ exEnvS.opts.SingleIntrinsicThreshold ≤
          (needSet exEnvS StackBoundsAnalysis.Full exPS.fn 1).length)) ∧
      (exEnvS.opts.SingleIntrinsicThreshold = 0 →
        reuseSingle exEnvS false StackBoundsAnalysis.Full exPS 1 = true) ∧
      (exEnvS.opts.SingleIntrinsicThreshold = 5 → false = false →
        ((needSet exEnvS StackBoundsAnalysis.Full exPS.fn 1).length = 5 →
          reuseSingle exEnvS false StackBoundsAnalysis.Full exPS 1 = true) ∧
        ((needSet exEnvS StackBoundsAnalysis.Full exPS.fn 1).length = 4 →
          reuseSingle exEnvS false StackBoundsAnalysis.Full exPS 1 = false)) :=
  ⟨by decide, by rfl, by decide, by rfl, by decide,
    C4_shared_iff_optnone_or_threshold exEnvS exT exTLI false StackBoundsAnalysis.Full
      (exSt exFnS) 1 exPS (by decide) (by rfl) (by decide) (by rfl) (by decide)⟩

/-- C5 at example D: a runtime-sized alloca. -/
theorem C5_dynamic_alloca_uses_one_dynamic_call_witness :
    (exSt exFnD).fn.wellFormed = true ∧
    prologue exEnvD.DL exTLI exT (exSt exFnD).fn 1 = some exPD ∧
    (∀ u ∈ needSet exEnvD StackBoundsAnalysis.Full exPD.fn 1, (exPD.fn.getOperand u).isSome) ∧
    exPD.fn.isStaticAlloca exPD.AI = false ∧
    needBounds exEnvD StackBoundsAnalysis.Full exPD.fn 1 = true ∧
    ∃ st' r v c, processAlloca exEnvD exT exTLI false StackBoundsAnalysis.Full
        (exSt exFnD) 1 = some st' ∧
      padded exEnvD.DL exTLI exT exPD = some r ∧
      st'.stats.NumSingleIntrin = wrap64 ((exSt exFnD).stats.NumSingleIntrin + 1) ∧
      (insertedBoundsCalls (exSt exFnD).fn st'.fn).length = 1 ∧
      (∀ x ∈ insertedBoundsCalls (exSt exFnD).fn st'.fn, x.id = c ∧
        x.op = Opcode.call
          (Callee.intrinsic Intrinsic.cheri_bounded_stack_cap_dynamic exT.SizeTy)) ∧
      IsBoundedVia st'.fn (exSt exFnD).fn.ids exT
        (Callee.intrinsic Intrinsic.cheri_bounded_stack_cap_dynamic exT.SizeTy)
        exPD.AI.ty 1 r.2 v c ∧
      (∀ u ∈ needSet exEnvD StackBoundsAnalysis.Full exPD.fn 1, st'.fn.getOperand u = some v) :=
  ⟨by decide, by rfl, by decide, by rfl, by rfl,
    C5_dynamic_alloca_uses_one_dynamic_call exEnvD exT exTLI false StackBoundsAnalysis.Full
      (exSt exFnD) 1 exPD (by decide) (by rfl) (by decide) (by rfl) (by rfl)⟩

/-- C6 at example S: six uses and threshold 5 give one call serving all six. -/
theorem C6_shared_one_call_after_the_alloca_witness :
    (exSt exFnS).fn.wellFormed = true ∧
    prologue exEnvS.DL exTLI exT (exSt exFnS).fn 1 = some exPS ∧
    (∀ u ∈ needSet exEnvS StackBoundsAnalysis.Full exPS.fn 1, (exPS.fn.getOperand u).isSome) ∧
    needBounds exEnvS StackBoundsAnalysis.Full exPS.fn 1 = true ∧
    reuseSingle exEnvS false StackBoundsAnalysis.Full exPS 1 = true ∧
    ∃ st' r next v c blk' mid, processAlloca exEnvS exT exTLI false StackBoundsAnalysis.Full
        (exSt exFnS) 1 = some st' ∧
      padded exEnvS.DL exTLI exT exPS = some r ∧
      (insertedBoundsCalls (exSt exFnS).fn st'.fn).length = 1 ∧
      IsBoundedVia st'.fn (exSt exFnS).fn.ids exT
        (SetBoundsIntrin exT (exPS.fn.isStaticAlloca exPS.AI)) exPS.AI.ty 1 r.2 v c ∧
      (∀ u ∈ needSet exEnvS StackBoundsAnalysis.Full exPS.fn 1, st'.fn.getOperand u = some v) ∧
      (exSt exFnS).fn.getNextNode 1 = some next ∧ st'.fn.parentOf 1 = some blk' ∧
      SegIn blk' 1 next.id mid ∧ c ∈ mid ∧ (∀ z ∈ mid, z ∉ (exSt exFnS).fn.ids) :=
  ⟨by decide, by rfl, by decide, by rfl, by rfl,
    C6_shared_one_call_after_the_alloca exEnvS exT exTLI false StackBoundsAnalysis.Full
      (exSt exFnS) 1 exPS (by decide) (by rfl) (by decide) (by rfl) (by rfl)⟩

/-- C7 at example E: the two operands of the PHI have different incoming
blocks, hence different keys. -/
theorem C7_per_use_one_value_per_key_witness :
    (exSt exFnE).fn.wellFormed = true ∧
    prologue exEnvE.DL exTLI exT (exSt exFnE).fn 1 = some exPE ∧
    (∀ u ∈ needSet exEnvE StackBoundsAnalysis.Full exPE.fn 1, (exPE.fn.getOperand u).isSome) ∧
    needBounds exEnvE StackBoundsAnalysis.Full exPE.fn 1 = true ∧
    reuseSingle exEnvE false StackBoundsAnalysis.Full exPE 1 = false ∧
    ∃ st', processAlloca exEnvE exT exTLI false StackBoundsAnalysis.Full
        (exSt exFnE) 1 = some st' ∧
      (∀ u1 ∈ needSet exEnvE StackBoundsAnalysis.Full exPE.fn 1,
        ∀ u2 ∈ needSet exEnvE StackBoundsAnalysis.Full exPE.fn 1,
        (st'.fn.getOperand u1 = st'.fn.getOperand u2 ↔
          useKey exPE.fn u1 = useKey exPE.fn u2)) ∧
      (insertedBoundsCalls (exSt exFnE).fn st'.fn).length =
        ((needSet exEnvE StackBoundsAnalysis.Full exPE.fn 1).map (useKey exPE.fn)).dedup.length ∧
      (insertedBoundsCalls (exSt exFnE).fn st'.fn).length ≤
        (needSet exEnvE StackBoundsAnalysis.Full exPE.fn 1).length ∧
      (∀ u1 ∈ needSet exEnvE StackBoundsAnalysis.Full exPE.fn 1,
        ∀ u2 ∈ needSet exEnvE StackBoundsAnalysis.Full exPE.fn 1, ∀ I,
        exPE.fn.findInst u1.user = some I → I.op = Opcode.phi → u2.user = u1.user →
        I.incoming[u2.opNo]? = I.incoming[u1.opNo]? →
        st'.fn.getOperand u1 = st'.fn.getOperand u2) :=
  ⟨by decide, by rfl, by decide, by rfl, by rfl,
    C7_per_use_one_value_per_key exEnvE exT exTLI false StackBoundsAnalysis.Full
      (exSt exFnE) 1 exPE (by decide) (by rfl) (by decide) (by rfl) (by rfl)⟩

/-- C8 at example E: a PHI with two flagged incoming edges from two distinct
predecessors. -/
theorem C8_per_use_insertion_points_witness :
    (exSt exFnE).fn.wellFormed = true ∧
    prologue exEnvE.DL exTLI exT (exSt exFnE).fn 1 = some exPE ∧
    (∀ u ∈ needSet exEnvE StackBoundsAnalysis.Full exPE.fn 1, (exPE.fn.getOperand u).isSome) ∧
    needBounds exEnvE StackBoundsAnalysis.Full exPE.fn 1 = true ∧
    reuseSingle exEnvE false StackBoundsAnalysis.Full exPE 1 = false ∧
    ∃ st' r, processAlloca exEnvE exT exTLI false StackBoundsAnalysis.Full
        (exSt exFnE) 1 = some st' ∧
      padded exEnvE.DL exTLI exT exPE = some r ∧
      (∀ u ∈ needSet exEnvE StackBoundsAnalysis.Full exPE.fn 1, ∃ I v c,
        exPE.fn.findInst u.user = some I ∧ st'.fn.getOperand u = some v ∧
        IsBoundedVia st'.fn (exSt exFnE).fn.ids exT
          (SetBoundsIntrin exT (exPE.fn.isStaticAlloca exPE.AI)) exPE.AI.ty 1 r.2 v c ∧
        (I.op = Opcode.phi → ∃ bb blk t mid, I.incoming[u.opNo]? = some bb ∧
          st'.fn.findBlock bb = some blk ∧ blk.getTerminator = some t ∧
          SegIn blk c t.id mid ∧ ∀ z ∈ mid, z ∉ (exSt exFnE).fn.ids) ∧
        (I.op ≠ Opcode.phi → ∃ blk mid, st'.fn.parentOf u.user = some blk ∧
          SegIn blk c u.user mid ∧ ∀ z ∈ mid, z ∉ (exSt exFnE).fn.ids)) ∧
      (exPE.AI.op ≠ Opcode.phi → PhisFirst (exSt exFnE).fn → PhisFirst st'.fn) :=
  ⟨by decide, by rfl, by decide, by rfl, by rfl,
    C8_per_use_insertion_points exEnvE exT exTLI false StackBoundsAnalysis.Full
      (exSt exFnE) 1 exPE (by decide) (by rfl) (by decide) (by rfl) (by rfl)⟩

/-- C9 as stated fails at example E: a static alloca whose two needing uses
are consumed by a PHI, threshold 5, function not optnone.  The
single-intrinsic branch is not taken (its counter stays 0) and two bounds
calls are inserted, `8` at the end of block 1 and `11` at the end of
block 2. -/
theorem C9_counterexample :
    (∃ u ∈ needSet exEnvE StackBoundsAnalysis.Full exPE.fn 1,
      (exPE.fn.findInst u.user).map (fun i => i.op) = some Opcode.phi) ∧
    prologue exEnvE.DL exTLI exT (exSt exFnE).fn 1 = some exPE ∧
    reuseSingle exEnvE false StackBoundsAnalysis.Full exPE 1 = false ∧
    (processAlloca exEnvE exT exTLI false StackBoundsAnalysis.Full (exSt exFnE) 1).map
      (fun s => (s.stats.NumSingleIntrin,
        (insertedBoundsCalls exFnE s.fn).map (fun i => i.id),
        s.fn.blocks.map (fun b => b.ids))) =
      some (0, [8, 11], [[1, 2], [7, 8, 9, 3], [10, 11, 12, 4], [5, 6]]) :=
  ⟨⟨{ user := 5, opNo := 0 }, by decide, by rfl⟩, by rfl, by rfl, by rfl⟩

/-- C9 (amended) at example E. -/
theorem C9_phi_user_does_not_force_shared_witness :
    (exSt exFnE).fn.wellFormed = true ∧
    prologue exEnvE.DL exTLI exT (exSt exFnE).fn 1 = some exPE ∧
    (∀ u ∈ needSet exEnvE StackBoundsAnalysis.Full exPE.fn 1, (exPE.fn.getOperand u).isSome) ∧
    ({ user := 5, opNo := 0 } : Use) ∈ needSet exEnvE StackBoundsAnalysis.Full exPE.fn 1 ∧
    exPE.fn.findInst ({ user := 5, opNo := 0 } : Use).user = some exPhi ∧
    exPhi.op = Opcode.phi ∧
    ∃ st' r, processAlloca exEnvE exT exTLI false StackBoundsAnalysis.Full
        (exSt exFnE) 1 = some st' ∧
      padded exEnvE.DL exTLI exT exPE = some r ∧
      (reuseSingle exEnvE false StackBoundsAnalysis.Full exPE 1 = true ↔
        (exPE.fn.isStaticAlloca exPE.AI = false ∨ false = true ∨
          exEnvE.opts.SingleIntrinsicThreshold ≤
            (needSet exEnvE StackBoundsAnalysis.Full exPE.fn 1).length)) ∧
      (reuseSingle exEnvE false StackBoundsAnalysis.Full exPE 1 = true →
        st'.fn = injectShared exT exPE (SetBoundsIntrin exT (exPE.fn.isStaticAlloca exPE.AI)) r.2
          (needSet exEnvE StackBoundsAnalysis.Full exPE.fn 1) r.1 ∧
        st'.stats.NumSingleIntrin = wrap64 ((exSt exFnE).stats.NumSingleIntrin + 1)) ∧
      (reuseSingle exEnvE false StackBoundsAnalysis.Full exPE 1 = false →
        injectPerUse exT exPE (SetBoundsIntrin exT (exPE.fn.isStaticAlloca exPE.AI)) r.2
          (needSet exEnvE StackBoundsAnalysis.Full exPE.fn 1) r.1 = some st'.fn ∧
        st'.stats.NumSingleIntrin = (exSt exFnE).stats.NumSingleIntrin ∧
        ∃ v c bb blk t mid, st'.fn.getOperand { user := 5, opNo := 0 } = some v ∧
          IsBoundedVia st'.fn (exSt exFnE).fn.ids exT
            (SetBoundsIntrin exT (exPE.fn.isStaticAlloca exPE.AI)) exPE.AI.ty 1 r.2 v c ∧
          exPhi.incoming[({ user := 5, opNo := 0 } : Use).opNo]? = some bb ∧
          st'.fn.findBlock bb = some blk ∧ blk.getTerminator = some t ∧
          SegIn blk c t.id mid ∧ ∀ z ∈ mid, z ∉ (exSt exFnE).fn.ids) :=
  ⟨by decide, by rfl, by decide, by decide, by rfl, by rfl,
    C9_phi_user_does_not_force_shared exEnvE exT exTLI false StackBoundsAnalysis.Full
      (exSt exFnE) 1 exPE { user := 5, opNo := 0 } exPhi (by decide) (by rfl) (by decide)
      (by decide) (by rfl) (by rfl)⟩

end CheriBoundAllocas

namespace CheriBoundAllocas

/-- C10 as stated fails at example B: a static alloca whose only use is the
argument of a call, default options, function not optnone.  One bounds call
(`6`) is inserted, but it stands before the consuming call `3`, after the
unrelated instruction `2`; the instruction following the alloca is the cast
`5`, and the bounds call is not between the alloca and `2`. -/
theorem C10_counterexample :
    exEnvA.opts = Options.default ∧
    prologue exEnvA.DL exTLI exT (exSt exFnB).fn 1 = some exPB ∧
    exPB.fn.isStaticAlloca exPB.AI = true ∧
    exPB.fn.getNumUses (Value.inst 1) = 1 ∧
    needSet exEnvA StackBoundsAnalysis.Full exPB.fn 1 = [{ user := 3, opNo := 0 }] ∧
    exPB.fn.findInst 3 = some exCall ∧
    exCall.op = Opcode.call (Callee.function 9) ∧
    (exFnB.getNextNode 1).map (fun i => i.id) = some 2 ∧
    (processAlloca exEnvA exT exTLI false StackBoundsAnalysis.Full (exSt exFnB) 1).map
      (fun s => ((insertedBoundsCalls exFnB s.fn).map (fun i => i.id),
        s.fn.blocks.map (fun b => b.ids),
        s.fn.getOperand { user := 3, opNo := 0 })) =
      some ([6], [[1, 2, 5, 6, 7, 3, 4]], some (Value.inst 7)) ∧
    ¬ ∃ (st' : PassState) (blk : Block) (mid : List Nat),
      processAlloca exEnvA exT exTLI false StackBoundsAnalysis.Full (exSt exFnB) 1 = some st' ∧
      st'.fn.parentOf 1 = some blk ∧ SegIn blk 1 2 mid ∧ 6 ∈ mid := by
  refine ⟨by rfl, by rfl, by rfl, by rfl, by rfl, by rfl, by rfl, by rfl, by rfl, ?_⟩
  rintro ⟨st', blk, mid, hst, hblk, ⟨pre, post, hseg⟩, hmem⟩
  have key : (processAlloca exEnvA exT exTLI false StackBoundsAnalysis.Full (exSt exFnB) 1).bind
      (fun s => (s.fn.parentOf 1).map (fun b => b.ids)) = some [1, 2, 5, 6, 7, 3, 4] := by rfl
  rw [hst, Option.some_bind, hblk] at key
  simp only [Option.map_some', Option.some.injEq] at key
  rw [key] at hseg
  cases pre with
  | nil =>
    cases mid with
    | nil => cases hmem
    | cons a m =>
      have h2 : (2 : Nat) ∈ [5, 6, 7, 3, 4] := by
        have h := (List.cons.inj (List.cons.inj hseg).2).2
        rw [h]; simp
      simp at h2
  | cons a pre' =>
    have h1 : (1 : Nat) ∈ [2, 5, 6, 7, 3, 4] := by
      have h := (List.cons.inj hseg).2
      rw [h]; simp
    simp at h1

/-- C10 (amended) at example B. -/
theorem C10_single_call_argument_witness :
    (exSt exFnB).fn.wellFormed = true ∧
    prologue exEnvA.DL exTLI exT (exSt exFnB).fn 1 = some exPB ∧
    exEnvA.opts = Options.default ∧
    exPB.fn.isStaticAlloca exPB.AI = true ∧
    needSet exEnvA StackBoundsAnalysis.Full exPB.fn 1 = [{ user := 3, opNo := 0 }] ∧
    exPB.fn.getOperand { user := 3, opNo := 0 } = some (Value.inst 1) ∧
    exPB.fn.findInst ({ user := 3, opNo := 0 } : Use).user = some exCall ∧
    exCall.op = Opcode.call (Callee.function 9) ∧
    ∃ st' r v c, processAlloca exEnvA exT exTLI false StackBoundsAnalysis.Full
        (exSt exFnB) 1 = some st' ∧
      padded exEnvA.DL exTLI exT exPB = some r ∧
      (insertedBoundsCalls (exSt exFnB).fn st'.fn).length = 1 ∧
      st'.fn.getOperand { user := 3, opNo := 0 } = some v ∧
      IsBoundedVia st'.fn (exSt exFnB).fn.ids exT
        (Callee.intrinsic Intrinsic.cheri_bounded_stack_cap exT.SizeTy) exPB.AI.ty 1 r.2 v c ∧
      (false = false → ∃ blk mid,
        st'.fn.parentOf ({ user := 3, opNo := 0 } : Use).user = some blk ∧
        SegIn blk c ({ user := 3, opNo := 0 } : Use).user mid ∧
        ∀ z ∈ mid, z ∉ (exSt exFnB).fn.ids) ∧
      (false = true → ∃ next blk mid, (exSt exFnB).fn.getNextNode 1 = some next ∧
        st'.fn.parentOf 1 = some blk ∧ SegIn blk 1 next.id mid ∧ c ∈ mid ∧
        ∀ z ∈ mid, z ∉ (exSt exFnB).fn.ids) :=
  ⟨by decide, by rfl, by rfl, by rfl, by rfl, by rfl, by rfl, by rfl,
    C10_single_call_argument exEnvA exT exTLI false StackBoundsAnalysis.Full
      (exSt exFnB) 1 exPB { user := 3, opNo := 0 } exCall 9 (by decide) (by rfl) (by rfl)
      (by rfl) (by rfl) (by rfl) (by rfl) (by rfl)⟩

end CheriBoundAllocas

namespace CheriBoundAllocas

/-! ## Well-formedness is kept by every mutation of the pass -/

theorem wellFormed_iff (f : Function) :
    f.wellFormed = true ↔
      f.ids.Nodup ∧ (∀ b ∈ f.blocks, b.getTerminator.isSome = true) ∧
      ∀ i ∈ f.insts, (i.op = Opcode.alloca → i.operands ≠ []) ∧
        (i.op = Opcode.phi → i.incoming.length = i.operands.length ∧
          ∀ bb ∈ i.incoming, (f.findBlock bb).isSome = true) := by
  unfold Function.wellFormed
  simp only [Bool.and_eq_true, decide_eq_true_eq, List.all_eq_true, Bool.or_eq_true,
    Bool.not_eq_true', List.isEmpty_eq_false]
  constructor
  · rintro ⟨⟨h1, h2⟩, h3⟩
    refine ⟨h1, h2, fun i hi => ⟨fun hop => ?_, fun hop => ?_⟩⟩
    · rcases (h3 i hi).1 with h | h
      · exact absurd hop h
      · exact h
    · rcases (h3 i hi).2 with h | h
      · exact absurd hop h
      · exact h
  · rintro ⟨h1, h2, h3⟩
    refine ⟨⟨h1, h2⟩, fun i hi => ⟨?_, ?_⟩⟩
    · by_cases hop : i.op = Opcode.alloca
      · exact Or.inr ((h3 i hi).1 hop)
      · exact Or.inl hop
    · by_cases hop : i.op = Opcode.phi
      · exact Or.inr ((h3 i hi).2 hop)
      · exact Or.inl hop

theorem insertBefore_of_not_mem (f : Function) {t : Nat} (n : Inst) (ht : t ∉ f.ids) :
    f.insertBefore t n = f := by
  have hb : ∀ b ∈ f.blocks, b.insertBefore t n = b := by
    intro b hb
    have : t ∉ b.insts.map (fun i => i.id) := fun h => ht (mem_ids_of_mem_block hb h)
    unfold Block.insertBefore
    rw [insertBeforeL_of_not_mem this]
  unfold Function.insertBefore
  rw [List.map_congr_left hb, List.map_id']

theorem nodup_insertBefore {f : Function} (hnd : f.ids.Nodup) {t : Nat} {n : Inst}
    (hfresh : n.id ∉ f.ids) : (f.insertBefore t n).ids.Nodup := by
  by_cases ht : t ∈ f.ids
  · exact (Frame_insertBefore hnd hfresh ht).1
  · rw [insertBefore_of_not_mem f n ht]; exact hnd

theorem wellFormed_insertBefore {f : Function} (hwf : f.wellFormed = true) {t : Nat}
    {n : Inst} (hfresh : n.id ∉ f.ids) (hop1 : n.op ≠ Opcode.alloca)
    (hop2 : n.op ≠ Opcode.phi) : (f.insertBefore t n).wellFormed = true := by
  obtain ⟨h1, h2, h3⟩ := (wellFormed_iff f).mp hwf
  refine (wellFormed_iff _).mpr ⟨nodup_insertBefore h1 hfresh, ?_, ?_⟩
  · intro b hb
    rw [blocks_insertBefore] at hb
    obtain ⟨b0, hb0, rfl⟩ := List.mem_map.mp hb
    rw [getTerminator_insertBefore]
    exact h2 b0 hb0
  · intro i hi
    rcases mem_insts_insertBefore.mp hi with hi | ⟨rfl, _⟩
    · refine ⟨(h3 i hi).1, fun hop => ⟨((h3 i hi).2 hop).1, fun bb hbb => ?_⟩⟩
      rw [findBlock_insertBefore]
      have := ((h3 i hi).2 hop).2 bb hbb
      cases hfb : f.findBlock bb with
      | none => rw [hfb] at this; cases this
      | some b => rfl
    · exact ⟨fun h => absurd h hop1, fun h => absurd h hop2⟩

theorem wellFormed_mapInsts {f : Function} (hwf : f.wellFormed = true) (g : Inst → Inst)
    (hg : ∀ i, SameStatic i (g i)) : (f.mapInsts g).wellFormed = true := by
  obtain ⟨h1, h2, h3⟩ := (wellFormed_iff f).mp hwf
  refine (wellFormed_iff _).mpr ⟨?_, ?_, ?_⟩
  · rw [ids_mapInsts f g (fun i => (hg i).1)]; exact h1
  · intro b hb
    rw [blocks_mapInsts] at hb
    obtain ⟨b0, hb0, rfl⟩ := List.mem_map.mp hb
    rw [getTerminator_mapInsts b0 g (fun i => (hg i).2.1)]
    have := h2 b0 hb0
    cases hb0t : b0.getTerminator with
    | none => rw [hb0t] at this; cases this
    | some t => rfl
  · intro i hi
    rw [insts_mapInsts] at hi
    obtain ⟨i0, hi0, rfl⟩ := List.mem_map.mp hi
    obtain ⟨_, hop, hinc, hlen, _⟩ := hg i0
    refine ⟨fun h => ?_, fun h => ?_⟩
    · have h0 := (h3 i0 hi0).1 (hop ▸ h)
      intro hnil
      rw [hnil] at hlen
      exact h0 (List.length_eq_zero.mp hlen.symm)
    · obtain ⟨ha, hb⟩ := (h3 i0 hi0).2 (hop ▸ h)
      refine ⟨by rw [hinc, hlen]; exact ha, fun bb hbb => ?_⟩
      rw [findBlock_mapInsts]
      have := hb bb (hinc ▸ hbb)
      cases hfb : f.findBlock bb with
      | none => rw [hfb] at this; cases this
      | some b => rfl

/-! ## `Grows`, `KeepsStatic`, `KeepsAttrs` -/

theorem SameAttrs.attrs_refl (i : Inst) : SameAttrs i i :=
  ⟨rfl, rfl, rfl, rfl, rfl, rfl, rfl, rfl, rfl⟩

theorem SameAttrs.attrs_trans {i j k : Inst} (h1 : SameAttrs i j) (h2 : SameAttrs j k) :
    SameAttrs i k := by
  obtain ⟨a1, a2, a3, a4, a5, a6, a7, a8, a9⟩ := h1
  obtain ⟨b1, b2, b3, b4, b5, b6, b7, b8, b9⟩ := h2
  exact ⟨b1.trans a1, b2.trans a2, b3.trans a3, b4.trans a4, b5.trans a5, b6.trans a6,
    b7.trans a7, b8.trans a8, b9.trans a9⟩

theorem SameAttrs.attrs_toStatic {i j : Inst} (h : SameAttrs i j) : SameStatic i j :=
  ⟨h.1, h.2.1, h.2.2.2.1, h.2.2.2.2.2.2.2.2, h.2.2.2.2.2.2.2.1⟩

theorem KeepsAttrs.keeps_refl (f : Function) : KeepsAttrs f f :=
  fun _ i h => ⟨i, h, SameAttrs.attrs_refl i⟩

theorem KeepsAttrs.keeps_trans {f g h : Function} (h1 : KeepsAttrs f g) (h2 : KeepsAttrs g h) :
    KeepsAttrs f h := by
  intro j i hi
  obtain ⟨i1, hi1, s1⟩ := h1 j i hi
  obtain ⟨i2, hi2, s2⟩ := h2 j i1 hi1
  exact ⟨i2, hi2, s1.attrs_trans s2⟩

theorem KeepsAttrs.keeps_toStatic {f g : Function} (h : KeepsAttrs f g) : KeepsStatic f g := by
  intro j i hi
  obtain ⟨i1, hi1, s1⟩ := h j i hi
  exact ⟨i1, hi1, s1.attrs_toStatic⟩

theorem KeepsStatic.static_keeps_refl (f : Function) : KeepsStatic f f :=
  fun _ i h => ⟨i, h, SameStatic.static_refl i⟩

theorem KeepsStatic.static_keeps_trans {f g h : Function} (h1 : KeepsStatic f g)
    (h2 : KeepsStatic g h) : KeepsStatic f h := by
  intro j i hi
  obtain ⟨i1, hi1, s1⟩ := h1 j i hi
  obtain ⟨i2, hi2, s2⟩ := h2 j i1 hi1
  exact ⟨i2, hi2, s1.static_trans s2⟩

theorem Grows.grows_refl (f : Function) : Grows f f :=
  ⟨fun h => h, KeepsStatic.static_keeps_refl f⟩

theorem Grows.grows_trans {f g h : Function} (h1 : Grows f g) (h2 : Grows g h) : Grows f h :=
  ⟨fun hw => h2.1 (h1.1 hw), h1.2.static_keeps_trans h2.2⟩

theorem KeepsAttrs_insertBefore (f : Function) (t : Nat) {n : Inst} (hfresh : n.id ∉ f.ids) :
    KeepsAttrs f (f.insertBefore t n) := by
  intro j i hi
  refine ⟨i, ?_, SameAttrs.attrs_refl i⟩
  rw [findInst_insertBefore_ne f (fun h => hfresh (h ▸ mem_ids_of_findInst hi))]
  exact hi

theorem KeepsAttrs_setOperand (f : Function) (u : Use) (v : Value) :
    KeepsAttrs f (f.setOperand u v) := by
  intro j i hi
  rw [findInst_setOperand, hi]
  by_cases h : i.id = u.user
  · refine ⟨{ i with operands := i.operands.set u.opNo v }, ?_, ?_⟩
    · rw [Option.map_some', if_pos h]
    · exact ⟨rfl, rfl, rfl, rfl, rfl, rfl, rfl, rfl, by simp⟩
  · exact ⟨i, by simp only [Option.map_some', h, if_false], SameAttrs.attrs_refl i⟩

theorem Grows_insertBefore (f : Function) (t : Nat) {n : Inst} (hfresh : n.id ∉ f.ids)
    (hop1 : n.op ≠ Opcode.alloca) (hop2 : n.op ≠ Opcode.phi) :
    Grows f (f.insertBefore t n) :=
  ⟨fun hwf => wellFormed_insertBefore hwf hfresh hop1 hop2,
    (KeepsAttrs_insertBefore f t hfresh).keeps_toStatic⟩

theorem Grows_mapInsts (f : Function) (g : Inst → Inst) (hg : ∀ i, SameStatic i (g i)) :
    Grows f (f.mapInsts g) := by
  refine ⟨fun hwf => wellFormed_mapInsts hwf g hg, fun j i hi => ?_⟩
  rw [findInst_mapInsts f g (fun i => (hg i).1), hi]
  exact ⟨g i, rfl, hg i⟩

theorem Grows_modifyInst (f : Function) (id : Nat) (g : Inst → Inst)
    (hg : ∀ i, SameStatic i (g i)) : Grows f (f.modifyInst id g) := by
  unfold Function.modifyInst
  apply Grows_mapInsts
  intro i
  by_cases h : i.id = id
  · simp only [h, if_true]; exact hg i
  · simp only [h, if_false]; exact SameStatic.static_refl i

theorem Grows_setOperand (f : Function) (u : Use) (v : Value) : Grows f (f.setOperand u v) :=
  Grows_modifyInst f u.user _ (fun i => sameStatic_setOp u.opNo v i)

theorem Grows_rauw (f : Function) (old new : Value) :
    Grows f (f.replaceAllUsesWith old new) :=
  Grows_mapInsts f _ (fun i => sameStatic_rauw old new i)

end CheriBoundAllocas

namespace CheriBoundAllocas

/-! ## The builder and the injection of bounds keep the body well-formed -/

theorem Injects.injects_refl (old : List Nat) (Size : Value) (f : Function) :
    Injects old Size f f :=
  ⟨Grows.grows_refl f, KeepsAttrs.keeps_refl f, fun h => h⟩

theorem Injects.injects_trans {old : List Nat} {Size : Value} {f g h : Function}
    (h1 : Injects old Size f g) (h2 : Injects old Size g h) : Injects old Size f h :=
  ⟨h1.1.grows_trans h2.1, h1.2.1.keeps_trans h2.2.1, fun hn => h2.2.2 (h1.2.2 hn)⟩

theorem NewCallsSized_insertBefore {old : List Nat} {Size : Value} {f : Function}
    (t : Nat) {n : Inst} (hn : n.isBoundsCall = true → n.operands[1]? = some Size)
    (h : NewCallsSized old Size f) : NewCallsSized old Size (f.insertBefore t n) := by
  intro i hi hcall hold
  rcases mem_insts_insertBefore.mp hi with hi | ⟨rfl, _⟩
  · exact h i hi hcall hold
  · exact hn hcall

theorem NewCallsSized_setOperand {old : List Nat} {Size : Value} {f : Function}
    (u : Use) (v : Value) (hu : u.user ∈ old)
    (h : NewCallsSized old Size f) : NewCallsSized old Size (f.setOperand u v) := by
  intro i hi hcall hold
  unfold Function.setOperand Function.modifyInst at hi
  rw [insts_mapInsts] at hi
  obtain ⟨i0, hi0, rfl⟩ := List.mem_map.mp hi
  by_cases hid : i0.id = u.user
  · simp only [hid, if_true] at hold
    exact absurd hu hold
  · simp only [hid, if_false] at hcall hold ⊢
    exact h i0 hi0 hcall hold

theorem Injects_insert (old : List Nat) (Size : Value) (B : IRBuilder) (f : Function)
    (op : Opcode) (ty : Ty) (ops : List Value) (hop1 : op ≠ Opcode.alloca)
    (hop2 : op ≠ Opcode.phi)
    (hcall : (B.mkInst f.freshId op ty ops).isBoundsCall = true → ops[1]? = some Size) :
    Injects old Size f (B.insert f op ty ops).1 :=
  ⟨Grows_insertBefore f B.insertPt (freshId_not_mem f) hop1 hop2,
    KeepsAttrs_insertBefore f B.insertPt (freshId_not_mem f),
    NewCallsSized_insertBefore B.insertPt hcall⟩

theorem Injects_setOperand (old : List Nat) (Size : Value) (f : Function) (u : Use)
    (v : Value) (hu : u.user ∈ old) : Injects old Size f (f.setOperand u v) :=
  ⟨Grows_setOperand f u v, KeepsAttrs_setOperand f u v, NewCallsSized_setOperand u v hu⟩

theorem Injects_createBitCast (old : List Nat) (Size : Value) (B : IRBuilder) (f : Function)
    (v : Value) (destTy : Ty) : Injects old Size f (B.CreateBitCast f v destTy).1 := by
  unfold IRBuilder.CreateBitCast
  split
  · exact Injects.injects_refl old Size f
  · exact Injects_insert old Size B f _ _ _ (by simp) (by simp)
      (fun h => by simp [IRBuilder.mkInst, Inst.isBoundsCall] at h)

theorem Injects_createBoundedAlloca (old : List Nat) (T : PassTypes) (B : IRBuilder)
    (i : Intrinsic) (sty : Ty) (APT : Ty) (ai : Nat) (Size : Value) (f : Function) :
    Injects old Size f (createBoundedAlloca T B (Callee.intrinsic i sty) APT ai Size f).1 := by
  unfold createBoundedAlloca
  simp only
  refine (Injects_createBitCast old Size B f (Value.inst ai) T.I8CapTy).injects_trans
    (Injects.injects_trans ?_ (Injects_createBitCast old Size B _ _ APT))
  unfold IRBuilder.CreateCall
  exact Injects_insert old Size B _ _ _ _ (by simp) (by simp) (fun _ => rfl)

theorem Injects_setAll (old : List Nat) (Size : Value) (v : Value) (uses : List Use) :
    ∀ (g : Function), (∀ u ∈ uses, u.user ∈ old) →
      Injects old Size g (uses.foldl (fun g U => g.setOperand U v) g) := by
  induction uses with
  | nil => intro g _; exact Injects.injects_refl old Size g
  | cons U rest ih =>
    intro g h
    simp only [List.foldl_cons]
    exact (Injects_setOperand old Size g U v (h U (List.mem_cons_self _ _))).injects_trans
      (ih _ (fun u hu => h u (List.mem_cons_of_mem _ hu)))

theorem Injects_injectShared (old : List Nat) (T : PassTypes) (p : Prologue) (i : Intrinsic)
    (sty : Ty) (Size : Value) (uses : List Use) (h : Function)
    (hu : ∀ u ∈ uses, u.user ∈ old) :
    Injects old Size h (injectShared T p (Callee.intrinsic i sty) Size uses h) := by
  unfold injectShared
  exact (Injects_createBoundedAlloca old T p.B i sty p.AI.ty p.AI.id Size h).injects_trans
    (Injects_setAll old Size _ uses _ hu)

theorem Injects_perUseStep (old : List Nat) (T : PassTypes) (p : Prologue) (i : Intrinsic)
    (sty : Ty) (Size : Value) (acc acc' : Function × List (UseKey × Value)) (U : Use)
    (hU : U.user ∈ old)
    (h : perUseStep T p (Callee.intrinsic i sty) Size acc U = some acc') :
    Injects old Size acc.1 acc'.1 := by
  unfold perUseStep at h
  split at h
  · cases h
  · split at h
    · split at h
      · cases h
      · cases h
        exact (Injects_createBoundedAlloca old T _ i sty p.AI.ty p.AI.id Size acc.1).injects_trans
          (Injects_setOperand old Size _ U _ hU)
    · cases h
      exact Injects_setOperand old Size _ U _ hU

theorem Injects_perUseLoop (old : List Nat) (T : PassTypes) (p : Prologue) (i : Intrinsic)
    (sty : Ty) (Size : Value) (uses : List Use) :
    ∀ (acc acc' : Function × List (UseKey × Value)), (∀ u ∈ uses, u.user ∈ old) →
      perUseLoop T p (Callee.intrinsic i sty) Size uses acc = some acc' →
      Injects old Size acc.1 acc'.1 := by
  induction uses with
  | nil =>
    intro acc acc' _ h
    simp only [perUseLoop, Option.some.injEq] at h
    subst h
    exact Injects.injects_refl old Size acc.1
  | cons U rest ih =>
    intro acc acc' hu h
    simp only [perUseLoop] at h
    split at h
    · cases h
    · rename_i acc2 hstep
      exact (Injects_perUseStep old T p i sty Size acc acc2 U
        (hu U (List.mem_cons_self _ _)) hstep).injects_trans
        (ih acc2 acc' (fun u hu' => hu u (List.mem_cons_of_mem _ hu')) h)

theorem Injects_injectPerUse (old : List Nat) (T : PassTypes) (p : Prologue) (i : Intrinsic)
    (sty : Ty) (Size : Value) (uses : List Use) (h g : Function)
    (hu : ∀ u ∈ uses, u.user ∈ old)
    (hg : injectPerUse T p (Callee.intrinsic i sty) Size uses h = some g) :
    Injects old Size h g := by
  unfold injectPerUse at hg
  split at hg
  · cases hg
  · rename_i r hr
    cases hg
    exact Injects_perUseLoop old T p i sty Size uses (h, []) r hu hr

end CheriBoundAllocas

namespace CheriBoundAllocas

/-! ## The steps before the injection keep the body well-formed -/

theorem Grows_insert (B : IRBuilder) (f : Function) (op : Opcode) (ty : Ty)
    (ops : List Value) (hop1 : op ≠ Opcode.alloca) (hop2 : op ≠ Opcode.phi) :
    Grows f (B.insert f op ty ops).1 :=
  Grows_insertBefore f B.insertPt (freshId_not_mem f) hop1 hop2

theorem KeepsButAlign.align_refl (f : Function) : KeepsButAlign f f :=
  fun _ i h => ⟨i, h, rfl⟩

theorem KeepsButAlign.align_trans {f g h : Function} (h1 : KeepsButAlign f g)
    (h2 : KeepsButAlign g h) : KeepsButAlign f h := by
  intro j i hi
  obtain ⟨i1, hi1, e1⟩ := h1 j i hi
  obtain ⟨i2, hi2, e2⟩ := h2 j i1 hi1
  refine ⟨i2, hi2, ?_⟩
  rw [e2, e1]

theorem KeepsButAlign_insert (B : IRBuilder) (f : Function) (op : Opcode) (ty : Ty)
    (ops : List Value) : KeepsButAlign f (B.insert f op ty ops).1 := by
  intro j i hi
  refine ⟨i, ?_, rfl⟩
  show (f.insertBefore _ _).findInst j = some i
  have hne : (B.mkInst f.freshId op ty ops).id ≠ j := by
    intro h
    have hj := mem_ids_of_findInst hi
    rw [← h] at hj
    exact freshId_not_mem f hj
  rw [findInst_insertBefore_ne f hne]
  exact hi

theorem KeepsButAlign_setAlign (f : Function) (id a : Nat) :
    KeepsButAlign f (f.modifyInst id (fun i => { i with align := a })) := by
  intro j i hi
  rw [findInst_modifyInst f id (fun i => { i with align := a }) (fun _ => rfl), hi]
  by_cases h : i.id = id
  · exact ⟨{ i with align := a }, by rw [Option.map_some', if_pos h], rfl⟩
  · exact ⟨i, by rw [Option.map_some', if_neg h], rfl⟩

theorem createZExtOrTrunc_grows (B : IRBuilder) (f : Function) (v : Value) (destTy : Ty) :
    Grows f (B.CreateZExtOrTrunc f v destTy).1 ∧
    KeepsButAlign f (B.CreateZExtOrTrunc f v destTy).1 := by
  unfold IRBuilder.CreateZExtOrTrunc
  simp only
  split
  · split
    · exact ⟨Grows.grows_refl f, KeepsButAlign.align_refl f⟩
    · exact ⟨Grows_insert B f _ _ _ (by simp) (by simp), KeepsButAlign_insert B f _ _ _⟩
  · split
    · split
      · exact ⟨Grows.grows_refl f, KeepsButAlign.align_refl f⟩
      · exact ⟨Grows_insert B f _ _ _ (by simp) (by simp), KeepsButAlign_insert B f _ _ _⟩
    · exact ⟨Grows.grows_refl f, KeepsButAlign.align_refl f⟩

theorem createMul_grows (B : IRBuilder) (f : Function) (lhs rhs : Value) :
    Grows f (B.CreateMul f lhs rhs).1 := by
  unfold IRBuilder.CreateMul
  split
  · exact Grows.grows_refl f
  · exact Grows_insert B f _ _ _ (by simp) (by simp)

theorem prologue_grows {DL : DataLayout} {TLI : TargetLowering} {T : PassTypes}
    {f : Function} {ai : Nat} {p : Prologue} (hp : prologue DL TLI T f ai = some p) :
    Grows f p.fn ∧ KeepsButAlign f p.fn := by
  unfold prologue at hp
  cases hAI : f.findInst ai with
  | none => simp [hAI] at hp
  | some AI =>
    cases hnext : f.getNextNode ai with
    | none => simp [hAI, hnext] at hp
    | some next =>
      cases hhead : AI.operands.head? with
      | none => simp [hAI, hnext, hhead] at hp
      | some arraySizeOp =>
        simp only [hAI, hnext, hhead, Option.some.injEq] at hp
        subst hp
        simp only
        obtain ⟨g1, k1⟩ := createZExtOrTrunc_grows
          { insertPt := next.id, debugLoc := AI.debugLoc } f arraySizeOp T.SizeTy
        split
        · refine ⟨g1.grows_trans (Grows_modifyInst _ ai _ (fun i => ⟨rfl, rfl, rfl, rfl, rfl⟩)),
            k1.align_trans ?_⟩
          exact KeepsButAlign_setAlign _ ai _
        · exact ⟨g1, k1⟩

theorem computeSize_grows (DL : DataLayout) (T : PassTypes) (p : Prologue) :
    Grows p.fn (computeSize DL T p).1 := by
  unfold computeSize
  simp only
  split
  · exact createMul_grows _ _ _ _
  · exact Grows.grows_refl _

theorem widen_grows (f1 : Function) (t ai : Nat) (ty ty2 : Ty) :
    Grows f1
      ((((f1.insertBefore t (withoutTailPadding f1.freshId ty)).replaceAllUsesWith
          (Value.inst ai) (Value.inst f1.freshId)).modifyInst ai
          (fun i => { i with ty := ty2 })).setOperand
        { user := f1.freshId, opNo := 0 } (Value.inst ai)) :=
  Grows.grows_trans
    (Grows_insertBefore f1 t (freshId_not_mem f1)
      (show (withoutTailPadding f1.freshId ty).op ≠ Opcode.alloca by simp [withoutTailPadding])
      (show (withoutTailPadding f1.freshId ty).op ≠ Opcode.phi by simp [withoutTailPadding]))
    (Grows.grows_trans (Grows_rauw _ _ _)
      (Grows.grows_trans
        (Grows_modifyInst _ ai (fun i => { i with ty := ty2 })
          (fun i => ⟨rfl, rfl, rfl, rfl, rfl⟩))
        (Grows_setOperand _ _ _)))

theorem applyTailPadding_grows {TLI : TargetLowering} {T : PassTypes} {p : Prologue}
    {g : Function} {Size : Value} {r : Function × Value}
    (h : applyTailPadding TLI T p g Size = some r) : Grows g r.1 := by
  have key : ∀ r', applyTailPadding TLI T p g Size = some r' → Grows g r'.1 := by
    unfold applyTailPadding
    split
    · cases Size with
      | constInt b sz =>
        simp only
        split
        · split
          · split
            · intro r' h'; cases h'
            · rename_i nnd hnnd
              intro r' h'
              simp only [Option.some.injEq] at h'
              subst h'
              simp only
              refine Grows.grows_trans ?_ (widen_grows _ nnd.id p.AI.id p.AI.ty _)
              exact Grows_modifyInst g p.AI.id _ (fun i => ⟨rfl, rfl, rfl, rfl, rfl⟩)
          · intro r' h'
            simp only [Option.some.injEq] at h'
            subst h'
            simp only
            exact Grows_modifyInst g p.AI.id _ (fun i => ⟨rfl, rfl, rfl, rfl, rfl⟩)
        · intro r' h'
          simp only [Option.some.injEq] at h'
          subst h'
          exact Grows.grows_refl g
      | inst _ => intro r' h'; cases h'
      | nullPtr _ => intro r' h'; cases h'
      | other _ _ => intro r' h'; cases h'
    · intro r' h'
      simp only [Option.some.injEq] at h'
      subst h'
      exact Grows.grows_refl g
  exact key r h

theorem padded_grows {DL : DataLayout} {TLI : TargetLowering} {T : PassTypes} {p : Prologue}
    {r : Function × Value} (h : padded DL TLI T p = some r) : Grows p.fn r.1 :=
  (computeSize_grows DL T p).grows_trans (applyTailPadding_grows h)

end CheriBoundAllocas

namespace CheriBoundAllocas

/-! ## Every allocation is processed to the end -/

theorem KeepsStatic.static_ids_sub {f g : Function} (h : KeepsStatic f g) {j : Nat}
    (hj : j ∈ f.ids) : j ∈ g.ids := by
  obtain ⟨i, hi⟩ := exists_findInst_of_mem_ids hj
  obtain ⟨i', hi', _⟩ := h j i hi
  exact mem_ids_of_findInst hi'

theorem mem_insertedBoundsCalls_iff {f g : Function} {x : Inst} :
    x ∈ insertedBoundsCalls f g ↔ x ∈ g.insts ∧ x.isBoundsCall = true ∧ x.id ∉ f.ids := by
  unfold insertedBoundsCalls
  simp only [List.mem_filter, Bool.and_eq_true, Bool.not_eq_true', List.contains_eq_any_beq,
    List.any_eq_false, beq_iff_eq]
  constructor
  · rintro ⟨h1, h2, h3⟩
    exact ⟨h1, h2, fun hmem => h3 _ hmem rfl⟩
  · rintro ⟨h1, h2, h3⟩
    exact ⟨h1, h2, fun y hy hxy => h3 (hxy ▸ hy)⟩

theorem needSet_valid {env : Env} {BA : StackBoundsAnalysis} {f : Function} {ai : Nat}
    (hA : ∀ b s, ∀ u ∈ env.findUsesThatNeedBounds f ai b s, (f.getOperand u).isSome = true) :
    ∀ u ∈ needSet env BA f ai, (f.getOperand u).isSome = true := by
  intro u hu
  unfold needSet analyse at hu
  split at hu
  · cases hu
  · simp only at hu
    split at hu
    · exact hA _ _ u hu
    · exact hA _ _ u hu

theorem prologue_total (DL : DataLayout) (TLI : TargetLowering) (T : PassTypes)
    {f : Function} {ai : Nat} {AI : Inst} (hwf : f.wellFormed = true)
    (hAI : f.findInst ai = some AI) (hop : AI.op = Opcode.alloca) :
    ∃ p, prologue DL TLI T f ai = some p := by
  have hnd := wellFormed_nodup hwf
  obtain ⟨_, _, h3⟩ := (wellFormed_iff f).mp hwf
  obtain ⟨blk, hblk⟩ := parentOf_isSome_of_mem (mem_ids_of_findInst hAI)
  obtain ⟨hmem, hbmem⟩ := parentOf_mem_ids hblk
  obtain ⟨t, ht⟩ := wellFormed_terminator hwf hbmem
  obtain ⟨x, hx, hxid⟩ := List.mem_map.mp hmem
  have hxf : x ∈ f.insts := List.mem_flatMap.mpr ⟨blk, hbmem, hx⟩
  have hxAI : x = AI := by
    have := findInst_eq_some_of_mem hnd hxf
    rw [hxid, hAI] at this
    exact (Option.some.inj this).symm
  subst hxAI
  obtain ⟨pre, rest, hsplit⟩ := List.append_of_mem hx
  have hbnd : blk.ids.Nodup := block_ids_nodup hnd hbmem
  have hpre : ai ∉ pre.map (fun i => i.id) := by
    intro hcon
    unfold Block.ids at hbnd
    rw [hsplit, List.map_append, List.map_cons, hxid] at hbnd
    exact (List.nodup_append.mp hbnd).2.2 hcon (List.mem_cons_self _ _)
  have hafter : instsAfter blk.insts ai = some rest := by
    rw [hsplit]; exact instsAfter_append hxid hpre
  have hrest : rest ≠ [] := by
    intro hnil
    unfold Block.getTerminator at ht
    rw [hsplit, hnil, List.getLast?_append_cons, List.getLast?_singleton] at ht
    simp only [hop] at ht
    cases ht
  obtain ⟨next, rest', hr⟩ := List.exists_cons_of_ne_nil hrest
  have hnext : f.getNextNode ai = some next := by
    unfold Function.getNextNode
    rw [hblk]
    simp only [hafter, hr, List.head?_cons]
  have hhead : ∃ a, x.operands.head? = some a := by
    have := (h3 x hxf).1 hop
    cases hops : x.operands with
    | nil => exact absurd hops this
    | cons a _ => exact ⟨a, rfl⟩
  obtain ⟨a, ha⟩ := hhead
  unfold prologue
  simp only [hAI, hnext, ha]
  exact ⟨_, rfl⟩

/-- What the processing of an allocation that needs bounds comes to: the
state `r` reached before the injection (line 316), the injection itself, and
the size argument of every bounds call it adds. -/
theorem processAlloca_bounded (env : Env) (T : PassTypes) (TLI : TargetLowering)
    (IsOptNone : Bool) (BA : StackBoundsAnalysis) (st : PassState) (ai : Nat) (p : Prologue)
    (hwf : st.fn.wellFormed = true)
    (hp : prologue env.DL TLI T st.fn ai = some p)
    (hvalid : ∀ u ∈ needSet env BA p.fn ai, (p.fn.getOperand u).isSome)
    (hneed : needBounds env BA p.fn ai = true) :
    ∃ st' r, processAlloca env T TLI IsOptNone BA st ai = some st' ∧
      padded env.DL TLI T p = some r ∧
      Injects r.1.ids r.2 r.1 st'.fn ∧
      (∀ u ∈ needSet env BA p.fn ai, ∃ v c, st'.fn.getOperand u = some v ∧
        IsBoundedVia st'.fn st.fn.ids T (SetBoundsIntrin T (p.fn.isStaticAlloca p.AI))
          p.AI.ty ai r.2 v c) ∧
      (∀ x ∈ insertedBoundsCalls st.fn st'.fn, x.operands[1]? = some r.2) := by
  obtain ⟨h, Size, next, blk, hpad, hAI, hid, hnext, hBpt, hnmem, hblk, hseg, F1, K1, F2, C, hphi,
    hpf, hO⟩ := preInject_spec env.DL TLI T st.fn ai p hwf hp
  subst hid
  have hvalid' : ∀ u ∈ needSet env BA p.fn p.AI.id, (h.getOperand u).isSome :=
    fun u hu => valid_after_pre hO (hvalid u hu)
  have hF : Frame st.fn h := F1.frame_trans F2
  have hold : ∀ j ∈ st.fn.ids, j ∈ h.ids := fun j hj => hF.ids_sub hj
  have hai : p.AI.id ∈ h.ids := hold _ (mem_ids_of_findInst hAI)
  have husers : ∀ u ∈ needSet env BA p.fn p.AI.id, u.user ∈ h.ids :=
    fun u hu => mem_ids_of_getOperand_isSome (hvalid' u hu)
  have hG : Grows st.fn h := (prologue_grows hp).1.grows_trans (padded_grows hpad)
  obtain ⟨i, hi⟩ := setBoundsIntrin_intrinsic T (p.fn.isStaticAlloca p.AI)
  -- the size argument of the calls added, from the injection relation
  have hsized : ∀ g : Function, Injects h.ids Size h g →
      ∀ x ∈ insertedBoundsCalls st.fn g, x.operands[1]? = some Size := by
    intro g hinj x hx
    obtain ⟨hxg, hxcall, hxold⟩ := mem_insertedBoundsCalls_iff.mp hx
    have hN : NewCallsSized h.ids Size g :=
      hinj.2.2 (fun i hi _ hnot => absurd (List.mem_map_of_mem _ hi) hnot)
    have hgnd : g.ids.Nodup := wellFormed_nodup (hinj.1.1 (hG.1 hwf))
    by_cases hxh : x.id ∈ h.ids
    · exfalso
      obtain ⟨y, hy⟩ := exists_findInst_of_mem_ids hxh
      obtain ⟨y', hy', hs⟩ := hinj.2.1 _ _ hy
      rw [findInst_eq_some_of_mem hgnd hxg] at hy'
      cases hy'
      have hycall : y.isBoundsCall = true := by
        unfold Inst.isBoundsCall at hxcall ⊢
        rw [← hs.2.1]; exact hxcall
      have hymem : y ∈ insertedBoundsCalls st.fn h :=
        mem_insertedBoundsCalls_iff.mpr ⟨findInst_mem hy, hycall, by
          rw [findInst_id hy]; exact hxold⟩
      have hlen := C st.fn
      rw [length_insertedBoundsCalls_self] at hlen
      rw [List.length_eq_zero.mp hlen] at hymem
      cases hymem
    · exact hN x hxg hxcall hxh
  cases hreuse : reuseSingle env IsOptNone BA p p.AI.id with
  | true =>
    obtain ⟨st', hst', hfn, -⟩ := processAlloca_shared hp hneed hpad hreuse
    obtain ⟨-, ⟨v, c, hb, hops, -, -⟩, -⟩ := injectShared_spec T p i T.SizeTy Size
      (needSet env BA p.fn p.AI.id) h hF.1 (hBpt ▸ hold _ hnmem) hai hvalid'
    have hinj : Injects h.ids Size h st'.fn := by
      rw [hfn, hi]
      exact Injects_injectShared h.ids T p i T.SizeTy Size _ h husers
    refine ⟨st', (h, Size), hst', hpad, hinj, fun u hu => ⟨v, c, ?_, ?_⟩, hsized _ hinj⟩
    · rw [hfn, hi]; exact hops u hu
    · rw [hfn, hi]; exact hb.bounded_weaken hold
  | false =>
    obtain ⟨g, m, hinj, hinv, huses, -, -, -⟩ := injectPerUse_spec T p i T.SizeTy Size h
      (needSet env BA p.fn p.AI.id) hF.1 hphi hai hvalid'
    have hinj' : Injects h.ids Size h g :=
      Injects_injectPerUse h.ids T p i T.SizeTy Size _ h g husers hinj
    rw [← hi] at hinj
    obtain ⟨st', hst', hfn, -⟩ := processAlloca_perUse hp hneed hpad hreuse hinj
    rw [← hfn] at hinj'
    refine ⟨st', (h, Size), hst', hpad, hinj', fun u hu => ?_, hsized _ hinj'⟩
    obtain ⟨k, v, -, hlook, hop⟩ := huses u hu
    obtain ⟨c, j, -, -, -, hb, -⟩ := hinv.2.1 _ (lookup_some_mem hlook)
    refine ⟨v, c, by rw [hfn]; exact hop, ?_⟩
    rw [hfn, hi]
    exact hb.bounded_weaken hold

/-- The processing of an allocation of a well-formed body returns, and the
body stays well-formed, when the analyser answers with operand slots of the
function it is given. -/
theorem processAlloca_total (env : Env) (T : PassTypes) (TLI : TargetLowering)
    (IsOptNone : Bool) (BA : StackBoundsAnalysis) (st : PassState) (ai : Nat) {AI : Inst}
    (hwf : st.fn.wellFormed = true)
    (hAI : st.fn.findInst ai = some AI) (hop : AI.op = Opcode.alloca)
    (hA : ∀ f b s, ∀ u ∈ env.findUsesThatNeedBounds f ai b s, (f.getOperand u).isSome = true) :
    ∃ st', processAlloca env T TLI IsOptNone BA st ai = some st' ∧ Grows st.fn st'.fn := by
  obtain ⟨p, hp⟩ := prologue_total env.DL TLI T hwf hAI hop
  have hvalid : ∀ u ∈ needSet env BA p.fn ai, (p.fn.getOperand u).isSome = true :=
    needSet_valid (hA p.fn)
  cases hneed : needBounds env BA p.fn ai with
  | false =>
    obtain ⟨st', hst', hfn, -, -⟩ := processAlloca_exempt IsOptNone hp hneed
    exact ⟨st', hst', hfn ▸ (prologue_grows hp).1⟩
  | true =>
    obtain ⟨st', r, hst', hpad, hinj, -, -⟩ :=
      processAlloca_bounded env T TLI IsOptNone BA st ai p hwf hp hvalid hneed
    exact ⟨st', hst', ((prologue_grows hp).1.grows_trans (padded_grows hpad)).grows_trans hinj.1⟩

end CheriBoundAllocas

namespace CheriBoundAllocas

/-! ## `runOnFunction` returns -/

theorem mem_visit {F : Function} (hnd : F.ids.Nodup) {ai : Nat} (h : ai ∈ visit F) :
    ∃ AI, F.findInst ai = some AI ∧ AI.op = Opcode.alloca := by
  unfold visit at h
  obtain ⟨AI, hAI, rfl⟩ := List.mem_map.mp h
  obtain ⟨hmem, hop⟩ := List.mem_filter.mp hAI
  exact ⟨AI, findInst_eq_some_of_mem hnd hmem, by simpa using hop⟩

theorem processAllocas_total (env : Env) (T : PassTypes) (TLI : TargetLowering)
    (IsOptNone : Bool) (BA : StackBoundsAnalysis) (hA : env.analyserValid) :
    ∀ (ais : List Nat) (st : PassState), st.fn.wellFormed = true →
      (∀ ai ∈ ais, ∃ AI, st.fn.findInst ai = some AI ∧ AI.op = Opcode.alloca) →
      ∃ st', processAllocas env T TLI IsOptNone BA ais st = some st' ∧ Grows st.fn st'.fn := by
  intro ais
  induction ais with
  | nil => intro st _ _; exact ⟨st, rfl, Grows.grows_refl _⟩
  | cons ai rest ih =>
    intro st hwf hall
    obtain ⟨AI, hAI, hop⟩ := hall ai (List.mem_cons_self _ _)
    obtain ⟨st2, hst2, hG⟩ := processAlloca_total env T TLI IsOptNone BA st ai hwf hAI hop
      (fun f b s => hA f ai b s)
    have hall2 : ∀ a ∈ rest, ∃ AI, st2.fn.findInst a = some AI ∧ AI.op = Opcode.alloca := by
      intro a ha
      obtain ⟨A, hA1, hA2⟩ := hall a (List.mem_cons_of_mem _ ha)
      obtain ⟨A', hA', hs⟩ := hG.2 a A hA1
      exact ⟨A', hA', hs.2.1.trans hA2⟩
    obtain ⟨st', hst', hG'⟩ := ih st2 (hG.1 hwf) hall2
    refine ⟨st', ?_, hG.grows_trans hG'⟩
    simp only [processAllocas, hst2]
    exact hst'

/-- On a well-formed body `runOnFunction` returns; the flag it returns says
whether the body has an alloca, and the body stays well-formed. -/
theorem runOnFunction_total (env : Env) (T : PassTypes) (decls : List Callee)
    (stats : Statistics) (F : Function) (hwf : F.wellFormed = true)
    (hA : env.analyserValid) :
    ∃ st, runOnFunction env T decls stats F = some (st, !(visit F).isEmpty) ∧
      Grows F st.fn := by
  unfold runOnFunction
  simp only
  split
  · rename_i hempty
    rw [hempty]
    exact ⟨_, rfl, Grows.grows_refl F⟩
  · rename_i hne
    obtain ⟨st', hst', hG⟩ := processAllocas_total env T (env.TLI F) F.optNone
      (resolveBoundsAnalysis env.opts.BoundsSettingAnalysis F.optNone) hA (visit F)
      { fn := F, decls := (getDeclaration decls Intrinsic.cheri_bounded_stack_cap T.SizeTy).1,
        stats := stats } hwf (fun ai hai => mem_visit (wellFormed_nodup hwf) hai)
    rw [hst']
    simp only [Bool.not_eq_true] at hne
    rw [hne]
    exact ⟨st', rfl, hG⟩

end CheriBoundAllocas

namespace CheriBoundAllocas

/-! ## The widening of an allocation (lines 284-313) -/

/-- The rewrite of lines 303-311 on the function `f1`: a bitcast with a
null source is inserted before `t`, every use of the alloca is pointed at
it, the alloca's pointer type is changed, and the bitcast's source is set
to the alloca. -/
theorem widen_typed_spec (f1 : Function) (hnd : f1.ids.Nodup) {t ai : Nat}
    (ht : t ∈ f1.ids) (hai : ai ∈ f1.ids) (ty ty2 : Ty) :
    ((((f1.insertBefore t (withoutTailPadding f1.freshId ty)).replaceAllUsesWith
          (Value.inst ai) (Value.inst f1.freshId)).modifyInst ai
          (fun i => { i with ty := ty2 })).setOperand
        { user := f1.freshId, opNo := 0 } (Value.inst ai)).findInst f1.freshId =
      some { withoutTailPadding f1.freshId ty with operands := [Value.inst ai] } ∧
    (∀ j i, f1.findInst j = some i → ∃ i',
      ((((f1.insertBefore t (withoutTailPadding f1.freshId ty)).replaceAllUsesWith
          (Value.inst ai) (Value.inst f1.freshId)).modifyInst ai
          (fun i => { i with ty := ty2 })).setOperand
        { user := f1.freshId, opNo := 0 } (Value.inst ai)).findInst j = some i' ∧
      i'.allocatedTy = i.allocatedTy ∧ i'.align = i.align ∧
      i'.ty = (if j = ai then ty2 else i.ty)) ∧
    (∀ u v, u.user ∈ f1.ids → f1.getOperand u = some v →
      ((((f1.insertBefore t (withoutTailPadding f1.freshId ty)).replaceAllUsesWith
          (Value.inst ai) (Value.inst f1.freshId)).modifyInst ai
          (fun i => { i with ty := ty2 })).setOperand
        { user := f1.freshId, opNo := 0 } (Value.inst ai)).getOperand u =
        some (if v = Value.inst ai then Value.inst f1.freshId else v)) ∧
    (∀ j ∈ ((((f1.insertBefore t (withoutTailPadding f1.freshId ty)).replaceAllUsesWith
          (Value.inst ai) (Value.inst f1.freshId)).modifyInst ai
          (fun i => { i with ty := ty2 })).setOperand
        { user := f1.freshId, opNo := 0 } (Value.inst ai)).ids, j = f1.freshId ∨ j ∈ f1.ids) := by
  have hfresh : (withoutTailPadding f1.freshId ty).id ∉ f1.ids := freshId_not_mem f1
  have hnp_ai : f1.freshId ≠ ai := fun h => freshId_not_mem f1 (h ▸ hai)
  generalize hf2 : f1.insertBefore t (withoutTailPadding f1.freshId ty) = f2
  have h2np : f2.findInst f1.freshId = some (withoutTailPadding f1.freshId ty) := by
    rw [← hf2]; exact findInst_insertBefore_new f1 hfresh ht
  have h2old : ∀ j, j ∈ f1.ids → f2.findInst j = f1.findInst j := by
    intro j hj
    rw [← hf2]
    exact findInst_insertBefore_ne f1 (fun h => hfresh (h ▸ hj))
  have h2ids : ∀ j ∈ f2.ids, j = f1.freshId ∨ j ∈ f1.ids := by
    intro j hj
    rw [← hf2] at hj
    have := (ids_insertBefore_perm f1 hnd ht).mem_iff.mp hj
    rcases List.mem_cons.mp this with h | h
    · exact Or.inl h
    · exact Or.inr h
  generalize hf3 : f2.replaceAllUsesWith (Value.inst ai) (Value.inst f1.freshId) = f3
  have h3ids : f3.ids = f2.ids := by
    rw [← hf3]; exact ids_mapInsts f2 _ (fun _ => rfl)
  generalize hf4 : f3.modifyInst ai (fun i => { i with ty := ty2 }) = f4
  have h4 : ∀ j, f4.findInst j = (f3.findInst j).map (fun i =>
      if i.id = ai then { i with ty := ty2 } else i) := by
    intro j; rw [← hf4]
    exact findInst_modifyInst f3 ai (fun i => { i with ty := ty2 }) (fun _ => rfl) j
  have h4ids : f4.ids = f3.ids := by
    rw [← hf4]
    unfold Function.modifyInst
    exact ids_mapInsts f3 _ (fun i => by by_cases h : i.id = ai <;> simp [h])
  have h5ids : (f4.setOperand { user := f1.freshId, opNo := 0 } (Value.inst ai)).ids = f4.ids := by
    unfold Function.setOperand Function.modifyInst
    exact ids_mapInsts f4 _ (fun i => by by_cases h : i.id = f1.freshId <;> simp [h])
  refine ⟨?_, ?_, ?_, ?_⟩
  · rw [findInst_setOperand, h4, ← hf3, findInst_rauw, h2np]
    simp [withoutTailPadding, hnp_ai]
  · intro j i hi
    have hj : j ∈ f1.ids := mem_ids_of_findInst hi
    have hjid : i.id = j := findInst_id hi
    have hjne : j ≠ f1.freshId := fun h => freshId_not_mem f1 (h ▸ hj)
    rw [findInst_setOperand, h4, ← hf3, findInst_rauw, h2old j hj, hi]
    by_cases hja : j = ai
    · simp only [Option.map_some', hjid, hja, if_true, hnp_ai.symm, if_false]
      exact ⟨_, rfl, rfl, rfl, rfl⟩
    · simp only [Option.map_some', hjid, hja, if_false, hjne]
      exact ⟨_, rfl, rfl, rfl, rfl⟩
  · intro u v hu huv
    have hune : f1.freshId ≠ u.user := fun h => freshId_not_mem f1 (h ▸ hu)
    rw [getOperand_setOperand_ne f4 _ u _ (by intro h; apply hune; rw [h]),
      ← hf4, getOperand_modifyInst_ops f3 ai (fun i => { i with ty := ty2 })
        (fun _ => rfl) (fun _ => rfl),
      ← hf3, getOperand_rauw, ← hf2,
      getOperand_insertBefore_ne f1
        (show (withoutTailPadding f1.freshId ty).id ≠ u.user from hune), huv]
    rfl
  · intro j hj
    rw [h5ids, h4ids, h3ids] at hj
    exact h2ids j hj

theorem computeSize_fn_of_const (DL : DataLayout) (T : PassTypes) (p : Prologue)
    (h : ∃ b c, p.ArraySize = Value.constInt b c) : (computeSize DL T p).1 = p.fn := by
  obtain ⟨b, c, hbc⟩ := h
  unfold computeSize
  simp only [hbc, IRBuilder.CreateMul]
  split <;> rfl

/-- What lines 284-313 do to the function `g` when they run. -/
theorem applyTailPadding_widen (TLI : TargetLowering) (T : PassTypes) (p : Prologue)
    (g : Function) (b sz : Nat) (hnd : g.ids.Nodup) {blk : Block} {y : Nat}
    {mid : List Nat} {t : Inst} {AIg : Inst}
    (hloc : g.parentOf p.AI.id = some blk) (hseg : SegIn blk p.AI.id y mid)
    (hterm : blk.getTerminator = some t) (hAIg : g.findInst p.AI.id = some AIg)
    (hstatic : g.isStaticAlloca p.AI = true) (hforced : p.ForcedAlignment ≠ 1)
    (hP : TLI.getTailPaddingForPreciseBounds (getLimitedValue sz) ≠ 0) :
    ∃ h, applyTailPadding TLI T p g (Value.constInt b sz) =
        some (h, Value.constInt T.SizeTy.scalarSizeInBits
          (wrap64 (getLimitedValue sz + TLI.getTailPaddingForPreciseBounds (getLimitedValue sz)) %
            2 ^ T.SizeTy.scalarSizeInBits)) ∧
      (∃ AI', h.findInst p.AI.id = some AI' ∧ AI'.align = AIg.align ∧
        AI'.allocatedTy =
          TypeWithPadding p (TLI.getTailPaddingForPreciseBounds (getLimitedValue sz)) ∧
        AI'.ty = (if p.AI.ty.isOpaquePointerTy = true then AIg.ty else
          Ty.ptr (TypeWithPadding p (TLI.getTailPaddingForPreciseBounds (getLimitedValue sz)))
            p.AI.ty.addressSpace)) ∧
      (p.AI.ty.isOpaquePointerTy = true → KeepsOps g h ∧ ∀ j ∈ h.ids, j ∈ g.ids) ∧
      (p.AI.ty.isOpaquePointerTy = false →
        ∃ c, c.id ∉ g.ids ∧ h.findInst c.id = some c ∧ c.op = Opcode.bitcast ∧
          c.operands = [Value.inst p.AI.id] ∧ c.ty = p.AI.ty ∧
          (∀ j ∈ h.ids, j = c.id ∨ j ∈ g.ids) ∧
          ∀ u v, u.user ∈ g.ids → g.getOperand u = some v →
            h.getOperand u = some (if v = Value.inst p.AI.id then Value.inst c.id else v)) := by
  have hAIid : AIg.id = p.AI.id := findInst_id hAIg
  generalize hTT : TypeWithPadding p (TLI.getTailPaddingForPreciseBounds (getLimitedValue sz)) = TT
  unfold applyTailPadding
  have hcond : (g.isStaticAlloca p.AI && decide (p.ForcedAlignment ≠ 1)) = true := by
    simp [hstatic, hforced]
  rw [if_pos hcond]
  simp only
  rw [if_pos hP]
  generalize hTWP : Ty.struct2 _ (Ty.array (Ty.int 8) _) = TWP
  have hX : TT = TWP := by rw [← hTWP, ← hTT]; rfl
  subst hX
  have hs1 : ∀ i : Inst, SameStatic i { i with allocatedTy := TT } :=
    fun i => ⟨rfl, rfl, rfl, rfl, rfl⟩
  have e1 : Ext p.AI.id g (g.modifyInst p.AI.id (fun i => { i with allocatedTy := TT })) :=
    Ext_modifyInst _ g hnd _ _ hs1 (fun i => ⟨rfl, rfl⟩)
  have hf1find : ∀ j, (g.modifyInst p.AI.id (fun i => { i with allocatedTy := TT })).findInst j =
      (g.findInst j).map (fun i => if i.id = p.AI.id then { i with allocatedTy := TT } else i) :=
    fun j => findInst_modifyInst g p.AI.id (fun i => { i with allocatedTy := TT })
      (fun _ => rfl) j
  have hf1ids : (g.modifyInst p.AI.id (fun i => { i with allocatedTy := TT })).ids = g.ids := by
    unfold Function.modifyInst
    exact ids_mapInsts g _ (fun i => by by_cases h : i.id = p.AI.id <;> simp [h])
  have hf1op : ∀ u, (g.modifyInst p.AI.id (fun i => { i with allocatedTy := TT })).getOperand u =
      g.getOperand u :=
    fun u => getOperand_modifyInst_ops g p.AI.id (fun i => { i with allocatedTy := TT })
      (fun _ => rfl) (fun _ => rfl) u
  generalize hf1 : g.modifyInst p.AI.id (fun i => { i with allocatedTy := TT }) = f1
    at e1 hf1find hf1ids hf1op ⊢
  have hnd1 : f1.ids.Nodup := e1.1.1
  have hai1 : p.AI.id ∈ f1.ids := by rw [hf1ids]; exact mem_ids_of_findInst hAIg
  have hAI1 : f1.findInst p.AI.id = some { AIg with allocatedTy := TT } := by
    rw [hf1find, hAIg, Option.map_some', if_pos hAIid]
  by_cases hopq : p.AI.ty.isOpaquePointerTy = true
  · simp only [hopq, Bool.not_true, Bool.false_eq_true, if_false, if_true]
    refine ⟨f1, rfl, ⟨_, hAI1, rfl, rfl, rfl⟩, fun _ => ⟨e1.2.1, fun j hj => hf1ids ▸ hj⟩,
      fun h => by cases h⟩
  · simp only [Bool.not_eq_true] at hopq
    simp only [hopq, Bool.not_false, if_true, Bool.false_eq_true, if_false]
    have hloc' : locate g (p.AI.id, none) = some blk := hloc
    obtain ⟨blk1, hloc1, hterm1, _, hseg1⟩ := e1.1.2.2 _ _ hloc'
    obtain ⟨mid1, hs1', _, _⟩ := hseg1 _ _ _ hseg
    obtain ⟨t1, ht1⟩ : ∃ t1, blk1.getTerminator = some t1 := by
      rw [hterm] at hterm1
      cases h : blk1.getTerminator with
      | none => simp [h] at hterm1
      | some t1 => exact ⟨t1, rfl⟩
    have hloc1' : f1.parentOf p.AI.id = some blk1 := hloc1
    obtain ⟨nnd, hnnd, hnndmem, -, -⟩ := nnd_exists hnd1 hloc1' hs1' ht1
    simp only [hnnd]
    obtain ⟨w1, w2, w3, w4⟩ := widen_typed_spec f1 hnd1 hnndmem hai1 p.AI.ty
      (Ty.ptr TT p.AI.ty.addressSpace)
    obtain ⟨AI', hAI', ha1, ha2, ha3⟩ := w2 _ _ hAI1
    refine ⟨_, rfl, ⟨AI', hAI', ha2, ?_, ?_⟩, (fun h => False.elim h), (fun _ =>
      ⟨{ withoutTailPadding f1.freshId p.AI.ty with operands := [Value.inst p.AI.id] }, ?_, w1,
        rfl, rfl, rfl, ?_, ?_⟩)⟩
    · rw [ha1]
    · rw [ha3, if_pos rfl]
    · intro hmem
      exact freshId_not_mem f1 (hf1ids ▸ hmem)
    · intro j hj
      rcases w4 j hj with h | h
      · exact Or.inl h
      · exact Or.inr (hf1ids ▸ h)
    · intro u v hu huv
      exact w3 u v (hf1ids ▸ hu) ((hf1op u).trans huv)

/-- The state at line 316 of an allocation that is widened, relative to the
state at line 207. -/
theorem padded_widen (DL : DataLayout) (TLI : TargetLowering) (T : PassTypes)
    (f : Function) (ai : Nat) (p : Prologue) (hwf : f.wellFormed = true)
    (hp : prologue DL TLI T f ai = some p) (happ : paddingApplied DL TLI T p = true) :
    ∃ h AIp, padded DL TLI T p =
        some (h, Value.constInt T.SizeTy.scalarSizeInBits
          (wrap64 (allocaSize DL T p + tailPadding DL TLI T p) %
            2 ^ T.SizeTy.scalarSizeInBits)) ∧
      p.fn.findInst ai = some AIp ∧ AIp.ty = p.AI.ty ∧
      (∃ AI', h.findInst ai = some AI' ∧ AI'.align = AIp.align ∧
        AI'.allocatedTy = TypeWithPadding p (tailPadding DL TLI T p) ∧
        AI'.ty = (if p.AI.ty.isOpaquePointerTy = true then p.AI.ty else
          Ty.ptr (TypeWithPadding p (tailPadding DL TLI T p)) p.AI.ty.addressSpace)) ∧
      (p.AI.ty.isOpaquePointerTy = true → KeepsOps p.fn h ∧ ∀ j ∈ h.ids, j ∈ p.fn.ids) ∧
      (p.AI.ty.isOpaquePointerTy = false →
        ∃ c, c.id ∉ p.fn.ids ∧ h.findInst c.id = some c ∧ c.op = Opcode.bitcast ∧
          c.operands = [Value.inst ai] ∧ c.ty = p.AI.ty ∧
          (∀ j ∈ h.ids, j = c.id ∨ j ∈ p.fn.ids) ∧
          ∀ u v, u.user ∈ p.fn.ids → p.fn.getOperand u = some v →
            h.getOperand u = some (if v = Value.inst ai then Value.inst c.id else v)) := by
  have hnd := wellFormed_nodup hwf
  obtain ⟨next, arraySizeOp, hAI, hnext, hB, hhead, hnmem, e1, hc1⟩ := prologue_spec hnd hp
  have hid : p.AI.id = ai := findInst_id hAI
  subst hid
  unfold paddingApplied at happ
  simp only [Bool.and_eq_true, decide_eq_true_eq] at happ
  obtain ⟨⟨hstatic, hforced⟩, hP⟩ := happ
  have hBpt : p.B.insertPt = next.id := by rw [hB]
  have hnd1 : p.fn.ids.Nodup := e1.1.1
  have hnmem1 : p.B.insertPt ∈ p.fn.ids := hBpt ▸ e1.1.ids_sub hnmem
  obtain ⟨-, hc2⟩ := computeSize_spec DL T p hnd1 hnmem1
  have hArr : ∃ b c, p.ArraySize = Value.constInt b c := by
    obtain ⟨b, c, hbc⟩ := isStaticAlloca_const hstatic
    rw [hhead] at hbc
    cases hbc
    exact hc1 ⟨b, c, rfl⟩
  have hcs1 : (computeSize DL T p).1 = p.fn := computeSize_fn_of_const DL T p hArr
  obtain ⟨b, sz, hcs2⟩ := hc2 hArr
  have hsize : allocaSize DL T p = getLimitedValue sz := by
    unfold allocaSize; rw [hcs2]
  have hpadv : tailPadding DL TLI T p =
      TLI.getTailPaddingForPreciseBounds (getLimitedValue sz) := by
    unfold tailPadding; rw [hsize]
  rw [hcs1] at hstatic
  rw [hpadv] at hP ⊢
  rw [hsize]
  unfold padded
  rw [hcs1, hcs2]
  obtain ⟨blk, hblk, hseg⟩ := getNextNode_seg hnext
  obtain ⟨t0, ht0⟩ := wellFormed_terminator hwf (parentOf_mem_ids hblk).2
  have hloc0 : locate f (p.AI.id, none) = some blk := hblk
  obtain ⟨blk2, hloc2, hterm2, _, hseg2⟩ := e1.1.2.2 _ _ hloc0
  obtain ⟨mid2, hs2, _, _⟩ := hseg2 _ _ _ hseg
  have hloc2' : p.fn.parentOf p.AI.id = some blk2 := hloc2
  obtain ⟨t2, ht2⟩ : ∃ t2, blk2.getTerminator = some t2 := by
    rw [ht0] at hterm2
    cases h : blk2.getTerminator with
    | none => simp [h] at hterm2
    | some t => exact ⟨t, rfl⟩
  obtain ⟨AIp, hAIp, -, hAIpty⟩ := e1.2.1 _ _ hAI
  obtain ⟨h, hres, ⟨AI', hAI', ha1, ha2, ha3⟩, hopq, htyped⟩ :=
    applyTailPadding_widen TLI T p p.fn b sz hnd1 hloc2' hs2 ht2 hAIp hstatic hforced hP
  refine ⟨h, AIp, hres, hAIp, hAIpty, ⟨AI', hAI', ha1, ha2, ?_⟩, hopq, htyped⟩
  rw [ha3, hAIpty]

end CheriBoundAllocas

namespace CheriBoundAllocas

/-! ## C11: the size operand before padding -/

/-- The size computed at lines 271-275 when the element's allocation size
fits 32 bits and the index type has at least 32 bits: the element
size for a non-array allocation, the folded product for a constant array
length, and a `mul` of the element size and the converted array length
otherwise. -/
theorem computeSize_of_small_element (DL : DataLayout) (T : PassTypes) (p : Prologue)
    (bits : Nat) (hT : T.SizeTy = Ty.int bits) (h32 : 32 ≤ bits)
    (hsmall : DL.getTypeAllocSize p.AI.allocatedTy < 2 ^ 32) :
    (p.AI.isArrayAllocation = false →
      computeSize DL T p = (p.fn, Value.constInt bits (DL.getTypeAllocSize p.AI.allocatedTy))) ∧
    (p.AI.isArrayAllocation = true → ∀ b n, p.ArraySize = Value.constInt b n →
      computeSize DL T p =
        (p.fn, Value.constInt bits ((DL.getTypeAllocSize p.AI.allocatedTy * n) % 2 ^ bits))) ∧
    (p.AI.isArrayAllocation = true → (∀ b n, p.ArraySize ≠ Value.constInt b n) →
      computeSize DL T p =
        p.B.insert p.fn Opcode.mul (Ty.int bits)
          [Value.constInt bits (DL.getTypeAllocSize p.AI.allocatedTy), p.ArraySize]) := by
  have h1 : wrap64 (DL.getTypeAllocSize p.AI.allocatedTy) % 2 ^ 32 % 2 ^ bits =
      DL.getTypeAllocSize p.AI.allocatedTy := by
    have hlt64 : DL.getTypeAllocSize p.AI.allocatedTy < 2 ^ 64 :=
      lt_of_lt_of_le hsmall (Nat.pow_le_pow_right (by decide) (by decide))
    have hltb : DL.getTypeAllocSize p.AI.allocatedTy < 2 ^ bits :=
      lt_of_lt_of_le hsmall (Nat.pow_le_pow_right (by decide) h32)
    unfold wrap64
    rw [Nat.mod_eq_of_lt hlt64, Nat.mod_eq_of_lt hsmall, Nat.mod_eq_of_lt hltb]
  refine ⟨?_, ?_, ?_⟩
  · intro harr
    unfold computeSize
    simp only [harr, hT, Ty.scalarSizeInBits, h1]
    rfl
  · intro harr b n hn
    unfold computeSize
    simp only [harr, hT, Ty.scalarSizeInBits, h1, hn, IRBuilder.CreateMul, if_true]
  · intro harr hn
    unfold computeSize
    simp only [harr, hT, Ty.scalarSizeInBits, h1, if_true]
    unfold IRBuilder.CreateMul
    split
    · rename_i b' a' c' d' heq1 heq2
      exact absurd heq2 (hn _ _)
    · rfl

/-- C11 (code at the failing input): for the alloca of one `[4294967296 x i8]`
object (example G: precise bounds, so no tail padding; the call argument
needs bounds), the data layout gives the element an allocation size of
4294967296 bytes, but the one bounds call inserted has the size operand
`i64 0`: line 272 narrows the element size to `unsigned`. -/
theorem C11_element_size_narrowed_to_32_bits :
    exFnG.wellFormed = true ∧
    exDL.getTypeAllocSize exAllocaG.allocatedTy = 4294967296 ∧
    exAllocaG.isArrayAllocation = false ∧
    prologue exEnvD.DL exTLI exT (exSt exFnG).fn 1 = some exPG ∧
    needSet exEnvD StackBoundsAnalysis.Full exPG.fn 1 = [{ user := 2, opNo := 0 }] ∧
    padded exEnvD.DL exTLI exT exPG = some (exFnG, Value.constInt 64 0) ∧
    (processAlloca exEnvD exT exTLI false StackBoundsAnalysis.Full (exSt exFnG) 1).map
      (fun s => (insertedBoundsCalls exFnG s.fn).map (fun i => (i.id, i.operands))) =
      some [(5, [Value.inst 4, Value.constInt 64 0])] := by
  refine ⟨by decide, by rfl, by rfl, by rfl, by rfl, by rfl, by rfl⟩

end CheriBoundAllocas

namespace CheriBoundAllocas

/-! ## Tail padding, and C13 -/

/-- The size and the type after tail padding, in terms of the `AllocaSize` of
line 279 (the size of lines 271-275, whose element size line 272 narrows to
32 bits): when tail padding `P` is applied and `AllocaSize + P` fits the
index type, of at most 64 bits, every bounds call inserted for the allocation
has the size `AllocaSize + P`, and the allocation's type becomes the
two-field struct of the original object (an array of `N` elements of the
original type for an array allocation of constant length `N`) and an array
of `P` bytes. -/
theorem padded_size_and_widened_type (env : Env) (T : PassTypes)
    (TLI : TargetLowering) (IsOptNone : Bool) (BA : StackBoundsAnalysis) (st : PassState)
    (ai : Nat) (p : Prologue) (bits : Nat)
    (hwf : st.fn.wellFormed = true)
    (hp : prologue env.DL TLI T st.fn ai = some p)
    (hvalid : ∀ u ∈ needSet env BA p.fn ai, (p.fn.getOperand u).isSome)
    (hneed : needBounds env BA p.fn ai = true)
    (happ : paddingApplied env.DL TLI T p = true)
    (hT : T.SizeTy = Ty.int bits) (hbits : bits ≤ 64)
    (hfit : allocaSize env.DL T p + tailPadding env.DL TLI T p < 2 ^ bits) :
    ∃ st' r E' AI', processAlloca env T TLI IsOptNone BA st ai = some st' ∧
      padded env.DL TLI T p = some r ∧
      r.2 = Value.constInt bits E' ∧
      E' = allocaSize env.DL T p + tailPadding env.DL TLI T p ∧
      allocaSize env.DL T p ≤ E' ∧
      (∀ x ∈ insertedBoundsCalls st.fn st'.fn, x.operands[1]? = some (Value.constInt bits E')) ∧
      (∀ u ∈ needSet env BA p.fn ai, ∃ v c, st'.fn.getOperand u = some v ∧
        IsBoundedVia st'.fn st.fn.ids T (SetBoundsIntrin T (p.fn.isStaticAlloca p.AI))
          p.AI.ty ai (Value.constInt bits E') v c) ∧
      st'.fn.findInst ai = some AI' ∧
      AI'.allocatedTy = TypeWithPadding p (tailPadding env.DL TLI T p) ∧
      (p.AI.isArrayAllocation = false →
        AI'.allocatedTy =
          Ty.struct2 p.AI.allocatedTy (Ty.array (Ty.int 8) (tailPadding env.DL TLI T p))) ∧
      (p.AI.isArrayAllocation = true → ∀ b N, p.ArraySize = Value.constInt b N →
        AI'.allocatedTy =
          Ty.struct2 (Ty.array p.AI.allocatedTy N)
            (Ty.array (Ty.int 8) (tailPadding env.DL TLI T p))) := by
  obtain ⟨h, AIp, hpad, -, -, ⟨AI1, hAI1, -, ha2, -⟩, -, -⟩ :=
    padded_widen env.DL TLI T st.fn ai p hwf hp happ
  obtain ⟨st', r, hst', hpad', hinj, hb, hsz⟩ :=
    processAlloca_bounded env T TLI IsOptNone BA st ai p hwf hp hvalid hneed
  rw [hpad] at hpad'
  have hr := Option.some.inj hpad'
  subst hr
  have hval : wrap64 (allocaSize env.DL T p + tailPadding env.DL TLI T p) % 2 ^ bits =
      allocaSize env.DL T p + tailPadding env.DL TLI T p := by
    unfold wrap64
    rw [Nat.mod_eq_of_lt (lt_of_lt_of_le hfit (Nat.pow_le_pow_right (by decide) hbits)),
      Nat.mod_eq_of_lt hfit]
  have hbitsEq : T.SizeTy.scalarSizeInBits = bits := by rw [hT]; rfl
  simp only [hbitsEq, hval] at hpad hb hsz
  obtain ⟨AI', hAI', hs⟩ := hinj.2.1 _ _ hAI1
  have hty : AI'.allocatedTy = TypeWithPadding p (tailPadding env.DL TLI T p) :=
    hs.2.2.2.2.2.1.trans ha2
  refine ⟨st', _, allocaSize env.DL T p + tailPadding env.DL TLI T p, AI', hst', hpad, rfl, rfl,
    Nat.le_add_right _ _, hsz, hb, hAI', hty, ?_, ?_⟩
  · intro harr
    rw [hty]
    unfold TypeWithPadding
    simp [harr]
  · intro harr b N hN
    rw [hty]
    unfold TypeWithPadding
    simp [harr, hN]

/-- Example A on the target with imprecise bounds: the `AllocaSize` is 4, the
padding 12, the size passed 16. -/
theorem padded_size_and_widened_type_at_example_A :
    (exSt exFnA).fn.wellFormed = true ∧
    prologue exEnvAPad.DL exTLIPad exT (exSt exFnA).fn 1 = some (exPA 16) ∧
    (∀ u ∈ needSet exEnvAPad StackBoundsAnalysis.Full (exPA 16).fn 1,
      ((exPA 16).fn.getOperand u).isSome) ∧
    needBounds exEnvAPad StackBoundsAnalysis.Full (exPA 16).fn 1 = true ∧
    paddingApplied exEnvAPad.DL exTLIPad exT (exPA 16) = true ∧
    exT.SizeTy = Ty.int 64 ∧ 64 ≤ 64 ∧
    allocaSize exEnvAPad.DL exT (exPA 16) + tailPadding exEnvAPad.DL exTLIPad exT (exPA 16) <
      2 ^ 64 ∧
    ∃ st' r E' AI', processAlloca exEnvAPad exT exTLIPad false StackBoundsAnalysis.Full
        (exSt exFnA) 1 = some st' ∧
      padded exEnvAPad.DL exTLIPad exT (exPA 16) = some r ∧
      r.2 = Value.constInt 64 E' ∧
      E' = allocaSize exEnvAPad.DL exT (exPA 16) +
        tailPadding exEnvAPad.DL exTLIPad exT (exPA 16) ∧
      allocaSize exEnvAPad.DL exT (exPA 16) ≤ E' ∧
      (∀ x ∈ insertedBoundsCalls (exSt exFnA).fn st'.fn,
        x.operands[1]? = some (Value.constInt 64 E')) ∧
      (∀ u ∈ needSet exEnvAPad StackBoundsAnalysis.Full (exPA 16).fn 1,
        ∃ v c, st'.fn.getOperand u = some v ∧
          IsBoundedVia st'.fn (exSt exFnA).fn.ids exT
            (SetBoundsIntrin exT ((exPA 16).fn.isStaticAlloca (exPA 16).AI))
            (exPA 16).AI.ty 1 (Value.constInt 64 E') v c) ∧
      st'.fn.findInst 1 = some AI' ∧
      AI'.allocatedTy = TypeWithPadding (exPA 16) (tailPadding exEnvAPad.DL exTLIPad exT (exPA 16)) ∧
      ((exPA 16).AI.isArrayAllocation = false →
        AI'.allocatedTy =
          Ty.struct2 (exPA 16).AI.allocatedTy
            (Ty.array (Ty.int 8) (tailPadding exEnvAPad.DL exTLIPad exT (exPA 16)))) ∧
      ((exPA 16).AI.isArrayAllocation = true → ∀ b N,
        (exPA 16).ArraySize = Value.constInt b N →
        AI'.allocatedTy =
          Ty.struct2 (Ty.array (exPA 16).AI.allocatedTy N)
            (Ty.array (Ty.int 8) (tailPadding exEnvAPad.DL exTLIPad exT (exPA 16)))) :=
  ⟨by decide, by rfl, by decide, by rfl, by rfl, by rfl, by decide, by decide,
    padded_size_and_widened_type exEnvAPad exT exTLIPad false StackBoundsAnalysis.Full
      (exSt exFnA) 1 (exPA 16) 64 (by decide) (by rfl) (by decide) (by rfl) (by rfl) (by rfl)
      (by decide) (by decide)⟩

/-- C13: when tail padding widens an allocation, the widened type has the
original object as its first field; with typed pointers the alloca gets the
pointer-to-struct type, and every operand slot that held the alloca holds a
new bitcast whose only operand is the alloca and whose type is the alloca's
original pointer type, every other slot is unchanged, and no slot holds the
temporary null source unless it held it before; with opaque pointers every
operand slot and the alloca's type are unchanged. -/
theorem C13_widening_redirects_uses_to_a_cast (DL : DataLayout) (TLI : TargetLowering)
    (T : PassTypes) (f : Function) (ai : Nat) (p : Prologue)
    (hwf : f.wellFormed = true)
    (hp : prologue DL TLI T f ai = some p)
    (happ : paddingApplied DL TLI T p = true) :
    ∃ r AI', padded DL TLI T p = some r ∧ r.1.findInst ai = some AI' ∧
      AI'.allocatedTy = TypeWithPadding p (tailPadding DL TLI T p) ∧
      (∃ first, AI'.allocatedTy =
          Ty.struct2 first (Ty.array (Ty.int 8) (tailPadding DL TLI T p)) ∧
        (p.AI.isArrayAllocation = false → first = p.AI.allocatedTy) ∧
        (p.AI.isArrayAllocation = true → ∀ b N, p.ArraySize = Value.constInt b N →
          first = Ty.array p.AI.allocatedTy N)) ∧
      (p.AI.ty.isOpaquePointerTy = false →
        AI'.ty = Ty.ptr (TypeWithPadding p (tailPadding DL TLI T p)) p.AI.ty.addressSpace ∧
        ∃ c, c.id ∉ p.fn.ids ∧ r.1.findInst c.id = some c ∧ c.op = Opcode.bitcast ∧
          c.operands = [Value.inst ai] ∧ c.ty = p.AI.ty ∧
          (∀ u, p.fn.getOperand u = some (Value.inst ai) →
            r.1.getOperand u = some (Value.inst c.id)) ∧
          (∀ u v, p.fn.getOperand u = some v → v ≠ Value.inst ai →
            r.1.getOperand u = some v) ∧
          (∀ u ty, r.1.getOperand u = some (Value.nullPtr ty) →
            p.fn.getOperand u = some (Value.nullPtr ty))) ∧
      (p.AI.ty.isOpaquePointerTy = true →
        AI'.ty = p.AI.ty ∧ ∀ u v, p.fn.getOperand u = some v → r.1.getOperand u = some v) := by
  obtain ⟨h, AIp, hpad, hAIp, hAIpty, ⟨AI', hAI', -, ha2, ha3⟩, hopq, htyped⟩ :=
    padded_widen DL TLI T f ai p hwf hp happ
  have hG := padded_grows hpad
  refine ⟨_, AI', hpad, hAI', ha2, ⟨_, ha2, ?_, ?_⟩, ?_, ?_⟩
  · intro harr; simp [harr]
  · intro harr b N hN; simp [harr, hN]
  · intro ht
    obtain ⟨c, hc1, hc2, hc3, hc4, hc5, hc6, hc7⟩ := htyped ht
    refine ⟨by rw [ha3]; simp [ht], c, hc1, hc2, hc3, hc4, hc5, ?_, ?_, ?_⟩
    · intro u hu
      have := hc7 u _ (mem_ids_of_getOperand_isSome (by rw [hu]; rfl)) hu
      simpa using this
    · intro u v hu hv
      have := hc7 u _ (mem_ids_of_getOperand_isSome (by rw [hu]; rfl)) hu
      simpa [hv] using this
    · intro u ty hu
      have humem : u.user ∈ h.ids := mem_ids_of_getOperand_isSome (by rw [hu]; rfl)
      rcases hc6 _ humem with hcu | hold
      · exfalso
        unfold Function.getOperand at hu
        rw [hcu, hc2] at hu
        simp only [hc4] at hu
        cases hk : u.opNo with
        | zero => rw [hk] at hu; simp at hu
        | succ k => rw [hk] at hu; simp at hu
      · obtain ⟨i, hi⟩ := exists_findInst_of_mem_ids hold
        obtain ⟨i', hi', hs⟩ := hG.2 _ _ hi
        have hlt : u.opNo < i.operands.length := by
          unfold Function.getOperand at hu
          rw [hi'] at hu
          simp only at hu
          have := (List.getElem?_eq_some_iff.mp hu).1
          rw [hs.2.2.2.1] at this
          exact this
        have hpu : p.fn.getOperand u = some i.operands[u.opNo] := by
          unfold Function.getOperand
          rw [hi]
          exact List.getElem?_eq_getElem hlt
        have := hc7 u _ hold hpu
        rw [hu] at this
        by_cases hv : i.operands[u.opNo] = Value.inst ai
        · simp [hv] at this
        · simp only [hv, if_false, Option.some.injEq] at this
          rw [hpu, ← this]
  · intro ho
    refine ⟨by rw [ha3]; simp [ho], fun u v hu => (hopq ho).1.getOperand hu⟩

/-- C13 at example A on the target with imprecise bounds. -/
theorem C13_widening_redirects_uses_to_a_cast_witness :
    exFnA.wellFormed = true ∧
    prologue exDL exTLIPad exT exFnA 1 = some (exPA 16) ∧
    paddingApplied exDL exTLIPad exT (exPA 16) = true ∧
    ∃ r AI', padded exDL exTLIPad exT (exPA 16) = some r ∧ r.1.findInst 1 = some AI' ∧
      AI'.allocatedTy = TypeWithPadding (exPA 16) (tailPadding exDL exTLIPad exT (exPA 16)) ∧
      (∃ first, AI'.allocatedTy =
          Ty.struct2 first (Ty.array (Ty.int 8) (tailPadding exDL exTLIPad exT (exPA 16))) ∧
        ((exPA 16).AI.isArrayAllocation = false → first = (exPA 16).AI.allocatedTy) ∧
        ((exPA 16).AI.isArrayAllocation = true → ∀ b N,
          (exPA 16).ArraySize = Value.constInt b N →
          first = Ty.array (exPA 16).AI.allocatedTy N)) ∧
      ((exPA 16).AI.ty.isOpaquePointerTy = false →
        AI'.ty = Ty.ptr (TypeWithPadding (exPA 16) (tailPadding exDL exTLIPad exT (exPA 16)))
          (exPA 16).AI.ty.addressSpace ∧
        ∃ c, c.id ∉ (exPA 16).fn.ids ∧ r.1.findInst c.id = some c ∧ c.op = Opcode.bitcast ∧
          c.operands = [Value.inst 1] ∧ c.ty = (exPA 16).AI.ty ∧
          (∀ u, (exPA 16).fn.getOperand u = some (Value.inst 1) →
            r.1.getOperand u = some (Value.inst c.id)) ∧
          (∀ u v, (exPA 16).fn.getOperand u = some v → v ≠ Value.inst 1 →
            r.1.getOperand u = some v) ∧
          (∀ u ty, r.1.getOperand u = some (Value.nullPtr ty) →
            (exPA 16).fn.getOperand u = some (Value.nullPtr ty))) ∧
      ((exPA 16).AI.ty.isOpaquePointerTy = true →
        AI'.ty = (exPA 16).AI.ty ∧
        ∀ u v, (exPA 16).fn.getOperand u = some v → r.1.getOperand u = some v) :=
  ⟨by decide, by rfl, by rfl,
    C13_widening_redirects_uses_to_a_cast exDL exTLIPad exT exFnA 1 (exPA 16) (by decide)
      (by rfl) (by rfl)⟩

end CheriBoundAllocas

namespace CheriBoundAllocas

/-! ## C14: the strategy `never` -/

/-- The result of the analysis depends on the analyser only through its
answers to the calls listed by `analyserCalls`. -/
theorem analyse_congr (opts : Options) (check check' : BoundsChecker)
    (BA : StackBoundsAnalysis) (f : Function) (ai : Nat)
    (h : ∀ c ∈ analyserCalls opts check BA f ai, check' f ai c.1 c.2 = check f ai c.1 c.2) :
    analyse opts check' BA f ai = analyse opts check BA f ai := by
  unfold analyserCalls at h
  unfold analyse
  split
  · rfl
  · rename_i hmode
    simp only [hmode, if_false] at h
    split at h
    · rename_i hcond
      have h1 := h _ (List.mem_cons_self _ _)
      have h2 := h _ (List.mem_cons_of_mem _ (List.mem_cons_self _ _))
      simp only at h1 h2
      simp only [h1, h2, hcond, if_true]
    · rename_i hcond
      have h1 := h _ (List.mem_cons_self _ _)
      simp only at h1
      simp only [h1, hcond]
      rfl

theorem analyse_never {opts : Options} (check : BoundsChecker) (BA : StackBoundsAnalysis)
    (f : Function) (ai : Nat) (h : opts.BoundsSettingMode = StackBoundsMethod.Never) :
    analyse opts check BA f ai = (false, []) := by
  unfold analyse
  rw [if_pos h]

theorem processAlloca_never (env : Env) (check' : BoundsChecker) (T : PassTypes)
    (TLI : TargetLowering) (IsOptNone : Bool) (BA : StackBoundsAnalysis) (st : PassState)
    (ai : Nat) (h : env.opts.BoundsSettingMode = StackBoundsMethod.Never) :
    processAlloca (env.withAnalyser check') T TLI IsOptNone BA st ai =
      processAlloca env T TLI IsOptNone BA st ai := by
  have h' : (env.withAnalyser check').opts.BoundsSettingMode = StackBoundsMethod.Never := h
  unfold processAlloca
  simp only [analyse_never _ _ _ _ h, analyse_never _ _ _ _ h']
  rfl

theorem processAllocas_never (env : Env) (check' : BoundsChecker) (T : PassTypes)
    (TLI : TargetLowering) (IsOptNone : Bool) (BA : StackBoundsAnalysis)
    (h : env.opts.BoundsSettingMode = StackBoundsMethod.Never) :
    ∀ (ais : List Nat) (st : PassState),
      processAllocas (env.withAnalyser check') T TLI IsOptNone BA ais st =
        processAllocas env T TLI IsOptNone BA ais st := by
  intro ais
  induction ais with
  | nil => intro st; rfl
  | cons ai rest ih =>
    intro st
    simp only [processAllocas, processAlloca_never env check' T TLI IsOptNone BA st ai h]
    cases processAlloca env T TLI IsOptNone BA st ai with
    | none => rfl
    | some st2 => exact ih st2

theorem runOnFunction_never (env : Env) (check' : BoundsChecker) (T : PassTypes)
    (decls : List Callee) (stats : Statistics) (F : Function)
    (h : env.opts.BoundsSettingMode = StackBoundsMethod.Never) :
    runOnFunction (env.withAnalyser check') T decls stats F =
      runOnFunction env T decls stats F := by
  unfold runOnFunction
  simp only
  split
  · rfl
  · have := processAllocas_never env check' T (env.TLI F) F.optNone
      (resolveBoundsAnalysis env.opts.BoundsSettingAnalysis F.optNone) h (visit F)
      { fn := F, decls := (getDeclaration decls Intrinsic.cheri_bounded_stack_cap T.SizeTy).1,
        stats := stats }
    exact congrArg (fun (o : Option PassState) =>
      match o with
      | none => none
      | some st => some (st, true)) this

/-- What the loop over the allocas does under `never`. -/
theorem processAllocas_never_spec (env : Env) (T : PassTypes) (TLI : TargetLowering)
    (IsOptNone : Bool) (BA : StackBoundsAnalysis)
    (h : env.opts.BoundsSettingMode = StackBoundsMethod.Never) :
    ∀ (ais : List Nat) (st : PassState), st.fn.wellFormed = true →
      (∀ ai ∈ ais, ∃ AI, st.fn.findInst ai = some AI ∧ AI.op = Opcode.alloca) →
      ∃ st', processAllocas env T TLI IsOptNone BA ais st = some st' ∧
        Grows st.fn st'.fn ∧ KeepsButAlign st.fn st'.fn ∧
        (∀ f0, (insertedBoundsCalls f0 st'.fn).length = (insertedBoundsCalls f0 st.fn).length) := by
  intro ais
  induction ais with
  | nil =>
    intro st _ _
    exact ⟨st, rfl, Grows.grows_refl _, KeepsButAlign.align_refl _, fun _ => rfl⟩
  | cons ai rest ih =>
    intro st hwf hall
    obtain ⟨AI, hAI, hop⟩ := hall ai (List.mem_cons_self _ _)
    obtain ⟨p, hp⟩ := prologue_total env.DL TLI T hwf hAI hop
    have hneed : needBounds env BA p.fn ai = false := by
      unfold needBounds
      rw [analyse_never _ _ _ _ h]
    obtain ⟨st2, hst2, hfn, -, -⟩ := processAlloca_exempt IsOptNone hp hneed
    obtain ⟨hG, hK⟩ := prologue_grows hp
    obtain ⟨_, _, _, _, _, _, _, e1, _⟩ := prologue_spec (wellFormed_nodup hwf) hp
    rw [← hfn] at hG hK e1
    have hall2 : ∀ a ∈ rest, ∃ AI, st2.fn.findInst a = some AI ∧ AI.op = Opcode.alloca := by
      intro a ha
      obtain ⟨A, hA1, hA2⟩ := hall a (List.mem_cons_of_mem _ ha)
      obtain ⟨A', hA', hs⟩ := hG.2 a A hA1
      exact ⟨A', hA', hs.2.1.trans hA2⟩
    obtain ⟨st', hst', hG', hK', hC'⟩ := ih st2 (hG.1 hwf) hall2
    refine ⟨st', ?_, hG.grows_trans hG', hK.align_trans hK',
      fun f0 => (hC' f0).trans (e1.2.2.1 f0)⟩
    simp only [processAllocas, hst2]
    exact hst'

/-- C14: under the strategy `never`, `runOnFunction` returns on every
well-formed function, for every bounds-analysis setting; its result does
not depend on the analyser, which is not called for any allocation; no
call of a bounds intrinsic is inserted; every operand slot keeps its value;
and every instruction keeps its type and allocated type. -/
theorem C14_never_adds_no_bounds (env : Env) (T : PassTypes) (decls : List Callee)
    (stats : Statistics) (F : Function)
    (hwf : F.wellFormed = true)
    (hmode : env.opts.BoundsSettingMode = StackBoundsMethod.Never) :
    ∃ st b, runOnFunction env T decls stats F = some (st, b) ∧
      (∀ check', runOnFunction (env.withAnalyser check') T decls stats F = some (st, b)) ∧
      (∀ BA f ai, analyserCalls env.opts env.findUsesThatNeedBounds BA f ai = []) ∧
      insertedBoundsCalls F st.fn = [] ∧
      (∀ u v, F.getOperand u = some v → st.fn.getOperand u = some v) ∧
      (∀ j i, F.findInst j = some i → ∃ i', st.fn.findInst j = some i' ∧
        i'.ty = i.ty ∧ i'.allocatedTy = i.allocatedTy ∧ i'.operands = i.operands) := by
  have hcalls : ∀ BA f ai, analyserCalls env.opts env.findUsesThatNeedBounds BA f ai = [] := by
    intro BA f ai
    unfold analyserCalls
    rw [if_pos hmode]
  have hkeep : ∀ g, KeepsButAlign F g →
      (∀ u v, F.getOperand u = some v → g.getOperand u = some v) ∧
      (∀ j i, F.findInst j = some i → ∃ i', g.findInst j = some i' ∧
        i'.ty = i.ty ∧ i'.allocatedTy = i.allocatedTy ∧ i'.operands = i.operands) := by
    intro g hK
    have h2 : ∀ j i, F.findInst j = some i → ∃ i', g.findInst j = some i' ∧
        i'.ty = i.ty ∧ i'.allocatedTy = i.allocatedTy ∧ i'.operands = i.operands := by
      intro j i hi
      obtain ⟨i', hi', he⟩ := hK j i hi
      exact ⟨i', hi', by rw [he], by rw [he], by rw [he]⟩
    refine ⟨fun u v hu => ?_, h2⟩
    unfold Function.getOperand at hu ⊢
    cases hi : F.findInst u.user with
    | none => rw [hi] at hu; cases hu
    | some i =>
      rw [hi] at hu
      obtain ⟨i', hi', -, -, hops⟩ := h2 _ _ hi
      rw [hi']
      simp only at hu ⊢
      rw [hops]; exact hu
  have hres : ∃ st b, runOnFunction env T decls stats F = some (st, b) ∧
      insertedBoundsCalls F st.fn = [] ∧ KeepsButAlign F st.fn := by
    unfold runOnFunction
    simp only
    split
    · exact ⟨_, _, rfl, insertedBoundsCalls_self F, KeepsButAlign.align_refl F⟩
    · obtain ⟨st', hst', -, hK, hC⟩ := processAllocas_never_spec env T (env.TLI F) F.optNone
        (resolveBoundsAnalysis env.opts.BoundsSettingAnalysis F.optNone) hmode (visit F)
        { fn := F, decls := (getDeclaration decls Intrinsic.cheri_bounded_stack_cap T.SizeTy).1,
          stats := stats } hwf (fun ai hai => mem_visit (wellFormed_nodup hwf) hai)
      rw [hst']
      refine ⟨st', true, rfl, ?_, hK⟩
      have := hC F
      rw [length_insertedBoundsCalls_self] at this
      exact List.length_eq_zero.mp this
  obtain ⟨st, b, hrun, hnone, hK⟩ := hres
  exact ⟨st, b, hrun, fun check' => (runOnFunction_never env check' T decls stats F hmode).trans hrun,
    hcalls, hnone, (hkeep st.fn hK).1, (hkeep st.fn hK).2⟩

/-- C14 at example A with the strategy `never`. -/
theorem C14_never_adds_no_bounds_witness :
    exFnA.wellFormed = true ∧
    exEnvNever.opts.BoundsSettingMode = StackBoundsMethod.Never ∧
    ∃ st b, runOnFunction exEnvNever exT [] exStats exFnA = some (st, b) ∧
      (∀ check', runOnFunction (exEnvNever.withAnalyser check') exT [] exStats exFnA =
        some (st, b)) ∧
      (∀ BA f ai,
        analyserCalls exEnvNever.opts exEnvNever.findUsesThatNeedBounds BA f ai = []) ∧
      insertedBoundsCalls exFnA st.fn = [] ∧
      (∀ u v, exFnA.getOperand u = some v → st.fn.getOperand u = some v) ∧
      (∀ j i, exFnA.findInst j = some i → ∃ i', st.fn.findInst j = some i' ∧
        i'.ty = i.ty ∧ i'.allocatedTy = i.allocatedTy ∧ i'.operands = i.operands) :=
  ⟨by decide, by rfl,
    C14_never_adds_no_bounds exEnvNever exT [] exStats exFnA (by decide) (by rfl)⟩

end CheriBoundAllocas

namespace CheriBoundAllocas

/-! ## C15: the strategy `all-or-none` -/

theorem mem_usesOf {f : Function} {v : Value} {u : Use} :
    u ∈ f.usesOf v ↔ f.getOperand u = some v := by
  unfold Function.usesOf
  simp only [List.mem_flatMap, List.mem_filter, List.mem_map, List.mem_range,
    decide_eq_true_eq]
  constructor
  · rintro ⟨_, _, _, h⟩
    exact h
  · intro h
    have h' := h
    unfold Function.getOperand at h'
    cases hi : f.findInst u.user with
    | none => rw [hi] at h'; cases h'
    | some i =>
      rw [hi] at h'
      simp only at h'
      refine ⟨i, findInst_mem hi, ⟨u.opNo, (List.getElem?_eq_some_iff.mp h').1, ?_⟩, h⟩
      rw [findInst_id hi]

theorem exEscapeCheck_valid (opts : Options) : (exEnvEscape opts).analyserValid := by
  intro f ai b s u hu
  have hmem : u ∈ f.usesOf (Value.inst ai) := by
    unfold exEnvEscape exEscapeCheck at hu
    simp only at hu
    split at hu
    · exact hu
    · exact (List.mem_filter.mp hu).1
  rw [mem_usesOf.mp hmem]
  rfl

theorem needSet_allOrNone {env : Env} {BA : StackBoundsAnalysis} {f : Function} {ai : Nat}
    (h : env.opts.BoundsSettingMode = StackBoundsMethod.ForAllUsesIfOneNeedsBounds) :
    needSet env BA f ai =
      if analysedSet env BA f ai = [] then []
      else env.findUsesThatNeedBounds f ai true (decide (BA = StackBoundsAnalysis.Simple)) := by
  unfold needSet analysedSet analyse
  simp only [h]
  cases hl : env.findUsesThatNeedBounds f ai (decide (BA = StackBoundsAnalysis.None))
      (decide (BA = StackBoundsAnalysis.Simple)) with
  | nil => simp
  | cons a l => simp

/-- C15: under `all-or-none`, when the analyser called with `BoundAllUses`
returns exactly the uses of the alloca, the need-set of an allocation is
empty if the first analysis finds no use and is the set of all uses of the
alloca otherwise; in the first case no bounds call is inserted and no
operand changes, in the second every use of the alloca is redirected to a
bounded value. -/
theorem C15_all_or_none_bounds_no_use_or_every_use (env : Env) (T : PassTypes)
    (TLI : TargetLowering) (IsOptNone : Bool) (BA : StackBoundsAnalysis) (st : PassState)
    (ai : Nat) (p : Prologue)
    (hwf : st.fn.wellFormed = true)
    (hp : prologue env.DL TLI T st.fn ai = some p)
    (hmode : env.opts.BoundsSettingMode = StackBoundsMethod.ForAllUsesIfOneNeedsBounds)
    (hall : ∀ s u, u ∈ env.findUsesThatNeedBounds p.fn ai true s ↔
      p.fn.getOperand u = some (Value.inst ai)) :
    ∃ st', processAlloca env T TLI IsOptNone BA st ai = some st' ∧
      (∀ u, u ∈ needSet env BA p.fn ai ↔
        (analysedSet env BA p.fn ai ≠ [] ∧ p.fn.getOperand u = some (Value.inst ai))) ∧
      (analysedSet env BA p.fn ai = [] →
        insertedBoundsCalls st.fn st'.fn = [] ∧
        ∀ u v, st.fn.getOperand u = some v → st'.fn.getOperand u = some v) ∧
      (analysedSet env BA p.fn ai ≠ [] →
        ∃ r, padded env.DL TLI T p = some r ∧
          ∀ u, p.fn.getOperand u = some (Value.inst ai) →
            ∃ v c, st'.fn.getOperand u = some v ∧
              IsBoundedVia st'.fn st.fn.ids T (SetBoundsIntrin T (p.fn.isStaticAlloca p.AI))
                p.AI.ty ai r.2 v c) := by
  have hset : ∀ u, u ∈ needSet env BA p.fn ai ↔
      (analysedSet env BA p.fn ai ≠ [] ∧ p.fn.getOperand u = some (Value.inst ai)) := by
    intro u
    rw [needSet_allOrNone hmode]
    by_cases he : analysedSet env BA p.fn ai = []
    · simp [he]
    · simp only [he, if_false, ne_eq, not_false_eq_true, true_and]
      exact hall _ u
  have hvalid : ∀ u ∈ needSet env BA p.fn ai, (p.fn.getOperand u).isSome := by
    intro u hu
    rw [((hset u).mp hu).2]
    rfl
  by_cases he : analysedSet env BA p.fn ai = []
  · obtain ⟨st', hst', hfn, -, -⟩ :=
      processAlloca_exempt IsOptNone hp (needBounds_of_analysedSet_nil he)
    obtain ⟨_, _, _, _, _, _, _, e1, _⟩ := prologue_spec (wellFormed_nodup hwf) hp
    refine ⟨st', hst', hset, fun _ => ⟨?_, ?_⟩, fun hne => absurd he hne⟩
    · apply List.eq_nil_of_length_eq_zero
      rw [hfn, e1.2.2.1 st.fn, length_insertedBoundsCalls_self]
    · intro u v huv
      rw [hfn]
      exact e1.2.1.getOperand huv
  · have hneed : needBounds env BA p.fn ai = true := by
      unfold analysedSet at he
      unfold needBounds analyse
      simp only [hmode]
      cases hl : env.findUsesThatNeedBounds p.fn ai (decide (BA = StackBoundsAnalysis.None))
          (decide (BA = StackBoundsAnalysis.Simple)) with
      | nil => exact absurd hl he
      | cons a l => simp
    obtain ⟨st', r, hst', hpad, -, hb, -⟩ := processAlloca_bounded env T TLI IsOptNone BA st ai p
      hwf hp hvalid hneed
    exact ⟨st', hst', hset, fun h => absurd h he,
      fun _ => ⟨r, hpad, fun u hu => hb u ((hset u).mpr ⟨he, hu⟩)⟩⟩

/-- C15 at example A under `all-or-none` with the analyser of the examples:
the call argument triggers bounds, so the store is bounded too. -/
theorem C15_all_or_none_bounds_no_use_or_every_use_witness :
    (exSt exFnA).fn.wellFormed = true ∧
    prologue exEnvAllOrNone.DL exTLI exT (exSt exFnA).fn 1 = some (exPA 1) ∧
    exEnvAllOrNone.opts.BoundsSettingMode = StackBoundsMethod.ForAllUsesIfOneNeedsBounds ∧
    (∀ s u, u ∈ exEnvAllOrNone.findUsesThatNeedBounds (exPA 1).fn 1 true s ↔
      (exPA 1).fn.getOperand u = some (Value.inst 1)) ∧
    ∃ st', processAlloca exEnvAllOrNone exT exTLI false StackBoundsAnalysis.Full
        (exSt exFnA) 1 = some st' ∧
      (∀ u, u ∈ needSet exEnvAllOrNone StackBoundsAnalysis.Full (exPA 1).fn 1 ↔
        (analysedSet exEnvAllOrNone StackBoundsAnalysis.Full (exPA 1).fn 1 ≠ [] ∧
          (exPA 1).fn.getOperand u = some (Value.inst 1))) ∧
      (analysedSet exEnvAllOrNone StackBoundsAnalysis.Full (exPA 1).fn 1 = [] →
        insertedBoundsCalls (exSt exFnA).fn st'.fn = [] ∧
        ∀ u v, (exSt exFnA).fn.getOperand u = some v → st'.fn.getOperand u = some v) ∧
      (analysedSet exEnvAllOrNone StackBoundsAnalysis.Full (exPA 1).fn 1 ≠ [] →
        ∃ r, padded exEnvAllOrNone.DL exTLI exT (exPA 1) = some r ∧
          ∀ u, (exPA 1).fn.getOperand u = some (Value.inst 1) →
            ∃ v c, st'.fn.getOperand u = some v ∧
              IsBoundedVia st'.fn (exSt exFnA).fn.ids exT
                (SetBoundsIntrin exT ((exPA 1).fn.isStaticAlloca (exPA 1).AI))
                (exPA 1).AI.ty 1 r.2 v c) :=
  ⟨by decide, by rfl, by rfl, fun _ _ => mem_usesOf,
    C15_all_or_none_bounds_no_use_or_every_use exEnvAllOrNone exT exTLI false
      StackBoundsAnalysis.Full (exSt exFnA) 1 (exPA 1) (by decide) (by rfl) (by rfl)
      (fun _ _ => mem_usesOf)⟩

end CheriBoundAllocas

namespace CheriBoundAllocas

/-! ## C16: the analysis mode and the flags of the analyser calls -/

/-- C16 as stated fails under `all-or-none` with the analysis `full` at
example A (function not optnone): the resolved mode is `full`, and the
analyser is called twice for the alloca, the second time with
`BoundAllUses = true`. -/
theorem C16_counterexample :
    exEnvAllOrNone.opts.BoundsSettingMode = StackBoundsMethod.ForAllUsesIfOneNeedsBounds ∧
    resolveBoundsAnalysis exEnvAllOrNone.opts.BoundsSettingAnalysis exFnA.optNone =
      StackBoundsAnalysis.Full ∧
    prologue exEnvAllOrNone.DL exTLI exT exFnA 1 = some (exPA 1) ∧
    analyserCalls exEnvAllOrNone.opts exEnvAllOrNone.findUsesThatNeedBounds
      StackBoundsAnalysis.Full (exPA 1).fn 1 = [(false, false), (true, false)] ∧
    ¬ (∀ c ∈ analyserCalls exEnvAllOrNone.opts exEnvAllOrNone.findUsesThatNeedBounds
        StackBoundsAnalysis.Full (exPA 1).fn 1,
      (c.1 = true ↔
        resolveBoundsAnalysis exEnvAllOrNone.opts.BoundsSettingAnalysis exFnA.optNone =
          StackBoundsAnalysis.None)) := by
  refine ⟨by rfl, by rfl, by rfl, by rfl, ?_⟩
  intro h
  have hcalls : analyserCalls exEnvAllOrNone.opts exEnvAllOrNone.findUsesThatNeedBounds
      StackBoundsAnalysis.Full (exPA 1).fn 1 = [(false, false), (true, false)] := by rfl
  rw [hcalls] at h
  have h2 := (h (true, false) (by simp)).mp rfl
  have h3 : resolveBoundsAnalysis exEnvAllOrNone.opts.BoundsSettingAnalysis exFnA.optNone =
      StackBoundsAnalysis.Full := by rfl
  rw [h3] at h2
  cases h2

/-- C16 (amended): `default` resolves to `simple` for an optnone function and
to `full` otherwise, and an explicit `none`, `simple` or `full` is kept
whatever the optnone flag.  Under the strategy `never` the analyser is not
called.  Otherwise it is first called with `BoundAllUses = true` exactly
when the resolved mode is `none`; every call has `Simple = true` exactly
when the resolved mode is `simple`; and there is a second call only under
`all-or-none` when the first call returned a use, and that call has
`BoundAllUses = true` whatever the mode. -/
theorem C16_analysis_mode_and_analyser_flags (opts : Options) (check : BoundsChecker)
    (IsOptNone : Bool) (f : Function) (ai : Nat) :
    (opts.BoundsSettingAnalysis = StackBoundsAnalysis.Default →
      resolveBoundsAnalysis opts.BoundsSettingAnalysis IsOptNone =
        (if IsOptNone then StackBoundsAnalysis.Simple else StackBoundsAnalysis.Full)) ∧
    (opts.BoundsSettingAnalysis ≠ StackBoundsAnalysis.Default →
      resolveBoundsAnalysis opts.BoundsSettingAnalysis IsOptNone =
        opts.BoundsSettingAnalysis) ∧
    resolveBoundsAnalysis opts.BoundsSettingAnalysis IsOptNone ≠ StackBoundsAnalysis.Default ∧
    (opts.BoundsSettingMode = StackBoundsMethod.Never →
      analyserCalls opts check (resolveBoundsAnalysis opts.BoundsSettingAnalysis IsOptNone)
        f ai = []) ∧
    (opts.BoundsSettingMode ≠ StackBoundsMethod.Never →
      ∃ rest, analyserCalls opts check
          (resolveBoundsAnalysis opts.BoundsSettingAnalysis IsOptNone) f ai =
        (decide (resolveBoundsAnalysis opts.BoundsSettingAnalysis IsOptNone =
            StackBoundsAnalysis.None),
          decide (resolveBoundsAnalysis opts.BoundsSettingAnalysis IsOptNone =
            StackBoundsAnalysis.Simple)) :: rest ∧
        (rest = [] ∨
          (rest = [(true, decide (resolveBoundsAnalysis opts.BoundsSettingAnalysis IsOptNone =
              StackBoundsAnalysis.Simple))] ∧
            opts.BoundsSettingMode = StackBoundsMethod.ForAllUsesIfOneNeedsBounds ∧
            check f ai
              (decide (resolveBoundsAnalysis opts.BoundsSettingAnalysis IsOptNone =
                StackBoundsAnalysis.None))
              (decide (resolveBoundsAnalysis opts.BoundsSettingAnalysis IsOptNone =
                StackBoundsAnalysis.Simple)) ≠ [])) ∧
        (opts.BoundsSettingMode = StackBoundsMethod.ForAllUsesIfOneNeedsBounds →
          check f ai
            (decide (resolveBoundsAnalysis opts.BoundsSettingAnalysis IsOptNone =
              StackBoundsAnalysis.None))
            (decide (resolveBoundsAnalysis opts.BoundsSettingAnalysis IsOptNone =
              StackBoundsAnalysis.Simple)) ≠ [] → rest ≠ [])) ∧
    (∀ c ∈ analyserCalls opts check
        (resolveBoundsAnalysis opts.BoundsSettingAnalysis IsOptNone) f ai,
      (c.2 = true ↔ resolveBoundsAnalysis opts.BoundsSettingAnalysis IsOptNone =
        StackBoundsAnalysis.Simple)) ∧
    (∀ check', (∀ c ∈ analyserCalls opts check
        (resolveBoundsAnalysis opts.BoundsSettingAnalysis IsOptNone) f ai,
        check' f ai c.1 c.2 = check f ai c.1 c.2) →
      analyse opts check' (resolveBoundsAnalysis opts.BoundsSettingAnalysis IsOptNone) f ai =
        analyse opts check (resolveBoundsAnalysis opts.BoundsSettingAnalysis IsOptNone) f ai) := by
  generalize hBA : resolveBoundsAnalysis opts.BoundsSettingAnalysis IsOptNone = BA
  have hcalls : opts.BoundsSettingMode ≠ StackBoundsMethod.Never →
      ∃ rest, analyserCalls opts check BA f ai =
        (decide (BA = StackBoundsAnalysis.None), decide (BA = StackBoundsAnalysis.Simple)) ::
          rest ∧
        (rest = [] ∨
          (rest = [(true, decide (BA = StackBoundsAnalysis.Simple))] ∧
            opts.BoundsSettingMode = StackBoundsMethod.ForAllUsesIfOneNeedsBounds ∧
            check f ai (decide (BA = StackBoundsAnalysis.None))
              (decide (BA = StackBoundsAnalysis.Simple)) ≠ [])) ∧
        (opts.BoundsSettingMode = StackBoundsMethod.ForAllUsesIfOneNeedsBounds →
          check f ai (decide (BA = StackBoundsAnalysis.None))
            (decide (BA = StackBoundsAnalysis.Simple)) ≠ [] → rest ≠ []) := by
    intro hmode
    unfold analyserCalls
    rw [if_neg hmode]
    simp only
    split
    · rename_i hcond
      simp only [Bool.and_eq_true, Bool.not_eq_true', decide_eq_true_eq,
        List.isEmpty_eq_false] at hcond
      exact ⟨_, rfl, Or.inr ⟨rfl, hcond.2, hcond.1⟩, fun _ _ => by simp⟩
    · rename_i hcond
      simp only [Bool.and_eq_true, Bool.not_eq_true', decide_eq_true_eq,
        List.isEmpty_eq_false, not_and] at hcond
      exact ⟨[], rfl, Or.inl rfl, fun hm hne => absurd hm (hcond hne)⟩
  refine ⟨?_, ?_, ?_, ?_, hcalls, ?_, fun check' h => analyse_congr opts check check' BA f ai h⟩
  · intro hd
    rw [← hBA]
    unfold resolveBoundsAnalysis
    rw [if_pos hd]
  · intro hd
    rw [← hBA]
    unfold resolveBoundsAnalysis
    rw [if_neg hd]
  · rw [← hBA]
    unfold resolveBoundsAnalysis
    split
    · cases IsOptNone <;> simp
    · assumption
  · intro hmode
    unfold analyserCalls
    rw [if_pos hmode]
  · intro c hc
    by_cases hmode : opts.BoundsSettingMode = StackBoundsMethod.Never
    · unfold analyserCalls at hc
      rw [if_pos hmode] at hc
      cases hc
    · obtain ⟨rest, hrest, hr, -⟩ := hcalls hmode
      rw [hrest] at hc
      rcases List.mem_cons.mp hc with hc | hc
      · rw [hc]; simp
      · rcases hr with hr | ⟨hr, -, -⟩
        · rw [hr] at hc; cases hc
        · rw [hr] at hc
          rw [List.mem_singleton.mp hc]; simp

end CheriBoundAllocas

namespace CheriBoundAllocas

/-! ## C17-C20: no-op conditions, the returned flag, and the option pairs -/

/-- C17: when the alloca address space of the data layout is not a
capability address space, `runOnModule` returns `false` and the module and
the statistics it was given: no function is visited and nothing is added or
altered. -/
theorem C17_no_capability_stack_is_a_no_op (env : Env) (M : Module) (stats : Statistics)
    (h : env.DL.isFatPointer env.DL.getAllocaAddrSpace = false) :
    runOnModule env M stats = some (M, stats, false) := by
  unfold runOnModule
  rw [h]
  rfl

/-- C17 on a module holding example A, for a target whose stack pointers are
plain pointers. -/
theorem C17_no_capability_stack_is_a_no_op_witness :
    exEnvNoCap.DL.isFatPointer exEnvNoCap.DL.getAllocaAddrSpace = false ∧
    runOnModule exEnvNoCap { functions := [exFnA], decls := [] } exStats =
      some ({ functions := [exFnA], decls := [] }, exStats, false) :=
  ⟨by rfl, C17_no_capability_stack_is_a_no_op exEnvNoCap { functions := [exFnA], decls := [] }
    exStats (by rfl)⟩

theorem visit_eq_nil_iff (F : Function) :
    visit F = [] ↔ ∀ i ∈ F.insts, i.op ≠ Opcode.alloca := by
  unfold visit
  rw [List.map_eq_nil_iff, List.filter_eq_nil_iff]
  simp

/-- C18: for a function without an alloca, `runOnFunction` returns `false`
together with the function, the declarations and the statistics it was
given: it returns before the declaration of the bounds intrinsic is
requested. -/
theorem C18_function_without_alloca_is_left_alone (env : Env) (T : PassTypes)
    (decls : List Callee) (stats : Statistics) (F : Function)
    (h : ∀ i ∈ F.insts, i.op ≠ Opcode.alloca) :
    runOnFunction env T decls stats F =
      some ({ fn := F, decls := decls, stats := stats }, false) := by
  unfold runOnFunction
  simp only [(visit_eq_nil_iff F).mpr h, List.isEmpty_nil, if_true]

/-- C18 on a function made of a call and a return. -/
theorem C18_function_without_alloca_is_left_alone_witness :
    (∀ i ∈ exFnNoAlloca.insts, i.op ≠ Opcode.alloca) ∧
    runOnFunction exEnvA exT [] exStats exFnNoAlloca =
      some ({ fn := exFnNoAlloca, decls := [], stats := exStats }, false) :=
  ⟨by decide, C18_function_without_alloca_is_left_alone exEnvA exT [] exStats exFnNoAlloca
    (by decide)⟩

theorem hasAlloca_iff (F : Function) :
    F.hasAlloca = true ↔ ∃ i ∈ F.insts, i.op = Opcode.alloca := by
  unfold Function.hasAlloca
  simp

theorem visit_isEmpty (F : Function) : (!(visit F).isEmpty) = F.hasAlloca := by
  by_cases h : F.hasAlloca = true
  · rw [h]
    obtain ⟨i, hi, hop⟩ := (hasAlloca_iff F).mp h
    have : visit F ≠ [] := fun hnil => (visit_eq_nil_iff F).mp hnil i hi hop
    cases hv : visit F with
    | nil => exact absurd hv this
    | cons a l => rfl
  · simp only [Bool.not_eq_true] at h
    rw [h]
    have : visit F = [] := by
      rw [visit_eq_nil_iff]
      intro i hi hop
      have := (hasAlloca_iff F).mpr ⟨i, hi, hop⟩
      rw [h] at this
      cases this
    rw [this]
    rfl

theorem runOnFunctions_total (env : Env) (T : PassTypes) (hA : env.analyserValid) :
    ∀ (Fs done : List Function) (decls : List Callee) (stats : Statistics) (m : Bool),
      (∀ F ∈ Fs, F.wellFormed = true) →
      ∃ done' decls' stats', runOnFunctions env T Fs (done, decls, stats, m) =
        some (done', decls', stats', m || Fs.any (fun F => F.hasAlloca)) := by
  intro Fs
  induction Fs with
  | nil => intro done decls stats m _; exact ⟨done, decls, stats, by simp [runOnFunctions]⟩
  | cons F rest ih =>
    intro done decls stats m hwf
    obtain ⟨st, hst, -⟩ := runOnFunction_total env T decls stats F
      (hwf F (List.mem_cons_self _ _)) hA
    obtain ⟨done', decls', stats', h'⟩ := ih (st.fn :: done) st.decls st.stats
      (m || !(visit F).isEmpty) (fun G hG => hwf G (List.mem_cons_of_mem _ hG))
    refine ⟨done', decls', stats', ?_⟩
    rw [visit_isEmpty] at hst h'
    simp only [runOnFunctions, hst, h', List.any_cons, Bool.or_assoc]

/-- C19 as stated fails at example A when the analyser finds no use needing
bounds (default options, a target with precise bounds, the declaration of
the intrinsic already in the module): the function, the declarations and
the counters of inserted bounds are as before, and the flag returned is
`true`. -/
theorem C19_counterexample :
    needSet exEnvNone (resolveBoundsAnalysis exEnvNone.opts.BoundsSettingAnalysis exFnA.optNone)
      exFnA 1 = [] ∧
    (runOnFunction exEnvNone exT (exSt exFnA).decls exStats exFnA).map
      (fun r => (r.1.fn, r.1.decls, insertedBoundsCalls exFnA r.1.fn, r.2)) =
      some (exFnA, (exSt exFnA).decls, [], true) := by
  refine ⟨by rfl, by rfl⟩

/-- C19 (amended): on a well-formed function, with an analyser that answers
with operand slots of the function, `runOnFunction` returns `true` exactly
when the function has an alloca; so it returns `true` whenever the body
changed, and when it returns `false` the function, the declarations and the
statistics are the ones it was given.  `runOnModule` returns `true` exactly
when the stack uses capabilities and some function has an alloca. -/
theorem C19_flag_reports_an_alloca (env : Env) (T : PassTypes) (decls : List Callee)
    (stats : Statistics) (F : Function)
    (hwf : F.wellFormed = true) (hA : env.analyserValid) :
    (∃ st b, runOnFunction env T decls stats F = some (st, b) ∧
      (b = true ↔ ∃ i ∈ F.insts, i.op = Opcode.alloca) ∧
      (st.fn ≠ F → b = true) ∧
      (b = false → st = { fn := F, decls := decls, stats := stats })) ∧
    (∀ M : Module, (∀ G ∈ M.functions, G.wellFormed = true) →
      ∃ M' stats' b, runOnModule env M stats = some (M', stats', b) ∧
        (b = true ↔ env.DL.isFatPointer env.DL.getAllocaAddrSpace = true ∧
          ∃ G ∈ M.functions, ∃ i ∈ G.insts, i.op = Opcode.alloca)) := by
  constructor
  · obtain ⟨st, hst, -⟩ := runOnFunction_total env T decls stats F hwf hA
    have hflag : (!(visit F).isEmpty) = true ↔ ∃ i ∈ F.insts, i.op = Opcode.alloca := by
      rw [visit_isEmpty]; exact hasAlloca_iff F
    have hfalse : (!(visit F).isEmpty) = false →
        st = { fn := F, decls := decls, stats := stats } := by
      intro hb
      have hno : ∀ i ∈ F.insts, i.op ≠ Opcode.alloca := by
        intro i hi hop
        have := hflag.mpr ⟨i, hi, hop⟩
        rw [hb] at this
        cases this
      have h18 : runOnFunction env T decls stats F =
          some ({ fn := F, decls := decls, stats := stats }, false) := by
        unfold runOnFunction
        simp only [(visit_eq_nil_iff F).mpr hno, List.isEmpty_nil, if_true]
      rw [h18] at hst
      have := Option.some.inj hst
      exact (congrArg Prod.fst this).symm
    refine ⟨st, _, hst, hflag, ?_, hfalse⟩
    intro hne
    cases hb : (!(visit F).isEmpty) with
    | true => rfl
    | false =>
      exfalso
      apply hne
      rw [hfalse hb]
  · intro M hM
    unfold runOnModule
    cases hfat : env.DL.isFatPointer env.DL.getAllocaAddrSpace with
    | false =>
      refine ⟨M, stats, false, by simp, ?_⟩
      simp
    | true =>
      obtain ⟨done', decls', stats', h'⟩ := runOnFunctions_total env (passTypes env) hA
        M.functions [] M.decls stats false hM
      simp only [Bool.not_true, Bool.false_eq_true, if_false, h', Bool.false_or]
      refine ⟨_, _, _, rfl, ?_⟩
      simp only [List.any_eq_true, hasAlloca_iff, true_and]

/-- C19 (amended) at example A under `all-or-none`. -/
theorem C19_flag_reports_an_alloca_witness :
    exFnA.wellFormed = true ∧ exEnvAllOrNone.analyserValid ∧
    (∃ st b, runOnFunction exEnvAllOrNone exT [] exStats exFnA = some (st, b) ∧
      (b = true ↔ ∃ i ∈ exFnA.insts, i.op = Opcode.alloca) ∧
      (st.fn ≠ exFnA → b = true) ∧
      (b = false → st = { fn := exFnA, decls := [], stats := exStats })) ∧
    (∀ M : Module, (∀ G ∈ M.functions, G.wellFormed = true) →
      ∃ M' stats' b, runOnModule exEnvAllOrNone M exStats = some (M', stats', b) ∧
        (b = true ↔
          exEnvAllOrNone.DL.isFatPointer exEnvAllOrNone.DL.getAllocaAddrSpace = true ∧
          ∃ G ∈ M.functions, ∃ i ∈ G.insts, i.op = Opcode.alloca)) :=
  ⟨by decide, exEscapeCheck_valid _,
    C19_flag_reports_an_alloca exEnvAllOrNone exT [] exStats exFnA (by decide)
      (exEscapeCheck_valid _)⟩

/-- C20 as stated fails: at example A, a function with one alloca, the pass
returns for each of the twelve pairs of strategy and analysis. -/
theorem C20_counterexample :
    exFnA.hasAlloca = true ∧
    ∀ m a, (runOnFunction (exEnvEscape (exOpts m a)) exT [] exStats exFnA).isSome = true := by
  refine ⟨by rfl, ?_⟩
  intro m a
  cases m <;> cases a <;> rfl

/-- C20 (amended): no pair of strategy and analysis is rejected.  For every
pair, on every well-formed function, with an analyser that answers with
operand slots of the function, `runOnFunction` returns a result, and the
body it returns is well-formed. -/
theorem C20_every_strategy_analysis_pair_runs (env : Env) (T : PassTypes)
    (decls : List Callee) (stats : Statistics) (F : Function) (m : StackBoundsMethod)
    (a : StackBoundsAnalysis)
    (hwf : F.wellFormed = true) (hA : env.analyserValid) :
    ∃ st, runOnFunction (env.withStrategy m a) T decls stats F = some (st, F.hasAlloca) ∧
      st.fn.wellFormed = true := by
  have hA' : (env.withStrategy m a).analyserValid := hA
  obtain ⟨st, hst, hG⟩ := runOnFunction_total (env.withStrategy m a) T decls stats F hwf hA'
  rw [visit_isEmpty] at hst
  exact ⟨st, hst, hG.1 hwf⟩

/-- C20 (amended) at example A for the pair `never`, `none`. -/
theorem C20_every_strategy_analysis_pair_runs_witness :
    exFnA.wellFormed = true ∧ exEnvAllOrNone.analyserValid ∧
    ∃ st, runOnFunction
        (exEnvAllOrNone.withStrategy StackBoundsMethod.Never StackBoundsAnalysis.None)
        exT [] exStats exFnA = some (st, exFnA.hasAlloca) ∧
      st.fn.wellFormed = true :=
  ⟨by decide, exEscapeCheck_valid _,
    C20_every_strategy_analysis_pair_runs exEnvAllOrNone exT [] exStats exFnA
      StackBoundsMethod.Never StackBoundsAnalysis.None (by decide) (exEscapeCheck_valid _)⟩

end CheriBoundAllocas

namespace CheriBoundAllocas

/-! ## C21: the threshold of the single-intrinsic branch -/

/-- C21 (code at the failing input): at example T, a static alloca in a
function that is not optnone, with exactly five uses needing bounds and the
threshold `N = 5`, the number of uses is not more than `N`, yet the
single-intrinsic branch is taken: `ReuseSingleIntrinsicCall` is true, the
counter `NumSingleIntrin` goes from 0 to 1, and one bounds call (`5`, right
after the alloca) serves all five uses. -/
theorem C21_threshold_is_reached_at_exactly_N_uses :
    exFnT.wellFormed = true ∧ exFnT.optNone = false ∧
    prologue exEnvT.DL exTLI exT exFnT 1 = some exPT ∧
    exPT.fn.isStaticAlloca exPT.AI = true ∧
    exEnvT.opts.SingleIntrinsicThreshold = 5 ∧
    (needSet exEnvT StackBoundsAnalysis.Full exPT.fn 1).length = 5 ∧
    ¬ (exEnvT.opts.SingleIntrinsicThreshold <
      (needSet exEnvT StackBoundsAnalysis.Full exPT.fn 1).length) ∧
    reuseSingle exEnvT false StackBoundsAnalysis.Full exPT 1 = true ∧
    (processAlloca exEnvT exT exTLI false StackBoundsAnalysis.Full (exSt exFnT) 1).map
      (fun s => (s.stats.NumSingleIntrin,
        (insertedBoundsCalls exFnT s.fn).map (fun i => i.id),
        s.fn.blocks.map (fun b => b.ids),
        exUsesT.map (fun u => s.fn.getOperand u))) =
      some (1, [5], [[1, 4, 5, 6, 2, 3]],
        [some (Value.inst 6), some (Value.inst 6), some (Value.inst 6), some (Value.inst 6),
         some (Value.inst 6)]) := by
  refine ⟨by decide, by rfl, by rfl, by rfl, by rfl, by rfl, by decide, by rfl, by rfl⟩

end CheriBoundAllocas

namespace CheriBoundAllocas

/-! ## What each step does to an instruction of the function -/

theorem insert_keeps (B : IRBuilder) (f : Function) (op : Opcode) (ty : Ty)
    (ops : List Value) {j : Nat} {i : Inst} (hi : f.findInst j = some i) :
    (B.insert f op ty ops).1.findInst j = some i := by
  show (f.insertBefore _ _).findInst j = some i
  have hne : (B.mkInst f.freshId op ty ops).id ≠ j := by
    intro h
    have hj := mem_ids_of_findInst hi
    rw [← h] at hj
    exact freshId_not_mem f hj
  rw [findInst_insertBefore_ne f hne]
  exact hi

theorem createZExtOrTrunc_keeps (B : IRBuilder) (f : Function) (v : Value) (destTy : Ty)
    {j : Nat} {i : Inst} (hi : f.findInst j = some i) :
    (B.CreateZExtOrTrunc f v destTy).1.findInst j = some i := by
  unfold IRBuilder.CreateZExtOrTrunc
  simp only
  split
  · split
    · exact hi
    · exact insert_keeps B f _ _ _ hi
  · split
    · split
      · exact hi
      · exact insert_keeps B f _ _ _ hi
    · exact hi

theorem createMul_keeps (B : IRBuilder) (f : Function) (lhs rhs : Value)
    {j : Nat} {i : Inst} (hi : f.findInst j = some i) :
    (B.CreateMul f lhs rhs).1.findInst j = some i := by
  unfold IRBuilder.CreateMul
  split
  · exact hi
  · exact insert_keeps B f _ _ _ hi

theorem computeSize_keeps (DL : DataLayout) (T : PassTypes) (p : Prologue)
    {j : Nat} {i : Inst} (hi : p.fn.findInst j = some i) :
    (computeSize DL T p).1.findInst j = some i := by
  unfold computeSize
  simp only
  split
  · exact createMul_keeps _ _ _ _ hi
  · exact hi

/-- The array size after line 193, for a constant and for a runtime array-size
operand. -/
theorem createZExtOrTrunc_value (B : IRBuilder) (f : Function) (v : Value) (destTy : Ty) :
    (∀ b N, v = Value.constInt b N →
      ∃ b', (B.CreateZExtOrTrunc f v destTy).2 =
        Value.constInt b' (if destTy.scalarSizeInBits < b then N % 2 ^ destTy.scalarSizeInBits
          else N)) ∧
    ((∀ b N, v ≠ Value.constInt b N) →
      ∀ b N, (B.CreateZExtOrTrunc f v destTy).2 ≠ Value.constInt b N) := by
  refine ⟨?_, ?_⟩
  · intro b N hv
    subst hv
    unfold IRBuilder.CreateZExtOrTrunc
    have hvb : (f.valueTy (Value.constInt b N)).scalarSizeInBits = b := rfl
    simp only [hvb]
    by_cases h1 : b < destTy.scalarSizeInBits
    · rw [if_pos h1]
      exact ⟨_, by rw [if_neg (by omega)]⟩
    · rw [if_neg h1]
      by_cases h2 : b > destTy.scalarSizeInBits
      · rw [if_pos h2]
        exact ⟨_, by rw [if_pos (by omega)]⟩
      · rw [if_neg h2]
        exact ⟨_, by rw [if_neg (by omega)]⟩
  · intro hv b N
    unfold IRBuilder.CreateZExtOrTrunc
    cases v with
    | constInt b' c' => exact absurd rfl (hv b' c')
    | inst id =>
      simp only
      split
      · simp [IRBuilder.insert]
      · split
        · simp [IRBuilder.insert]
        · simp
    | nullPtr ty =>
      simp only
      split
      · simp [IRBuilder.insert]
      · split
        · simp [IRBuilder.insert]
        · simp
    | other tg ty =>
      simp only
      split
      · simp [IRBuilder.insert]
      · split
        · simp [IRBuilder.insert]
        · simp

/-- What lines 180-207 do to the alloca and to the other instructions, and the
forced alignment they compute. -/
theorem prologue_alloca {DL : DataLayout} {TLI : TargetLowering} {T : PassTypes}
    {f : Function} {ai : Nat} {p : Prologue} (hp : prologue DL TLI T f ai = some p) :
    f.findInst ai = some p.AI ∧
    p.fn.findInst ai = some { p.AI with align := max p.AI.align p.ForcedAlignment } ∧
    (∀ j i, j ≠ ai → f.findInst j = some i → p.fn.findInst j = some i) ∧
    p.ForcedAlignment = forcedAlignment DL TLI p.AI.allocatedTy p.ArraySize ∧
    (∀ b N, p.AI.operands.head? = some (Value.constInt b N) →
      ∃ b', p.ArraySize =
        Value.constInt b' (if T.SizeTy.scalarSizeInBits < b then N % 2 ^ T.SizeTy.scalarSizeInBits
          else N)) ∧
    ((∀ b N, p.AI.operands.head? ≠ some (Value.constInt b N)) →
      ∀ b N, p.ArraySize ≠ Value.constInt b N) := by
  unfold prologue at hp
  cases hAI : f.findInst ai with
  | none => simp [hAI] at hp
  | some AI =>
    cases hnext : f.getNextNode ai with
    | none => simp [hAI, hnext] at hp
    | some next =>
      cases hhead : AI.operands.head? with
      | none => simp [hAI, hnext, hhead] at hp
      | some arraySizeOp =>
        simp only [hAI, hnext, hhead, Option.some.injEq] at hp
        subst hp
        simp only
        have hid := findInst_id hAI
        obtain ⟨hc, hr⟩ := createZExtOrTrunc_value
          { insertPt := next.id, debugLoc := AI.debugLoc } f arraySizeOp T.SizeTy
        have hk := createZExtOrTrunc_keeps
          { insertPt := next.id, debugLoc := AI.debugLoc } f arraySizeOp T.SizeTy hAI
        refine ⟨trivial, ?_, ?_, trivial, ?_, ?_⟩
        · generalize forcedAlignment DL TLI AI.allocatedTy _ = F
          split
          · rename_i hgt
            rw [findInst_modifyInst _ ai (fun i => { i with align := F }) (fun _ => rfl), hk]
            simp only [Option.map_some', hid, if_true]
            rw [Nat.max_eq_right (Nat.le_of_lt hgt)]
          · rename_i hgt
            rw [hk, Nat.max_eq_left (Nat.le_of_not_lt hgt)]
        · intro j i hj hi
          have hk' := createZExtOrTrunc_keeps
            { insertPt := next.id, debugLoc := AI.debugLoc } f arraySizeOp T.SizeTy hi
          generalize forcedAlignment DL TLI AI.allocatedTy _ = F
          split
          · rw [findInst_modifyInst_ne _ ai (fun i => { i with align := F }) (fun _ => rfl) hj]
            exact hk'
          · exact hk'
        · intro b N hN
          rw [hhead] at hN
          exact hc b N (Option.some.inj hN)
        · intro hN
          exact hr (fun b N h => hN b N (by rw [hhead, h]))

end CheriBoundAllocas

namespace CheriBoundAllocas

/-! ## Instructions keep all but their types and operands -/

theorem SameButType.type_refl (i : Inst) : SameButType i i :=
  ⟨rfl, rfl, rfl, rfl, rfl, rfl, rfl⟩

theorem SameButType.type_trans {i j k : Inst} (h1 : SameButType i j) (h2 : SameButType j k) :
    SameButType i k :=
  ⟨h2.1.trans h1.1, h2.2.1.trans h1.2.1, h2.2.2.1.trans h1.2.2.1,
    h2.2.2.2.1.trans h1.2.2.2.1, h2.2.2.2.2.1.trans h1.2.2.2.2.1,
    h2.2.2.2.2.2.1.trans h1.2.2.2.2.2.1, h2.2.2.2.2.2.2.trans h1.2.2.2.2.2.2⟩

theorem SameAttrs.attrs_butType {i j : Inst} (h : SameAttrs i j) : SameButType i j :=
  ⟨h.1, h.2.1, h.2.2.2.1, h.2.2.2.2.1, h.2.2.2.2.2.2.1, h.2.2.2.2.2.2.2.1, h.2.2.2.2.2.2.2.2⟩

theorem KeepsButType.but_refl (f : Function) : KeepsButType f f :=
  fun _ i hi => ⟨i, hi, SameButType.type_refl i⟩

theorem KeepsButType.but_trans {f g h : Function} (h1 : KeepsButType f g)
    (h2 : KeepsButType g h) : KeepsButType f h := by
  intro j i hi
  obtain ⟨i1, hi1, e1⟩ := h1 j i hi
  obtain ⟨i2, hi2, e2⟩ := h2 j i1 hi1
  exact ⟨i2, hi2, e1.type_trans e2⟩

theorem KeepsAttrs.keeps_butType {f g : Function} (h : KeepsAttrs f g) : KeepsButType f g := by
  intro j i hi
  obtain ⟨i', hi', e⟩ := h j i hi
  exact ⟨i', hi', e.attrs_butType⟩

theorem KeepsButType_mapInsts (f : Function) (g : Inst → Inst)
    (hg : ∀ i, SameButType i (g i)) : KeepsButType f (f.mapInsts g) := by
  intro j i hi
  refine ⟨g i, ?_, hg i⟩
  rw [findInst_mapInsts f g (fun i => (hg i).1), hi]
  rfl

theorem KeepsButType_modifyInst (f : Function) (id : Nat) (g : Inst → Inst)
    (hg : ∀ i, SameButType i (g i)) : KeepsButType f (f.modifyInst id g) := by
  unfold Function.modifyInst
  apply KeepsButType_mapInsts
  intro i
  split
  · exact hg i
  · exact SameButType.type_refl i

theorem KeepsButType_rauw (f : Function) (old new : Value) :
    KeepsButType f (f.replaceAllUsesWith old new) :=
  KeepsButType_mapInsts f
    (fun i => { i with operands := i.operands.map (fun v => if v = old then new else v) })
    (fun i => ⟨rfl, rfl, rfl, rfl, rfl, rfl, by simp⟩)

theorem KeepsButType_widen (f1 : Function) (t ai : Nat) (ty ty2 : Ty) :
    KeepsButType f1
      ((((f1.insertBefore t (withoutTailPadding f1.freshId ty)).replaceAllUsesWith
          (Value.inst ai) (Value.inst f1.freshId)).modifyInst ai
          (fun i => { i with ty := ty2 })).setOperand
        { user := f1.freshId, opNo := 0 } (Value.inst ai)) :=
  KeepsButType.but_trans
    (KeepsAttrs_insertBefore f1 t
      (show (withoutTailPadding f1.freshId ty).id ∉ f1.ids from freshId_not_mem f1)).keeps_butType
    (KeepsButType.but_trans (KeepsButType_rauw _ _ _)
      (KeepsButType.but_trans
        (KeepsButType_modifyInst _ ai (fun i => { i with ty := ty2 })
          (fun _ => ⟨rfl, rfl, rfl, rfl, rfl, rfl, rfl⟩))
        (KeepsAttrs_setOperand _ _ _).keeps_butType))

theorem applyTailPadding_butType {TLI : TargetLowering} {T : PassTypes} {p : Prologue}
    {g : Function} {Size : Value} {r : Function × Value}
    (h : applyTailPadding TLI T p g Size = some r) : KeepsButType g r.1 := by
  have key : ∀ r', applyTailPadding TLI T p g Size = some r' → KeepsButType g r'.1 := by
    unfold applyTailPadding
    split
    · cases Size with
      | constInt b sz =>
        simp only
        split
        · split
          · split
            · intro r' h'; cases h'
            · rename_i nnd hnnd
              intro r' h'
              simp only [Option.some.injEq] at h'
              subst h'
              simp only
              refine KeepsButType.but_trans ?_ (KeepsButType_widen _ nnd.id p.AI.id p.AI.ty _)
              exact KeepsButType_modifyInst g p.AI.id _ (fun i => ⟨rfl, rfl, rfl, rfl, rfl, rfl, rfl⟩)
          · intro r' h'
            simp only [Option.some.injEq] at h'
            subst h'
            simp only
            exact KeepsButType_modifyInst g p.AI.id _ (fun i => ⟨rfl, rfl, rfl, rfl, rfl, rfl, rfl⟩)
        · intro r' h'
          simp only [Option.some.injEq] at h'
          subst h'
          exact KeepsButType.but_refl g
      | inst _ => intro r' h'; cases h'
      | nullPtr _ => intro r' h'; cases h'
      | other _ _ => intro r' h'; cases h'
    · intro r' h'
      simp only [Option.some.injEq] at h'
      subst h'
      exact KeepsButType.but_refl g
  exact key r h

theorem padded_butType {DL : DataLayout} {TLI : TargetLowering} {T : PassTypes} {p : Prologue}
    {r : Function × Value} (h : padded DL TLI T p = some r) : KeepsButType p.fn r.1 := by
  intro j i hi
  exact applyTailPadding_butType h j i (computeSize_keeps DL T p hi)

/-- When the guards of lines 277 and 283 do not both hold, lines 277-315
leave the function and the size of lines 271-275 as they are. -/
theorem padded_not_applied {DL : DataLayout} {TLI : TargetLowering} {T : PassTypes}
    {p : Prologue} {r : Function × Value} (hpad : padded DL TLI T p = some r)
    (happ : paddingApplied DL TLI T p = false) : r = computeSize DL T p := by
  unfold padded at hpad
  unfold paddingApplied tailPadding allocaSize at happ
  generalize computeSize DL T p = cs at hpad happ ⊢
  obtain ⟨g, Size⟩ := cs
  have key : ∀ r', applyTailPadding TLI T p g Size = some r' → r' = (g, Size) := by
    unfold applyTailPadding
    split
    · rename_i hc
      cases Size with
      | constInt b sz =>
        simp only
        split
        · rename_i ht
          simp only [hc, Bool.true_and, decide_eq_false_iff_not, ne_eq, not_not] at happ
          exact absurd happ ht
        · intro r' h'
          exact (Option.some.inj h').symm
      | inst _ => intro r' h'; cases h'
      | nullPtr _ => intro r' h'; cases h'
      | other _ _ => intro r' h'; cases h'
    · intro r' h'
      exact (Option.some.inj h').symm
  exact key r hpad

theorem computeSize_isStatic {DL : DataLayout} {TLI : TargetLowering} {T : PassTypes}
    {f : Function} {ai : Nat} {p : Prologue} (hp : prologue DL TLI T f ai = some p) :
    (computeSize DL T p).1.isStaticAlloca p.AI = p.fn.isStaticAlloca p.AI := by
  by_cases h : ∃ b N, p.AI.operands.head? = some (Value.constInt b N)
  · obtain ⟨b, N, hbN⟩ := h
    obtain ⟨b', hb'⟩ := (prologue_alloca hp).2.2.2.2.1 b N hbN
    rw [computeSize_fn_of_const DL T p ⟨_, _, hb'⟩]
  · have hall : ∀ g : Function, g.isStaticAlloca p.AI = false := by
      intro g
      unfold Function.isStaticAlloca
      split
      · rename_i b c heq
        exact absurd ⟨b, c, heq⟩ h
      · rfl
    rw [hall, hall]

theorem typeWithPadding_ne (p : Prologue) (P : Nat) :
    TypeWithPadding p P ≠ p.AI.allocatedTy := by
  intro h
  have hs := congrArg sizeOf h
  unfold TypeWithPadding at hs
  split at hs
  · split at hs
    · simp only [Ty.struct2.sizeOf_spec, Ty.array.sizeOf_spec] at hs
      omega
    · simp only [Ty.struct2.sizeOf_spec] at hs
      omega
  · simp only [Ty.struct2.sizeOf_spec] at hs
    omega

/-! ## The forced alignment and the guards of the padding -/

theorem forcedAlignment_of_fit (DL : DataLayout) (TLI : TargetLowering) (ty : Ty) (b N : Nat)
    (himp : TLI.cheriCapabilityTypeHasPreciseBounds = false)
    (hfit : DL.getTypeAllocSize ty * N < 2 ^ 64) :
    forcedAlignment DL TLI ty (Value.constInt b N) =
      TLI.getAlignmentForPreciseBounds (DL.getTypeAllocSize ty * N) := by
  unfold forcedAlignment
  simp only [himp, Bool.not_false, if_true]
  congr 1
  unfold wrap64 getLimitedValue
  rcases Nat.eq_zero_or_pos N with h0 | hpos
  · subst h0
    simp
  · rcases Nat.eq_zero_or_pos (DL.getTypeAllocSize ty) with ha | ha
    · rw [ha]
      simp
    · have hN : N < 2 ^ 64 := lt_of_le_of_lt (Nat.le_mul_of_pos_left N ha) hfit
      have hA : DL.getTypeAllocSize ty < 2 ^ 64 :=
        lt_of_le_of_lt (Nat.le_mul_of_pos_right _ hpos) hfit
      rw [Nat.mod_eq_of_lt hA, Nat.min_eq_left (by omega), Nat.mod_eq_of_lt hfit]

theorem forcedAlignment_one (DL : DataLayout) (TLI : TargetLowering) (ty : Ty) (v : Value)
    (h : TLI.cheriCapabilityTypeHasPreciseBounds = true ∨ ∀ b N, v ≠ Value.constInt b N) :
    forcedAlignment DL TLI ty v = 1 := by
  unfold forcedAlignment
  rcases h with h | h
  · simp [h]
  · split
    · split
      · rename_i b c
        exact absurd rfl (h b c)
      · rfl
    · rfl

theorem forcedAlignment_pos (DL : DataLayout) (TLI : TargetLowering) (ty : Ty) (v : Value)
    (halign : ∀ n, 1 ≤ TLI.getAlignmentForPreciseBounds n) :
    1 ≤ forcedAlignment DL TLI ty v := by
  unfold forcedAlignment
  split
  · split
    · exact halign _
    · exact Nat.le_refl 1
  · exact Nat.le_refl 1

theorem paddingApplied_iff {DL : DataLayout} {TLI : TargetLowering} {T : PassTypes}
    {f : Function} {ai : Nat} {p : Prologue} (hp : prologue DL TLI T f ai = some p) :
    paddingApplied DL TLI T p = true ↔
      (p.fn.isStaticAlloca p.AI = true ∧ p.ForcedAlignment ≠ 1 ∧
        TLI.getTailPaddingForPreciseBounds (allocaSize DL T p) ≠ 0) := by
  unfold paddingApplied tailPadding
  rw [computeSize_isStatic hp]
  simp only [Bool.and_eq_true, decide_eq_true_eq, and_assoc]

end CheriBoundAllocas

namespace CheriBoundAllocas

/-! ## The function an allocation leaves behind -/

/-- The outcome of `processAlloca` in terms of the function of line 207 and of
line 316: an exempt allocation leaves the former, an allocation that gets
bounds leaves the latter up to operands, with the operand slots outside the
need-set as they were. -/
theorem processAlloca_final (env : Env) (T : PassTypes) (TLI : TargetLowering)
    (IsOptNone : Bool) (BA : StackBoundsAnalysis) (st : PassState) (ai : Nat) (p : Prologue)
    (hwf : st.fn.wellFormed = true)
    (hp : prologue env.DL TLI T st.fn ai = some p)
    (hvalid : ∀ u ∈ needSet env BA p.fn ai, (p.fn.getOperand u).isSome) :
    ∃ st', processAlloca env T TLI IsOptNone BA st ai = some st' ∧
      (needBounds env BA p.fn ai = false → st'.fn = p.fn) ∧
      (needBounds env BA p.fn ai = true → ∃ r, padded env.DL TLI T p = some r ∧
        KeepsAttrs r.1 st'.fn ∧
        (∀ x ∈ insertedBoundsCalls st.fn st'.fn, x.operands[1]? = some r.2) ∧
        (∀ u, u ∉ needSet env BA p.fn ai → u.user ∈ r.1.ids →
          st'.fn.getOperand u = r.1.getOperand u)) := by
  cases hneed : needBounds env BA p.fn ai with
  | false =>
    obtain ⟨st', hst', hfn, -, -⟩ := processAlloca_exempt IsOptNone hp hneed
    exact ⟨st', hst', fun _ => hfn, fun h => by cases h⟩
  | true =>
    obtain ⟨st', r, hst', hpad, hinj, -, hsz⟩ :=
      processAlloca_bounded env T TLI IsOptNone BA st ai p hwf hp hvalid hneed
    refine ⟨st', hst', (fun h => by cases h), fun _ => ⟨r, hpad, hinj.2.1, hsz, ?_⟩⟩
    obtain ⟨h, Size, next, blk, hpad', hAI, hid, hnext, hBpt, hnmem, hblk, hseg, F1, K1, F2, C,
      hphi, hpf, hO⟩ := preInject_spec env.DL TLI T st.fn ai p hwf hp
    have hr : r = (h, Size) := by
      have h1 : padded env.DL TLI T p = some (h, Size) := hpad'
      rw [hpad] at h1
      exact Option.some.inj h1
    subst hr
    subst hid
    have hvalid' : ∀ u ∈ needSet env BA p.fn p.AI.id, (h.getOperand u).isSome :=
      fun u hu => valid_after_pre hO (hvalid u hu)
    have hF : Frame st.fn h := F1.frame_trans F2
    have hold : ∀ j ∈ st.fn.ids, j ∈ h.ids := fun j hj => hF.ids_sub hj
    have hai : p.AI.id ∈ h.ids := hold _ (mem_ids_of_findInst hAI)
    obtain ⟨i, hi⟩ := setBoundsIntrin_intrinsic T (p.fn.isStaticAlloca p.AI)
    cases hreuse : reuseSingle env IsOptNone BA p p.AI.id with
    | true =>
      obtain ⟨st2, hst2, hfn, -⟩ := processAlloca_shared hp hneed hpad hreuse
      obtain ⟨-, -, hother, -, -⟩ := injectShared_spec T p i T.SizeTy Size
        (needSet env BA p.fn p.AI.id) h hF.1 (hBpt ▸ hold _ hnmem) hai hvalid'
      rw [← hi] at hother
      rw [← hfn] at hother
      rw [hst'] at hst2
      cases hst2
      exact hother
    | false =>
      obtain ⟨g, m, hinj', -, -, hother, -, -⟩ := injectPerUse_spec T p i T.SizeTy Size h
        (needSet env BA p.fn p.AI.id) hF.1 hphi hai hvalid'
      rw [← hi] at hinj'
      obtain ⟨st2, hst2, hfn, -⟩ := processAlloca_perUse hp hneed hpad hreuse hinj'
      rw [← hfn] at hother
      rw [hst'] at hst2
      cases hst2
      exact hother

/-- What `processAlloca` leaves of the alloca and of the other instructions:
the alloca keeps everything but its operands and types, with the alignment
of line 207; its types are the original ones unless lines 284-313 ran, and
the padded ones when they did. -/
theorem processAlloca_alloca (env : Env) (T : PassTypes) (TLI : TargetLowering)
    (IsOptNone : Bool) (BA : StackBoundsAnalysis) (st : PassState) (ai : Nat) (p : Prologue)
    (hwf : st.fn.wellFormed = true)
    (hp : prologue env.DL TLI T st.fn ai = some p)
    (hvalid : ∀ u ∈ needSet env BA p.fn ai, (p.fn.getOperand u).isSome) :
    ∃ st' AI', processAlloca env T TLI IsOptNone BA st ai = some st' ∧
      st.fn.findInst ai = some p.AI ∧ st'.fn.findInst ai = some AI' ∧
      SameButType { p.AI with align := max p.AI.align p.ForcedAlignment } AI' ∧
      (∀ j i, j ≠ ai → st.fn.findInst j = some i →
        ∃ i', st'.fn.findInst j = some i' ∧ SameButType i i') ∧
      ((needBounds env BA p.fn ai = false ∨ paddingApplied env.DL TLI T p = false) →
        AI'.allocatedTy = p.AI.allocatedTy ∧ AI'.ty = p.AI.ty) ∧
      (needBounds env BA p.fn ai = true → paddingApplied env.DL TLI T p = true →
        AI'.allocatedTy = TypeWithPadding p (tailPadding env.DL TLI T p) ∧
        AI'.ty = (if p.AI.ty.isOpaquePointerTy = true then p.AI.ty
          else Ty.ptr (TypeWithPadding p (tailPadding env.DL TLI T p)) p.AI.ty.addressSpace)) := by
  obtain ⟨hAI, hAIp, hoth, -⟩ := prologue_alloca hp
  obtain ⟨st', hst', hex, hbd⟩ :=
    processAlloca_final env T TLI IsOptNone BA st ai p hwf hp hvalid
  cases hneed : needBounds env BA p.fn ai with
  | false =>
    have hfn := hex hneed
    refine ⟨st', _, hst', hAI, hfn ▸ hAIp, SameButType.type_refl _, ?_, fun _ => ⟨rfl, rfl⟩,
      fun h => by cases h⟩
    intro j i hj hi
    exact ⟨i, hfn ▸ hoth j i hj hi, SameButType.type_refl i⟩
  | true =>
    obtain ⟨r, hpad, hka, -, -⟩ := hbd hneed
    have hbt : KeepsButType p.fn st'.fn := (padded_butType hpad).but_trans hka.keeps_butType
    obtain ⟨AI', hAI', hsame⟩ := hbt _ _ hAIp
    refine ⟨st', AI', hst', hAI, hAI', hsame, ?_, ?_, ?_⟩
    · intro j i hj hi
      exact hbt j i (hoth j i hj hi)
    · intro hor
      rcases hor with hor | hor
      · cases hor
      · have hr := padded_not_applied hpad hor
        subst hr
        obtain ⟨i2, hi2, hs2⟩ := hka _ _ (computeSize_keeps env.DL T p hAIp)
        rw [hAI'] at hi2
        cases hi2
        exact ⟨hs2.2.2.2.2.2.1, hs2.2.2.1⟩
    · intro _ happ
      obtain ⟨h, AIp, hpad2, hAIp2, hty, ⟨AI1, hAI1, -, ha2, ht2⟩, -, -⟩ :=
        padded_widen env.DL TLI T st.fn ai p hwf hp happ
      rw [hpad] at hpad2
      have hr := Option.some.inj hpad2
      subst hr
      obtain ⟨i2, hi2, hs2⟩ := hka _ _ hAI1
      rw [hAI'] at hi2
      cases hi2
      exact ⟨hs2.2.2.2.2.2.1.trans ha2, hs2.2.2.1.trans ht2⟩

end CheriBoundAllocas

namespace CheriBoundAllocas

/-! ## C22: the alignment of an allocation -/

/-- C22: processing an allocation leaves its alignment at the maximum of the
original alignment and the forced alignment of lines 195-205, whatever the
strategy and the need-set (also under `never` and for an exempt
allocation), so it never lowers it, and it leaves the alignment of every
other instruction as it was.  For a constant array length `N` on a target
without precise bounds the forced alignment is `getAlignmentForPreciseBounds`
of the 64-bit product of the element's allocation size and the converted
length, which is `elementAllocSize * N` when `N` fits the index type and the
product fits 64 bits; on a target with precise bounds, or for a runtime
array length, the forced alignment is `Align()` (1) and the alignment (at
least 1) is unchanged. -/
theorem C22_alignment_is_raised_to_the_forced_one (env : Env) (T : PassTypes)
    (TLI : TargetLowering) (IsOptNone : Bool) (BA : StackBoundsAnalysis) (st : PassState)
    (ai : Nat) (p : Prologue)
    (hwf : st.fn.wellFormed = true)
    (hp : prologue env.DL TLI T st.fn ai = some p)
    (hvalid : ∀ u ∈ needSet env BA p.fn ai, (p.fn.getOperand u).isSome) :
    ∃ st' AI', processAlloca env T TLI IsOptNone BA st ai = some st' ∧
      st.fn.findInst ai = some p.AI ∧ st'.fn.findInst ai = some AI' ∧
      AI'.align = max p.AI.align p.ForcedAlignment ∧
      p.AI.align ≤ AI'.align ∧
      (∀ j i, j ≠ ai → st.fn.findInst j = some i →
        ∃ i', st'.fn.findInst j = some i' ∧ i'.align = i.align) ∧
      (TLI.cheriCapabilityTypeHasPreciseBounds = false →
        ∀ b N, p.AI.operands.head? = some (Value.constInt b N) →
          p.ForcedAlignment = TLI.getAlignmentForPreciseBounds
            (wrap64 (wrap64 (env.DL.getTypeAllocSize p.AI.allocatedTy) *
              getLimitedValue (if T.SizeTy.scalarSizeInBits < b
                then N % 2 ^ T.SizeTy.scalarSizeInBits else N))) ∧
          (N < 2 ^ T.SizeTy.scalarSizeInBits →
            env.DL.getTypeAllocSize p.AI.allocatedTy * N < 2 ^ 64 →
            AI'.align = max p.AI.align
              (TLI.getAlignmentForPreciseBounds
                (env.DL.getTypeAllocSize p.AI.allocatedTy * N)))) ∧
      ((TLI.cheriCapabilityTypeHasPreciseBounds = true ∨
          ∀ b N, p.AI.operands.head? ≠ some (Value.constInt b N)) →
        p.ForcedAlignment = 1 ∧ (1 ≤ p.AI.align → AI'.align = p.AI.align)) := by
  obtain ⟨st', AI', hst', hAI, hAI', hsame, hoth, -, -⟩ :=
    processAlloca_alloca env T TLI IsOptNone BA st ai p hwf hp hvalid
  obtain ⟨-, -, -, hF, hconst, hrun⟩ := prologue_alloca hp
  have halign : AI'.align = max p.AI.align p.ForcedAlignment := hsame.2.2.2.2.1
  refine ⟨st', AI', hst', hAI, hAI', halign, ?_, ?_, ?_, ?_⟩
  · rw [halign]
    exact Nat.le_max_left _ _
  · intro j i hj hi
    obtain ⟨i', hi', hs⟩ := hoth j i hj hi
    exact ⟨i', hi', hs.2.2.2.2.1⟩
  · intro himp b N hN
    obtain ⟨b', hb'⟩ := hconst b N hN
    refine ⟨?_, ?_⟩
    · rw [hF, hb']
      unfold forcedAlignment
      simp only [himp, Bool.not_false, if_true]
    · intro hNfit hfit
      have hval : (if T.SizeTy.scalarSizeInBits < b then N % 2 ^ T.SizeTy.scalarSizeInBits
          else N) = N := by
        split
        · exact Nat.mod_eq_of_lt hNfit
        · rfl
      rw [halign, hF, hb', hval, forcedAlignment_of_fit _ _ _ _ _ himp hfit]
  · intro hor
    have h1 : p.ForcedAlignment = 1 := by
      rw [hF]
      apply forcedAlignment_one
      rcases hor with h | h
      · exact Or.inl h
      · exact Or.inr (hrun h)
    refine ⟨h1, fun hle => ?_⟩
    rw [halign, h1]
    exact Nat.max_eq_left hle

/-- C22 at example R (an array of three `i32`, alignment 4) on the target
with imprecise bounds and with the strategy `never`: the alignment is raised
to 16. -/
theorem C22_alignment_is_raised_to_the_forced_one_witness :
    (exSt (exFnR 4)).fn.wellFormed = true ∧
    prologue exEnvRNever.DL exTLIPad exT (exSt (exFnR 4)).fn 1 = some exPR ∧
    (∀ u ∈ needSet exEnvRNever StackBoundsAnalysis.Full exPR.fn 1,
      (exPR.fn.getOperand u).isSome) ∧
    ∃ st' AI', processAlloca exEnvRNever exT exTLIPad false StackBoundsAnalysis.Full
        (exSt (exFnR 4)) 1 = some st' ∧
      (exSt (exFnR 4)).fn.findInst 1 = some exPR.AI ∧ st'.fn.findInst 1 = some AI' ∧
      AI'.align = max exPR.AI.align exPR.ForcedAlignment ∧
      exPR.AI.align ≤ AI'.align ∧
      (∀ j i, j ≠ 1 → (exSt (exFnR 4)).fn.findInst j = some i →
        ∃ i', st'.fn.findInst j = some i' ∧ i'.align = i.align) ∧
      (exTLIPad.cheriCapabilityTypeHasPreciseBounds = false →
        ∀ b N, exPR.AI.operands.head? = some (Value.constInt b N) →
          exPR.ForcedAlignment = exTLIPad.getAlignmentForPreciseBounds
            (wrap64 (wrap64 (exEnvRNever.DL.getTypeAllocSize exPR.AI.allocatedTy) *
              getLimitedValue (if exT.SizeTy.scalarSizeInBits < b
                then N % 2 ^ exT.SizeTy.scalarSizeInBits else N))) ∧
          (N < 2 ^ exT.SizeTy.scalarSizeInBits →
            exEnvRNever.DL.getTypeAllocSize exPR.AI.allocatedTy * N < 2 ^ 64 →
            AI'.align = max exPR.AI.align
              (exTLIPad.getAlignmentForPreciseBounds
                (exEnvRNever.DL.getTypeAllocSize exPR.AI.allocatedTy * N)))) ∧
      ((exTLIPad.cheriCapabilityTypeHasPreciseBounds = true ∨
          ∀ b N, exPR.AI.operands.head? ≠ some (Value.constInt b N)) →
        exPR.ForcedAlignment = 1 ∧ (1 ≤ exPR.AI.align → AI'.align = exPR.AI.align)) :=
  ⟨by decide, by rfl, by decide,
    C22_alignment_is_raised_to_the_forced_one exEnvRNever exT exTLIPad false
      StackBoundsAnalysis.Full (exSt (exFnR 4)) 1 exPR (by decide) (by rfl) (by decide)⟩

end CheriBoundAllocas

namespace CheriBoundAllocas

/-! ## The guards under which the type of an allocation is widened -/

/-- The guards of the code: the allocated type of an allocation changes exactly
when the allocation has a non-empty need-set, is a static alloca, has a forced
alignment greater than 1 and `getTailPaddingForPreciseBounds` of the
`AllocaSize` of line 279 (the size of lines 271-275, whose element size line
272 narrows to 32 bits) is not `None` (0); it then becomes the padded
struct.  A non-empty need-set
excludes the strategy `never`, and a forced alignment greater than 1 excludes
a target with precise bounds.  So an exempt allocation and an allocation that
is not a static alloca keep their allocated type and pointer type, and for a
forced alignment of 1 every bounds call inserted has the size of lines
271-275, whatever the target's tail padding for it.  (Alignments are at
least 1, and the analyser's answer for all uses is not empty when its first
answer is not.) -/
theorem type_widened_iff_code_guards (env : Env) (T : PassTypes)
    (TLI : TargetLowering) (IsOptNone : Bool) (BA : StackBoundsAnalysis) (st : PassState)
    (ai : Nat) (p : Prologue)
    (hwf : st.fn.wellFormed = true)
    (hp : prologue env.DL TLI T st.fn ai = some p)
    (hvalid : ∀ u ∈ needSet env BA p.fn ai, (p.fn.getOperand u).isSome)
    (hmono : needBounds env BA p.fn ai = true → needSet env BA p.fn ai ≠ [])
    (halign : ∀ n, 1 ≤ TLI.getAlignmentForPreciseBounds n) :
    ∃ st' AI', processAlloca env T TLI IsOptNone BA st ai = some st' ∧
      st.fn.findInst ai = some p.AI ∧ st'.fn.findInst ai = some AI' ∧
      (AI'.allocatedTy ≠ p.AI.allocatedTy ↔
        (needSet env BA p.fn ai ≠ [] ∧ p.fn.isStaticAlloca p.AI = true ∧
          1 < p.ForcedAlignment ∧
          TLI.getTailPaddingForPreciseBounds (allocaSize env.DL T p) ≠ 0)) ∧
      (AI'.allocatedTy ≠ p.AI.allocatedTy →
        AI'.allocatedTy = TypeWithPadding p (tailPadding env.DL TLI T p)) ∧
      (needSet env BA p.fn ai ≠ [] → env.opts.BoundsSettingMode ≠ StackBoundsMethod.Never) ∧
      (1 < p.ForcedAlignment → TLI.cheriCapabilityTypeHasPreciseBounds = false) ∧
      (needBounds env BA p.fn ai = false →
        AI'.allocatedTy = p.AI.allocatedTy ∧ AI'.ty = p.AI.ty) ∧
      (p.fn.isStaticAlloca p.AI = false →
        AI'.allocatedTy = p.AI.allocatedTy ∧ AI'.ty = p.AI.ty) ∧
      (p.ForcedAlignment = 1 → needBounds env BA p.fn ai = true →
        AI'.allocatedTy = p.AI.allocatedTy ∧ AI'.ty = p.AI.ty ∧
        padded env.DL TLI T p = some (computeSize env.DL T p) ∧
        ∀ x ∈ insertedBoundsCalls st.fn st'.fn,
          x.operands[1]? = some (computeSize env.DL T p).2) := by
  obtain ⟨st', AI', hst', hAI, hAI', -, -, hnot, happ⟩ :=
    processAlloca_alloca env T TLI IsOptNone BA st ai p hwf hp hvalid
  obtain ⟨st2, hst2, -, hbd⟩ := processAlloca_final env T TLI IsOptNone BA st ai p hwf hp hvalid
  rw [hst'] at hst2
  cases hst2
  obtain ⟨-, -, -, hF, -, -⟩ := prologue_alloca hp
  have hge : 1 ≤ p.ForcedAlignment := hF ▸ forcedAlignment_pos _ _ _ _ halign
  have hpa := paddingApplied_iff hp
  have hnb : needBounds env BA p.fn ai = true ↔ needSet env BA p.fn ai ≠ [] :=
    ⟨hmono, needBounds_of_needSet_ne_nil⟩
  have hoff : paddingApplied env.DL TLI T p = false →
      AI'.allocatedTy = p.AI.allocatedTy ∧ AI'.ty = p.AI.ty := fun h => hnot (Or.inr h)
  refine ⟨st', AI', hst', hAI, hAI', ⟨?_, ?_⟩, ?_, ?_, ?_, fun h => hnot (Or.inl h), ?_, ?_⟩
  · intro hne
    cases hneed : needBounds env BA p.fn ai with
    | false => exact absurd (hnot (Or.inl hneed)).1 hne
    | true =>
      cases hap : paddingApplied env.DL TLI T p with
      | false => exact absurd (hoff hap).1 hne
      | true =>
        obtain ⟨h1, h2, h3⟩ := hpa.mp hap
        exact ⟨hnb.mp hneed, h1, by omega, h3⟩
  · rintro ⟨h0, h1, h2, h3⟩
    have hap : paddingApplied env.DL TLI T p = true := hpa.mpr ⟨h1, by omega, h3⟩
    rw [(happ (hnb.mpr h0) hap).1]
    exact typeWithPadding_ne p _
  · intro hne
    cases hneed : needBounds env BA p.fn ai with
    | false => exact absurd (hnot (Or.inl hneed)).1 hne
    | true =>
      cases hap : paddingApplied env.DL TLI T p with
      | false => exact absurd (hoff hap).1 hne
      | true => exact (happ hneed hap).1
  · intro hne hmode
    have h := analyse_never env.findUsesThatNeedBounds BA p.fn ai hmode
    apply hne
    unfold needSet
    rw [h]
  · intro hlt
    cases hprec : TLI.cheriCapabilityTypeHasPreciseBounds with
    | false => rfl
    | true =>
      have h1 := forcedAlignment_one env.DL TLI p.AI.allocatedTy p.ArraySize (Or.inl hprec)
      rw [← hF] at h1
      omega
  · intro hdyn
    apply hoff
    cases hap : paddingApplied env.DL TLI T p with
    | false => rfl
    | true => exact absurd (hpa.mp hap).1 (by rw [hdyn]; simp)
  · intro h1 hneed
    have hap : paddingApplied env.DL TLI T p = false := by
      cases hap : paddingApplied env.DL TLI T p with
      | false => rfl
      | true => exact absurd h1 (hpa.mp hap).2.1
    obtain ⟨r, hpad, -, hsz, -⟩ := hbd hneed
    have hr := padded_not_applied hpad hap
    subst hr
    exact ⟨(hoff hap).1, (hoff hap).2, hpad, hsz⟩

/-- Example R on the target with imprecise bounds: the need-set is the
call argument, the alloca is static, the forced alignment is 16 and the
extent of 12 bytes gets a tail padding of 4 bytes. -/
theorem type_widened_iff_code_guards_at_example_R :
    (exSt (exFnR 4)).fn.wellFormed = true ∧
    prologue exEnvR.DL exTLIPad exT (exSt (exFnR 4)).fn 1 = some exPR ∧
    (∀ u ∈ needSet exEnvR StackBoundsAnalysis.Full exPR.fn 1, (exPR.fn.getOperand u).isSome) ∧
    (needBounds exEnvR StackBoundsAnalysis.Full exPR.fn 1 = true →
      needSet exEnvR StackBoundsAnalysis.Full exPR.fn 1 ≠ []) ∧
    (∀ n, 1 ≤ exTLIPad.getAlignmentForPreciseBounds n) ∧
    ∃ st' AI', processAlloca exEnvR exT exTLIPad false StackBoundsAnalysis.Full
        (exSt (exFnR 4)) 1 = some st' ∧
      (exSt (exFnR 4)).fn.findInst 1 = some exPR.AI ∧ st'.fn.findInst 1 = some AI' ∧
      (AI'.allocatedTy ≠ exPR.AI.allocatedTy ↔
        (needSet exEnvR StackBoundsAnalysis.Full exPR.fn 1 ≠ [] ∧
          exPR.fn.isStaticAlloca exPR.AI = true ∧ 1 < exPR.ForcedAlignment ∧
          exTLIPad.getTailPaddingForPreciseBounds (allocaSize exEnvR.DL exT exPR) ≠ 0)) ∧
      (AI'.allocatedTy ≠ exPR.AI.allocatedTy →
        AI'.allocatedTy = TypeWithPadding exPR (tailPadding exEnvR.DL exTLIPad exT exPR)) ∧
      (needSet exEnvR StackBoundsAnalysis.Full exPR.fn 1 ≠ [] →
        exEnvR.opts.BoundsSettingMode ≠ StackBoundsMethod.Never) ∧
      (1 < exPR.ForcedAlignment → exTLIPad.cheriCapabilityTypeHasPreciseBounds = false) ∧
      (needBounds exEnvR StackBoundsAnalysis.Full exPR.fn 1 = false →
        AI'.allocatedTy = exPR.AI.allocatedTy ∧ AI'.ty = exPR.AI.ty) ∧
      (exPR.fn.isStaticAlloca exPR.AI = false →
        AI'.allocatedTy = exPR.AI.allocatedTy ∧ AI'.ty = exPR.AI.ty) ∧
      (exPR.ForcedAlignment = 1 → needBounds exEnvR StackBoundsAnalysis.Full exPR.fn 1 = true →
        AI'.allocatedTy = exPR.AI.allocatedTy ∧ AI'.ty = exPR.AI.ty ∧
        padded exEnvR.DL exTLIPad exT exPR = some (computeSize exEnvR.DL exT exPR) ∧
        ∀ x ∈ insertedBoundsCalls (exSt (exFnR 4)).fn st'.fn,
          x.operands[1]? = some (computeSize exEnvR.DL exT exPR).2) :=
  ⟨by decide, by rfl, by decide, by decide, fun _ => (show 1 ≤ 16 by decide),
    type_widened_iff_code_guards exEnvR exT exTLIPad false StackBoundsAnalysis.Full
      (exSt (exFnR 4)) 1 exPR (by decide) (by rfl) (by decide) (by decide)
      (fun _ => (show 1 ≤ 16 by decide))⟩

end CheriBoundAllocas

namespace CheriBoundAllocas

/-! ## Tail padding of an array allocation with elements below 4 GiB -/

theorem isArrayAllocation_of_length {AI : Inst} {b N : Nat}
    (hlen : AI.operands.head? = some (Value.constInt b N)) (hN1 : N ≠ 1) :
    AI.isArrayAllocation = true := by
  unfold Inst.isArrayAllocation
  rw [hlen]
  simpa using hN1

/-- The size of lines 271-275 for an array allocation of constant length:
the folded product of the narrowed element size and the length. -/
theorem computeSize_array (DL : DataLayout) (T : PassTypes) (p : Prologue) (bits b n : Nat)
    (hT : T.SizeTy = Ty.int bits) (harr : p.AI.isArrayAllocation = true)
    (hn : p.ArraySize = Value.constInt b n) :
    computeSize DL T p =
      (p.fn, Value.constInt bits
        ((wrap64 (DL.getTypeAllocSize p.AI.allocatedTy) % 2 ^ 32 % 2 ^ bits * n) % 2 ^ bits)) := by
  unfold computeSize
  simp only [harr, hT, Ty.scalarSizeInBits, hn, IRBuilder.CreateMul, if_true]

/-- Array allocations whose element size fits 32 bits: when tail padding `P` is
applied to a static array allocation of constant length `N ≠ 1` and element
type `T` (the length and the padded extent fit the index type), the alloca
afterwards is the original alloca with the allocated type
`struct{[N x T], [P x i8]}`, still with the array-length operand `N` as its
only operand; beside the allocated type only the pointer type changes, with
typed pointers, to the pointer to that struct, and the alignment is the one
set at line 207.  Every bounds call inserted
has the size `N * sizeof(T) + P`, which is at most `N` times the allocation
size of the padded struct, the bytes the alloca reserves.  (The data layout
gives a struct at least the sizes of its fields, an array the size of its
elements and `i8` one byte; the target asks for no padding of an empty
extent.) -/
theorem padded_array_of_small_elements (env : Env) (T : PassTypes)
    (TLI : TargetLowering) (IsOptNone : Bool) (BA : StackBoundsAnalysis) (st : PassState)
    (ai : Nat) (p : Prologue) (b N bits : Nat)
    (hwf : st.fn.wellFormed = true)
    (hp : prologue env.DL TLI T st.fn ai = some p)
    (huses : ∀ u ∈ needSet env BA p.fn ai, p.fn.getOperand u = some (Value.inst ai))
    (hneed : needBounds env BA p.fn ai = true)
    (happ : paddingApplied env.DL TLI T p = true)
    (hops : p.AI.operands = [Value.constInt b N]) (hN1 : N ≠ 1)
    (hT : T.SizeTy = Ty.int bits) (hbits : bits ≤ 64) (hNfit : N < 2 ^ bits)
    (hsmall : env.DL.getTypeAllocSize p.AI.allocatedTy < 2 ^ 32)
    (hfit : N * env.DL.getTypeAllocSize p.AI.allocatedTy +
      TLI.getTailPaddingForPreciseBounds (N * env.DL.getTypeAllocSize p.AI.allocatedTy) <
        2 ^ bits)
    (hstruct : ∀ a c, env.DL.getTypeAllocSize a + env.DL.getTypeAllocSize c ≤
      env.DL.getTypeAllocSize (Ty.struct2 a c))
    (harray : ∀ a n, env.DL.getTypeAllocSize (Ty.array a n) = n * env.DL.getTypeAllocSize a)
    (hbyte : env.DL.getTypeAllocSize (Ty.int 8) = 1)
    (hzero : TLI.getTailPaddingForPreciseBounds 0 = 0) :
    ∃ st' AI' P E', processAlloca env T TLI IsOptNone BA st ai = some st' ∧
      st.fn.findInst ai = some p.AI ∧ st'.fn.findInst ai = some AI' ∧
      P = TLI.getTailPaddingForPreciseBounds (N * env.DL.getTypeAllocSize p.AI.allocatedTy) ∧
      P ≠ 0 ∧
      AI' = { p.AI with
        allocatedTy := Ty.struct2 (Ty.array p.AI.allocatedTy N) (Ty.array (Ty.int 8) P),
        ty := (if p.AI.ty.isOpaquePointerTy = true then p.AI.ty
          else Ty.ptr (Ty.struct2 (Ty.array p.AI.allocatedTy N) (Ty.array (Ty.int 8) P))
            p.AI.ty.addressSpace),
        align := max p.AI.align p.ForcedAlignment } ∧
      AI'.operands = [Value.constInt b N] ∧
      E' = N * env.DL.getTypeAllocSize p.AI.allocatedTy + P ∧
      (∀ x ∈ insertedBoundsCalls st.fn st'.fn,
        x.operands[1]? = some (Value.constInt bits E')) ∧
      E' ≤ N * env.DL.getTypeAllocSize AI'.allocatedTy := by
  have hlen : p.AI.operands.head? = some (Value.constInt b N) := by rw [hops]; rfl
  have hvalid : ∀ u ∈ needSet env BA p.fn ai, (p.fn.getOperand u).isSome := by
    intro u hu
    rw [huses u hu]
    rfl
  obtain ⟨st', AI', hst', hAI, hAI', hsame, -, -, hyes⟩ :=
    processAlloca_alloca env T TLI IsOptNone BA st ai p hwf hp hvalid
  obtain ⟨hty1, hty2⟩ := hyes hneed happ
  obtain ⟨st2, hst2, -, hbd⟩ := processAlloca_final env T TLI IsOptNone BA st ai p hwf hp hvalid
  rw [hst'] at hst2
  cases hst2
  obtain ⟨r, hpad, -, hsz, hother⟩ := hbd hneed
  obtain ⟨-, hAIp, -, -, hconst, -⟩ := prologue_alloca hp
  have hid : p.AI.id = ai := findInst_id hAI
  have hbitsEq : T.SizeTy.scalarSizeInBits = bits := by rw [hT]; rfl
  -- the converted array length is `N`
  obtain ⟨b', hb'⟩ := hconst b N hlen
  have hval : (if T.SizeTy.scalarSizeInBits < b then N % 2 ^ T.SizeTy.scalarSizeInBits
      else N) = N := by
    split
    · rw [hbitsEq]
      exact Nat.mod_eq_of_lt hNfit
    · rfl
  rw [hval] at hb'
  have harr := isArrayAllocation_of_length hlen hN1
  have hcs := computeSize_array env.DL T p bits b' N hT harr hb'
  have hpow : (2 : Nat) ^ bits ≤ 2 ^ 64 := Nat.pow_le_pow_right (by decide) hbits
  -- the array is not empty
  have hNpos : 0 < N := by
    rcases Nat.eq_zero_or_pos N with h0 | h0
    · exfalso
      subst h0
      have h1 : allocaSize env.DL T p = 0 := by
        unfold allocaSize
        rw [hcs]
        simp [getLimitedValue]
      have h2 := ((paddingApplied_iff hp).mp happ).2.2
      rw [h1] at h2
      exact h2 hzero
    · exact h0
  have ha : env.DL.getTypeAllocSize p.AI.allocatedTy < 2 ^ bits := by
    have h1 : env.DL.getTypeAllocSize p.AI.allocatedTy ≤
        N * env.DL.getTypeAllocSize p.AI.allocatedTy := Nat.le_mul_of_pos_left _ hNpos
    omega
  have helem : wrap64 (env.DL.getTypeAllocSize p.AI.allocatedTy) % 2 ^ 32 % 2 ^ bits =
      env.DL.getTypeAllocSize p.AI.allocatedTy := by
    unfold wrap64
    rw [Nat.mod_eq_of_lt (lt_of_lt_of_le hsmall (by decide)), Nat.mod_eq_of_lt hsmall,
      Nat.mod_eq_of_lt ha]
  have hprod : env.DL.getTypeAllocSize p.AI.allocatedTy * N < 2 ^ bits := by
    rw [Nat.mul_comm]
    omega
  have hsize : allocaSize env.DL T p = N * env.DL.getTypeAllocSize p.AI.allocatedTy := by
    unfold allocaSize
    rw [hcs]
    simp only [helem, Nat.mod_eq_of_lt hprod, getLimitedValue]
    rw [Nat.min_eq_left (by omega), Nat.mul_comm]
  have htp : tailPadding env.DL TLI T p =
      TLI.getTailPaddingForPreciseBounds (N * env.DL.getTypeAllocSize p.AI.allocatedTy) := by
    unfold tailPadding
    rw [hsize]
  have hPne : TLI.getTailPaddingForPreciseBounds
      (N * env.DL.getTypeAllocSize p.AI.allocatedTy) ≠ 0 := by
    have h2 := ((paddingApplied_iff hp).mp happ).2.2
    rw [hsize] at h2
    exact h2
  have hTWP : TypeWithPadding p (tailPadding env.DL TLI T p) =
      Ty.struct2 (Ty.array p.AI.allocatedTy N)
        (Ty.array (Ty.int 8) (TLI.getTailPaddingForPreciseBounds
          (N * env.DL.getTypeAllocSize p.AI.allocatedTy))) := by
    unfold TypeWithPadding
    rw [htp]
    simp only [harr, hb', if_true]
  -- the size passed to the intrinsic
  obtain ⟨h, AIp, hpad2, hAIp2, -, -, hopq, htyped⟩ :=
    padded_widen env.DL TLI T st.fn ai p hwf hp happ
  rw [hpad] at hpad2
  have hr := Option.some.inj hpad2
  subst hr
  have hE : wrap64 (allocaSize env.DL T p + tailPadding env.DL TLI T p) % 2 ^ bits =
      N * env.DL.getTypeAllocSize p.AI.allocatedTy +
        TLI.getTailPaddingForPreciseBounds (N * env.DL.getTypeAllocSize p.AI.allocatedTy) := by
    rw [hsize, htp]
    unfold wrap64
    rw [Nat.mod_eq_of_lt (lt_of_lt_of_le hfit hpow), Nat.mod_eq_of_lt hfit]
  simp only [hbitsEq, hE] at hsz
  -- the array-length operand
  have hop0 : p.fn.getOperand { user := ai, opNo := 0 } = some (Value.constInt b N) := by
    unfold Function.getOperand
    simp only [hAIp]
    rw [← List.head?_eq_getElem?]
    exact hlen
  have hop1 : Function.getOperand h { user := ai, opNo := 0 } = some (Value.constInt b N) := by
    cases hq : p.AI.ty.isOpaquePointerTy with
    | true => exact (hopq hq).1.getOperand hop0
    | false =>
      obtain ⟨c, -, -, -, -, -, -, hc⟩ := htyped hq
      rw [hc _ _ (mem_ids_of_findInst hAIp) hop0]
      simp
  have hnot : ({ user := ai, opNo := 0 } : Use) ∉ needSet env BA p.fn ai := by
    intro hmem
    have := huses _ hmem
    rw [hop0] at this
    cases this
  have haih : ai ∈ h.ids := by
    have : (Function.getOperand h { user := ai, opNo := 0 }).isSome := by rw [hop1]; rfl
    exact mem_ids_of_getOperand_isSome this
  have hop2 := hother _ hnot haih
  rw [hop1] at hop2
  have hhead : AI'.operands.head? = some (Value.constInt b N) := by
    unfold Function.getOperand at hop2
    simp only [hAI'] at hop2
    rw [List.head?_eq_getElem?]
    exact hop2
  rw [hTWP] at hty1
  rw [hTWP] at hty2
  have hopsEq : AI'.operands = [Value.constInt b N] := by
    have hl : AI'.operands.length = 1 := by
      rw [hsame.2.2.2.2.2.2]
      show p.AI.operands.length = 1
      rw [hops]
      rfl
    match hAIops : AI'.operands, hl with
    | [x], _ =>
      rw [hAIops] at hhead
      simp only [List.head?_cons, Option.some.injEq] at hhead
      rw [hhead]
  have hAIeq : AI' = { p.AI with
      allocatedTy := Ty.struct2 (Ty.array p.AI.allocatedTy N)
        (Ty.array (Ty.int 8) (TLI.getTailPaddingForPreciseBounds
          (N * env.DL.getTypeAllocSize p.AI.allocatedTy))),
      ty := (if p.AI.ty.isOpaquePointerTy = true then p.AI.ty
        else Ty.ptr (Ty.struct2 (Ty.array p.AI.allocatedTy N)
          (Ty.array (Ty.int 8) (TLI.getTailPaddingForPreciseBounds
            (N * env.DL.getTypeAllocSize p.AI.allocatedTy)))) p.AI.ty.addressSpace),
      align := max p.AI.align p.ForcedAlignment } := by
    obtain ⟨s1, s2, s3, s4, s5, s6, -⟩ := hsame
    cases AI' with
    | mk id op ty operands incoming debugLoc allocatedTy align usedWithInAlloca =>
      simp only at s1 s2 s3 s4 s5 s6 hty1 hty2 hopsEq
      subst s1 s2 s3 s4 s5 s6 hty1 hty2
      rw [hopsEq, ← hops]
  refine ⟨st', AI', _, _, hst', hAI, hAI', rfl, hPne, hAIeq, hopsEq, rfl, hsz, ?_⟩
  · rw [hty1]
    have h1 := hstruct (Ty.array p.AI.allocatedTy N)
      (Ty.array (Ty.int 8) (TLI.getTailPaddingForPreciseBounds
        (N * env.DL.getTypeAllocSize p.AI.allocatedTy)))
    rw [harray, harray, hbyte, Nat.mul_one] at h1
    calc N * env.DL.getTypeAllocSize p.AI.allocatedTy +
          TLI.getTailPaddingForPreciseBounds (N * env.DL.getTypeAllocSize p.AI.allocatedTy)
        ≤ env.DL.getTypeAllocSize (Ty.struct2 (Ty.array p.AI.allocatedTy N)
          (Ty.array (Ty.int 8) (TLI.getTailPaddingForPreciseBounds
            (N * env.DL.getTypeAllocSize p.AI.allocatedTy)))) := h1
      _ ≤ N * env.DL.getTypeAllocSize (Ty.struct2 (Ty.array p.AI.allocatedTy N)
          (Ty.array (Ty.int 8) (TLI.getTailPaddingForPreciseBounds
            (N * env.DL.getTypeAllocSize p.AI.allocatedTy)))) := Nat.le_mul_of_pos_left _ hNpos

/-- Example R on the target with imprecise bounds: three `i32`
(12 bytes) get 4 bytes of padding; the alloca becomes
`alloca {[3 x i32], [4 x i8]}, i64 3`, the bounds call has the size 16, and
the alloca reserves 48 bytes. -/
theorem padded_array_of_small_elements_at_example_R :
    (exSt (exFnR 4)).fn.wellFormed = true ∧
    prologue exEnvR.DL exTLIPad exT (exSt (exFnR 4)).fn 1 = some exPR ∧
    (∀ u ∈ needSet exEnvR StackBoundsAnalysis.Full exPR.fn 1,
      exPR.fn.getOperand u = some (Value.inst 1)) ∧
    needBounds exEnvR StackBoundsAnalysis.Full exPR.fn 1 = true ∧
    paddingApplied exEnvR.DL exTLIPad exT exPR = true ∧
    exPR.AI.operands = [Value.constInt 64 3] ∧ 3 ≠ 1 ∧
    exT.SizeTy = Ty.int 64 ∧ 64 ≤ 64 ∧ 3 < 2 ^ 64 ∧
    exEnvR.DL.getTypeAllocSize exPR.AI.allocatedTy < 2 ^ 32 ∧
    3 * exEnvR.DL.getTypeAllocSize exPR.AI.allocatedTy +
      exTLIPad.getTailPaddingForPreciseBounds
        (3 * exEnvR.DL.getTypeAllocSize exPR.AI.allocatedTy) < 2 ^ 64 ∧
    (∀ a c, exEnvR.DL.getTypeAllocSize a + exEnvR.DL.getTypeAllocSize c ≤
      exEnvR.DL.getTypeAllocSize (Ty.struct2 a c)) ∧
    (∀ a n, exEnvR.DL.getTypeAllocSize (Ty.array a n) = n * exEnvR.DL.getTypeAllocSize a) ∧
    exEnvR.DL.getTypeAllocSize (Ty.int 8) = 1 ∧
    exTLIPad.getTailPaddingForPreciseBounds 0 = 0 ∧
    ∃ st' AI' P E', processAlloca exEnvR exT exTLIPad false StackBoundsAnalysis.Full
        (exSt (exFnR 4)) 1 = some st' ∧
      (exSt (exFnR 4)).fn.findInst 1 = some exPR.AI ∧ st'.fn.findInst 1 = some AI' ∧
      P = exTLIPad.getTailPaddingForPreciseBounds
        (3 * exEnvR.DL.getTypeAllocSize exPR.AI.allocatedTy) ∧
      P ≠ 0 ∧
      AI' = { exPR.AI with
        allocatedTy := Ty.struct2 (Ty.array exPR.AI.allocatedTy 3) (Ty.array (Ty.int 8) P),
        ty := (if exPR.AI.ty.isOpaquePointerTy = true then exPR.AI.ty
          else Ty.ptr (Ty.struct2 (Ty.array exPR.AI.allocatedTy 3) (Ty.array (Ty.int 8) P))
            exPR.AI.ty.addressSpace),
        align := max exPR.AI.align exPR.ForcedAlignment } ∧
      AI'.operands = [Value.constInt 64 3] ∧
      E' = 3 * exEnvR.DL.getTypeAllocSize exPR.AI.allocatedTy + P ∧
      (∀ x ∈ insertedBoundsCalls (exSt (exFnR 4)).fn st'.fn,
        x.operands[1]? = some (Value.constInt 64 E')) ∧
      E' ≤ 3 * exEnvR.DL.getTypeAllocSize AI'.allocatedTy :=
  ⟨by decide, by rfl, by decide, by rfl, by rfl, by rfl, by decide, by rfl, by decide,
    by decide, by decide, by decide, fun _ _ => Nat.le_refl _, fun _ _ => rfl, by rfl, by rfl,
    padded_array_of_small_elements exEnvR exT exTLIPad false StackBoundsAnalysis.Full
      (exSt (exFnR 4)) 1 exPR 64 3 64 (by decide) (by rfl) (by decide) (by rfl) (by rfl)
      (by rfl) (by decide) (by rfl) (by decide) (by decide) (by decide) (by decide)
      (fun _ _ => Nat.le_refl _) (fun _ _ => rfl) (by rfl) (by rfl)⟩

end CheriBoundAllocas

namespace EntryExitInstrumenter

/-! ## C25: the attributes are consumed -/

theorem lookup_filter_self (k : String) (l : List (String × String)) :
    (l.filter (fun a => a.1 != k)).lookup k = none := by
  induction l with
  | nil => rfl
  | cons a l ih =>
    by_cases h : a.1 = k
    · simp [List.filter, h, ih]
    · have hne : (a.1 != k) = true := by simpa using h
      have hk : (k == a.1) = false := by
        simp only [beq_eq_false_iff_ne, ne_eq]
        exact fun e => h e.symm
      obtain ⟨a1, a2⟩ := a
      simp only [List.filter, hne, List.lookup, hk]
      exact ih

theorem lookup_filter_ne {k k' : String} (hne : k ≠ k') (l : List (String × String)) :
    (l.filter (fun a => a.1 != k')).lookup k = l.lookup k := by
  induction l with
  | nil => rfl
  | cons a l ih =>
    obtain ⟨a1, a2⟩ := a
    by_cases h : a1 = k'
    · subst h
      have hk : (k == a1) = false := by simpa using hne
      simp only [List.filter, bne_self_eq_false, List.lookup, hk]
      exact ih
    · have hf : ((a1, a2).1 != k') = true := by simpa using h
      simp only [List.filter, hf, List.lookup]
      rw [ih]

theorem getFnAttribute_removeFnAttr_self (F : Function) (k : String) :
    (F.removeFnAttr k).getFnAttribute k = "" := by
  unfold Function.getFnAttribute Function.removeFnAttr
  simp only [lookup_filter_self]

theorem getFnAttribute_removeFnAttr_ne (F : Function) {k k' : String} (hne : k ≠ k') :
    (F.removeFnAttr k').getFnAttribute k = F.getFnAttribute k := by
  unfold Function.getFnAttribute Function.removeFnAttr
  simp only [lookup_filter_ne hne]

theorem getFnAttribute_congr {F G : Function} (h : G.attrs = F.attrs) (k : String) :
    G.getFnAttribute k = F.getFnAttribute k := by
  unfold Function.getFnAttribute
  rw [h]

theorem entryAttr_ne_exitAttr (b : Bool) : EntryAttr b ≠ ExitAttr b := by
  cases b <;> decide

theorem insertCall_attrs {M : Module} {F : Function} {Func : String} {pt : Nat}
    {DL : Option DebugLoc} {r : Module × Function}
    (h : insertCall M F Func pt DL = some r) : r.2.attrs = F.attrs := by
  unfold insertCall at h
  split at h
  · cases h
    rfl
  · split at h
    · cases h
      rfl
    · cases h

theorem instrumentEntry_attrs {Q : Queries} {M : Module} {F : Function} {EntryFunc : String}
    {b : Bool} {r : Module × Function}
    (h : instrumentEntry Q M F EntryFunc b = some r) :
    r.2.attrs = (F.removeFnAttr (EntryAttr b)).attrs := by
  unfold instrumentEntry at h
  split at h
  · cases h
  · split at h
    · cases h
    · simp only at h
      split at h
      · cases h
      · rename_i r0 hr0
        cases h
        show (r0.2.attrs.filter _) = (F.attrs.filter _)
        rw [insertCall_attrs hr0]

theorem instrumentExitBlock_attrs {Q : Queries} {ExitFunc : String} {k : Nat}
    {acc r : Module × Function × Bool}
    (h : instrumentExitBlock Q ExitFunc k acc = some r) : r.2.1.attrs = acc.2.1.attrs := by
  unfold instrumentExitBlock at h
  split at h
  · cases h
  · split at h
    · cases h
    · split at h
      · cases h
        rfl
      · simp only at h
        split at h
        · cases h
        · rename_i r0 hr0
          cases h
          exact insertCall_attrs hr0

theorem instrumentExits_attrs {Q : Queries} {ExitFunc : String} (ks : List Nat)
    {acc r : Module × Function × Bool}
    (h : instrumentExits Q ExitFunc ks acc = some r) : r.2.1.attrs = acc.2.1.attrs := by
  induction ks generalizing acc with
  | nil =>
    unfold instrumentExits at h
    cases h
    rfl
  | cons k rest ih =>
    unfold instrumentExits at h
    split at h
    · cases h
    · rename_i acc2 hacc2
      rw [ih h, instrumentExitBlock_attrs hacc2]

/-- After a run that completes, both attributes read empty. -/
theorem runOnFunction_consumes {Q : Queries} {M : Module} {F : Function} {b : Bool}
    {r : Module × Function × Bool} (h : runOnFunction Q M F b = some r) :
    r.2.1.getFnAttribute (EntryAttr b) = "" ∧ r.2.1.getFnAttribute (ExitAttr b) = "" := by
  have hne := entryAttr_ne_exitAttr b
  unfold runOnFunction at h
  simp only at h
  -- the state after lines 86-94
  have hentry : ∀ a : Module × Function × Bool,
      (if F.getFnAttribute (EntryAttr b) ≠ "" then
        match instrumentEntry Q M F (F.getFnAttribute (EntryAttr b)) b with
        | none => none
        | some r => some (r.1, r.2, true)
      else some (M, F, false)) = some a →
      a.2.1.getFnAttribute (EntryAttr b) = "" ∧
      a.2.1.getFnAttribute (ExitAttr b) = F.getFnAttribute (ExitAttr b) := by
    intro a ha
    split at ha
    · split at ha
      · cases ha
      · rename_i r0 hr0
        cases ha
        have hat := instrumentEntry_attrs hr0
        exact ⟨(getFnAttribute_congr hat _).trans (getFnAttribute_removeFnAttr_self F _),
          (getFnAttribute_congr hat _).trans (getFnAttribute_removeFnAttr_ne F hne.symm)⟩
    · rename_i hemp
      cases ha
      exact ⟨by simpa using hemp, rfl⟩
  split at h
  · cases h
  · rename_i a ha
    obtain ⟨h1, h2⟩ := hentry a ha
    split at h
    · split at h
      · cases h
      · rename_i r0 hr0
        cases h
        have hat := instrumentExits_attrs _ hr0
        refine ⟨?_, getFnAttribute_removeFnAttr_self _ _⟩
        rw [getFnAttribute_removeFnAttr_ne _ hne, getFnAttribute_congr hat, h1]
    · rename_i hemp
      cases h
      refine ⟨h1, ?_⟩
      rw [h2]
      simpa using hemp

/-- C25: if `runOnFunction(F, PostInlining)` completes, the entry and exit
function names read from the resulting function are empty, and a second
`runOnFunction` with the same `PostInlining` on the result completes, leaves
the module and the function as they are (so inserts no call) and returns
false. -/
theorem C25_second_run_inserts_nothing (Q : Queries) (M : Module) (F : Function)
    (PostInlining : Bool) (M1 : Module) (F1 : Function) (Changed : Bool)
    (h : runOnFunction Q M F PostInlining = some (M1, F1, Changed)) :
    F1.getFnAttribute (EntryAttr PostInlining) = "" ∧
    F1.getFnAttribute (ExitAttr PostInlining) = "" ∧
    runOnFunction Q M1 F1 PostInlining = some (M1, F1, false) := by
  obtain ⟨h1, h2⟩ := runOnFunction_consumes h
  refine ⟨h1, h2, ?_⟩
  simp only at h1 h2
  unfold runOnFunction
  simp only [h1, h2, ne_eq, not_true_eq_false, if_false]

/-- C25 at the example: the first run inserts `mcount` at the entry and
`__cyg_profile_func_exit` before the `ret`, removes both attributes and returns
true; the second run changes nothing and returns false. -/
theorem C25_second_run_inserts_nothing_witness :
    runOnFunction exQueries exModule exFn false = some (exModuleAfter, exFnAfter, true) ∧
    exFnAfter.getFnAttribute (EntryAttr false) = "" ∧
    exFnAfter.getFnAttribute (ExitAttr false) = "" ∧
    runOnFunction exQueries exModuleAfter exFnAfter false =
      some (exModuleAfter, exFnAfter, false) :=
  ⟨by decide,
    C25_second_run_inserts_nothing exQueries exModule exFn false exModuleAfter exFnAfter true
      (by decide)⟩

end EntryExitInstrumenter

namespace CheriBoundAllocas

/-! ## C12, C23, C24: tail padding of an element of more than 4 GiB -/

/-- C12 (code at the failing input): for the alloca of one
`[4294967300 x i8]` object (example H, on the target with imprecise bounds;
the call argument needs bounds) the data layout gives the original extent
4294967300, tail padding is applied with `P = 12`, the allocated type becomes
`struct{[4294967300 x i8], [12 x i8]}`, and the one bounds call inserted has
the size operand `i64 16`, which is neither the extent plus 12 nor at least
the extent: the padding of lines 277-315 starts from the size of lines
271-275, whose element size line 272 narrows to `unsigned` (4 here). -/
theorem C12_padded_size_is_below_the_original_extent :
    (exFnH 1 16).wellFormed = true ∧
    exDL.getTypeAllocSize (exAllocaH 1 16).allocatedTy = 4294967300 ∧
    (exAllocaH 1 16).isArrayAllocation = false ∧
    prologue exEnvH.DL exTLIPad exT (exSt (exFnH 1 16)).fn 1 = some (exPH 1 16 16 16) ∧
    needSet exEnvH StackBoundsAnalysis.Full (exPH 1 16 16 16).fn 1 =
      [{ user := 2, opNo := 0 }] ∧
    (exPH 1 16 16 16).fn.isStaticAlloca (exPH 1 16 16 16).AI = true ∧
    paddingApplied exEnvH.DL exTLIPad exT (exPH 1 16 16 16) = true ∧
    allocaSize exEnvH.DL exT (exPH 1 16 16 16) = 4 ∧
    tailPadding exEnvH.DL exTLIPad exT (exPH 1 16 16 16) = 12 ∧
    (processAlloca exEnvH exT exTLIPad false StackBoundsAnalysis.Full (exSt (exFnH 1 16)) 1).map
      (fun s => ((insertedBoundsCalls (exFnH 1 16) s.fn).map (fun i => (i.id, i.operands)),
        (s.fn.findInst 1).map (fun i => i.allocatedTy))) =
      some ([(6, [Value.inst 5, Value.constInt 64 16])],
        some (Ty.struct2 (Ty.array (Ty.int 8) 4294967300) (Ty.array (Ty.int 8) 12))) ∧
    16 ≠ exDL.getTypeAllocSize (exAllocaH 1 16).allocatedTy + 12 ∧
    ¬ (exDL.getTypeAllocSize (exAllocaH 1 16).allocatedTy ≤ 16) := by
  refine ⟨by decide, by rfl, by rfl, by rfl, by rfl, by rfl, by rfl, by rfl, by rfl, by rfl,
    by decide, by decide⟩

/-- C23 (code at the failing input): for the alloca of one
`[4294967300 x i8]` object on the target `exTLIMag` (example H; the call
argument needs bounds) every condition holds: the need-set is not empty, the
alloca is static, the forced alignment is 4096, and
`getTailPaddingForPreciseBounds` of the extent 4294967300 is 4092, not `None`.
Yet the allocation keeps its allocated type and pointer type, and the one
bounds call inserted has the size operand `i64 4`: line 281 asks the target
for the padding of the size of lines 271-275, whose element size line 272
narrows to `unsigned` (4 here, for which the target reports no padding). -/
theorem C23_type_not_widened_although_the_extent_needs_padding :
    (exFnH 1 16).wellFormed = true ∧
    exDL.getTypeAllocSize (exAllocaH 1 16).allocatedTy = 4294967300 ∧
    (exAllocaH 1 16).isArrayAllocation = false ∧
    prologue exEnvMag.DL exTLIMag exT (exSt (exFnH 1 16)).fn 1 = some (exPH 1 16 4096 4096) ∧
    needSet exEnvMag StackBoundsAnalysis.Full (exPH 1 16 4096 4096).fn 1 =
      [{ user := 2, opNo := 0 }] ∧
    exEnvMag.opts.BoundsSettingMode ≠ StackBoundsMethod.Never ∧
    (exPH 1 16 4096 4096).fn.isStaticAlloca (exPH 1 16 4096 4096).AI = true ∧
    1 < (exPH 1 16 4096 4096).ForcedAlignment ∧
    exTLIMag.cheriCapabilityTypeHasPreciseBounds = false ∧
    exTLIMag.getTailPaddingForPreciseBounds
      (exDL.getTypeAllocSize (exAllocaH 1 16).allocatedTy) = 4092 ∧
    allocaSize exEnvMag.DL exT (exPH 1 16 4096 4096) = 4 ∧
    paddingApplied exEnvMag.DL exTLIMag exT (exPH 1 16 4096 4096) = false ∧
    (processAlloca exEnvMag exT exTLIMag false StackBoundsAnalysis.Full
        (exSt (exFnH 1 16)) 1).map
      (fun s => ((insertedBoundsCalls (exFnH 1 16) s.fn).map (fun i => (i.id, i.operands)),
        (s.fn.findInst 1).map (fun i => (i.allocatedTy, i.ty)))) =
      some ([(5, [Value.inst 4, Value.constInt 64 4])],
        some ((exAllocaH 1 16).allocatedTy, (exAllocaH 1 16).ty)) := by
  refine ⟨by decide, by rfl, by rfl, by rfl, by rfl, by decide, by rfl, by decide, by rfl,
    by rfl, by rfl, by rfl, by rfl⟩

/-- C24 (code at the failing input): for the array alloca of three
`[4294967300 x i8]` elements (example H with the length 3, on the target
with imprecise bounds; the call argument needs bounds) tail padding is
applied with `P = 4`, the allocated type becomes
`struct{[3 x [4294967300 x i8]], [4 x i8]}` and the array-length operand is
still 3, but the one bounds call inserted has the size operand `i64 16`, not
`N * sizeof(T) + P = 12884901904`: line 272 narrows the element size to
`unsigned` (4 here). -/
theorem C24_padded_array_size_is_not_N_elements_plus_padding :
    (exFnH 3 16).wellFormed = true ∧
    exDL.getTypeAllocSize (exAllocaH 3 16).allocatedTy = 4294967300 ∧
    (exAllocaH 3 16).operands = [Value.constInt 64 3] ∧
    (exAllocaH 3 16).isArrayAllocation = true ∧
    prologue exEnvH.DL exTLIPad exT (exSt (exFnH 3 16)).fn 1 = some (exPH 3 16 16 16) ∧
    needSet exEnvH StackBoundsAnalysis.Full (exPH 3 16 16 16).fn 1 =
      [{ user := 2, opNo := 0 }] ∧
    (exPH 3 16 16 16).fn.isStaticAlloca (exPH 3 16 16 16).AI = true ∧
    paddingApplied exEnvH.DL exTLIPad exT (exPH 3 16 16 16) = true ∧
    tailPadding exEnvH.DL exTLIPad exT (exPH 3 16 16 16) = 4 ∧
    (processAlloca exEnvH exT exTLIPad false StackBoundsAnalysis.Full (exSt (exFnH 3 16)) 1).map
      (fun s => ((insertedBoundsCalls (exFnH 3 16) s.fn).map (fun i => (i.id, i.operands)),
        (s.fn.findInst 1).map (fun i => (i.allocatedTy, i.operands)))) =
      some ([(6, [Value.inst 5, Value.constInt 64 16])],
        some (Ty.struct2 (Ty.array (Ty.array (Ty.int 8) 4294967300) 3) (Ty.array (Ty.int 8) 4),
          [Value.constInt 64 3])) ∧
    3 * exDL.getTypeAllocSize (exAllocaH 3 16).allocatedTy +
      tailPadding exEnvH.DL exTLIPad exT (exPH 3 16 16 16) = 12884901904 := by
  refine ⟨by decide, by rfl, by rfl, by rfl, by rfl, by rfl, by rfl, by rfl, by rfl, by rfl,
    by rfl⟩

end CheriBoundAllocas
